import Mathlib

/-!
Chess engine core: position, attacks, move encoding, make-move and FEN load

A shallow embedding of the engine's sources (`enums.hpp`, `bitboard.hpp`,
`attacks.hpp`, `random.hpp`, `zobrist.hpp`, `move.hpp`, `move_array.hpp`,
`move_generator.cpp`, `board.hpp`, `board.cpp`, and the move strings, the transposition
table, the search and the time budget of `uci.cpp`, `search.hpp`, `search.cpp`,
`transposition_table.hpp` and `time.cpp`) together with theorems about them.

Conventions of the embedding.
* A 64-bit word (`uint64_t`, class `bb`) is a natural number below `2 ^ 64`; left
  shifts and products are reduced modulo `2 ^ 64`, complement is xor with
  `2 ^ 64 - 1`.
* C arrays are total functions of the index; an access outside the declared
  bounds is undefined in the source and the theorems keep away from it.
* Loops are recursions on explicit fuel chosen large enough for every input.
* Square and rank arithmetic on `int` is integer arithmetic. The sums and products
  of the transposition table (`int`) and of the time budget (`int64_t`) are reduced to
  the two's-complement range; the source is undefined where a result leaves that
  range, and the theorems state the range they cover. Division truncates towards zero.
* Strings are lists of characters.
-/

namespace Chess

/-! ## enums.hpp -/

/-- The enumeration `Side`. -/
inductive Side where
  | white
  | black
  | any
deriving DecidableEq, Repr

/-- The integer behind a `Side` (`static_cast<int>`). -/
def Side.toNat : Side → Nat
  | .white => 0
  | .black => 1
  | .any => 2

/-- The cast `static_cast<Side>(n)`. Only the codes 0, 1, 2 are ever cast in the
program (every `Move` is built by its constructor from enumerators); other codes
are sent to `any`. -/
def Side.cast : Nat → Side
  | 0 => .white
  | 1 => .black
  | _ => .any

/-- The function `opposite_side`. -/
def opposite_side : Side → Side
  | .white => .black
  | .black => .white
  | .any => .any

/-- The enumeration `PieceType`. -/
inductive PieceType where
  | pawn
  | knight
  | bishop
  | rook
  | queen
  | king
deriving DecidableEq, Repr

/-- The integer behind a `PieceType`. -/
def PieceType.toNat : PieceType → Nat
  | .pawn => 0
  | .knight => 1
  | .bishop => 2
  | .rook => 3
  | .queen => 4
  | .king => 5

/-- The cast `static_cast<PieceType>(n)`. Only the codes 0..5 are ever cast in
the program; other codes are sent to `king`. -/
def PieceType.cast : Nat → PieceType
  | 0 => .pawn
  | 1 => .knight
  | 2 => .bishop
  | 3 => .rook
  | 4 => .queen
  | _ => .king

/-- The enumeration `MoveFlag`. -/
inductive MoveFlag where
  | NO_FLAG
  | PAWN_START
  | CASTLE
  | EN_PASSANT
deriving DecidableEq, Repr

/-- The integer behind a `MoveFlag`: 0, 1, 2, 4. -/
def MoveFlag.toNat : MoveFlag → Nat
  | .NO_FLAG => 0
  | .PAWN_START => 1
  | .CASTLE => 2
  | .EN_PASSANT => 4

def NUMBER_OF_UNIQUE_PIECES : Nat := 6

/-- Castling right bits of `CastlingRights`. -/
def CastlingRights.white_king : Nat := 1
def CastlingRights.white_queen : Nat := 2
def CastlingRights.black_king : Nat := 4
def CastlingRights.black_queen : Nat := 8

/-! ## move.hpp -/

/-- The class `Move`: one packed 32-bit word. -/
structure Move where
  body : Nat
deriving DecidableEq, Repr

/-- The eight-argument constructor of `Move`. -/
def Move.new (from_sq to_sq : Nat) (piece : PieceType) (side_of_piece : Side)
    (prom_pce : PieceType) (side_of_prom : Side) (flag : MoveFlag)
    (is_capture : Bool) : Move :=
  ⟨(from_sq &&& 0x3F)
    ||| ((to_sq &&& 0x3F) <<< 6)
    ||| ((piece.toNat &&& 0x7) <<< 12)
    ||| ((side_of_piece.toNat &&& 0x3) <<< 15)
    ||| ((prom_pce.toNat &&& 0x7) <<< 17)
    ||| ((side_of_prom.toNat &&& 0x3) <<< 20)
    ||| ((flag.toNat &&& 0x7) <<< 22)
    ||| ((if is_capture then 1 else 0) <<< 25)⟩

def Move.get_from_sq (m : Move) : Nat := m.body &&& 0x3F

def Move.get_to_sq (m : Move) : Nat := (m.body >>> 6) &&& 0x3F

def Move.get_piece (m : Move) : PieceType := PieceType.cast ((m.body >>> 12) &&& 0x7)

def Move.get_side_of_piece (m : Move) : Side := Side.cast ((m.body >>> 15) &&& 0x3)

def Move.is_promo (m : Move) : Bool := Side.cast ((m.body >>> 20) &&& 0x3) != Side.any

def Move.get_prom_piece (m : Move) : PieceType := PieceType.cast ((m.body >>> 17) &&& 0x7)

def Move.get_prom_side (m : Move) : Side := Side.cast ((m.body >>> 20) &&& 0x3)

def Move.is_double_pawn (m : Move) : Bool :=
  ((m.body >>> 22) &&& 0x7) == MoveFlag.PAWN_START.toNat

def Move.is_castle (m : Move) : Bool :=
  ((m.body >>> 22) &&& 0x7) == MoveFlag.CASTLE.toNat

def Move.is_enpassant (m : Move) : Bool :=
  ((m.body >>> 22) &&& 0x7) == MoveFlag.EN_PASSANT.toNat

def Move.is_capture (m : Move) : Bool := ((m.body >>> 25) &&& 0x1) != 0

def Move.get_body (m : Move) : Nat := m.body

/-- The comparison `operator==` of `Move`: equality of the packed words. -/
def Move.op_eq (m other : Move) : Bool := m.body == other.body

/-! ## bitboard.hpp -/

/-- The all-ones 64-bit word. -/
def U64_MAX : Nat := 0xFFFFFFFFFFFFFFFF

/-- Bitwise complement of a 64-bit word (`~x`). -/
def not64 (x : Nat) : Nat := x ^^^ U64_MAX

/-- Left shift of a 64-bit word (`x << k`), bits shifted past bit 63 are lost. -/
def shl64 (x k : Nat) : Nat := (x <<< k) % 2 ^ 64

def FILE_A : Nat := 0x0101010101010101
def FILE_H : Nat := 0x8080808080808080
def FILE_AB : Nat := 0x0303030303030303
def FILE_GH : Nat := 0xC0C0C0C0C0C0C0C0

def NOT_FILE_A : Nat := not64 FILE_A
def NOT_FILE_H : Nat := not64 FILE_H
def NOT_FILE_AB : Nat := not64 FILE_AB
def NOT_FILE_GH : Nat := not64 FILE_GH

/-- The word `1ull << square`. -/
def square_bb (square : Nat) : Nat := shl64 1 square

def generate_pawn_attacks (side : Side) (square : Nat) : Nat :=
  let board := square_bb square
  if side = Side.white then
    ((board >>> 7) &&& NOT_FILE_A) ||| ((board >>> 9) &&& NOT_FILE_H)
  else
    ((shl64 board 9) &&& NOT_FILE_A) ||| ((shl64 board 7) &&& NOT_FILE_H)

def generate_knight_attacks (square : Nat) : Nat :=
  let board := square_bb square
  let attacks := 0
  let attacks := if (board >>> 17) &&& NOT_FILE_H ≠ 0 then attacks ||| (board >>> 17) else attacks
  let attacks := if (board >>> 15) &&& NOT_FILE_A ≠ 0 then attacks ||| (board >>> 15) else attacks
  let attacks := if (board >>> 10) &&& NOT_FILE_GH ≠ 0 then attacks ||| (board >>> 10) else attacks
  let attacks := if (board >>> 6) &&& NOT_FILE_AB ≠ 0 then attacks ||| (board >>> 6) else attacks
  let attacks := if (shl64 board 17) &&& NOT_FILE_A ≠ 0 then attacks ||| (shl64 board 17) else attacks
  let attacks := if (shl64 board 15) &&& NOT_FILE_H ≠ 0 then attacks ||| (shl64 board 15) else attacks
  let attacks := if (shl64 board 10) &&& NOT_FILE_AB ≠ 0 then attacks ||| (shl64 board 10) else attacks
  let attacks := if (shl64 board 6) &&& NOT_FILE_GH ≠ 0 then attacks ||| (shl64 board 6) else attacks
  attacks

def generate_king_attacks (square : Nat) : Nat :=
  let board := square_bb square
  let attacks := 0
  let attacks := attacks ||| (board >>> 8)
  let attacks := attacks ||| ((board >>> 9) &&& NOT_FILE_H)
  let attacks := attacks ||| ((board >>> 7) &&& NOT_FILE_A)
  let attacks := attacks ||| ((board >>> 1) &&& NOT_FILE_H)
  let attacks := attacks ||| (shl64 board 8)
  let attacks := attacks ||| ((shl64 board 9) &&& NOT_FILE_A)
  let attacks := attacks ||| ((shl64 board 7) &&& NOT_FILE_H)
  let attacks := attacks ||| ((shl64 board 1) &&& NOT_FILE_A)
  attacks

/-- One direction of the `while` loop of `generate_bishop_attacks` and
`generate_rook_attacks`: walk from `(r, f)` by `(dr, df)` while on the board, adding
each square and stopping after the first blocker. At most 8 squares lie on the
board in one direction, so fuel 8 lets the loop run to its own exit. -/
def ray_loop : Nat → Int → Int → Int → Int → Nat → Nat → Nat
  | 0, _, _, _, _, _, attacks => attacks
  | fuel + 1, r, f, dr, df, blockers, attacks =>
    if r ≥ 0 ∧ r ≤ 7 ∧ f ≥ 0 ∧ f ≤ 7 then
      let bit := square_bb (r * 8 + f).toNat
      let attacks := attacks ||| bit
      if bit &&& blockers ≠ 0 then attacks
      else ray_loop fuel (r + dr) (f + df) dr df blockers attacks
    else attacks

/-- The `for` loop over the four directions shared by the two ray generators. -/
def rays_from (dirs : List (Int × Int)) (square blockers : Nat) : Nat :=
  let rank : Int := (square / 8 : Nat)
  let file : Int := (square % 8 : Nat)
  dirs.foldl
    (fun attacks d => ray_loop 8 (rank + d.1) (file + d.2) d.1 d.2 blockers attacks) 0

def bishop_dirs : List (Int × Int) := [(1, 1), (-1, 1), (1, -1), (-1, -1)]

def rook_dirs : List (Int × Int) := [(1, 0), (-1, 0), (0, 1), (0, -1)]

def generate_bishop_attacks (square blockers : Nat) : Nat :=
  rays_from bishop_dirs square blockers

def generate_rook_attacks (square blockers : Nat) : Nat :=
  rays_from rook_dirs square blockers

/-- The method `bb::set_bit`. -/
def set_bit (board square : Nat) : Nat := board ||| square_bb square

/-- The method `bb::pop_bit`. -/
def pop_bit (board square : Nat) : Nat := board &&& not64 (square_bb square)

/-- The method `bb::get_bit`. -/
def get_bit (board square : Nat) : Bool := (board >>> square) &&& 1 != 0

/-- The builtin `__builtin_popcountll` behind `bb::count_bits`: the number of set
bits among the 64 bits of the word. -/
def count_bits_aux : Nat → Nat → Nat
  | 0, _ => 0
  | fuel + 1, board => board % 2 + count_bits_aux fuel (board / 2)

def count_bits (board : Nat) : Nat := count_bits_aux 64 board

/-- Count of trailing zero bits, scanning at most `fuel` bits. -/
def ctz_aux : Nat → Nat → Nat
  | 0, _ => 0
  | fuel + 1, board => if board % 2 = 1 then 0 else 1 + ctz_aux fuel (board / 2)

/-- The builtin `__builtin_ctzll` behind `bb::get_lsb_index`: the index of the lowest
set bit. The builtin is undefined on 0, where this model returns 64. -/
def get_lsb_index (board : Nat) : Nat := ctz_aux 64 board

/-- The squares visited by the idiom
`while (b != 0) { sq = b.get_lsb_index(); b.pop_bit(sq); ... }`, in the order of the
visits. A 64-bit word has at most 64 set bits, so fuel 64 exhausts it. -/
def bit_loop : Nat → Nat → List Nat
  | 0, _ => []
  | fuel + 1, board =>
    if board = 0 then []
    else get_lsb_index board :: bit_loop fuel (pop_bit board (get_lsb_index board))

def squares_of (board : Nat) : List Nat := bit_loop 64 board

/-! ## attacks.hpp -/

/-- The table `pawn_masks[side][square]`, filled by `generate_mask_table` with
`generate_pawn_attacks`; row 0 is white and row 1 is black. -/
def pawn_masks (side square : Nat) : Nat :=
  generate_pawn_attacks (if side = 0 then Side.white else Side.black) square

/-- The table `knight_masks[square]`, filled with `generate_knight_attacks`. -/
def knight_masks (square : Nat) : Nat := generate_knight_attacks square

/-- The table `king_masks[square]`, filled with `generate_king_attacks`. -/
def king_masks (square : Nat) : Nat := generate_king_attacks square

/-- Modelled from the spec: `magics.hpp` (the magic numbers, the relevant-bit
counts and `magic_index`) is not among the sources, so the table lookup of
`get_slider_attacks` cannot be embedded. By section 4.1 the entry reached by the
magic index holds the raw ray attacks against the blockers, so the lookup is taken
as the blocked-ray attack set `generate_bishop_attacks square occupancy`. -/
def get_bishop_attacks (square occupancy : Nat) : Nat :=
  generate_bishop_attacks square occupancy

/-- Modelled from the spec: as for `get_bishop_attacks`, the magic lookup of the rook
table is taken as the blocked-ray attack set `generate_rook_attacks square occupancy`. -/
def get_rook_attacks (square occupancy : Nat) : Nat :=
  generate_rook_attacks square occupancy

def get_queen_attacks (square occupancy : Nat) : Nat :=
  get_bishop_attacks square occupancy ||| get_rook_attacks square occupancy

/-! ## random.hpp and zobrist.hpp -/

def MULTIPLIER : Nat := 2685821657736338717

/-- One call of `xorShiftMultiply`: the new seed, which is also the value returned. -/
def xorShiftMultiply (currentSeed : Nat) : Nat :=
  let currentSeed := currentSeed ^^^ (currentSeed >>> 12)
  let currentSeed := currentSeed ^^^ (shl64 currentSeed 25)
  let currentSeed := currentSeed ^^^ (currentSeed >>> 27)
  (currentSeed * MULTIPLIER) % 2 ^ 64

/-- The value returned by the `n`-th call of `generateNext` on the generator seeded
with 1070372 (`n = 1` is the first call). -/
def generateNext : Nat → Nat
  | 0 => 1070372
  | n + 1 => xorShiftMultiply (generateNext n)

/-- The key `zobrist_table.side_key`: the first value drawn. -/
def side_key : Nat := generateNext 1

/-- The key `zobrist_table.enp_keys[square]`: values 2..65 of the stream. -/
def enp_keys (square : Nat) : Nat := generateNext (2 + square)

/-- The key `zobrist_table.castle_keys[state]`: values 66..81 of the stream. -/
def castle_keys (state : Nat) : Nat := generateNext (66 + state)

/-- The key `zobrist_table.piece_keys[piece][square]`: values from 82 on, piece-major. -/
def piece_keys (piece square : Nat) : Nat := generateNext (82 + 64 * piece + square)

/-! ## move_array.hpp -/

/-- The class `MoveArray`: the moves pushed so far, oldest first; `arr_size` is the
length of the list. -/
abbrev MoveArray := List Move

def MAX_MOVES : Nat := 218

/-- The method `MoveArray::push`: store the move at index `arr_size` and increment it. -/
def MoveArray.push (moves : MoveArray) (move : Move) : MoveArray := moves ++ [move]

/-! ## board.hpp and board.cpp -/

/-- Assignment `a[i] = v` to one cell of an array. -/
def arr_set (a : Nat → Nat) (i v : Nat) : Nat → Nat := fun j => if j = i then v else a j

/-- The data members of the class `Board`. -/
structure Board where
  piece_location : Nat → Nat
  occupancies : Nat → Nat
  side : Side
  enpassant : Bool × Int
  castling : Nat
  hash_key : Nat
  rep_idx : Nat
  fifty : Int

def get_piece_index (piece : PieceType) (side : Side) : Nat :=
  piece.toNat + NUMBER_OF_UNIQUE_PIECES * side.toNat

def Board.get_piece_bitboard (board : Board) (piece : PieceType) (side : Side) : Nat :=
  board.piece_location (piece.toNat + NUMBER_OF_UNIQUE_PIECES * side.toNat)

def Board.get_occupancy (board : Board) (side : Side) : Nat :=
  board.occupancies side.toNat

def Board.get_all_occupancy (board : Board) : Nat :=
  board.occupancies Side.any.toNat

def Board.can_castle (board : Board) (right : Nat) : Bool :=
  board.castling &&& right != 0

/-- The method `Board::reset`: every member is overwritten. -/
def Board.reset (_board : Board) : Board :=
  { piece_location := fun _ => 0
    occupancies := fun _ => 0
    side := Side.white
    enpassant := (false, -1)
    castling := 0
    hash_key := 0
    rep_idx := 0
    fifty := 0 }

/-- The method `Board::generate_hash_key`. -/
def Board.generate_hash_key (board : Board) : Nat :=
  let result := (List.range 12).foldl
    (fun result piece =>
      (squares_of (board.piece_location piece)).foldl
        (fun result square => result ^^^ piece_keys piece square) result) 0
  let result := if board.enpassant.1 then result ^^^ enp_keys board.enpassant.2.toNat
    else result
  let result := result ^^^ castle_keys board.castling
  if board.side = Side.black then result ^^^ side_key else result

/-- The method `Board::is_sq_attacked`. -/
def Board.is_sq_attacked (board : Board) (square : Nat) (attacking_side : Side) : Bool :=
  let defending_side_int :=
    (if attacking_side = Side.white then Side.black else Side.white).toNat
  let all_pieces := board.occupancies Side.any.toNat
  let attacking_pawns := board.piece_location (get_piece_index PieceType.pawn attacking_side)
  if attacking_pawns &&& pawn_masks defending_side_int square ≠ 0 then true else
  let attacking_knights :=
    board.piece_location (get_piece_index PieceType.knight attacking_side)
  if attacking_knights &&& knight_masks square ≠ 0 then true else
  let attacking_bishops :=
    board.piece_location (get_piece_index PieceType.bishop attacking_side)
  if attacking_bishops &&& get_bishop_attacks square all_pieces ≠ 0 then true else
  let attacking_rooks := board.piece_location (get_piece_index PieceType.rook attacking_side)
  if attacking_rooks &&& get_rook_attacks square all_pieces ≠ 0 then true else
  let attacking_queens := board.piece_location (get_piece_index PieceType.queen attacking_side)
  if attacking_queens &&& get_queen_attacks square all_pieces ≠ 0 then true else
  let attacking_king := board.piece_location (get_piece_index PieceType.king attacking_side)
  if attacking_king &&& king_masks square ≠ 0 then true else
  false

/-- The statement `occupancies[idx].pop_bit(sq);`. -/
def Board.occ_pop_bit (board : Board) (idx sq : Nat) : Board :=
  { board with occupancies := arr_set board.occupancies idx (pop_bit (board.occupancies idx) sq) }

/-- The statement `occupancies[idx].set_bit(sq);`. -/
def Board.occ_set_bit (board : Board) (idx sq : Nat) : Board :=
  { board with occupancies := arr_set board.occupancies idx (set_bit (board.occupancies idx) sq) }

/-- The `for` loop of `Board::pop_piece` over the piece indices still to inspect: the
first bitboard of the list that holds `sq` loses it, and the loop returns. -/
def Board.pop_piece_loop (board : Board) (sq : Nat) (side : Side) : List Nat → Board
  | [] => board
  | idx :: rest =>
    if get_bit (board.piece_location idx) sq then
      let board := { board with
        piece_location := arr_set board.piece_location idx
          (pop_bit (board.piece_location idx) sq)
        hash_key := board.hash_key ^^^ piece_keys idx sq }
      let board := board.occ_pop_bit side.toNat sq
      board.occ_pop_bit Side.any.toNat sq
    else Board.pop_piece_loop board sq side rest

/-- The method `Board::pop_piece`. -/
def Board.pop_piece (board : Board) (sq : Nat) (side : Side) : Board :=
  let start_idx := side.toNat * NUMBER_OF_UNIQUE_PIECES
  Board.pop_piece_loop board sq side (List.range' start_idx NUMBER_OF_UNIQUE_PIECES)

/-- The table `castling_rights[64]`. -/
def castling_rights (square : Nat) : Nat :=
  [ 7, 15, 15, 15,  3, 15, 15, 11,
    15, 15, 15, 15, 15, 15, 15, 15,
    15, 15, 15, 15, 15, 15, 15, 15,
    15, 15, 15, 15, 15, 15, 15, 15,
    15, 15, 15, 15, 15, 15, 15, 15,
    15, 15, 15, 15, 15, 15, 15, 15,
    15, 15, 15, 15, 15, 15, 15, 15,
    13, 15, 15, 15, 12, 15, 15, 14 ].getD square 0

/-- Lines 320 to 326 of `Board::make_move`: an en-passant capture removes the piece on
the square behind the destination. Squares held in `int` variables are integers
here and are converted where they index or shift. -/
def Board.mm_enpassant_capture (board : Board) (move : Move) : Board :=
  let moving_side := move.get_side_of_piece
  let opposite_side_val := opposite_side moving_side
  let to_sq := move.get_to_sq
  if move.is_capture && move.is_enpassant then
    let captured_pawn_sq : Int := (to_sq : Int) + 8 - 16 * (moving_side.toNat : Int)
    let board := board.pop_piece captured_pawn_sq.toNat opposite_side_val
    let board := board.occ_pop_bit opposite_side_val.toNat captured_pawn_sq.toNat
    board.occ_pop_bit Side.any.toNat captured_pawn_sq.toNat
  else board

/-- Lines 328 to 334: an ordinary capture removes the piece on the destination. -/
def Board.mm_capture (board : Board) (move : Move) : Board :=
  let opposite_side_val := opposite_side move.get_side_of_piece
  let to_sq := move.get_to_sq
  if move.is_capture && !move.is_enpassant then
    let board := board.occ_pop_bit opposite_side_val.toNat to_sq
    let board := board.occ_pop_bit Side.any.toNat to_sq
    board.pop_piece to_sq opposite_side_val
  else board

/-- Lines 336 to 345: the moving piece goes from `from_sq` to `to_sq`. -/
def Board.mm_move_piece (board : Board) (move : Move) : Board :=
  let moving_side := move.get_side_of_piece
  let from_sq := move.get_from_sq
  let to_sq := move.get_to_sq
  let piece_idx := move.get_piece.toNat + NUMBER_OF_UNIQUE_PIECES * moving_side.toNat
  let board := { board with
    piece_location := arr_set board.piece_location piece_idx
      (set_bit (pop_bit (board.piece_location piece_idx) from_sq) to_sq) }
  let board := board.occ_pop_bit moving_side.toNat from_sq
  let board := board.occ_set_bit moving_side.toNat to_sq
  let board := board.occ_pop_bit Side.any.toNat from_sq
  let board := board.occ_set_bit Side.any.toNat to_sq
  { board with
    hash_key := board.hash_key ^^^ piece_keys piece_idx from_sq ^^^ piece_keys piece_idx to_sq }

/-- Lines 347 to 356: a promotion replaces the pawn on `to_sq` by the promoted piece. -/
def Board.mm_promotion (board : Board) (move : Move) : Board :=
  let to_sq := move.get_to_sq
  let piece_idx := move.get_piece.toNat
    + NUMBER_OF_UNIQUE_PIECES * move.get_side_of_piece.toNat
  if move.is_promo then
    let board := { board with
      piece_location := arr_set board.piece_location piece_idx
        (pop_bit (board.piece_location piece_idx) to_sq)
      hash_key := board.hash_key ^^^ piece_keys piece_idx to_sq }
    let prom_idx := move.get_prom_piece.toNat
      + NUMBER_OF_UNIQUE_PIECES * move.get_prom_side.toNat
    { board with
      piece_location := arr_set board.piece_location prom_idx
        (set_bit (board.piece_location prom_idx) to_sq)
      hash_key := board.hash_key ^^^ piece_keys prom_idx to_sq }
  else board

/-- Lines 358 to 382: castling moves the rook. -/
def Board.mm_castle (board : Board) (move : Move) : Board :=
  let moving_side := move.get_side_of_piece
  let to_sq := move.get_to_sq
  if move.is_castle then
    let rook_idx := PieceType.rook.toNat + NUMBER_OF_UNIQUE_PIECES * moving_side.toNat
    let rook_from_sq : Int := if to_sq % 8 = 6 then (to_sq : Int) + 1 else (to_sq : Int) - 2
    let rook_to_sq : Int := if to_sq % 8 = 6 then (to_sq : Int) - 1 else (to_sq : Int) + 1
    let board := { board with
      piece_location := arr_set board.piece_location rook_idx
        (set_bit (pop_bit (board.piece_location rook_idx) rook_from_sq.toNat)
          rook_to_sq.toNat) }
    let board := board.occ_pop_bit moving_side.toNat rook_from_sq.toNat
    let board := board.occ_set_bit moving_side.toNat rook_to_sq.toNat
    let board := board.occ_pop_bit Side.any.toNat rook_from_sq.toNat
    let board := board.occ_set_bit Side.any.toNat rook_to_sq.toNat
    { board with
      hash_key := board.hash_key ^^^ piece_keys rook_idx rook_from_sq.toNat
        ^^^ piece_keys rook_idx rook_to_sq.toNat }
  else board

/-- Lines 384 to 394: the previous en-passant square is cleared and a double pawn
push sets a new one. -/
def Board.mm_enpassant_square (board : Board) (move : Move) : Board :=
  let to_sq := move.get_to_sq
  let board :=
    if board.enpassant.1 then
      { board with hash_key := board.hash_key ^^^ enp_keys board.enpassant.2.toNat }
    else board
  let board := { board with enpassant := (false, board.enpassant.2) }
  if move.is_double_pawn then
    let enpassant_sq : Int :=
      (to_sq : Int) + 8 - 16 * (move.get_side_of_piece.toNat : Int)
    { board with
      enpassant := (true, enpassant_sq)
      hash_key := board.hash_key ^^^ enp_keys enpassant_sq.toNat }
  else board

/-- Lines 396 to 399: the castling rights are masked by the two squares of the move. -/
def Board.mm_castling_rights (board : Board) (move : Move) : Board :=
  let hash_key := board.hash_key ^^^ castle_keys board.castling
  let castling := board.castling &&& castling_rights move.get_from_sq
  let castling := castling &&& castling_rights move.get_to_sq
  { board with castling := castling, hash_key := hash_key ^^^ castle_keys castling }

/-- Lines 401 to 403: the side to move is flipped, between two xors of the side key. -/
def Board.mm_side (board : Board) : Board :=
  let hash_key := board.hash_key ^^^ side_key
  let side := opposite_side board.side
  { board with side := side, hash_key := hash_key ^^^ side_key }

/-- Lines 317, 318 and 405 to 409: the fifty-move counter. -/
def Board.mm_fifty (board : Board) (move : Move) : Board :=
  let is_pawn_move := move.get_piece == PieceType.pawn
  let resets_fifty_counter := is_pawn_move || move.is_capture
  if resets_fifty_counter then { board with fifty := 0 }
  else { board with fifty := board.fifty + 1 }

/-- The statements of `Board::make_move` from the entry up to the update of the
fifty-move counter (lines 311 to 409), in the order of the source: the move is
applied in place. -/
def Board.make_move_apply (board : Board) (move : Move) : Board :=
  let board := board.mm_enpassant_capture move
  let board := board.mm_capture move
  let board := board.mm_move_piece move
  let board := board.mm_promotion move
  let board := board.mm_castle move
  let board := board.mm_enpassant_square move
  let board := board.mm_castling_rights move
  let board := board.mm_side
  board.mm_fifty move

/-- The method `Board::make_move`: the returned flag and the board left behind. The
copy `board_cpy` taken on entry is the argument itself; it is put back when the
mover's king is attacked after the move. -/
def Board.make_move (board : Board) (move : Move) : Bool × Board :=
  let board_cpy := board
  let board := board.make_move_apply move
  let our_side := opposite_side board.side
  let king_idx := get_piece_index PieceType.king our_side
  let king_bb := board.piece_location king_idx
  let king_square := get_lsb_index king_bb
  if board.is_sq_attacked king_square board.side then (false, board_cpy)
  else (true, board)

/-- The function `get_square` of `board.cpp`. -/
def get_square (rank file : Nat) : Nat := rank * 8 + file

/-- The library function `isdigit` on an ASCII character. -/
def isdigit (c : Char) : Bool := decide ('0'.toNat ≤ c.toNat) && decide (c.toNat ≤ '9'.toNat)

/-- The function `char_to_piece_idx`; the result `-1` stands for no piece. -/
def char_to_piece_idx (c : Char) : Int :=
  let lower := decide ('a'.toNat ≤ c.toNat) && decide (c.toNat ≤ 'z'.toNat)
  let idx : Int := if lower then 6 else 0
  let c : Nat := if lower then c.toNat - 'a'.toNat + 'A'.toNat else c.toNat
  if c = 'P'.toNat then idx + 0
  else if c = 'N'.toNat then idx + 1
  else if c = 'B'.toNat then idx + 2
  else if c = 'R'.toNat then idx + 3
  else if c = 'Q'.toNat then idx + 4
  else if c = 'K'.toNat then idx + 5
  else -1

/-- The loop of `split_string`: `item` holds, in reverse, the characters read since the
last delimiter. `std::getline` yields an item at each delimiter and, at the end of the
input, only if at least one character was read. -/
def split_string_loop (delimiter : Char) : List Char → List Char → List (List Char)
  | [], item => if item = [] then [] else [item.reverse]
  | c :: rest, item =>
    if c = delimiter then item.reverse :: split_string_loop delimiter rest []
    else split_string_loop delimiter rest (c :: item)

/-- The function `split_string`. -/
def split_string (str : List Char) (delimiter : Char) : List (List Char) :=
  split_string_loop delimiter str []

/-- The value of a run of decimal digits, most significant first. -/
def digits_value (digits : List Char) : Nat :=
  digits.foldl (fun acc c => acc * 10 + (c.toNat - '0'.toNat)) 0

/-- The library function `std::stoi` in base 10: leading white space is skipped, an
optional sign is read, then the longest run of digits. The result is `none` where
`std::stoi` throws: no digit, or a value outside the range of `int`. -/
def stoi (str : List Char) : Option Int :=
  let str := str.dropWhile
    (fun c => c = ' ' || (decide (9 ≤ c.toNat) && decide (c.toNat ≤ 13)))
  let negative := str.head? = some '-'
  let str := if str.head? = some '-' ∨ str.head? = some '+' then str.tail else str
  let digits := str.takeWhile isdigit
  if digits = [] then none
  else
    let value : Int := if negative then -(digits_value digits : Int) else digits_value digits
    if value < -2147483648 ∨ 2147483647 < value then none else some value

/-- The loop of `Board::load_fen` over the characters of the piece section, with the
loop variables `rank` and `file`. The result is `none` when a character is neither
`/`, a digit nor a piece letter: the source then indexes `piece_location[-1]`, which
is undefined. -/
def load_fen_pieces : List Char → Nat → Nat → Board → Option Board
  | [], _, _, board => some board
  | c :: rest, rank, file, board =>
    if c = '/' then load_fen_pieces rest (rank + 1) 0 board
    else if isdigit c then load_fen_pieces rest rank (file + (c.toNat - '0'.toNat)) board
    else
      let square := get_square rank file
      let piece_idx := char_to_piece_idx c
      if piece_idx < 0 then none
      else
        let piece_idx := piece_idx.toNat
        let board := { board with
          piece_location := arr_set board.piece_location piece_idx
            (set_bit (board.piece_location piece_idx) square) }
        let board := board.occ_set_bit (piece_idx / NUMBER_OF_UNIQUE_PIECES) square
        let board := board.occ_set_bit Side.any.toNat square
        load_fen_pieces rest rank (file + 1) board

/-- The body of the loop of `Board::load_fen` on a piece letter with piece index `idx`,
the loop standing on the square `sq`: the three `set_bit` statements. -/
def load_fen_put (board : Board) (idx sq : Nat) : Board :=
  (({ board with
      piece_location := arr_set board.piece_location idx
        (set_bit (board.piece_location idx) sq) }).occ_set_bit (idx / 6) sq).occ_set_bit 2 sq

/-- The castling rights read by `Board::load_fen` from the castling section. -/
def load_fen_castling (castling_section : List Char) : Nat :=
  let castling := 0
  let castling := if 'K' ∈ castling_section then castling ||| CastlingRights.white_king
    else castling
  let castling := if 'Q' ∈ castling_section then castling ||| CastlingRights.white_queen
    else castling
  let castling := if 'k' ∈ castling_section then castling ||| CastlingRights.black_king
    else castling
  let castling := if 'q' ∈ castling_section then castling ||| CastlingRights.black_queen
    else castling
  castling

/-- The en-passant member read by `Board::load_fen` from the en-passant section. A
character past the end of the section reads as the terminating zero. -/
def load_fen_enpassant (en_passant_section : List Char) : Bool × Int :=
  if en_passant_section = ['-'] then (false, -1)
  else
    let rank : Int := ((en_passant_section.getD 1 (Char.ofNat 0)).toNat : Int) - '1'.toNat
    let file : Int := ((en_passant_section.getD 0 (Char.ofNat 0)).toNat : Int) - 'a'.toNat
    (true, 64 - (rank * 8 + file))

/-- The method `Board::load_fen`. The result is `none` where the source throws or is
undefined: fewer than five sections, a character of the piece section that is no
piece, or a fifty-move section that `std::stoi` rejects. -/
def Board.load_fen (board : Board) (fen : String) : Option Board :=
  let board := board.reset
  match split_string fen.data ' ' with
  | piece_section :: side_section :: castling_section :: en_passant_section
      :: fifty_section :: _ =>
    match load_fen_pieces piece_section 0 0 board with
    | none => none
    | some board =>
      let board := { board with side := if side_section = ['w'] then Side.white else Side.black }
      let board := { board with castling := load_fen_castling castling_section }
      let board := { board with enpassant := load_fen_enpassant en_passant_section }
      let board := { board with hash_key := board.generate_hash_key }
      match stoi fifty_section with
      | none => none
      | some fifty => some { board with fifty := fifty }
  | _ => none

/-! ## move_generator.cpp -/

/-- Conversion of an `int` argument to a `uint32_t` parameter. -/
def to_u32 (i : Int) : Nat := (i % 4294967296).toNat

def add_move (moves : MoveArray) (from_sq to_sq : Nat) (piece : PieceType)
    (piece_side : Side) (promo_piece : PieceType) (promo_side : Side) (flag : MoveFlag)
    (is_capture : Bool) : MoveArray :=
  moves.push (Move.new from_sq to_sq piece piece_side promo_piece promo_side flag is_capture)

def add_promotion_moves (moves : MoveArray) (from_sq to_sq : Nat) (side : Side)
    (is_capture : Bool) : MoveArray :=
  let moves := add_move moves from_sq to_sq PieceType.pawn side PieceType.queen side
    MoveFlag.NO_FLAG is_capture
  let moves := add_move moves from_sq to_sq PieceType.pawn side PieceType.rook side
    MoveFlag.NO_FLAG is_capture
  let moves := add_move moves from_sq to_sq PieceType.pawn side PieceType.bishop side
    MoveFlag.NO_FLAG is_capture
  add_move moves from_sq to_sq PieceType.pawn side PieceType.knight side
    MoveFlag.NO_FLAG is_capture

def handle_pawn_push (moves : MoveArray) (from_sq : Nat) (to_sq : Int) (side : Side)
    (rank promo_rank : Int) : MoveArray :=
  if rank = promo_rank then
    add_promotion_moves moves from_sq (to_u32 to_sq) side false
  else
    add_move moves from_sq (to_u32 to_sq) PieceType.pawn side PieceType.pawn Side.any
      MoveFlag.NO_FLAG false

def handle_double_pawn_push (moves : MoveArray) (board : Board) (from_sq : Nat)
    (direction : Int) (side : Side) (rank start_rank : Int) : MoveArray :=
  if rank ≠ start_rank then moves
  else
    let double_push_sq : Int := (from_sq : Int) + 2 * direction
    let all_pieces := board.get_all_occupancy
    if get_bit all_pieces double_push_sq.toNat then moves
    else
      add_move moves from_sq (to_u32 double_push_sq) PieceType.pawn side PieceType.pawn
        Side.any MoveFlag.PAWN_START false

def handle_pawn_captures (moves : MoveArray) (from_sq : Nat) (side : Side)
    (rank promo_rank : Int) (enemy_pieces : Nat) : MoveArray :=
  let pawn_attacks := pawn_masks side.toNat from_sq
  let capture_targets := pawn_attacks &&& enemy_pieces
  (squares_of capture_targets).foldl
    (fun moves capture_sq =>
      if rank = promo_rank then add_promotion_moves moves from_sq capture_sq side true
      else
        add_move moves from_sq capture_sq PieceType.pawn side PieceType.pawn Side.any
          MoveFlag.NO_FLAG true)
    moves

def handle_en_passant (moves : MoveArray) (board : Board) (from_sq : Nat) (side : Side) :
    MoveArray :=
  let enpassant := board.enpassant
  if !enpassant.1 then moves
  else
    let pawn_attacks := pawn_masks side.toNat from_sq
    let enpassant_attacks := pawn_attacks &&& shl64 1 enpassant.2.toNat
    if enpassant_attacks = 0 then moves
    else
      add_move moves from_sq (to_u32 enpassant.2) PieceType.pawn side PieceType.pawn Side.any
        MoveFlag.EN_PASSANT true

/-- The body of the `while` loop of `generate_pawn_moves` for the pawn on `from_sq`. -/
def generate_pawn_moves_body (board : Board) (side : Side) (moves : MoveArray)
    (from_sq : Nat) : MoveArray :=
  let all_pieces := board.get_all_occupancy
  let enemy_pieces := board.get_occupancy (opposite_side side)
  let side_val : Int := (side.toNat : Int)
  let direction : Int := -8 + 16 * side_val
  let start_rank : Int := 6 - 5 * side_val
  let promo_rank : Int := 1 + 5 * side_val
  let rank : Int := ((from_sq / 8 : Nat) : Int)
  let to_sq : Int := (from_sq : Int) + direction
  let moves :=
    if !get_bit all_pieces to_sq.toNat then
      let moves := handle_pawn_push moves from_sq to_sq side rank promo_rank
      handle_double_pawn_push moves board from_sq direction side rank start_rank
    else moves
  let moves := handle_pawn_captures moves from_sq side rank promo_rank enemy_pieces
  handle_en_passant moves board from_sq side

def generate_pawn_moves (moves : MoveArray) (board : Board) (side : Side) : MoveArray :=
  let pawns := board.get_piece_bitboard PieceType.pawn side
  (squares_of pawns).foldl (generate_pawn_moves_body board side) moves

/-- The attack set chosen by the `if constexpr` chain of `generate_piece_moves`; the
template is never instantiated for pawns, where `attacks` would stay empty. -/
def piece_attacks (piece_type : PieceType) (from_sq all_occupancy : Nat) : Nat :=
  match piece_type with
  | .knight => knight_masks from_sq
  | .king => king_masks from_sq
  | .bishop => get_bishop_attacks from_sq all_occupancy
  | .rook => get_rook_attacks from_sq all_occupancy
  | .queen => get_queen_attacks from_sq all_occupancy
  | .pawn => 0

/-- The body of the outer `while` loop of `generate_piece_moves` for the piece on
`from_sq`. -/
def generate_piece_moves_body (piece_type : PieceType) (board : Board) (side : Side)
    (moves : MoveArray) (from_sq : Nat) : MoveArray :=
  let own_pieces := board.get_occupancy side
  let enemy_pieces := board.get_occupancy (opposite_side side)
  let attacks := piece_attacks piece_type from_sq board.get_all_occupancy
  let attacks := attacks &&& not64 own_pieces
  (squares_of attacks).foldl
    (fun moves to_sq =>
      let is_capture := get_bit enemy_pieces to_sq
      add_move moves from_sq to_sq piece_type side PieceType.pawn Side.any
        MoveFlag.NO_FLAG is_capture)
    moves

def generate_piece_moves (piece_type : PieceType) (moves : MoveArray) (board : Board)
    (side : Side) : MoveArray :=
  let pieces := board.get_piece_bitboard piece_type side
  (squares_of pieces).foldl (generate_piece_moves_body piece_type board side) moves

def can_castle_side (board : Board) (side : Side) (is_kingside : Bool) (all_pieces : Nat)
    (enemy_side : Side) : Bool :=
  let side_val := side.toNat
  let required_right :=
    (if is_kingside then CastlingRights.white_king else CastlingRights.white_queen)
      <<< (side_val * 2)
  if !board.can_castle required_right then false
  else
    let base_king_sq : Int := 60 - 56 * (side_val : Int)
    let king_sq := base_king_sq
    if is_kingside then
      let f_sq := base_king_sq + 1
      let g_sq := base_king_sq + 2
      if get_bit all_pieces f_sq.toNat || get_bit all_pieces g_sq.toNat then false
      else !board.is_sq_attacked king_sq.toNat enemy_side
        && !board.is_sq_attacked f_sq.toNat enemy_side
    else
      let d_sq := base_king_sq - 1
      let c_sq := base_king_sq - 2
      let b_sq := base_king_sq - 3
      if get_bit all_pieces d_sq.toNat || get_bit all_pieces c_sq.toNat
          || get_bit all_pieces b_sq.toNat then false
      else !board.is_sq_attacked king_sq.toNat enemy_side
        && !board.is_sq_attacked d_sq.toNat enemy_side

def generate_castling_moves (moves : MoveArray) (board : Board) (side : Side) : MoveArray :=
  let all_pieces := board.get_all_occupancy
  let enemy_side := opposite_side side
  let side_val : Int := (side.toNat : Int)
  let from_sq : Int := 60 - 56 * side_val
  let moves :=
    if can_castle_side board side true all_pieces enemy_side then
      let to_sq := from_sq + 2
      add_move moves (to_u32 from_sq) (to_u32 to_sq) PieceType.king side PieceType.pawn
        Side.any MoveFlag.CASTLE false
    else moves
  if can_castle_side board side false all_pieces enemy_side then
    let to_sq := from_sq - 2
    add_move moves (to_u32 from_sq) (to_u32 to_sq) PieceType.king side PieceType.pawn
      Side.any MoveFlag.CASTLE false
  else moves

def fill_move_array (moves : MoveArray) (board : Board) : MoveArray :=
  let side_to_move := board.side
  let moves := generate_pawn_moves moves board side_to_move
  let moves := generate_piece_moves PieceType.knight moves board side_to_move
  let moves := generate_piece_moves PieceType.bishop moves board side_to_move
  let moves := generate_piece_moves PieceType.rook moves board side_to_move
  let moves := generate_piece_moves PieceType.queen moves board side_to_move
  let moves := generate_piece_moves PieceType.king moves board side_to_move
  generate_castling_moves moves board side_to_move

/-- A default-constructed `Board` (the member initialisers of `board.hpp`). -/
def Board.initial : Board :=
  { piece_location := fun _ => 0
    occupancies := fun _ => 0
    side := Side.white
    enpassant := (false, 0)
    castling := 0
    hash_key := 0
    rep_idx := 0
    fifty := 0 }

/-- The position loaded from a FEN string into a fresh board (the initial board when
`load_fen` fails); used to name concrete positions. -/
def Board.of_fen (fen : String) : Board :=
  (Board.load_fen Board.initial fen).getD Board.initial

/-! ## Predicates on positions -/

/-- Every bitboard of the position is a 64-bit word. -/
def Board.words_ok (board : Board) : Prop :=
  (∀ p, p < 12 → board.piece_location p < 2 ^ 64)
    ∧ (∀ k, k < 3 → board.occupancies k < 2 ^ 64)

/-- The OR of the six piece bitboards of one side, `start` being 0 for white and 6
for black. -/
def or_pieces (piece_location : Nat → Nat) (start : Nat) : Nat :=
  piece_location start ||| piece_location (start + 1) ||| piece_location (start + 2)
    ||| piece_location (start + 3) ||| piece_location (start + 4)
    ||| piece_location (start + 5)

/-- The twelve piece bitboards are pairwise disjoint. -/
def Board.pieces_disjoint (board : Board) : Prop :=
  ∀ p, p < 12 → ∀ q, q < 12 → p ≠ q →
    board.piece_location p &&& board.piece_location q = 0

/-- Each occupancy aggregate equals the OR of the corresponding piece bitboards. -/
def Board.aggregates_ok (board : Board) : Prop :=
  board.occupancies 0 = or_pieces board.piece_location 0
    ∧ board.occupancies 1 = or_pieces board.piece_location 6
    ∧ board.occupancies 2
      = or_pieces board.piece_location 0 ||| or_pieces board.piece_location 6

/-- The side to move is white or black. -/
def Board.side_ok (board : Board) : Prop :=
  board.side = Side.white ∨ board.side = Side.black

/-- No pawn stands on the first or the eighth rank. -/
def Board.pawns_ok (board : Board) : Prop :=
  (board.piece_location 0 ||| board.piece_location 6) &&& 0xFF000000000000FF = 0

/-- An en-passant square, when set, is an empty square of the board, and the square
directly behind it (one rank towards the side to move) holds a pawn of the side that
is not to move. -/
def Board.enpassant_ok (board : Board) : Prop :=
  board.enpassant.1 = true →
    0 ≤ board.enpassant.2 ∧ board.enpassant.2 < 64
      ∧ (board.occupancies 2).testBit board.enpassant.2.toNat = false
      ∧ (board.side = Side.white →
          (board.piece_location 6).testBit (board.enpassant.2.toNat + 8) = true)
      ∧ (board.side = Side.black → 8 ≤ board.enpassant.2
          ∧ (board.piece_location 0).testBit (board.enpassant.2.toNat - 8) = true)

/-- A castling right is held only with the king and the rook on their home squares. -/
def Board.castling_ok (board : Board) : Prop :=
  (board.castling &&& 1 ≠ 0 →
      (board.piece_location 5).testBit 60 = true ∧ (board.piece_location 3).testBit 63 = true)
    ∧ (board.castling &&& 2 ≠ 0 →
      (board.piece_location 5).testBit 60 = true ∧ (board.piece_location 3).testBit 56 = true)
    ∧ (board.castling &&& 4 ≠ 0 →
      (board.piece_location 11).testBit 4 = true ∧ (board.piece_location 9).testBit 7 = true)
    ∧ (board.castling &&& 8 ≠ 0 →
      (board.piece_location 11).testBit 4 = true ∧ (board.piece_location 9).testBit 0 = true)

/-- A consistent position: 64-bit words, pairwise disjoint piece bitboards, occupancy
aggregates equal to the OR of their piece bitboards, a side to move, no pawn on an end
rank, and en-passant and castling data that agree with the placement. -/
def Board.consistent (board : Board) : Prop :=
  board.words_ok ∧ board.pieces_disjoint ∧ board.aggregates_ok ∧ board.side_ok
    ∧ board.pawns_ok ∧ board.enpassant_ok ∧ board.castling_ok

instance (board : Board) : Decidable board.words_ok := by
  unfold Board.words_ok; infer_instance

instance (board : Board) : Decidable board.pieces_disjoint := by
  unfold Board.pieces_disjoint; infer_instance

instance (board : Board) : Decidable board.aggregates_ok := by
  unfold Board.aggregates_ok; infer_instance

instance (board : Board) : Decidable board.side_ok := by
  unfold Board.side_ok; infer_instance

instance (board : Board) : Decidable board.pawns_ok := by
  unfold Board.pawns_ok; infer_instance

instance (board : Board) : Decidable board.enpassant_ok := by
  unfold Board.enpassant_ok; infer_instance

instance (board : Board) : Decidable board.castling_ok := by
  unfold Board.castling_ok; infer_instance

instance (board : Board) : Decidable board.consistent := by
  unfold Board.consistent; infer_instance

/-- The shapes of the moves pushed by `fill_move_array` for the side to move, one
constructor per `add_move` call site of `move_generator.cpp`. -/
inductive Generated (board : Board) : Move → Prop where
  | push (from_sq : Nat)
      (hfrom : from_sq ∈ squares_of (board.get_piece_bitboard PieceType.pawn board.side))
      (hto : get_bit board.get_all_occupancy
        ((from_sq : Int) + (-8 + 16 * (board.side.toNat : Int))).toNat = false)
      (hrank : ((from_sq / 8 : Nat) : Int) ≠ 1 + 5 * (board.side.toNat : Int)) :
      Generated board (Move.new from_sq
        (to_u32 ((from_sq : Int) + (-8 + 16 * (board.side.toNat : Int))))
        PieceType.pawn board.side PieceType.pawn Side.any MoveFlag.NO_FLAG false)
  | push_promo (from_sq : Nat) (prom : PieceType)
      (hfrom : from_sq ∈ squares_of (board.get_piece_bitboard PieceType.pawn board.side))
      (hto : get_bit board.get_all_occupancy
        ((from_sq : Int) + (-8 + 16 * (board.side.toNat : Int))).toNat = false)
      (hrank : ((from_sq / 8 : Nat) : Int) = 1 + 5 * (board.side.toNat : Int))
      (hprom : prom = PieceType.queen ∨ prom = PieceType.rook ∨ prom = PieceType.bishop
        ∨ prom = PieceType.knight) :
      Generated board (Move.new from_sq
        (to_u32 ((from_sq : Int) + (-8 + 16 * (board.side.toNat : Int))))
        PieceType.pawn board.side prom board.side MoveFlag.NO_FLAG false)
  | double_push (from_sq : Nat)
      (hfrom : from_sq ∈ squares_of (board.get_piece_bitboard PieceType.pawn board.side))
      (hto : get_bit board.get_all_occupancy
        ((from_sq : Int) + (-8 + 16 * (board.side.toNat : Int))).toNat = false)
      (hrank : ((from_sq / 8 : Nat) : Int) = 6 - 5 * (board.side.toNat : Int))
      (hto2 : get_bit board.get_all_occupancy
        ((from_sq : Int) + 2 * (-8 + 16 * (board.side.toNat : Int))).toNat = false) :
      Generated board (Move.new from_sq
        (to_u32 ((from_sq : Int) + 2 * (-8 + 16 * (board.side.toNat : Int))))
        PieceType.pawn board.side PieceType.pawn Side.any MoveFlag.PAWN_START false)
  | capture (from_sq capture_sq : Nat)
      (hfrom : from_sq ∈ squares_of (board.get_piece_bitboard PieceType.pawn board.side))
      (hcap : capture_sq ∈ squares_of (pawn_masks board.side.toNat from_sq
        &&& board.get_occupancy (opposite_side board.side)))
      (hrank : ((from_sq / 8 : Nat) : Int) ≠ 1 + 5 * (board.side.toNat : Int)) :
      Generated board (Move.new from_sq capture_sq PieceType.pawn board.side PieceType.pawn
        Side.any MoveFlag.NO_FLAG true)
  | capture_promo (from_sq capture_sq : Nat) (prom : PieceType)
      (hfrom : from_sq ∈ squares_of (board.get_piece_bitboard PieceType.pawn board.side))
      (hcap : capture_sq ∈ squares_of (pawn_masks board.side.toNat from_sq
        &&& board.get_occupancy (opposite_side board.side)))
      (hrank : ((from_sq / 8 : Nat) : Int) = 1 + 5 * (board.side.toNat : Int))
      (hprom : prom = PieceType.queen ∨ prom = PieceType.rook ∨ prom = PieceType.bishop
        ∨ prom = PieceType.knight) :
      Generated board (Move.new from_sq capture_sq PieceType.pawn board.side prom board.side
        MoveFlag.NO_FLAG true)
  | en_passant (from_sq : Nat)
      (hfrom : from_sq ∈ squares_of (board.get_piece_bitboard PieceType.pawn board.side))
      (hset : board.enpassant.1 = true)
      (hatt : pawn_masks board.side.toNat from_sq &&& shl64 1 board.enpassant.2.toNat ≠ 0) :
      Generated board (Move.new from_sq (to_u32 board.enpassant.2) PieceType.pawn board.side
        PieceType.pawn Side.any MoveFlag.EN_PASSANT true)
  | piece (piece_type : PieceType) (from_sq to_sq : Nat)
      (hpiece : piece_type ≠ PieceType.pawn)
      (hfrom : from_sq ∈ squares_of (board.get_piece_bitboard piece_type board.side))
      (hto : to_sq ∈ squares_of (piece_attacks piece_type from_sq board.get_all_occupancy
        &&& not64 (board.get_occupancy board.side))) :
      Generated board (Move.new from_sq to_sq piece_type board.side PieceType.pawn Side.any
        MoveFlag.NO_FLAG (get_bit (board.get_occupancy (opposite_side board.side)) to_sq))
  | castle_kingside
      (hcan : can_castle_side board board.side true board.get_all_occupancy
        (opposite_side board.side) = true) :
      Generated board (Move.new (to_u32 (60 - 56 * (board.side.toNat : Int)))
        (to_u32 (60 - 56 * (board.side.toNat : Int) + 2)) PieceType.king board.side
        PieceType.pawn Side.any MoveFlag.CASTLE false)
  | castle_queenside
      (hcan : can_castle_side board board.side false board.get_all_occupancy
        (opposite_side board.side) = true) :
      Generated board (Move.new (to_u32 (60 - 56 * (board.side.toNat : Int)))
        (to_u32 (60 - 56 * (board.side.toNat : Int) - 2)) PieceType.king board.side
        PieceType.pawn Side.any MoveFlag.CASTLE false)

/-- The piece bitboards and the occupancy aggregates of a position. -/
structure Placement where
  loc : Nat → Nat
  occ : Nat → Nat

def Board.placement (board : Board) : Placement :=
  ⟨board.piece_location, board.occupancies⟩

/-- Take the piece with index `idx` of side `k` (0 white, 1 black) off `sq`: the bit is
popped from its bitboard, from the occupancy of its side and from the occupancy of
both sides. -/
def Placement.remove_at (P : Placement) (idx k sq : Nat) : Placement :=
  ⟨arr_set P.loc idx (pop_bit (P.loc idx) sq),
    arr_set (arr_set P.occ k (pop_bit (P.occ k) sq)) 2 (pop_bit (P.occ 2) sq)⟩

/-- Put a piece with index `idx` of side `k` on `sq`. -/
def Placement.place_at (P : Placement) (idx k sq : Nat) : Placement :=
  ⟨arr_set P.loc idx (set_bit (P.loc idx) sq),
    arr_set (arr_set P.occ k (set_bit (P.occ k) sq)) 2 (set_bit (P.occ 2) sq)⟩

/-- The placement invariant: 64-bit words, pairwise disjoint piece bitboards, and
aggregates equal to the OR of their piece bitboards. -/
def Placement.ok (P : Placement) : Prop :=
  ((∀ p, p < 12 → P.loc p < 2 ^ 64) ∧ (∀ k, k < 3 → P.occ k < 2 ^ 64))
    ∧ (∀ p, p < 12 → ∀ q, q < 12 → p ≠ q → P.loc p &&& P.loc q = 0)
    ∧ (P.occ 0 = or_pieces P.loc 0 ∧ P.occ 1 = or_pieces P.loc 6
      ∧ P.occ 2 = or_pieces P.loc 0 ||| or_pieces P.loc 6)

/-- The placement invariant, bit by bit. -/
structure Placement.bits_ok (P : Placement) : Prop where
  loc_lt : ∀ p, p < 12 → P.loc p < 2 ^ 64
  occ_lt : ∀ k, k < 3 → P.occ k < 2 ^ 64
  disjoint : ∀ p q i, p < 12 → q < 12 → (P.loc p).testBit i = true →
    (P.loc q).testBit i = true → p = q
  side_occ : ∀ k, k < 2 → ∀ i, (P.occ k).testBit i = true
    ↔ ∃ p, 6 * k ≤ p ∧ p < 6 * k + 6 ∧ (P.loc p).testBit i = true
  all_occ : ∀ i, (P.occ 2).testBit i = true
    ↔ ((P.occ 0).testBit i = true ∨ (P.occ 1).testBit i = true)

/-- What the generator guarantees about a move, in terms of the placement it is made
on: enough for `make_move` to keep the placement invariant. -/
structure MoveFits (P : Placement) (move : Move) : Prop where
  side : move.get_side_of_piece ≠ Side.any
  mover : (P.loc (move.get_piece.toNat + 6 * move.get_side_of_piece.toNat)).testBit
    move.get_from_sq = true
  target : (move.is_capture = false ∧ (P.occ 2).testBit move.get_to_sq = false)
    ∨ (move.is_capture = true ∧ move.is_enpassant = false
      ∧ ∃ idx, 6 * (opposite_side move.get_side_of_piece).toNat ≤ idx
        ∧ idx < 6 * (opposite_side move.get_side_of_piece).toNat + 6
        ∧ (P.loc idx).testBit move.get_to_sq = true)
    ∨ (move.is_capture = true ∧ move.is_enpassant = true
      ∧ (P.occ 2).testBit move.get_to_sq = false
      ∧ ∃ idx, 6 * (opposite_side move.get_side_of_piece).toNat ≤ idx
        ∧ idx < 6 * (opposite_side move.get_side_of_piece).toNat + 6
        ∧ (P.loc idx).testBit ((move.get_to_sq : Int) + 8
            - 16 * (move.get_side_of_piece.toNat : Int)).toNat = true)
  promo : move.is_promo = true → move.get_prom_side = move.get_side_of_piece
  castle : move.is_castle = true →
    move.is_capture = false ∧ move.is_promo = false ∧ move.get_piece = PieceType.king
      ∧ (P.loc (3 + 6 * move.get_side_of_piece.toNat)).testBit
          (if move.get_to_sq % 8 = 6 then (move.get_to_sq : Int) + 1
            else (move.get_to_sq : Int) - 2).toNat = true
      ∧ (P.occ 2).testBit
          (if move.get_to_sq % 8 = 6 then (move.get_to_sq : Int) - 1
            else (move.get_to_sq : Int) + 1).toNat = false
      ∧ (if move.get_to_sq % 8 = 6 then (move.get_to_sq : Int) - 1
            else (move.get_to_sq : Int) + 1).toNat ≠ move.get_to_sq
      ∧ (if move.get_to_sq % 8 = 6 then (move.get_to_sq : Int) - 1
            else (move.get_to_sq : Int) + 1).toNat < 64

/-- The placement left by `make_move` in terms of removals and placements: the victim
(piece index and square), if any, is taken off; the mover is relocated; a promoted pawn
is replaced; a castling rook is relocated. -/
def Placement.after_move (P : Placement) (move : Move) (victim : Option (Nat × Nat)) :
    Placement :=
  let k := move.get_side_of_piece.toNat
  let o := (opposite_side move.get_side_of_piece).toNat
  let idx := move.get_piece.toNat + 6 * k
  let P := match victim with
    | none => P
    | some v => P.remove_at v.1 o v.2
  let P := (P.remove_at idx k move.get_from_sq).place_at idx k move.get_to_sq
  let P := if move.is_promo then
      (P.remove_at idx k move.get_to_sq).place_at (move.get_prom_piece.toNat + 6 * k) k
        move.get_to_sq
    else P
  if move.is_castle then
    (P.remove_at (3 + 6 * k) k
      (if move.get_to_sq % 8 = 6 then (move.get_to_sq : Int) + 1
        else (move.get_to_sq : Int) - 2).toNat).place_at (3 + 6 * k) k
      (if move.get_to_sq % 8 = 6 then (move.get_to_sq : Int) - 1
        else (move.get_to_sq : Int) + 1).toNat
  else P

/-- The victim of a move on a placement: nothing for a quiet move, the enemy piece on
the destination for an ordinary capture, the enemy piece behind the destination for an
en-passant capture. -/
def IsVictim (P : Placement) (move : Move) (victim : Option (Nat × Nat)) : Prop :=
  (victim = none ∧ move.is_capture = false)
    ∨ ∃ idx sq, victim = some (idx, sq)
      ∧ move.is_capture = true
      ∧ 6 * (opposite_side move.get_side_of_piece).toNat ≤ idx
      ∧ idx < 6 * (opposite_side move.get_side_of_piece).toNat + 6
      ∧ (P.loc idx).testBit sq = true
      ∧ ((move.is_enpassant = false ∧ sq = move.get_to_sq)
        ∨ (move.is_enpassant = true
          ∧ sq = ((move.get_to_sq : Int) + 8
              - 16 * (move.get_side_of_piece.toNat : Int)).toNat))

/-! ## Attacks in the words of the rules -/

/-- Row of a square, 0 for rank 8 and 7 for rank 1. -/
def sq_row (sq : Nat) : Int := ((sq / 8 : Nat) : Int)

/-- Column of a square, 0 for file a and 7 for file h. -/
def sq_col (sq : Nat) : Int := ((sq % 8 : Nat) : Int)

/-- The square with the given row and column. -/
def square_at (row col : Int) : Nat := (row * 8 + col).toNat

/-- Some piece stands on the square. -/
def Board.occupied (board : Board) (sq : Nat) : Prop :=
  ∃ p, p < 12 ∧ (board.piece_location p).testBit sq = true

/-- Modelled after the rules: `s` is a capture square of a pawn of side `c` on `t`, one
row ahead (towards row 0 for white, towards row 7 for black) and one column aside. -/
def pawn_attacks_sq (c : Side) (t s : Nat) : Prop :=
  (if c = Side.white then sq_row s = sq_row t - 1 else sq_row s = sq_row t + 1)
    ∧ (sq_col s = sq_col t - 1 ∨ sq_col s = sq_col t + 1)

/-- Modelled after the rules: `s` is a knight leap away from `t`. -/
def knight_leap (t s : Nat) : Prop :=
  ((sq_row s - sq_row t).natAbs = 1 ∧ (sq_col s - sq_col t).natAbs = 2)
    ∨ ((sq_row s - sq_row t).natAbs = 2 ∧ (sq_col s - sq_col t).natAbs = 1)

/-- Modelled after the rules: `s` is a king step away from `t`. -/
def king_step (t s : Nat) : Prop :=
  (sq_row s - sq_row t).natAbs ≤ 1 ∧ (sq_col s - sq_col t).natAbs ≤ 1 ∧ s ≠ t

/-- Modelled after the rules: a ray from `t` in one of the directions `dirs` reaches
`s` after `n ≥ 1` steps, no square strictly between `t` and `s` being occupied. -/
def ray_reaches (occupied : Nat → Prop) (dirs : List (Int × Int)) (t s : Nat) : Prop :=
  ∃ d, d ∈ dirs ∧ ∃ n : Nat, 0 < n
    ∧ sq_row s = sq_row t + n * d.1 ∧ sq_col s = sq_col t + n * d.2
    ∧ ∀ j : Nat, 0 < j → j < n →
        ¬ occupied (square_at (sq_row t + j * d.1) (sq_col t + j * d.2))

/-- Modelled after the rules: a piece of side `c` standing on `t` attacks `s`. -/
def Board.attacks_from (board : Board) (c : Side) (t s : Nat) : Prop :=
  ((board.get_piece_bitboard PieceType.pawn c).testBit t = true ∧ pawn_attacks_sq c t s)
    ∨ ((board.get_piece_bitboard PieceType.knight c).testBit t = true ∧ knight_leap t s)
    ∨ ((board.get_piece_bitboard PieceType.king c).testBit t = true ∧ king_step t s)
    ∨ ((board.get_piece_bitboard PieceType.bishop c).testBit t = true
      ∧ ray_reaches board.occupied bishop_dirs t s)
    ∨ ((board.get_piece_bitboard PieceType.rook c).testBit t = true
      ∧ ray_reaches board.occupied rook_dirs t s)
    ∨ ((board.get_piece_bitboard PieceType.queen c).testBit t = true
      ∧ (ray_reaches board.occupied bishop_dirs t s
        ∨ ray_reaches board.occupied rook_dirs t s))

instance (c : Side) (t s : Nat) : Decidable (pawn_attacks_sq c t s) := by
  unfold pawn_attacks_sq; infer_instance

instance (t s : Nat) : Decidable (knight_leap t s) := by
  unfold knight_leap; infer_instance

instance (t s : Nat) : Decidable (king_step t s) := by
  unfold king_step; infer_instance

/-- The row and the column lie on the board. -/
def on_board (row col : Int) : Prop := 0 ≤ row ∧ row ≤ 7 ∧ 0 ≤ col ∧ col ≤ 7

/-- The walk that starts on `(row, col)` and steps by `(dr, df)` arrives on the square
`i` after `n` steps: all squares so far lie on the board and none before the last is a
blocker. -/
def ray_hits (blockers : Nat) (row col dr df : Int) (n i : Nat) : Prop :=
  (∀ j : Nat, j ≤ n → on_board (row + j * dr) (col + j * df))
    ∧ i = square_at (row + n * dr) (col + n * df)
    ∧ ∀ j : Nat, j < n → blockers.testBit (square_at (row + j * dr) (col + j * df)) = false


/-! ## FEN in the words of the standard -/

/-- Modelled from the spec: the fields of a FEN record, each as its text: piece
placement, side to move, castling, en-passant, halfmove clock and fullmove number; the
fullmove text is empty when the sixth field is absent. -/
structure FenRecord where
  placement : List Char
  side : List Char
  castling : List Char
  enpassant : List Char
  halfmove : List Char
  fullmove : List Char

/-- Modelled from the spec: the text of a FEN record, its fields separated by single
spaces, the sixth field and its space left out when absent. -/
def FenRecord.text (F : FenRecord) : String :=
  ⟨F.placement ++ ' ' :: (F.side ++ ' ' :: (F.castling ++ ' ' :: (F.enpassant
    ++ ' ' :: (F.halfmove ++ if F.fullmove = [] then [] else ' ' :: F.fullmove))))⟩

/-- Modelled from the spec: the piece letters of FEN in the order of the piece indices,
white pawn, knight, bishop, rook, queen, king, then the same for black. -/
def fen_letters : List Char := ['P', 'N', 'B', 'R', 'Q', 'K', 'p', 'n', 'b', 'r', 'q', 'k']

/-- Modelled from the spec: the ranks listed by a placement field, which `/` separates. -/
def fen_ranks : List Char → List (List Char)
  | [] => [[]]
  | c :: rest =>
    if c = '/' then [] :: fen_ranks rest
    else (c :: (fen_ranks rest).headD []) :: (fen_ranks rest).tail

/-- Modelled from the spec: the squares that the text of one rank lists, from file a on:
a piece letter stands for that piece, a digit for that many empty squares. -/
def fen_rank_squares : List Char → List (Option Nat)
  | [] => []
  | c :: rest =>
    if c ∈ fen_letters then some (fen_letters.indexOf c) :: fen_rank_squares rest
    else List.replicate (c.toNat - '0'.toNat) none ++ fen_rank_squares rest

/-- Modelled from the spec: the piece index that a placement field puts on file `f`
(a = 0) of its `i`-th listed rank (the first listed is rank 8), if any. -/
def fen_piece_at (placement : List Char) (i f : Nat) : Option Nat :=
  (fen_rank_squares ((fen_ranks placement).getD i [])).getD f none

/-- Modelled from the spec: the value of a decimal numeral, most significant digit
first. -/
def fen_number : List Char → Nat
  | [] => 0
  | c :: rest => (c.toNat - '0'.toNat) * 10 ^ rest.length + fen_number rest

/-- Modelled from the spec: the castling bits named by a castling field, K = 1, Q = 2,
k = 4, q = 8. -/
def fen_castling (castling : List Char) : Nat :=
  (if 'K' ∈ castling then 1 else 0) + (if 'Q' ∈ castling then 2 else 0)
    + (if 'k' ∈ castling then 4 else 0) + (if 'q' ∈ castling then 8 else 0)

/-- Modelled from the spec: a well-formed FEN record. The placement lists eight ranks of
eight squares each, in piece letters and the digits 1 to 8; the side is `w` or `b`; the
castling field is `-` or made of the letters `KQkq`; the en-passant field is `-` or a
square of the third or the sixth rank; the halfmove clock is a decimal numeral that
fits an `int`; the fullmove number, when present, is a decimal numeral. -/
def FenRecord.well_formed (F : FenRecord) : Prop :=
  (∀ c ∈ F.placement,
      c = '/' ∨ c ∈ ['1', '2', '3', '4', '5', '6', '7', '8'] ∨ c ∈ fen_letters)
    ∧ (fen_ranks F.placement).length = 8
    ∧ (∀ r ∈ fen_ranks F.placement, (fen_rank_squares r).length = 8)
    ∧ (F.side = ['w'] ∨ F.side = ['b'])
    ∧ (F.castling = ['-']
      ∨ (F.castling ≠ [] ∧ ∀ c ∈ F.castling, c ∈ ['K', 'Q', 'k', 'q']))
    ∧ (F.enpassant = ['-']
      ∨ (F.enpassant.length = 2
        ∧ F.enpassant.getD 0 '-' ∈ ['a', 'b', 'c', 'd', 'e', 'f', 'g', 'h']
        ∧ F.enpassant.getD 1 '-' ∈ ['3', '6']))
    ∧ F.halfmove ≠ []
    ∧ (∀ c ∈ F.halfmove, c ∈ ['0', '1', '2', '3', '4', '5', '6', '7', '8', '9'])
    ∧ fen_number F.halfmove ≤ 2147483647
    ∧ (∀ c ∈ F.fullmove, c ∈ ['0', '1', '2', '3', '4', '5', '6', '7', '8', '9'])

instance (F : FenRecord) : Decidable F.well_formed := by
  unfold FenRecord.well_formed; infer_instance

/-- Modelled from the spec: the hash invariant, the XOR of the keys of all pieces on
their squares, the castle-state key, the en-passant key if an en-passant square is set,
and the side key iff black is to move. -/
def Board.zobrist (board : Board) : Nat :=
  let pieces := (List.range 12).foldl
    (fun h p => (List.range 64).foldl
      (fun h s => if (board.piece_location p).testBit s then h ^^^ piece_keys p s else h) h) 0
  pieces ^^^ castle_keys board.castling
    ^^^ (if board.enpassant.1 then enp_keys board.enpassant.2.toNat else 0)
    ^^^ (if board.side = Side.black then side_key else 0)

/-- The FEN record of the starting position. -/
def FenRecord.start : FenRecord :=
  { placement := "rnbqkbnr/pppppppp/8/8/8/8/PPPPPPPP/RNBQKBNR".data
    side := ['w']
    castling := "KQkq".data
    enpassant := ['-']
    halfmove := ['0']
    fullmove := ['1'] }

/-- The FEN record of the starting position without its sixth field. -/
def FenRecord.start_short : FenRecord :=
  { placement := "rnbqkbnr/pppppppp/8/8/8/8/PPPPPPPP/RNBQKBNR".data
    side := ['w']
    castling := "KQkq".data
    enpassant := ['-']
    halfmove := ['0']
    fullmove := [] }

/-- The occupancy words follow the piece bitboards, bit by bit: a side's word has a bit
exactly when one of its six piece bitboards has it, and the word of both sides has a bit
exactly when one of the two sides has it. -/
def Board.occupancy_follows (board : Board) : Prop :=
  (∀ k, k < 2 → ∀ n, (board.occupancies k).testBit n = true
      ↔ ∃ p, 6 * k ≤ p ∧ p < 6 * k + 6 ∧ (board.piece_location p).testBit n = true)
    ∧ ∀ n, (board.occupancies 2).testBit n = true
      ↔ ((board.occupancies 0).testBit n = true ∨ (board.occupancies 1).testBit n = true)

/-! ## Perft -/

/-- Modelled from the spec: perft, the number of leaf nodes of the tree of the given
depth obtained by applying recursively every move of `fill_move_array` that `make_move`
accepts. -/
def perft : Nat → Board → Nat
  | 0, _ => 1
  | depth + 1, board =>
    ((fill_move_array [] board).map
      (fun move =>
        if (board.make_move move).1 then perft depth (board.make_move move).2 else 0)).sum

/-! ## uci.cpp and search.cpp: move strings -/

/-- The library function `std::to_string` on an unsigned value. -/
def to_string (value : Nat) : List Char := Nat.toDigits 10 value

/-- The function `squareToString`, written twice in the source with the same body: the
member of `UciInterface` in `uci.cpp` and the file-local function of `search.cpp`. The
parameter is a `uint32_t`, and so are `file` and `rank`. -/
def squareToString (square : Nat) : List Char :=
  let file := square % 8
  let rank := (8 + 4294967296 - square / 8) % 4294967296
  ['a', 'b', 'c', 'd', 'e', 'f', 'g', 'h'].getD file 'a' :: to_string rank

/-- The method `UciInterface::moveToString` of `uci.cpp`. -/
def UciInterface.moveToString (move : Move) : List Char :=
  let result := squareToString move.get_from_sq ++ squareToString move.get_to_sq
  if move.is_promo then
    let pieceIndex : Int := (move.get_prom_piece.toNat : Int) - 1
    if 0 ≤ pieceIndex ∧ pieceIndex < 4 then
      result ++ [['q', 'r', 'b', 'n'].getD pieceIndex.toNat 'q']
    else result
  else result

/-- The file-local function `moveToString` of `search.cpp`. -/
def moveToString (move : Move) : List Char :=
  let result := squareToString move.get_from_sq ++ squareToString move.get_to_sq
  if move.is_promo then
    match move.get_prom_piece with
    | .queen => result ++ ['q']
    | .rook => result ++ ['r']
    | .bishop => result ++ ['b']
    | .knight => result ++ ['n']
    | _ => result
  else result

/-- The `for` loop of `UciInterface::parseAndMakeMove` over the moves still to compare:
the first move whose string is `moveString` is handed to `make_move`, whose flag is
dropped, and the loop ends. -/
def UciInterface.parseAndMakeMove_loop (chessBoard : Board) (moveString : List Char) :
    List Move → Board
  | [] => chessBoard
  | currentMove :: rest =>
    if UciInterface.moveToString currentMove = moveString then
      (chessBoard.make_move currentMove).2
    else UciInterface.parseAndMakeMove_loop chessBoard moveString rest

/-- The method `UciInterface::parseAndMakeMove`, as the member `chessBoard` it leaves. -/
def UciInterface.parseAndMakeMove (chessBoard : Board) (moveString : List Char) : Board :=
  if moveString.length < 4 then chessBoard
  else
    let legalMoves := fill_move_array [] chessBoard
    UciInterface.parseAndMakeMove_loop chessBoard moveString legalMoves

/-! ## transposition_table.hpp -/

/-- The result of an `int` operation. Signed overflow is undefined in the source; the
model reduces the exact result to the two's-complement range of 32 bits. -/
def wrap_int (x : Int) : Int := (x + 2147483648) % 4294967296 - 2147483648

/-- The result of an `int64_t` operation, reduced to the two's-complement range of 64
bits. -/
def wrap_int64 (x : Int) : Int :=
  (x + 9223372036854775808) % 18446744073709551616 - 9223372036854775808

inductive HashFlag where
  | EXACT
  | ALPHA
  | BETA
  deriving DecidableEq, Repr

structure TranspositionEntry where
  hashKey : Nat
  depth : Int
  flag : HashFlag
  score : Int

/-- The class `TranspositionTable`: the vector `entries` as a function of the index, and
`tableSize`. -/
structure TranspositionTable where
  entries : Nat → TranspositionEntry
  tableSize : Nat

def TranspositionTable.MATE_SCORE : Int := 48000
def TranspositionTable.NO_HASH_FOUND : Int := 100000

/-- The constants `MATE_SCORE` and `MATE_VALUE` of the class `ChessSearch`. -/
def ChessSearch.MATE_SCORE : Int := 48000
def ChessSearch.MATE_VALUE : Int := 49000

def TranspositionTable.adjustScoreFromTable (score ply : Int) : Int :=
  if score < -TranspositionTable.MATE_SCORE then wrap_int (score + ply)
  else if score > TranspositionTable.MATE_SCORE then wrap_int (score - ply)
  else score

def TranspositionTable.adjustScoreForTable (score ply : Int) : Int :=
  if score < -TranspositionTable.MATE_SCORE then wrap_int (score - ply)
  else if score > TranspositionTable.MATE_SCORE then wrap_int (score + ply)
  else score

/-- The method `TranspositionTable::probe`. It is `const`: the table is read only, and
the result is the returned `int`. -/
def TranspositionTable.probe (table : TranspositionTable) (alpha beta depth : Int)
    (hashKey : Nat) (ply : Int) : Int :=
  let entry := table.entries (hashKey % table.tableSize)
  if entry.hashKey ≠ hashKey ∨ entry.depth < depth then TranspositionTable.NO_HASH_FOUND
  else
    let adjustedScore := TranspositionTable.adjustScoreFromTable entry.score ply
    match entry.flag with
    | .EXACT => adjustedScore
    | .ALPHA => if adjustedScore ≤ alpha then alpha else TranspositionTable.NO_HASH_FOUND
    | .BETA => if adjustedScore ≥ beta then beta else TranspositionTable.NO_HASH_FOUND

/-- The method `TranspositionTable::store`: the table it leaves. -/
def TranspositionTable.store (table : TranspositionTable) (score depth : Int)
    (flag : HashFlag) (hashKey : Nat) (ply : Int) : TranspositionTable :=
  { table with
    entries := fun index =>
      if index = hashKey % table.tableSize then
        { hashKey := hashKey
          score := TranspositionTable.adjustScoreForTable score ply
          flag := flag
          depth := depth }
      else table.entries index }

/-! ## time.cpp and the time budget of uci.cpp -/

def TimeManager.DEFAULT_SEARCH_TIME : Int := 5000
def TimeManager.MINIMUM_TIME_ALLOCATION : Int := 100
def TimeManager.LONG_GAME_THRESHOLD : Int := 300000
def TimeManager.MEDIUM_GAME_THRESHOLD : Int := 60000
def TimeManager.LONG_GAME_DIVISOR : Int := 40
def TimeManager.MEDIUM_GAME_DIVISOR : Int := 30
def TimeManager.SHORT_GAME_DIVISOR : Int := 20
def TimeManager.INCREMENT_MULTIPLIER : Int := 3
def TimeManager.INCREMENT_DIVISOR : Int := 4
def TimeManager.MAX_TIME_FRACTION : Int := 2

/-- The function `TimeManager::calculateTimeAllocation`. Division is the division of
C++, which truncates towards zero; products and sums are reduced to 64 bits. -/
def TimeManager.calculateTimeAllocation (playerTime _opponentTime playerIncrement
    _opponentIncrement movesToGo : Int) : Int :=
  if playerTime ≤ 0 then TimeManager.DEFAULT_SEARCH_TIME
  else
    let timeAllocation : Int :=
      if movesToGo > 0 then
        wrap_int64 (playerTime.tdiv movesToGo
          + (wrap_int64 (playerIncrement * TimeManager.INCREMENT_MULTIPLIER)).tdiv
              TimeManager.INCREMENT_DIVISOR)
      else if playerTime > TimeManager.LONG_GAME_THRESHOLD then
        wrap_int64 (playerTime.tdiv TimeManager.LONG_GAME_DIVISOR + playerIncrement)
      else if playerTime > TimeManager.MEDIUM_GAME_THRESHOLD then
        wrap_int64 (playerTime.tdiv TimeManager.MEDIUM_GAME_DIVISOR + playerIncrement)
      else
        wrap_int64 (playerTime.tdiv TimeManager.SHORT_GAME_DIVISOR + playerIncrement)
    let timeAllocation := max timeAllocation TimeManager.MINIMUM_TIME_ALLOCATION
    let timeAllocation := min timeAllocation (playerTime.tdiv TimeManager.MAX_TIME_FRACTION)
    timeAllocation

/-- The free function `calculateTimeAllocation` of `time.cpp`. -/
def calculateTimeAllocation (playerTime opponentTime playerIncrement opponentIncrement
    movesToGo : Int) : Int :=
  TimeManager.calculateTimeAllocation playerTime opponentTime playerIncrement
    opponentIncrement movesToGo

def INT64_MAX : Int := 9223372036854775807
def UciInterface.MINIMUM_TIME_ALLOCATION : Int := 100
def UciInterface.EMERGENCY_TIME_DIVISOR : Int := 10
def UciInterface.MAXIMUM_EMERGENCY_TIME : Int := 5000

/-- The method `UciInterface::calculateTimeAllocation`. -/
def UciInterface.calculateTimeAllocation (playerTime opponentTime playerIncrement
    opponentIncrement movesToGo : Int) (infiniteSearch : Bool) : Int :=
  if infiniteSearch = true ∨ playerTime = 0 then INT64_MAX
  else
    let timeAllocation := Chess.calculateTimeAllocation playerTime opponentTime
      playerIncrement opponentIncrement movesToGo
    if timeAllocation < UciInterface.MINIMUM_TIME_ALLOCATION then
      min (playerTime.tdiv UciInterface.EMERGENCY_TIME_DIVISOR)
        UciInterface.MAXIMUM_EMERGENCY_TIME
    else timeAllocation

/-- Modelled from the spec: the time budget for a positive player time. `b0` is
`player_time / moves_to_go + player_inc * 3 / 4` if `moves_to_go > 0`, else
`player_time / 40 + inc` above 300000, `player_time / 30 + inc` above 60000 and
`player_time / 20 + inc` otherwise; `b1 = min(max(b0, 100), player_time / 2)`; the budget
is `min(player_time / 10, 5000)` if `b1 < 100` and `b1` otherwise. Division is integer
division, truncating towards zero. -/
def time_budget (player_time player_inc moves_to_go : Int) : Int :=
  let b0 : Int :=
    if moves_to_go > 0 then player_time.tdiv moves_to_go + (player_inc * 3).tdiv 4
    else if player_time > 300000 then player_time.tdiv 40 + player_inc
    else if player_time > 60000 then player_time.tdiv 30 + player_inc
    else player_time.tdiv 20 + player_inc
  let b1 := min (max b0 100) (player_time.tdiv 2)
  if b1 < 100 then min (player_time.tdiv 10) 5000 else b1

/-- Modelled after the rules: a knight, bishop, rook, queen or king standing on `t`
reaches `s`: a knight leap or a king step away, or along a bishop or rook ray with no
occupied square strictly between (a queen along either). -/
def Board.piece_reaches (board : Board) (piece_type : PieceType) (t s : Nat) : Prop :=
  match piece_type with
  | .knight => knight_leap t s
  | .king => king_step t s
  | .bishop => ray_reaches board.occupied bishop_dirs t s
  | .rook => ray_reaches board.occupied rook_dirs t s
  | .queen => ray_reaches board.occupied bishop_dirs t s
      ∨ ray_reaches board.occupied rook_dirs t s
  | .pawn => False

/-- An upper bound on the number of moves the generator emits for one piece of the given
type: 13 for a pawn (four promotions by push, four by each of two captures, one
en-passant capture), the size of the largest attack set for the others. -/
def mobility_bound : PieceType → Nat
  | .pawn => 13
  | .knight => 8
  | .bishop => 13
  | .rook => 14
  | .queen => 27
  | .king => 8

/-! ## The bookkeeping of `make_move` in the words of the rules -/

/-- In the words of the rules: the castling rights that a move from or onto `square`
takes away. The king squares e1 (60) and e8 (4) take both rights of their colour, the
corner squares h1 (63), a1 (56), h8 (7) and a8 (0) the right of their rook, and every
other square takes nothing. -/
def rights_cleared (square : Nat) : Nat :=
  if square = 60 then CastlingRights.white_king ||| CastlingRights.white_queen
  else if square = 4 then CastlingRights.black_king ||| CastlingRights.black_queen
  else if square = 63 then CastlingRights.white_king
  else if square = 56 then CastlingRights.white_queen
  else if square = 7 then CastlingRights.black_king
  else if square = 0 then CastlingRights.black_queen
  else 0

/-! ## Pawn moves in the words of the rules -/

/-- The four promotion moves of a pawn of `side` from `from_sq` to `to_sq`: queen, rook,
bishop and knight in this order, the promotion side being the mover's. -/
def promotion_moves (from_sq to_sq : Nat) (side : Side) (is_capture : Bool) : List Move :=
  [Move.new from_sq to_sq PieceType.pawn side PieceType.queen side MoveFlag.NO_FLAG is_capture,
    Move.new from_sq to_sq PieceType.pawn side PieceType.rook side MoveFlag.NO_FLAG is_capture,
    Move.new from_sq to_sq PieceType.pawn side PieceType.bishop side MoveFlag.NO_FLAG
      is_capture,
    Move.new from_sq to_sq PieceType.pawn side PieceType.knight side MoveFlag.NO_FLAG
      is_capture]

/-- The square `steps` ranks ahead of `square` for a pawn of `side`: towards rank 8
(lower indices) for white, towards rank 1 (higher indices) for black. -/
def square_ahead (side : Side) (square steps : Nat) : Nat :=
  if side = Side.white then square - 8 * steps else square + 8 * steps

/-! ## search.hpp and search.cpp

The evaluator `evaluate` of `evaluation.cpp` hands the position to an NNUE library that is
no part of the sources; the search functions take it as a parameter. The readings of the
system clock are an input of the search as well: they are the sequence `clock` carried
with the state. The `info` lines written to the standard output are left out; what
`findBestMove` prints after `bestmove` is its result. Recursion is on explicit fuel, and
the result is `none` when the fuel runs out; the depth of the recursion is bounded by
`MAX_PLY` in the source, so that fuel `MAX_PLY + 2` is enough from ply 0. -/

/-- The default constructor `Move()`. -/
instance : Inhabited Move := ⟨⟨0⟩⟩

/-- Assignment `a[i] = v` to one cell of an array of any element type. -/
def tab_set {α : Type} (a : Nat → α) (i : Nat) (v : α) : Nat → α :=
  fun j => if j = i then v else a j

/-- Assignment `a[i][j] = v` to one cell of an array of arrays. -/
def tab2_set {α : Type} (a : Nat → Nat → α) (i j : Nat) (v : α) : Nat → Nat → α :=
  fun k => if k = i then tab_set (a i) j v else a k

/-- The table `PIECE_VALUES` of `search.cpp`. -/
def PIECE_VALUES (i : Nat) : Int := [100, 200, 300, 400, 500, 600].getD i 0

/-- The table `ATTACKER_PENALTIES` of `search.cpp`. -/
def ATTACKER_PENALTIES (i : Nat) : Int := [5, 4, 3, 2, 1, 0].getD i 0

/-- The constant `NO_HASH_ENTRY` of `search.cpp`. -/
def NO_HASH_ENTRY : Int := 100000

/-- The function `calculateMvvLvaScore(victimPiece, attackerPiece)` of `search.cpp`. -/
def calculateMvvLvaScore (victimPiece attackerPiece : Int) : Int :=
  let victimType := victimPiece.tmod 6
  let attackerType := attackerPiece.tmod 6
  wrap_int (PIECE_VALUES victimType.toNat + ATTACKER_PENALTIES attackerType.toNat)

def ChessSearch.INFINITY_VALUE : Int := 500000
def ChessSearch.MAX_PLY : Int := 64
def ChessSearch.FULL_DEPTH_MOVES : Int := 4
def ChessSearch.REDUCTION_LIMIT : Int := 3

/-- The method `TranspositionTable::clear`. -/
def TranspositionTable.clear (table : TranspositionTable) : TranspositionTable :=
  { table with
    entries := fun _ => { hashKey := 0, depth := 0, flag := HashFlag.EXACT, score := 0 } }

/-- The data members of the class `ChessSearch`, followed by `clock`, which is no
member: the readings that `getCurrentTimeMilliseconds` is going to return, in order. -/
structure ChessSearch where
  transpositionTable : TranspositionTable
  currentPly : Int
  searchStartTime : Nat
  nodesSearched : Nat
  searchStopped : Bool
  timeAllocated : Nat
  killerMoves : Nat → Nat → Move
  historyMoves : Nat → Nat → Int
  repetitionTable : Nat → Nat
  repetitionIndex : Int
  scorePrincipalVariation : Bool
  followPrincipalVariation : Bool
  principalVariationLengths : Nat → Int
  principalVariationTable : Nat → Nat → Move
  clock : Nat → Int

/-- The method `ChessSearch::resetRepetitionTable`. -/
def ChessSearch.resetRepetitionTable (search : ChessSearch) : ChessSearch :=
  { search with repetitionTable := fun _ => 0, repetitionIndex := 0 }

/-- The constructor of `ChessSearch`, for a transposition table already built and
cleared; arrays that the constructor leaves uninitialised read as zero. -/
def ChessSearch.init (table : TranspositionTable) (clock : Nat → Int) : ChessSearch :=
  ChessSearch.resetRepetitionTable
    { transpositionTable := table.clear
      currentPly := 0
      searchStartTime := 0
      nodesSearched := 0
      searchStopped := false
      timeAllocated := INT64_MAX.toNat
      killerMoves := fun _ _ => default
      historyMoves := fun _ _ => 0
      repetitionTable := fun _ => 0
      repetitionIndex := 0
      scorePrincipalVariation := false
      followPrincipalVariation := false
      principalVariationLengths := fun _ => 0
      principalVariationTable := fun _ _ => default
      clock := clock }

/-- The method `ChessSearch::setTimeLimit`. -/
def ChessSearch.setTimeLimit (search : ChessSearch) (timeLimit : Nat) : ChessSearch :=
  { search with timeAllocated := timeLimit }

/-- The method `ChessSearch::stopSearch`. -/
def ChessSearch.stopSearch (search : ChessSearch) : ChessSearch :=
  { search with searchStopped := true }

/-- One call of `getCurrentTimeMilliseconds`: the reading, converted to `uint64_t`, and
the state with the remaining readings. -/
def ChessSearch.getCurrentTimeMilliseconds (search : ChessSearch) : Nat × ChessSearch :=
  ((search.clock 0 % 18446744073709551616).toNat,
    { search with clock := fun n => search.clock (n + 1) })

/-- The method `ChessSearch::enablePrincipalVariationScoring`. -/
def ChessSearch.enablePrincipalVariationScoring (search : ChessSearch) (moves : MoveArray) :
    ChessSearch :=
  let search := { search with followPrincipalVariation := false }
  if moves.any (fun move =>
      (search.principalVariationTable 0 search.currentPly.toNat).op_eq move) then
    { search with scorePrincipalVariation := true, followPrincipalVariation := true }
  else search

/-- The method `ChessSearch::calculateMoveScore`. -/
def ChessSearch.calculateMoveScore (search : ChessSearch) (move : Move) (board : Board) :
    Int :=
  if search.scorePrincipalVariation
      && (search.principalVariationTable 0 search.currentPly.toNat).op_eq move then 20000
  else if !move.is_capture then
    if (search.killerMoves 0 search.currentPly.toNat).op_eq move then 9000
    else if (search.killerMoves 1 search.currentPly.toNat).op_eq move then 8000
    else search.historyMoves move.get_piece.toNat move.get_to_sq
  else
    let startIndex := (opposite_side board.side).toNat * 6
    let targetPieceIndex :=
      ((List.range' startIndex 6).find?
        (fun i => get_bit (board.piece_location i) move.get_to_sq)).getD 0
    wrap_int (calculateMvvLvaScore (move.get_piece.toNat : Int) (targetPieceIndex : Int)
      + 10000)

/-- The method `MoveArray::swap`. -/
def MoveArray.swap (moves : MoveArray) (i1 i2 : Nat) : MoveArray :=
  (moves.set i1 (moves.getD i2 default)).set i2 (moves.getD i1 default)

/-- The call `std::swap(moveScores[i], moveScores[j])`. -/
def swap_scores (moveScores : List Int) (i j : Nat) : List Int :=
  (moveScores.set i (moveScores.getD j 0)).set j (moveScores.getD i 0)

/-- The inner loop of `ChessSearch::sortMoves` over the indices `j` still to visit. -/
def ChessSearch.sortMoves_inner (i : Nat) :
    List Nat → MoveArray × List Int → MoveArray × List Int
  | [], state => state
  | j :: rest, state =>
    if state.2.getD i 0 < state.2.getD j 0 then
      ChessSearch.sortMoves_inner i rest (state.1.swap i j, swap_scores state.2 i j)
    else ChessSearch.sortMoves_inner i rest state

/-- The method `ChessSearch::sortMoves`: the array it leaves. -/
def ChessSearch.sortMoves (search : ChessSearch) (moves : MoveArray) (board : Board) :
    MoveArray :=
  let moveScores := moves.map (fun move => search.calculateMoveScore move board)
  ((List.range moves.length).foldl
    (fun state i =>
      ChessSearch.sortMoves_inner i (List.range' (i + 1) (moves.length - (i + 1))) state)
    (moves, moveScores)).1

/-- The method `ChessSearch::isPositionRepeated`. -/
def ChessSearch.isPositionRepeated (search : ChessSearch) (hashKey : Nat) : Bool :=
  (List.range search.repetitionIndex.toNat).any
    (fun i => search.repetitionTable i == hashKey)

/-- The method `ChessSearch::isTimeExpired`; the clock is read only when the first
operand of `&&` is true. -/
def ChessSearch.isTimeExpired (search : ChessSearch) : Bool × ChessSearch :=
  if search.nodesSearched &&& 2047 = 0 then
    let now := search.getCurrentTimeMilliseconds
    (decide ((now.1 + 18446744073709551616 - search.searchStartTime)
        % 18446744073709551616 > search.timeAllocated), now.2)
  else (false, search)

/-- The statement `if (isTimeExpired()) { searchStopped = true; }`. -/
def ChessSearch.pollTime (search : ChessSearch) : ChessSearch :=
  let expired := search.isTimeExpired
  if expired.1 then { expired.2 with searchStopped := true } else expired.2

/-- The statement `++nodesSearched;` on a `uint32_t`. -/
def ChessSearch.countNode (search : ChessSearch) : ChessSearch :=
  { search with nodesSearched := (search.nodesSearched + 1) % 4294967296 }

/-- The statements `++currentPly; ++repetitionIndex; repetitionTable[repetitionIndex] =
board.get_hash_key();` before a move is made. -/
def ChessSearch.enterChild (search : ChessSearch) (hashKey : Nat) : ChessSearch :=
  let repetitionIndex := wrap_int (search.repetitionIndex + 1)
  { search with
    currentPly := wrap_int (search.currentPly + 1)
    repetitionIndex := repetitionIndex
    repetitionTable := arr_set search.repetitionTable repetitionIndex.toNat hashKey }

/-- The statements `--currentPly; --repetitionIndex;`. -/
def ChessSearch.leaveChild (search : ChessSearch) : ChessSearch :=
  { search with
    currentPly := wrap_int (search.currentPly - 1)
    repetitionIndex := wrap_int (search.repetitionIndex - 1) }

/-- What a search function hands back: the returned score, the state of the searcher,
and the board that was passed by reference. -/
abbrev SearchResult := Int × ChessSearch × Board

/-- The value `-f(...)` of a call whose result is negated by the caller. -/
def negated (result : Option SearchResult) : Option SearchResult :=
  result.map (fun r => (wrap_int (-r.1), r.2.1, r.2.2))

/-- The `for` loop of `ChessSearch::quiescenceSearch` over the moves still to visit;
`recurse` is the recursive call. -/
def ChessSearch.quiescenceSearch_loop
    (recurse : Int → Int → Board → ChessSearch → Option SearchResult) (beta : Int) :
    List Move → Int → Board → ChessSearch → Option SearchResult
  | [], alpha, board, search => some (alpha, search, board)
  | move :: rest, alpha, board, search =>
    if !move.is_capture then
      ChessSearch.quiescenceSearch_loop recurse beta rest alpha board search
    else
      let boardCopy := board
      let search := search.enterChild board.hash_key
      let made := board.make_move move
      if !made.1 then
        ChessSearch.quiescenceSearch_loop recurse beta rest alpha made.2 search.leaveChild
      else
        match negated (recurse (wrap_int (-beta)) (wrap_int (-alpha)) made.2 search) with
        | none => none
        | some (score, search, _) =>
          let search := search.leaveChild
          let board := boardCopy
          if search.searchStopped then some (0, search, board)
          else if score > alpha then
            if score ≥ beta then some (beta, search, board)
            else ChessSearch.quiescenceSearch_loop recurse beta rest score board search
          else ChessSearch.quiescenceSearch_loop recurse beta rest alpha board search

/-- The method `ChessSearch::quiescenceSearch`. -/
def ChessSearch.quiescenceSearch (evaluate : Board → Int) :
    Nat → Int → Int → Board → ChessSearch → Option SearchResult
  | 0, _, _, _, _ => none
  | fuel + 1, alpha, beta, board, search =>
    let search := search.pollTime
    let search := search.countNode
    let standPatScore := evaluate board
    if search.currentPly > ChessSearch.MAX_PLY - 1 then some (standPatScore, search, board)
    else if standPatScore ≥ beta then some (beta, search, board)
    else
      let alpha := if standPatScore > alpha then standPatScore else alpha
      let moves := fill_move_array [] board
      let moves := search.sortMoves moves board
      ChessSearch.quiescenceSearch_loop (ChessSearch.quiescenceSearch evaluate fuel) beta
        moves alpha board search

/-- The null move of `negamaxSearch`: the statements `if (board.get_enpassant().first)
board.change_hash_en(); board.switch_side();`. -/
def Board.null_move (board : Board) : Board :=
  let board :=
    if board.enpassant.1 then
      { board with
        hash_key := board.hash_key ^^^ enp_keys board.enpassant.2.toNat
        enpassant := (false, board.enpassant.2) }
    else board
  { board with side := opposite_side board.side, hash_key := board.hash_key ^^^ side_key }

/-- The statements of `negamaxSearch` run when `score > alpha`, up to the test
`score >= beta`: the history counter of a quiet move, the principal-variation entry of
the move, and the copy of the child's principal variation. -/
def ChessSearch.raiseAlpha (search : ChessSearch) (move : Move) (depth : Int) : ChessSearch :=
  let ply := search.currentPly.toNat
  let historyMoves :=
    if !move.is_capture then
      tab2_set search.historyMoves move.get_piece.toNat move.get_to_sq
        (wrap_int (search.historyMoves move.get_piece.toNat move.get_to_sq + depth))
    else search.historyMoves
  let table := tab2_set search.principalVariationTable ply ply move
  let childLength := search.principalVariationLengths (search.currentPly + 1).toNat
  let table :=
    (List.range' (ply + 1) (childLength - (search.currentPly + 1)).toNat).foldl
      (fun table nextPly => tab2_set table ply nextPly (table (ply + 1) nextPly)) table
  { search with
    historyMoves := historyMoves
    principalVariationTable := table
    principalVariationLengths := tab_set search.principalVariationLengths ply childLength }

/-- The statements of `negamaxSearch` run when `score >= beta`, before `return beta`. -/
def ChessSearch.betaCutoff (search : ChessSearch) (move : Move) (beta depth : Int)
    (hashKey : Nat) : ChessSearch :=
  let ply := search.currentPly.toNat
  let table := search.transpositionTable.store beta depth HashFlag.BETA hashKey
    search.currentPly
  let killerMoves :=
    if !move.is_capture then
      tab2_set (tab2_set search.killerMoves 1 ply (search.killerMoves 0 ply)) 0 ply move
    else search.killerMoves
  { search with transpositionTable := table, killerMoves := killerMoves }

/-- The searches of one move in the loop of `negamaxSearch` (the first move with the
full window, a later move with a reduced or a null window first), each result negated;
`recurse` is the recursive call. -/
def ChessSearch.searchMove
    (recurse : Int → Int → Int → Board → ChessSearch → Option SearchResult)
    (alpha beta depth : Int) (inCheck : Bool) (movesSearched : Int) (move : Move)
    (board : Board) (search : ChessSearch) : Option SearchResult :=
  if movesSearched = 0 then
    negated (recurse (wrap_int (-beta)) (wrap_int (-alpha)) (wrap_int (depth - 1)) board
      search)
  else
    let first : Option SearchResult :=
      if movesSearched ≥ ChessSearch.FULL_DEPTH_MOVES ∧ depth ≥ ChessSearch.REDUCTION_LIMIT
          ∧ inCheck = false ∧ move.is_capture = false ∧ move.is_promo = false then
        negated (recurse (wrap_int (wrap_int (-alpha) - 1)) (wrap_int (-alpha))
          (wrap_int (depth - 2)) board search)
      else some (wrap_int (alpha + 1), search, board)
    match first with
    | none => none
    | some (score, search, board) =>
      if score > alpha then
        match negated (recurse (wrap_int (wrap_int (-alpha) - 1)) (wrap_int (-alpha))
            (wrap_int (depth - 1)) board search) with
        | none => none
        | some (score, search, board) =>
          if score > alpha ∧ score < beta then
            negated (recurse (wrap_int (-beta)) (wrap_int (-alpha)) (wrap_int (depth - 1))
              board search)
          else some (score, search, board)
      else some (score, search, board)

/-- The `for` loop of `ChessSearch::negamaxSearch` over the moves still to visit, and
the statements after it; `recurse` is the recursive call. -/
def ChessSearch.negamaxSearch_loop
    (recurse : Int → Int → Int → Board → ChessSearch → Option SearchResult)
    (beta depth : Int) (inCheck : Bool) :
    List Move → Int → HashFlag → Int → Int → Board → ChessSearch → Option SearchResult
  | [], alpha, hashFlag, legalMovesCount, _, board, search =>
    if legalMovesCount = 0 then
      if inCheck then
        some (wrap_int (-ChessSearch.MATE_VALUE + search.currentPly), search, board)
      else some (0, search, board)
    else
      some (alpha,
        { search with
          transpositionTable := search.transpositionTable.store alpha depth hashFlag
            board.hash_key search.currentPly },
        board)
  | move :: rest, alpha, hashFlag, legalMovesCount, movesSearched, board, search =>
    let boardCopy := board
    let search := search.enterChild board.hash_key
    let made := board.make_move move
    if !made.1 then
      ChessSearch.negamaxSearch_loop recurse beta depth inCheck rest alpha hashFlag
        legalMovesCount movesSearched made.2 search.leaveChild
    else
      let legalMovesCount := wrap_int (legalMovesCount + 1)
      match ChessSearch.searchMove recurse alpha beta depth inCheck movesSearched move made.2
          search with
      | none => none
      | some (score, search, _) =>
        let search := search.leaveChild
        let board := boardCopy
        if search.searchStopped then some (0, search, board)
        else
          let movesSearched := wrap_int (movesSearched + 1)
          if score > alpha then
            let search := search.raiseAlpha move depth
            if score ≥ beta then
              some (beta, search.betaCutoff move beta depth board.hash_key, board)
            else
              ChessSearch.negamaxSearch_loop recurse beta depth inCheck rest score
                HashFlag.EXACT legalMovesCount movesSearched board search
          else
            ChessSearch.negamaxSearch_loop recurse beta depth inCheck rest alpha hashFlag
              legalMovesCount movesSearched board search

/-- The null-move search of `negamaxSearch` (lines 243 to 267): `some` of a result when
the function returns from inside the block, and otherwise the state and the board with
which the function goes on. -/
def ChessSearch.nullMoveSearch
    (recurse : Int → Int → Int → Board → ChessSearch → Option SearchResult)
    (beta depth : Int) (inCheck : Bool) (board : Board) (search : ChessSearch) :
    Option (Option SearchResult × ChessSearch × Board) :=
  if depth ≥ 3 ∧ inCheck = false ∧ search.currentPly ≠ 0 then
    let boardCopy := board
    let search := search.enterChild board.hash_key
    let board := board.null_move
    match negated (recurse (wrap_int (-beta)) (wrap_int (wrap_int (-beta) + 1))
        (wrap_int (depth - 3)) board search) with
    | none => none
    | some (score, search, _) =>
      let search := search.leaveChild
      let board := boardCopy
      if search.searchStopped then some (some (0, search, board), search, board)
      else if score ≥ beta then some (some (beta, search, board), search, board)
      else some (none, search, board)
  else some (none, search, board)

/-- The method `ChessSearch::negamaxSearch`. -/
def ChessSearch.negamaxSearch (evaluate : Board → Int) :
    Nat → Int → Int → Int → Board → ChessSearch → Option SearchResult
  | 0, _, _, _, _, _ => none
  | fuel + 1, alpha, beta, depth, board, search =>
    let search := { search with
      principalVariationLengths :=
        tab_set search.principalVariationLengths search.currentPly.toNat search.currentPly }
    if search.currentPly ≠ 0
        ∧ (search.isPositionRepeated board.hash_key = true ∨ board.fifty ≥ 100) then
      some (0, search, board)
    else
      let isPrincipalVariationNode := wrap_int (beta - alpha) > 1
      let probed :=
        if ¬ isPrincipalVariationNode ∧ search.currentPly ≠ 0 then
          search.transpositionTable.probe alpha beta depth board.hash_key search.currentPly
        else NO_HASH_ENTRY
      if probed ≠ NO_HASH_ENTRY then some (probed, search, board)
      else
        let search := search.pollTime
        if depth = 0 then
          ChessSearch.quiescenceSearch evaluate (fuel + 1) alpha beta board search
        else if search.currentPly > ChessSearch.MAX_PLY - 1 then
          some (evaluate board, search, board)
        else
          let search := search.countNode
          let inCheck := board.is_sq_attacked
            (get_lsb_index (board.piece_location (5 + 6 * board.side.toNat)))
            (opposite_side board.side)
          let depth := if inCheck then wrap_int (depth + 1) else depth
          match ChessSearch.nullMoveSearch (ChessSearch.negamaxSearch evaluate fuel) beta
              depth inCheck board search with
          | none => none
          | some (some result, _, _) => some result
          | some (none, search, board) =>
            let moves := fill_move_array [] board
            let search :=
              if search.followPrincipalVariation then
                search.enablePrincipalVariationScoring moves
              else search
            let moves := search.sortMoves moves board
            ChessSearch.negamaxSearch_loop (ChessSearch.negamaxSearch evaluate fuel) beta
              depth inCheck moves alpha HashFlag.ALPHA 0 0 board search

/-- The statements of `ChessSearch::findBestMove` before the loop (lines 365 to 383). -/
def ChessSearch.startSearch (search : ChessSearch) : ChessSearch :=
  let now := search.getCurrentTimeMilliseconds
  { now.2 with
    searchStartTime := now.1
    nodesSearched := 0
    searchStopped := false
    followPrincipalVariation := false
    scorePrincipalVariation := false
    killerMoves := fun _ _ => default
    historyMoves := fun _ _ => 0
    principalVariationTable := fun _ _ => default
    principalVariationLengths := fun _ => 0 }

/-- The iterative-deepening loop of `ChessSearch::findBestMove` from `depth` on, with
`iterations` passes of the loop left at most: the string printed after `bestmove`, the
state of the searcher and the board. -/
def ChessSearch.findBestMove_loop (evaluate : Board → Int) (fuel : Nat) (maxDepth : Int) :
    Nat → Int → Int → Int → List Char → Board → ChessSearch →
      Option (List Char × ChessSearch × Board)
  | 0, _, _, _, bestMoveString, board, search => some (bestMoveString, search, board)
  | iterations + 1, depth, alpha, beta, bestMoveString, board, search =>
    if depth > maxDepth then some (bestMoveString, search, board)
    else if search.searchStopped then some (bestMoveString, search, board)
    else
      let search := { search with followPrincipalVariation := true }
      match ChessSearch.negamaxSearch evaluate fuel alpha beta depth board search with
      | none => none
      | some (score, search, board) =>
        if score ≤ alpha ∨ score ≥ beta then
          ChessSearch.findBestMove_loop evaluate fuel maxDepth iterations
            (wrap_int (depth + 1)) (-ChessSearch.INFINITY_VALUE) ChessSearch.INFINITY_VALUE
            bestMoveString board search
        else
          let bestMoveString :=
            if search.principalVariationLengths 0 > 0 then
              moveToString (search.principalVariationTable 0 0)
            else bestMoveString
          ChessSearch.findBestMove_loop evaluate fuel maxDepth iterations
            (wrap_int (depth + 1)) (wrap_int (score - 50)) (wrap_int (score + 50))
            bestMoveString board search

/-- The method `ChessSearch::findBestMove`: the string printed after `bestmove`, the
state of the searcher and the board. -/
def ChessSearch.findBestMove (evaluate : Board → Int) (fuel : Nat) (search : ChessSearch)
    (board : Board) (maxDepth : Int) : Option (List Char × ChessSearch × Board) :=
  ChessSearch.findBestMove_loop evaluate fuel maxDepth maxDepth.toNat 1
    (-ChessSearch.INFINITY_VALUE) ChessSearch.INFINITY_VALUE "none".data board
    search.startSearch

/-- An evaluator for the examples: the material of the side to move minus the material
of the other side, in centipawns (pawn 100, knight 300, bishop 300, rook 500, queen
900). -/
def material_balance (board : Board) : Int :=
  let material : Nat → Int := fun start =>
    100 * (count_bits (board.piece_location start) : Int)
      + 300 * (count_bits (board.piece_location (start + 1)) : Int)
      + 300 * (count_bits (board.piece_location (start + 2)) : Int)
      + 500 * (count_bits (board.piece_location (start + 3)) : Int)
      + 900 * (count_bits (board.piece_location (start + 4)) : Int)
  material (6 * board.side.toNat) - material (6 * (opposite_side board.side).toNat)

/-! ## Notions for the theorems about the search -/

/-- The best of `init` and the values of the moves of the list that pass the test. -/
def best_score (test : Move → Bool) (value : Move → Int) (moves : List Move) (init : Int) :
    Int :=
  moves.foldl (fun best move => if test move then max best (value move) else best) init

/-- The quiescence value of a position with `plies` plies left before `MAX_PLY`: the
static evaluation at the horizon, and otherwise the best of the static evaluation
(standing pat) and, for every capture of the list of `fill_move_array` that `make_move`
accepts, minus the quiescence value of the position it leads to. -/
def quiescence_value (evaluate : Board → Int) : Nat → Board → Int
  | 0, board => evaluate board
  | plies + 1, board =>
    best_score (fun move => move.is_capture && (board.make_move move).1)
      (fun move => -(quiescence_value evaluate plies (board.make_move move).2))
      (fill_move_array [] board) (evaluate board)

/-- A score limited to the window from `alpha` to `beta`, as a fail-hard search returns
it. -/
def clamp_score (value alpha beta : Int) : Int :=
  if value ≥ beta then beta else if value ≤ alpha then alpha else value

/-- The time limit is never found exceeded, whatever reading of the clock comes next. -/
def ChessSearch.unlimited (search : ChessSearch) : Prop :=
  ∀ n, ((search.clock n % 18446744073709551616).toNat + 18446744073709551616
      - search.searchStartTime) % 18446744073709551616 ≤ search.timeAllocated

/-- What the search of a subtree that was not stopped leaves alone: `after` agrees with
`before` in every member except the node counter, the entries of the repetition table
above `repetitionIndex`, and the readings of the clock already taken. -/
structure ChessSearch.Keeps (before after : ChessSearch) : Prop where
  transpositionTable : after.transpositionTable = before.transpositionTable
  currentPly : after.currentPly = before.currentPly
  searchStartTime : after.searchStartTime = before.searchStartTime
  searchStopped : after.searchStopped = before.searchStopped
  timeAllocated : after.timeAllocated = before.timeAllocated
  killerMoves : after.killerMoves = before.killerMoves
  historyMoves : after.historyMoves = before.historyMoves
  repetitionIndex : after.repetitionIndex = before.repetitionIndex
  repetitionTable : ∀ i : Nat, (i : Int) ≤ before.repetitionIndex →
    after.repetitionTable i = before.repetitionTable i
  scorePrincipalVariation : after.scorePrincipalVariation = before.scorePrincipalVariation
  followPrincipalVariation : after.followPrincipalVariation = before.followPrincipalVariation
  principalVariationLengths :
    after.principalVariationLengths = before.principalVariationLengths
  principalVariationTable : after.principalVariationTable = before.principalVariationTable
  clock : ∃ k, ∀ n, after.clock n = before.clock (n + k)

/-- A state of the searcher at `ply` of a search that is not stopped and whose time
limit is never exceeded, with the given transposition table and the given entry 0 of
the repetition table. -/
structure ChessSearch.AtPly (search : ChessSearch) (ply : Int) (table : TranspositionTable)
    (first : Nat) : Prop where
  currentPly : search.currentPly = ply
  repetitionIndex : search.repetitionIndex = ply
  searchStopped : search.searchStopped = false
  unlimited : search.unlimited
  transpositionTable : search.transpositionTable = table
  repetitionTable : search.repetitionTable 0 = first

instance (row col : Int) : Decidable (on_board row col) := by
  unfold on_board; infer_instance

/-! ## bitboard.hpp and attacks.hpp: the lookup tables of the sliding pieces

The header `magics.hpp` (the magic numbers, the relevant-bit counts and the function
`magic_index`) is no part of the sources. The tables of the sliding pieces take the
magic numbers and the relevant-bit counts as parameters, one value for each square. -/

/-- The enumeration `SlidingPiece`. -/
inductive SlidingPiece where
  | bishop
  | rook
  | queen
deriving DecidableEq, Repr

def to_normal_pieces : SlidingPiece → PieceType
  | .bishop => PieceType.bishop
  | .rook => PieceType.rook
  | .queen => PieceType.queen

/-- One direction of the `while` loop of `generate_bishop_mask`: walk from `(r, f)` by
`(dr, df)` while both coordinates lie between 1 and 6, adding each square. At most 6
squares qualify in one direction, so fuel 8 lets the loop run to its own exit. -/
def mask_loop : Nat → Int → Int → Int → Int → Nat → Nat
  | 0, _, _, _, _, attacks => attacks
  | fuel + 1, r, f, dr, df, attacks =>
    if r ≥ 1 ∧ r ≤ 6 ∧ f ≥ 1 ∧ f ≤ 6 then
      mask_loop fuel (r + dr) (f + df) dr df (attacks ||| square_bb (r * 8 + f).toNat)
    else attacks

def generate_bishop_mask (square : Nat) : Nat :=
  let rank : Int := (square / 8 : Nat)
  let file : Int := (square % 8 : Nat)
  bishop_dirs.foldl
    (fun attacks d => mask_loop 8 (rank + d.1) (file + d.2) d.1 d.2 attacks) 0

def generate_rook_mask (square : Nat) : Nat :=
  let rank := square / 8
  let file := square % 8
  let attacks := (List.range' 1 6).foldl
    (fun attacks r => if r ≠ rank then attacks ||| square_bb (r * 8 + file) else attacks) 0
  (List.range' 1 6).foldl
    (fun attacks f => if f ≠ file then attacks ||| square_bb (rank * 8 + f) else attacks)
    attacks

/-- The function `PieceAttackGenerator<PieceType>::generate_mask`. -/
def generate_mask (side : Side) (square : Nat) : PieceType → Nat
  | .pawn => generate_pawn_attacks side square
  | .knight => generate_knight_attacks square
  | .bishop => generate_bishop_mask square
  | .rook => generate_rook_mask square
  | .king => generate_king_attacks square
  | .queen => generate_bishop_mask square ||| generate_rook_mask square

/-- The function `PieceAttackGenerator<SlidingPiece>::generate_attacks`. -/
def generate_attacks (square blockers : Nat) : SlidingPiece → Nat
  | .bishop => generate_bishop_attacks square blockers
  | .rook => generate_rook_attacks square blockers
  | .queen => generate_bishop_attacks square blockers ||| generate_rook_attacks square blockers

/-- The table `bishop_masks[square]`, filled by `generate_mask_table`. -/
def bishop_masks (square : Nat) : Nat := generate_mask Side.any square PieceType.bishop

/-- The table `rook_masks[square]`, filled by `generate_mask_table`. -/
def rook_masks (square : Nat) : Nat := generate_mask Side.any square PieceType.rook

/-- The loop of the constructor `bb(int index, const bb& mask)` with `count` passes
left: `temp_mask` loses its lowest set bit, which goes to `board` when bit
`bit_index` of `index` is set. -/
def bb_index_loop : Nat → Nat → Nat → Nat → Nat → Nat
  | 0, _, _, _, board => board
  | count + 1, bit_index, index, temp_mask, board =>
    let square := get_lsb_index temp_mask
    let temp_mask := pop_bit temp_mask square
    let board := if index &&& (1 <<< bit_index) ≠ 0 then board ||| square_bb square else board
    bb_index_loop count (bit_index + 1) index temp_mask board

/-- The constructor `bb(int index, const bb& mask)`: the subset of the set bits of
`mask` selected by the bits of `index`. -/
def bb_of_index (index mask : Nat) : Nat :=
  bb_index_loop (count_bits mask) 0 index mask 0

/-- Modelled from the spec: `magic_index` is declared in `magics.hpp`, which is not among
the sources. By section 4.1 the table is filled at the index of the lookup, so it is
taken as the computation of `get_slider_attacks` on blockers that lie within the mask:
the product with the magic number, reduced to 64 bits, shifted right by
`64 - relevant_bits`. -/
def magic_index (magic_numbers relevant_bits : Nat → Nat) (square blockers : Nat) : Nat :=
  ((blockers * magic_numbers square) % 2 ^ 64) >>> (64 - relevant_bits square)

/-- The function template `generate_sliding_table`; entries never written are zero. -/
def generate_sliding_table (piece : SlidingPiece) (magic_numbers relevant_bits : Nat → Nat) :
    Nat → Nat → Nat :=
  (List.range 64).foldl
    (fun table square =>
      (List.range (1 <<< count_bits (generate_mask Side.any square (to_normal_pieces piece)))).foldl
        (fun table index =>
          let blockers :=
            bb_of_index index (generate_mask Side.any square (to_normal_pieces piece))
          let magic_idx := magic_index magic_numbers relevant_bits square blockers
          tab2_set table square magic_idx (generate_attacks square blockers piece))
        table)
    (fun _ _ => 0)

/-- The structure `SliderTables`. -/
structure SliderTables where
  masks : Nat → Nat
  magic_numbers : Nat → Nat
  relevant_bits : Nat → Nat
  attacks : Nat → Nat → Nat

/-- The constant `bishop_tables`, for given magic numbers and relevant-bit counts. -/
def bishop_tables (magic_numbers relevant_bits : Nat → Nat) : SliderTables :=
  { masks := bishop_masks
    magic_numbers := magic_numbers
    relevant_bits := relevant_bits
    attacks := generate_sliding_table SlidingPiece.bishop magic_numbers relevant_bits }

/-- The constant `rook_tables`, for given magic numbers and relevant-bit counts. -/
def rook_tables (magic_numbers relevant_bits : Nat → Nat) : SliderTables :=
  { masks := rook_masks
    magic_numbers := magic_numbers
    relevant_bits := relevant_bits
    attacks := generate_sliding_table SlidingPiece.rook magic_numbers relevant_bits }

/-- The function template `get_slider_attacks`. -/
def get_slider_attacks (square occupancy : Nat) (tables : SliderTables) : Nat :=
  let block := occupancy
  let block := block &&& tables.masks square
  let block := (block * tables.magic_numbers square) % 2 ^ 64
  let block := block >>> (64 - tables.relevant_bits square)
  tables.attacks square block

/-! ## evaluation.cpp

The network `nnue_evaluate` is no part of the sources; `evaluate` takes it as a
parameter. -/

def piece_idx_to_nnue_idx (idx : Int) : Int := if idx < 6 then 6 - idx else 18 - idx

def sq_to_nnue_sq (sq : Int) : Int := (7 - Int.tdiv sq 8) * 8 + Int.tmod sq 8

/-- The arrays `pieces` and `squares` of `evaluate` when `nnue_evaluate` is called, up
to and including the terminating zero written at `index`. -/
def evaluate_arrays (board : Board) : List Int × List Int :=
  let pieces : List Int := [piece_idx_to_nnue_idx 5, piece_idx_to_nnue_idx 5]
  let squares : List Int :=
    [sq_to_nnue_sq (get_lsb_index (board.piece_location 5)),
      sq_to_nnue_sq (get_lsb_index (board.piece_location 11))]
  let filled := (List.range (NUMBER_OF_UNIQUE_PIECES * 2)).foldl
    (fun (arrays : List Int × List Int) (piece_idx : Nat) =>
      if piece_idx = 5 ∨ piece_idx = 11 then arrays
      else if board.piece_location piece_idx = 0 then arrays
      else
        (squares_of (board.piece_location piece_idx)).foldl
          (fun (arrays : List Int × List Int) (sq : Nat) =>
            (arrays.1 ++ [piece_idx_to_nnue_idx piece_idx], arrays.2 ++ [sq_to_nnue_sq sq]))
          arrays)
    (pieces, squares)
  (filled.1 ++ [0], filled.2 ++ [0])

/-- The function `evaluate`, for a given network. -/
def evaluate (nnue_evaluate : Int → List Int → List Int → Int) (board : Board) : Int :=
  let arrays := evaluate_arrays board
  wrap_int (Int.tdiv
    (wrap_int (wrap_int (nnue_evaluate board.side.toNat arrays.1 arrays.2)
      * wrap_int (100 - board.fifty))) 100)

/-! ## Notions for the theorems about the lookup tables -/

/-- The index whose bit `j` tells whether the `j`-th square of the list is a blocker:
the index at which the constructor `bb(int index, const bb& mask)` yields the blockers
that lie on the squares of the mask. -/
def index_of_subset (blockers : Nat) : List Nat → Nat
  | [] => 0
  | sq :: rest => (if blockers.testBit sq then 1 else 0) + 2 * index_of_subset blockers rest

/-! ## Notions for the theorems about `sortMoves` and about the frame of the search -/

/-- What the loops of `sortMoves` keep: the scores are the scores of the moves, cell by
cell. -/
def sort_state_ok (score : Move → Int) (n : Nat) (state : MoveArray × List Int) : Prop :=
  state.1.length = n ∧ state.2.length = n
    ∧ ∀ k, k < n → state.2.getD k 0 = score (state.1.getD k default)

/-- A call of a search function returned, with the board it was given and with
`currentPly` and `repetitionIndex` as they were at entry. -/
def returns_restored (result : Option SearchResult) (search : ChessSearch) (board : Board) :
    Prop :=
  ∃ score search', result = some (score, search', board)
    ∧ search'.currentPly = search.currentPly
    ∧ search'.repetitionIndex = search.repetitionIndex

/-! ## The pseudo-legal moves of a position, counted in the words of the rules -/

theorem two_pow_64 : (2 : Nat) ^ 64 = 18446744073709551616 := by norm_num

theorem U64_MAX_eq : U64_MAX = 2 ^ 64 - 1 := by norm_num [U64_MAX]

theorem testBit_shl64 (x k i : Nat) :
    (shl64 x k).testBit i = (decide (i < 64) && (decide (k ≤ i) && x.testBit (i - k))) := by
  unfold shl64
  rw [Nat.testBit_mod_two_pow, Nat.testBit_shiftLeft]

theorem shl64_lt (x k : Nat) : shl64 x k < 2 ^ 64 :=
  Nat.mod_lt _ (by norm_num)

theorem testBit_one (j : Nat) : (1 : Nat).testBit j = decide (j = 0) := by
  cases j with
  | zero => rfl
  | succ n => simp [Nat.testBit_succ]

theorem testBit_square_bb (sq i : Nat) :
    (square_bb sq).testBit i = decide (i = sq ∧ sq < 64) := by
  rw [square_bb, testBit_shl64, testBit_one]
  by_cases h1 : i < 64 <;> by_cases h2 : sq ≤ i <;> by_cases h3 : i = sq <;>
    simp [h1, h2, h3] <;> omega

theorem square_bb_lt (sq : Nat) : square_bb sq < 2 ^ 64 := shl64_lt 1 sq

theorem square_bb_eq (sq : Nat) (h : sq < 64) : square_bb sq = 2 ^ sq := by
  apply Nat.eq_of_testBit_eq
  intro i
  rw [testBit_square_bb, Nat.testBit_two_pow]
  by_cases h3 : i = sq
  · simp [h3, h]
  · have h4 : ¬ sq = i := fun e => h3 e.symm
    simp [h3, h4]

theorem testBit_of_lt_64 {x i : Nat} (hx : x < 2 ^ 64) (h : x.testBit i = true) : i < 64 := by
  by_contra hi
  have : x.testBit i = false :=
    Nat.testBit_lt_two_pow (lt_of_lt_of_le hx (Nat.pow_le_pow_right (by norm_num) (by omega)))
  simp [this] at h

theorem testBit_U64_MAX (i : Nat) : U64_MAX.testBit i = decide (i < 64) := by
  rw [U64_MAX_eq, Nat.testBit_two_pow_sub_one]

theorem testBit_not64 (x i : Nat) :
    (not64 x).testBit i = xor (x.testBit i) (decide (i < 64)) := by
  simp [not64, testBit_U64_MAX]

theorem not64_lt {x : Nat} (hx : x < 2 ^ 64) : not64 x < 2 ^ 64 := by
  unfold not64
  exact Nat.xor_lt_two_pow hx (by norm_num [U64_MAX])

theorem testBit_set_bit (b sq i : Nat) :
    (set_bit b sq).testBit i = (b.testBit i || decide (i = sq ∧ sq < 64)) := by
  simp [set_bit, testBit_square_bb]

theorem set_bit_lt {b : Nat} (hb : b < 2 ^ 64) (sq : Nat) : set_bit b sq < 2 ^ 64 :=
  Nat.or_lt_two_pow hb (square_bb_lt sq)

theorem testBit_pop_bit {b : Nat} (hb : b < 2 ^ 64) (sq i : Nat) :
    (pop_bit b sq).testBit i = (b.testBit i && !decide (i = sq)) := by
  simp only [pop_bit, Nat.testBit_and, testBit_not64, testBit_square_bb]
  by_cases hbi : b.testBit i = true
  · have hi := testBit_of_lt_64 hb hbi
    by_cases h3 : i = sq
    · subst h3; simp [hi]
    · simp [hi, h3]
  · simp [hbi]

theorem pop_bit_lt {b : Nat} (hb : b < 2 ^ 64) (sq : Nat) : pop_bit b sq < 2 ^ 64 :=
  lt_of_le_of_lt Nat.and_le_left hb

theorem get_bit_eq_testBit (b sq : Nat) : get_bit b sq = b.testBit sq := by
  simp [get_bit, Nat.testBit, Nat.and_comm]

theorem and_ne_zero_iff_exists (a b : Nat) :
    a &&& b ≠ 0 ↔ ∃ i, a.testBit i = true ∧ b.testBit i = true := by
  constructor
  · intro h
    obtain ⟨i, hi⟩ := Nat.ne_zero_implies_bit_true h
    exact ⟨i, by simpa using hi⟩
  · rintro ⟨i, h1, h2⟩ h0
    have : (a &&& b).testBit i = true := by simp [h1, h2]
    simp [h0] at this

theorem and_eq_zero_iff_forall (a b : Nat) :
    a &&& b = 0 ↔ ∀ i, ¬(a.testBit i = true ∧ b.testBit i = true) := by
  have := and_ne_zero_iff_exists a b
  constructor
  · intro h i hi
    exact (this.2 ⟨i, hi⟩) h
  · intro h
    by_contra h0
    obtain ⟨i, hi⟩ := this.1 h0
    exact h i hi

/-! ### The lowest set bit and the bit-scan loop -/

theorem ctz_aux_eq (fuel : Nat) : ∀ (b j : Nat), j < fuel → b.testBit j = true →
    (∀ k, k < j → b.testBit k = false) → ctz_aux fuel b = j := by
  induction fuel with
  | zero => intro b j hj; omega
  | succ fuel ih =>
    intro b j hj hbit hlow
    unfold ctz_aux
    by_cases h0 : b % 2 = 1
    · rw [if_pos h0]
      by_contra hne
      have hj0 : 0 < j := Nat.pos_of_ne_zero (fun e => hne e.symm)
      have := hlow 0 hj0
      rw [Nat.testBit_zero] at this
      simp [h0] at this
    · rw [if_neg h0]
      cases j with
      | zero =>
        rw [Nat.testBit_zero] at hbit
        simp at hbit
        exact absurd hbit h0
      | succ j' =>
        have h1 : ctz_aux fuel (b / 2) = j' := by
          apply ih (b / 2) j' (by omega)
          · rw [← Nat.testBit_succ]; exact hbit
          · intro k hk
            rw [← Nat.testBit_succ]
            exact hlow (k + 1) (by omega)
        omega

theorem exists_lowest_bit {b : Nat} (h : b ≠ 0) :
    ∃ j, b.testBit j = true ∧ ∀ k, k < j → b.testBit k = false := by
  have hex : ∃ j, b.testBit j = true := Nat.ne_zero_implies_bit_true h
  refine ⟨Nat.find hex, Nat.find_spec hex, ?_⟩
  intro k hk
  have := Nat.find_min hex hk
  simpa using this

theorem get_lsb_index_spec {b : Nat} (hb : b < 2 ^ 64) (h : b ≠ 0) :
    get_lsb_index b < 64 ∧ b.testBit (get_lsb_index b) = true
      ∧ ∀ k, k < get_lsb_index b → b.testBit k = false := by
  obtain ⟨j, hj, hlow⟩ := exists_lowest_bit h
  have hj64 := testBit_of_lt_64 hb hj
  have e : get_lsb_index b = j := ctz_aux_eq 64 b j hj64 hj hlow
  rw [e]
  exact ⟨hj64, hj, hlow⟩

theorem bit_loop_eq (fuel : Nat) : ∀ (k b : Nat), b < 2 ^ 64 →
    (∀ i, i < k → b.testBit i = false) → 64 ≤ fuel + k → k ≤ 64 →
    bit_loop fuel b = (List.range' k (64 - k)).filter (fun i => b.testBit i) := by
  induction fuel with
  | zero =>
    intro k b _ _ hf hk
    have : 64 - k = 0 := by omega
    simp [bit_loop, this]
  | succ fuel ih =>
    intro k b hb hlow hf hk
    unfold bit_loop
    by_cases h0 : b = 0
    · subst h0
      simp
    · rw [if_neg h0]
      obtain ⟨hj64, hj, hjlow⟩ := get_lsb_index_spec hb h0
      generalize get_lsb_index b = j at hj64 hj hjlow
      have hkj : k ≤ j := by
        by_contra hlt
        have := hlow j (by omega)
        simp [this] at hj
      have hb' : pop_bit b j < 2 ^ 64 := pop_bit_lt hb j
      have hrec := ih (j + 1) (pop_bit b j) hb'
        (by
          intro i hi
          rw [testBit_pop_bit hb]
          by_cases hij : i = j
          · simp [hij]
          · have := hjlow i (by omega)
            simp [this])
        (by omega) (by omega)
      rw [hrec]
      have hsplit : List.range' k (64 - k)
          = List.range' k (j - k) ++ (j :: List.range' (j + 1) (64 - (j + 1))) := by
        have e1 : 64 - k = ((64 - (j + 1)) + 1) + (j - k) := by omega
        have e2 : k + (j - k) = j := by omega
        rw [e1, ← List.range'_append_1 k (j - k) ((64 - (j + 1)) + 1), e2,
          ← List.range'_append_1 j 1 (64 - (j + 1))]
        simp [List.range']
      rw [hsplit, List.filter_append, List.filter_cons, if_pos hj]
      have hnil : (List.range' k (j - k)).filter (fun i => b.testBit i) = [] := by
        rw [List.filter_eq_nil_iff]
        intro i hi
        rw [List.mem_range'_1] at hi
        have := hjlow i (by omega)
        simp [this]
      rw [hnil, List.nil_append]
      congr 1
      apply List.filter_congr
      intro i hi
      rw [List.mem_range'_1] at hi
      rw [testBit_pop_bit hb]
      have : i ≠ j := by omega
      simp [this]

theorem squares_of_eq {b : Nat} (hb : b < 2 ^ 64) :
    squares_of b = (List.range 64).filter (fun i => b.testBit i) := by
  have := bit_loop_eq 64 0 b hb (by intro i hi; omega) (by omega) (by omega)
  rw [squares_of, this, List.range_eq_range']

theorem mem_squares_of {b : Nat} (hb : b < 2 ^ 64) (sq : Nat) :
    sq ∈ squares_of b ↔ b.testBit sq = true := by
  rw [squares_of_eq hb, List.mem_filter, List.mem_range]
  constructor
  · intro h; exact h.2
  · intro h; exact ⟨testBit_of_lt_64 hb h, h⟩

theorem or_shift_eq_add (a b k : Nat) (h : a < 2 ^ k) : a ||| (b <<< k) = a + b * 2 ^ k := by
  rw [Nat.shiftLeft_eq, Nat.or_comm, Nat.mul_comm b, ← Nat.mul_add_lt_is_or h, Nat.add_comm]

theorem Move.new_body (from_sq to_sq : Nat) (piece : PieceType) (side_of_piece : Side)
    (prom_pce : PieceType) (side_of_prom : Side) (flag : MoveFlag) (is_capture : Bool)
    (hf : from_sq < 64) (ht : to_sq < 64) :
    (Move.new from_sq to_sq piece side_of_piece prom_pce side_of_prom flag is_capture).body
      = from_sq + to_sq * 64 + piece.toNat * 4096 + side_of_piece.toNat * 32768
        + prom_pce.toNat * 131072 + side_of_prom.toNat * 1048576 + flag.toNat * 4194304
        + (if is_capture then 1 else 0) * 33554432 := by
  have hp : piece.toNat < 8 := by cases piece <;> simp [PieceType.toNat]
  have hpp : prom_pce.toNat < 8 := by cases prom_pce <;> simp [PieceType.toNat]
  have hs : side_of_piece.toNat < 4 := by cases side_of_piece <;> simp [Side.toNat]
  have hps : side_of_prom.toNat < 4 := by cases side_of_prom <;> simp [Side.toNat]
  have hfl : flag.toNat < 8 := by cases flag <;> simp [MoveFlag.toNat]
  have e1 : from_sq &&& 0x3F = from_sq := Nat.and_pow_two_sub_one_of_lt_two_pow (n := 6) hf
  have e2 : to_sq &&& 0x3F = to_sq := Nat.and_pow_two_sub_one_of_lt_two_pow (n := 6) ht
  have e3 : piece.toNat &&& 0x7 = piece.toNat := Nat.and_pow_two_sub_one_of_lt_two_pow (n := 3) hp
  have e4 : side_of_piece.toNat &&& 0x3 = side_of_piece.toNat :=
    Nat.and_pow_two_sub_one_of_lt_two_pow (n := 2) hs
  have e5 : prom_pce.toNat &&& 0x7 = prom_pce.toNat :=
    Nat.and_pow_two_sub_one_of_lt_two_pow (n := 3) hpp
  have e6 : side_of_prom.toNat &&& 0x3 = side_of_prom.toNat :=
    Nat.and_pow_two_sub_one_of_lt_two_pow (n := 2) hps
  have e7 : flag.toNat &&& 0x7 = flag.toNat := Nat.and_pow_two_sub_one_of_lt_two_pow (n := 3) hfl
  have hc : (if is_capture then 1 else 0 : Nat) < 2 := by cases is_capture <;> simp
  simp only [Move.new, e1, e2, e3, e4, e5, e6, e7]
  rw [or_shift_eq_add _ _ 6 (by omega), or_shift_eq_add _ _ 12 (by omega),
    or_shift_eq_add _ _ 15 (by omega), or_shift_eq_add _ _ 17 (by omega),
    or_shift_eq_add _ _ 20 (by omega), or_shift_eq_add _ _ 22 (by omega),
    or_shift_eq_add _ _ 25 (by omega)]
  norm_num

theorem PieceType.cast_toNat_piece (p : PieceType) : PieceType.cast p.toNat = p := by
  cases p <;> rfl

theorem Side.cast_toNat_side (s : Side) : Side.cast s.toNat = s := by
  cases s <;> rfl

theorem PieceType.toNat_inj_piece {p q : PieceType} (h : p.toNat = q.toNat) : p = q := by
  cases p <;> cases q <;> simp [PieceType.toNat] at h <;> rfl

theorem Side.toNat_inj_side {p q : Side} (h : p.toNat = q.toNat) : p = q := by
  cases p <;> cases q <;> simp [Side.toNat] at h <;> rfl

theorem MoveFlag.toNat_inj_flag {p q : MoveFlag} (h : p.toNat = q.toNat) : p = q := by
  cases p <;> cases q <;> simp [MoveFlag.toNat] at h <;> rfl

theorem PieceType.toNat_lt_eight (p : PieceType) : p.toNat < 8 := by
  cases p <;> simp [PieceType.toNat]

theorem Side.toNat_lt_four (s : Side) : s.toNat < 4 := by
  cases s <;> simp [Side.toNat]

theorem MoveFlag.toNat_lt_eight_flag (f : MoveFlag) : f.toNat < 8 := by
  cases f <;> simp [MoveFlag.toNat]

theorem cap_bit_lt (c : Bool) : (if c then 1 else 0 : Nat) < 2 := by
  cases c <;> simp

/-- The getters read back the fields of a move whose packed word is the sum of
the shifted fields. -/
theorem Move.getters_of_body (m : Move) (from_sq to_sq : Nat) (piece : PieceType)
    (side_of_piece : Side) (prom_pce : PieceType) (side_of_prom : Side) (flag : MoveFlag)
    (is_capture : Bool) (hf : from_sq < 64) (ht : to_sq < 64)
    (hb : m.body = from_sq + to_sq * 64 + piece.toNat * 4096 + side_of_piece.toNat * 32768
        + prom_pce.toNat * 131072 + side_of_prom.toNat * 1048576 + flag.toNat * 4194304
        + (if is_capture then 1 else 0) * 33554432) :
    m.get_from_sq = from_sq ∧ m.get_to_sq = to_sq ∧ m.get_piece = piece
      ∧ m.get_side_of_piece = side_of_piece ∧ m.get_prom_piece = prom_pce
      ∧ m.get_prom_side = side_of_prom
      ∧ m.is_double_pawn = decide (flag = MoveFlag.PAWN_START)
      ∧ m.is_castle = decide (flag = MoveFlag.CASTLE)
      ∧ m.is_enpassant = decide (flag = MoveFlag.EN_PASSANT)
      ∧ m.is_capture = is_capture
      ∧ m.is_promo = decide (side_of_prom ≠ Side.any)
      ∧ m.body < 2 ^ 26 := by
  obtain ⟨w⟩ := m
  simp only at hb
  have hp := piece.toNat_lt_eight
  have hpp := prom_pce.toNat_lt_eight
  have hs := side_of_piece.toNat_lt_four
  have hps := side_of_prom.toNat_lt_four
  have hfl := flag.toNat_lt_eight_flag
  have hc := cap_bit_lt is_capture
  have m63 : ∀ x : Nat, x &&& 0x3F = x % 64 := fun x => Nat.and_pow_two_sub_one_eq_mod x 6
  have m7 : ∀ x : Nat, x &&& 0x7 = x % 8 := fun x => Nat.and_pow_two_sub_one_eq_mod x 3
  have m3 : ∀ x : Nat, x &&& 0x3 = x % 4 := fun x => Nat.and_pow_two_sub_one_eq_mod x 2
  have m1 : ∀ x : Nat, x &&& 0x1 = x % 2 := fun x => Nat.and_pow_two_sub_one_eq_mod x 1
  have g1 : w &&& 0x3F = from_sq := by rw [m63]; omega
  have g2 : (w >>> 6) &&& 0x3F = to_sq := by
    rw [m63, Nat.shiftRight_eq_div_pow]; norm_num; omega
  have g3 : (w >>> 12) &&& 0x7 = piece.toNat := by
    rw [m7, Nat.shiftRight_eq_div_pow]; norm_num; omega
  have g4 : (w >>> 15) &&& 0x3 = side_of_piece.toNat := by
    rw [m3, Nat.shiftRight_eq_div_pow]; norm_num; omega
  have g5 : (w >>> 17) &&& 0x7 = prom_pce.toNat := by
    rw [m7, Nat.shiftRight_eq_div_pow]; norm_num; omega
  have g6 : (w >>> 20) &&& 0x3 = side_of_prom.toNat := by
    rw [m3, Nat.shiftRight_eq_div_pow]; norm_num; omega
  have g7 : (w >>> 22) &&& 0x7 = flag.toNat := by
    rw [m7, Nat.shiftRight_eq_div_pow]; norm_num; omega
  have g8 : (w >>> 25) &&& 0x1 = (if is_capture then 1 else 0) := by
    rw [m1, Nat.shiftRight_eq_div_pow]; norm_num; omega
  refine ⟨g1, g2, ?_, ?_, ?_, ?_, ?_, ?_, ?_, ?_, ?_, ?_⟩
  · simp only [Move.get_piece, g3, PieceType.cast_toNat_piece]
  · simp only [Move.get_side_of_piece, g4, Side.cast_toNat_side]
  · simp only [Move.get_prom_piece, g5, PieceType.cast_toNat_piece]
  · simp only [Move.get_prom_side, g6, Side.cast_toNat_side]
  · simp only [Move.is_double_pawn, g7]; cases flag <;> rfl
  · simp only [Move.is_castle, g7]; cases flag <;> rfl
  · simp only [Move.is_enpassant, g7]; cases flag <;> rfl
  · simp only [Move.is_capture, g8]; cases is_capture <;> rfl
  · simp only [Move.is_promo, g6, Side.cast_toNat_side]; cases side_of_prom <;> rfl
  · show w < 2 ^ 26
    omega

/-- The getters read back the fields of a constructed move. -/
theorem Move.getters_new (from_sq to_sq : Nat) (piece : PieceType) (side_of_piece : Side)
    (prom_pce : PieceType) (side_of_prom : Side) (flag : MoveFlag) (is_capture : Bool)
    (hf : from_sq < 64) (ht : to_sq < 64) :
    (Move.new from_sq to_sq piece side_of_piece prom_pce side_of_prom flag
        is_capture).get_from_sq = from_sq
      ∧ (Move.new from_sq to_sq piece side_of_piece prom_pce side_of_prom flag
        is_capture).get_to_sq = to_sq
      ∧ (Move.new from_sq to_sq piece side_of_piece prom_pce side_of_prom flag
        is_capture).get_piece = piece
      ∧ (Move.new from_sq to_sq piece side_of_piece prom_pce side_of_prom flag
        is_capture).get_side_of_piece = side_of_piece
      ∧ (Move.new from_sq to_sq piece side_of_piece prom_pce side_of_prom flag
        is_capture).get_prom_piece = prom_pce
      ∧ (Move.new from_sq to_sq piece side_of_piece prom_pce side_of_prom flag
        is_capture).get_prom_side = side_of_prom
      ∧ (Move.new from_sq to_sq piece side_of_piece prom_pce side_of_prom flag
        is_capture).is_double_pawn = decide (flag = MoveFlag.PAWN_START)
      ∧ (Move.new from_sq to_sq piece side_of_piece prom_pce side_of_prom flag
        is_capture).is_castle = decide (flag = MoveFlag.CASTLE)
      ∧ (Move.new from_sq to_sq piece side_of_piece prom_pce side_of_prom flag
        is_capture).is_enpassant = decide (flag = MoveFlag.EN_PASSANT)
      ∧ (Move.new from_sq to_sq piece side_of_piece prom_pce side_of_prom flag
        is_capture).is_capture = is_capture
      ∧ (Move.new from_sq to_sq piece side_of_piece prom_pce side_of_prom flag
        is_capture).is_promo = decide (side_of_prom ≠ Side.any)
      ∧ (Move.new from_sq to_sq piece side_of_piece prom_pce side_of_prom flag
        is_capture).body < 2 ^ 26 :=
  Move.getters_of_body _ from_sq to_sq piece side_of_piece prom_pce side_of_prom flag
    is_capture hf ht (Move.new_body from_sq to_sq piece side_of_piece prom_pce side_of_prom
      flag is_capture hf ht)

/-- C10: for squares in 0..63 and fields taken from the enumerations, the getters of a
constructed move return exactly the constructor's arguments, `is_promo` holds iff the
promotion side is not `any`, the packed word is below `2 ^ 26`, and two constructed
moves compare equal (`operator==`) iff all eight fields are equal. -/
theorem Move.constructor_getters_roundtrip (from_sq to_sq : Nat) (piece : PieceType)
    (side_of_piece : Side) (prom_pce : PieceType) (side_of_prom : Side) (flag : MoveFlag)
    (is_capture : Bool) (hf : from_sq < 64) (ht : to_sq < 64) :
    (Move.new from_sq to_sq piece side_of_piece prom_pce side_of_prom flag
        is_capture).get_from_sq = from_sq
      ∧ (Move.new from_sq to_sq piece side_of_piece prom_pce side_of_prom flag
        is_capture).get_to_sq = to_sq
      ∧ (Move.new from_sq to_sq piece side_of_piece prom_pce side_of_prom flag
        is_capture).get_piece = piece
      ∧ (Move.new from_sq to_sq piece side_of_piece prom_pce side_of_prom flag
        is_capture).get_side_of_piece = side_of_piece
      ∧ (Move.new from_sq to_sq piece side_of_piece prom_pce side_of_prom flag
        is_capture).get_prom_piece = prom_pce
      ∧ (Move.new from_sq to_sq piece side_of_piece prom_pce side_of_prom flag
        is_capture).get_prom_side = side_of_prom
      ∧ ((Move.new from_sq to_sq piece side_of_piece prom_pce side_of_prom flag
        is_capture).is_double_pawn = true ↔ flag = MoveFlag.PAWN_START)
      ∧ ((Move.new from_sq to_sq piece side_of_piece prom_pce side_of_prom flag
        is_capture).is_castle = true ↔ flag = MoveFlag.CASTLE)
      ∧ ((Move.new from_sq to_sq piece side_of_piece prom_pce side_of_prom flag
        is_capture).is_enpassant = true ↔ flag = MoveFlag.EN_PASSANT)
      ∧ (Move.new from_sq to_sq piece side_of_piece prom_pce side_of_prom flag
        is_capture).is_capture = is_capture
      ∧ ((Move.new from_sq to_sq piece side_of_piece prom_pce side_of_prom flag
        is_capture).is_promo = true ↔ side_of_prom ≠ Side.any)
      ∧ (Move.new from_sq to_sq piece side_of_piece prom_pce side_of_prom flag
        is_capture).body < 2 ^ 26
      ∧ ∀ (from_sq2 to_sq2 : Nat) (piece2 : PieceType) (side_of_piece2 : Side)
          (prom_pce2 : PieceType) (side_of_prom2 : Side) (flag2 : MoveFlag)
          (is_capture2 : Bool), from_sq2 < 64 → to_sq2 < 64 →
          ((Move.new from_sq to_sq piece side_of_piece prom_pce side_of_prom flag
              is_capture).op_eq
            (Move.new from_sq2 to_sq2 piece2 side_of_piece2 prom_pce2 side_of_prom2 flag2
              is_capture2) = true
            ↔ from_sq = from_sq2 ∧ to_sq = to_sq2 ∧ piece = piece2
              ∧ side_of_piece = side_of_piece2 ∧ prom_pce = prom_pce2
              ∧ side_of_prom = side_of_prom2 ∧ flag = flag2 ∧ is_capture = is_capture2) := by
  obtain ⟨g1, g2, g3, g4, g5, g6, g7, g8, g9, g10, g11, g12⟩ :=
    Move.getters_new from_sq to_sq piece side_of_piece prom_pce side_of_prom flag
      is_capture hf ht
  refine ⟨g1, g2, g3, g4, g5, g6, ?_, ?_, ?_, g10, ?_, g12, ?_⟩
  · rw [g7]; simp
  · rw [g8]; simp
  · rw [g9]; simp
  · rw [g11]; simp
  · intro from_sq2 to_sq2 piece2 side_of_piece2 prom_pce2 side_of_prom2 flag2 is_capture2
      hf2 ht2
    obtain ⟨k1, k2, k3, k4, k5, k6, k7, k8, k9, k10, -, -⟩ :=
      Move.getters_new from_sq2 to_sq2 piece2 side_of_piece2 prom_pce2 side_of_prom2 flag2
        is_capture2 hf2 ht2
    constructor
    · intro h
      have hm : Move.new from_sq to_sq piece side_of_piece prom_pce side_of_prom flag
            is_capture
          = Move.new from_sq2 to_sq2 piece2 side_of_piece2 prom_pce2 side_of_prom2 flag2
            is_capture2 := by
        have hbody := of_decide_eq_true h
        exact congrArg Move.mk hbody
      rw [hm] at g1 g2 g3 g4 g5 g6 g7 g8 g9 g10
      refine ⟨g1.symm.trans k1, g2.symm.trans k2, g3.symm.trans k3, g4.symm.trans k4,
        g5.symm.trans k5, g6.symm.trans k6, ?_, g10.symm.trans k10⟩
      have e7 := g7.symm.trans k7
      have e8 := g8.symm.trans k8
      have e9 := g9.symm.trans k9
      cases flag <;> cases flag2 <;> simp at e7 e8 e9 ⊢
    · rintro ⟨rfl, rfl, rfl, rfl, rfl, rfl, rfl, rfl⟩
      simp [Move.op_eq]

/-- C10 at a concrete move: the white pawn capture e7xd8 promoting to a queen. -/
theorem Move.constructor_getters_roundtrip_witness :
    (12 < 64 ∧ 3 < 64) ∧
    ((Move.new 12 3 PieceType.pawn Side.white PieceType.queen Side.white MoveFlag.NO_FLAG
        true).get_from_sq = 12
      ∧ (Move.new 12 3 PieceType.pawn Side.white PieceType.queen Side.white MoveFlag.NO_FLAG
        true).is_capture = true
      ∧ (Move.new 12 3 PieceType.pawn Side.white PieceType.queen Side.white MoveFlag.NO_FLAG
        true).body < 2 ^ 26) :=
  ⟨⟨by decide, by decide⟩,
    (Move.constructor_getters_roundtrip 12 3 PieceType.pawn Side.white PieceType.queen
      Side.white MoveFlag.NO_FLAG true (by decide) (by decide)).1,
    (Move.constructor_getters_roundtrip 12 3 PieceType.pawn Side.white PieceType.queen
      Side.white MoveFlag.NO_FLAG true (by decide) (by decide)).2.2.2.2.2.2.2.2.2.1,
    (Move.constructor_getters_roundtrip 12 3 PieceType.pawn Side.white PieceType.queen
      Side.white MoveFlag.NO_FLAG true (by decide) (by decide)).2.2.2.2.2.2.2.2.2.2.2.1⟩

/-! ## The move generator only appends, and what it appends -/

theorem foldl_append_only {α : Type} (f : MoveArray → α → MoveArray)
    (hf : ∀ moves x, f moves x = moves ++ f [] x) (l : List α) (moves : MoveArray) :
    l.foldl f moves = moves ++ l.flatMap (f []) := by
  induction l generalizing moves with
  | nil => simp
  | cons x xs ih =>
    rw [List.foldl_cons, ih, hf moves x, List.flatMap_cons, List.append_assoc]

theorem add_move_eq (moves : MoveArray) (from_sq to_sq : Nat) (piece : PieceType)
    (piece_side : Side) (promo_piece : PieceType) (promo_side : Side) (flag : MoveFlag)
    (is_capture : Bool) :
    add_move moves from_sq to_sq piece piece_side promo_piece promo_side flag is_capture
      = moves ++ [Move.new from_sq to_sq piece piece_side promo_piece promo_side flag
          is_capture] := rfl

theorem add_promotion_moves_eq (moves : MoveArray) (from_sq to_sq : Nat) (side : Side)
    (is_capture : Bool) :
    add_promotion_moves moves from_sq to_sq side is_capture
      = moves ++ [Move.new from_sq to_sq PieceType.pawn side PieceType.queen side
            MoveFlag.NO_FLAG is_capture,
          Move.new from_sq to_sq PieceType.pawn side PieceType.rook side
            MoveFlag.NO_FLAG is_capture,
          Move.new from_sq to_sq PieceType.pawn side PieceType.bishop side
            MoveFlag.NO_FLAG is_capture,
          Move.new from_sq to_sq PieceType.pawn side PieceType.knight side
            MoveFlag.NO_FLAG is_capture] := by
  simp [add_promotion_moves, add_move_eq]

theorem handle_pawn_push_append (moves : MoveArray) (from_sq : Nat) (to_sq : Int)
    (side : Side) (rank promo_rank : Int) :
    handle_pawn_push moves from_sq to_sq side rank promo_rank
      = moves ++ handle_pawn_push [] from_sq to_sq side rank promo_rank := by
  unfold handle_pawn_push
  split <;> simp [add_promotion_moves_eq, add_move_eq]

theorem handle_double_pawn_push_append (moves : MoveArray) (board : Board) (from_sq : Nat)
    (direction : Int) (side : Side) (rank start_rank : Int) :
    handle_double_pawn_push moves board from_sq direction side rank start_rank
      = moves ++ handle_double_pawn_push [] board from_sq direction side rank start_rank := by
  unfold handle_double_pawn_push
  split
  · simp
  · simp only
    split <;> simp [add_move_eq]

theorem handle_pawn_captures_append (moves : MoveArray) (from_sq : Nat) (side : Side)
    (rank promo_rank : Int) (enemy_pieces : Nat) :
    handle_pawn_captures moves from_sq side rank promo_rank enemy_pieces
      = moves ++ handle_pawn_captures [] from_sq side rank promo_rank enemy_pieces := by
  unfold handle_pawn_captures
  simp only
  rw [foldl_append_only _ _ _ moves, foldl_append_only _ _ _ []]
  · simp
  all_goals
    intro acc x
    split <;> simp [add_promotion_moves_eq, add_move_eq]

theorem handle_en_passant_append (moves : MoveArray) (board : Board) (from_sq : Nat)
    (side : Side) :
    handle_en_passant moves board from_sq side
      = moves ++ handle_en_passant [] board from_sq side := by
  unfold handle_en_passant
  simp only
  split
  · simp
  · split <;> simp [add_move_eq]

theorem generate_pawn_moves_body_append (board : Board) (side : Side) (moves : MoveArray)
    (from_sq : Nat) :
    generate_pawn_moves_body board side moves from_sq
      = moves ++ generate_pawn_moves_body board side [] from_sq := by
  unfold generate_pawn_moves_body
  simp only
  rw [handle_en_passant_append, handle_pawn_captures_append]
  conv_rhs => rw [handle_en_passant_append, handle_pawn_captures_append]
  split
  · rw [handle_double_pawn_push_append, handle_pawn_push_append]
    conv_rhs => rw [handle_double_pawn_push_append]
    simp [List.append_assoc]
  · simp [List.append_assoc]

theorem generate_pawn_moves_eq (moves : MoveArray) (board : Board) (side : Side) :
    generate_pawn_moves moves board side
      = moves ++ (squares_of (board.get_piece_bitboard PieceType.pawn side)).flatMap
          (generate_pawn_moves_body board side []) := by
  unfold generate_pawn_moves
  exact foldl_append_only _ (generate_pawn_moves_body_append board side) _ _

theorem generate_piece_moves_body_eq (piece_type : PieceType) (board : Board) (side : Side)
    (moves : MoveArray) (from_sq : Nat) :
    generate_piece_moves_body piece_type board side moves from_sq
      = moves ++ (squares_of (piece_attacks piece_type from_sq board.get_all_occupancy
            &&& not64 (board.get_occupancy side))).map
          (fun to_sq => Move.new from_sq to_sq piece_type side PieceType.pawn Side.any
            MoveFlag.NO_FLAG (get_bit (board.get_occupancy (opposite_side side)) to_sq)) := by
  unfold generate_piece_moves_body
  simp only
  rw [foldl_append_only _ _ _ moves]
  · congr 1
    generalize squares_of _ = l
    induction l with
    | nil => rfl
    | cons x xs ih =>
      rw [List.flatMap_cons, ih]
      simp [add_move_eq]
  · intro acc x
    simp [add_move_eq]

theorem generate_piece_moves_eq (piece_type : PieceType) (moves : MoveArray) (board : Board)
    (side : Side) :
    generate_piece_moves piece_type moves board side
      = moves ++ (squares_of (board.get_piece_bitboard piece_type side)).flatMap
          (generate_piece_moves_body piece_type board side []) := by
  unfold generate_piece_moves
  apply foldl_append_only
  intro acc x
  rw [generate_piece_moves_body_eq, generate_piece_moves_body_eq piece_type board side []]
  simp

theorem generate_castling_moves_append (moves : MoveArray) (board : Board) (side : Side) :
    generate_castling_moves moves board side
      = moves ++ generate_castling_moves [] board side := by
  unfold generate_castling_moves
  simp only
  split <;> split <;> simp [add_move_eq]

/-- The move list of `fill_move_array`, section by section. -/
theorem fill_move_array_eq (moves : MoveArray) (board : Board) :
    fill_move_array moves board
      = moves
        ++ (squares_of (board.get_piece_bitboard PieceType.pawn board.side)).flatMap
            (generate_pawn_moves_body board board.side [])
        ++ (squares_of (board.get_piece_bitboard PieceType.knight board.side)).flatMap
            (generate_piece_moves_body PieceType.knight board board.side [])
        ++ (squares_of (board.get_piece_bitboard PieceType.bishop board.side)).flatMap
            (generate_piece_moves_body PieceType.bishop board board.side [])
        ++ (squares_of (board.get_piece_bitboard PieceType.rook board.side)).flatMap
            (generate_piece_moves_body PieceType.rook board board.side [])
        ++ (squares_of (board.get_piece_bitboard PieceType.queen board.side)).flatMap
            (generate_piece_moves_body PieceType.queen board board.side [])
        ++ (squares_of (board.get_piece_bitboard PieceType.king board.side)).flatMap
            (generate_piece_moves_body PieceType.king board board.side [])
        ++ generate_castling_moves [] board board.side := by
  unfold fill_move_array
  simp only
  rw [generate_castling_moves_append, generate_piece_moves_eq, generate_piece_moves_eq,
    generate_piece_moves_eq, generate_piece_moves_eq, generate_piece_moves_eq,
    generate_pawn_moves_eq]


theorem handle_pawn_captures_nil (from_sq : Nat) (side : Side) (rank promo_rank : Int)
    (enemy_pieces : Nat) :
    handle_pawn_captures [] from_sq side rank promo_rank enemy_pieces
      = (squares_of (pawn_masks side.toNat from_sq &&& enemy_pieces)).flatMap
          (fun capture_sq =>
            if rank = promo_rank then add_promotion_moves [] from_sq capture_sq side true
            else add_move [] from_sq capture_sq PieceType.pawn side PieceType.pawn Side.any
              MoveFlag.NO_FLAG true) := by
  unfold handle_pawn_captures
  simp only
  rw [foldl_append_only]
  · simp
  · intro acc x
    split <;> simp [add_promotion_moves_eq, add_move_eq]

theorem generated_of_mem_pawn_body (board : Board) (from_sq : Nat) (m : Move)
    (hfrom : from_sq ∈ squares_of (board.get_piece_bitboard PieceType.pawn board.side))
    (hm : m ∈ generate_pawn_moves_body board board.side [] from_sq) : Generated board m := by
  unfold generate_pawn_moves_body at hm
  simp only at hm
  rw [handle_en_passant_append, handle_pawn_captures_append] at hm
  rw [List.mem_append, List.mem_append] at hm
  rcases hm with (hm | hm) | hm
  · -- pushes
    split at hm
    · rename_i hfree
      have hfree' : get_bit board.get_all_occupancy
          ((from_sq : Int) + (-8 + 16 * (board.side.toNat : Int))).toNat = false := by
        simpa using hfree
      rw [handle_double_pawn_push_append, List.mem_append] at hm
      rcases hm with hm | hm
      · unfold handle_pawn_push at hm
        split at hm
        · rename_i hr
          rw [add_promotion_moves_eq] at hm
          simp only [List.nil_append, List.mem_cons, List.mem_singleton, List.not_mem_nil,
            or_false] at hm
          rcases hm with rfl | rfl | rfl | rfl
          · exact Generated.push_promo from_sq _ hfrom hfree' hr (Or.inl rfl)
          · exact Generated.push_promo from_sq _ hfrom hfree' hr (Or.inr (Or.inl rfl))
          · exact Generated.push_promo from_sq _ hfrom hfree' hr (Or.inr (Or.inr (Or.inl rfl)))
          · exact Generated.push_promo from_sq _ hfrom hfree' hr (Or.inr (Or.inr (Or.inr rfl)))
        · rename_i hr
          rw [add_move_eq] at hm
          simp only [List.nil_append, List.mem_singleton] at hm
          subst hm
          exact Generated.push from_sq hfrom hfree' hr
      · unfold handle_double_pawn_push at hm
        split at hm
        · simp at hm
        · rename_i hr
          simp only at hm
          split at hm
          · simp at hm
          · rename_i hfree2
            rw [add_move_eq] at hm
            simp only [List.nil_append, List.mem_singleton] at hm
            subst hm
            exact Generated.double_push from_sq hfrom hfree' (by simpa using hr)
              (by simpa using hfree2)
    · simp at hm
  · -- captures
    rw [handle_pawn_captures_nil, List.mem_flatMap] at hm
    obtain ⟨c, hc, hm⟩ := hm
    split at hm
    · rename_i hr
      rw [add_promotion_moves_eq] at hm
      simp only [List.nil_append, List.mem_cons, List.mem_singleton, List.not_mem_nil,
        or_false] at hm
      rcases hm with rfl | rfl | rfl | rfl
      · exact Generated.capture_promo from_sq c _ hfrom hc hr (Or.inl rfl)
      · exact Generated.capture_promo from_sq c _ hfrom hc hr (Or.inr (Or.inl rfl))
      · exact Generated.capture_promo from_sq c _ hfrom hc hr (Or.inr (Or.inr (Or.inl rfl)))
      · exact Generated.capture_promo from_sq c _ hfrom hc hr (Or.inr (Or.inr (Or.inr rfl)))
    · rename_i hr
      rw [add_move_eq] at hm
      simp only [List.nil_append, List.mem_singleton] at hm
      subst hm
      exact Generated.capture from_sq c hfrom hc hr
  · -- en passant
    unfold handle_en_passant at hm
    simp only at hm
    split at hm
    · simp at hm
    · rename_i hset
      split at hm
      · simp at hm
      · rename_i hatt
        rw [add_move_eq] at hm
        simp only [List.nil_append, List.mem_singleton] at hm
        subst hm
        exact Generated.en_passant from_sq hfrom (by simpa using hset) hatt

theorem generated_of_mem_piece_body (board : Board) (piece_type : PieceType)
    (hpiece : piece_type ≠ PieceType.pawn) (from_sq : Nat) (m : Move)
    (hfrom : from_sq ∈ squares_of (board.get_piece_bitboard piece_type board.side))
    (hm : m ∈ generate_piece_moves_body piece_type board board.side [] from_sq) :
    Generated board m := by
  rw [generate_piece_moves_body_eq, List.nil_append, List.mem_map] at hm
  obtain ⟨to_sq, hto, rfl⟩ := hm
  exact Generated.piece piece_type from_sq to_sq hpiece hfrom hto

theorem generated_of_mem_castling (board : Board) (m : Move)
    (hm : m ∈ generate_castling_moves [] board board.side) : Generated board m := by
  unfold generate_castling_moves at hm
  simp only at hm
  by_cases hk : can_castle_side board board.side true board.get_all_occupancy
      (opposite_side board.side) = true <;>
    by_cases hq : can_castle_side board board.side false board.get_all_occupancy
      (opposite_side board.side) = true <;>
    simp only [hk, hq, if_true, if_false, add_move_eq, List.nil_append, List.cons_append,
      List.mem_cons, List.not_mem_nil, or_false, Bool.false_eq_true] at hm
  · rcases hm with rfl | rfl
    · exact Generated.castle_kingside hk
    · exact Generated.castle_queenside hq
  · subst hm
    exact Generated.castle_kingside hk
  · subst hm
    exact Generated.castle_queenside hq

/-- Every move pushed by `fill_move_array` on an empty list has one of the shapes of
`Generated`. -/
theorem generated_of_mem (board : Board) (m : Move) (hm : m ∈ fill_move_array [] board) :
    Generated board m := by
  rw [fill_move_array_eq] at hm
  simp only [List.nil_append, List.mem_append, List.mem_flatMap] at hm
  rcases hm with (((((⟨f, hf, hm⟩ | ⟨f, hf, hm⟩) | ⟨f, hf, hm⟩) | ⟨f, hf, hm⟩)
    | ⟨f, hf, hm⟩) | ⟨f, hf, hm⟩) | hm
  · exact generated_of_mem_pawn_body board f m hf hm
  · exact generated_of_mem_piece_body board _ (by decide) f m hf hm
  · exact generated_of_mem_piece_body board _ (by decide) f m hf hm
  · exact generated_of_mem_piece_body board _ (by decide) f m hf hm
  · exact generated_of_mem_piece_body board _ (by decide) f m hf hm
  · exact generated_of_mem_piece_body board _ (by decide) f m hf hm
  · exact generated_of_mem_castling board m hm

/-! ## The placement invariant under removing and placing a piece -/

theorem arr_set_same (a : Nat → Nat) (i v : Nat) : arr_set a i v i = v := by
  simp [arr_set]

theorem arr_set_other (a : Nat → Nat) (i v j : Nat) (h : j ≠ i) : arr_set a i v j = a j := by
  simp [arr_set, h]

theorem testBit_or_pieces (loc : Nat → Nat) (start i : Nat) :
    (or_pieces loc start).testBit i = true
      ↔ ∃ p, start ≤ p ∧ p < start + 6 ∧ (loc p).testBit i = true := by
  unfold or_pieces
  simp only [Nat.testBit_or, Bool.or_eq_true]
  constructor
  · rintro (((((h | h) | h) | h) | h) | h)
    · exact ⟨start, by omega, by omega, h⟩
    · exact ⟨start + 1, by omega, by omega, h⟩
    · exact ⟨start + 2, by omega, by omega, h⟩
    · exact ⟨start + 3, by omega, by omega, h⟩
    · exact ⟨start + 4, by omega, by omega, h⟩
    · exact ⟨start + 5, by omega, by omega, h⟩
  · rintro ⟨p, h1, h2, h⟩
    obtain ⟨d, rfl⟩ : ∃ d, p = start + d := ⟨p - start, by omega⟩
    have hd : d < 6 := by omega
    interval_cases d <;> simp_all

theorem or_pieces_lt (loc : Nat → Nat) (start : Nat)
    (h : ∀ p, start ≤ p → p < start + 6 → loc p < 2 ^ 64) : or_pieces loc start < 2 ^ 64 := by
  unfold or_pieces
  have h0 := h start (by omega) (by omega)
  have h1 := h (start + 1) (by omega) (by omega)
  have h2 := h (start + 2) (by omega) (by omega)
  have h3 := h (start + 3) (by omega) (by omega)
  have h4 := h (start + 4) (by omega) (by omega)
  have h5 := h (start + 5) (by omega) (by omega)
  exact Nat.or_lt_two_pow (Nat.or_lt_two_pow (Nat.or_lt_two_pow (Nat.or_lt_two_pow
    (Nat.or_lt_two_pow h0 h1) h2) h3) h4) h5

theorem Placement.ok_iff_bits_ok (P : Placement) : P.ok ↔ P.bits_ok := by
  constructor
  · rintro ⟨⟨hl, ho⟩, hd, h0, h1, h2⟩
    refine ⟨hl, ho, ?_, ?_, ?_⟩
    · intro p q i hp hq hpi hqi
      by_contra hne
      have := (and_eq_zero_iff_forall _ _).1 (hd p hp q hq hne) i
      exact this ⟨hpi, hqi⟩
    · intro k hk i
      interval_cases k
      · rw [h0, testBit_or_pieces]
      · rw [h1, testBit_or_pieces]
    · intro i
      rw [h2, h0, h1, Nat.testBit_or, Bool.or_eq_true]
  · intro h
    refine ⟨⟨h.loc_lt, h.occ_lt⟩, ?_, ?_, ?_, ?_⟩
    · intro p hp q hq hne
      rw [and_eq_zero_iff_forall]
      rintro i ⟨hpi, hqi⟩
      exact hne (h.disjoint p q i hp hq hpi hqi)
    · apply Nat.eq_of_testBit_eq
      intro i
      rw [Bool.eq_iff_iff, h.side_occ 0 (by omega), testBit_or_pieces]
    · apply Nat.eq_of_testBit_eq
      intro i
      rw [Bool.eq_iff_iff, h.side_occ 1 (by omega), testBit_or_pieces]
    · apply Nat.eq_of_testBit_eq
      intro i
      rw [Bool.eq_iff_iff, h.all_occ, Nat.testBit_or, Bool.or_eq_true,
        h.side_occ 0 (by omega), h.side_occ 1 (by omega), testBit_or_pieces,
        testBit_or_pieces]

theorem Placement.bits_ok.occ_of_loc {P : Placement} (h : P.bits_ok) {k idx i : Nat}
    (hk : k < 2) (h1 : 6 * k ≤ idx) (h2 : idx < 6 * k + 6)
    (hbit : (P.loc idx).testBit i = true) : (P.occ k).testBit i = true :=
  (h.side_occ k hk i).2 ⟨idx, h1, h2, hbit⟩

theorem Placement.bits_ok.all_of_loc {P : Placement} (h : P.bits_ok) {idx i : Nat}
    (h2 : idx < 12) (hbit : (P.loc idx).testBit i = true) : (P.occ 2).testBit i = true := by
  rw [h.all_occ]
  by_cases hlt : idx < 6
  · exact Or.inl (h.occ_of_loc (k := 0) (by omega) (by omega) (by omega) hbit)
  · exact Or.inr (h.occ_of_loc (k := 1) (by omega) (by omega) (by omega) hbit)

theorem Placement.bits_ok.loc_of_empty {P : Placement} (h : P.bits_ok) {idx i : Nat}
    (h2 : idx < 12) (hempty : (P.occ 2).testBit i = false) : (P.loc idx).testBit i = false := by
  by_contra hne
  have := h.all_of_loc h2 (by simpa using hne)
  simp [this] at hempty

/-- Taking a piece off the square it stands on keeps the invariant. -/
theorem Placement.bits_ok.remove_at {P : Placement} (h : P.bits_ok) {idx k sq : Nat}
    (hk : k < 2) (h1 : 6 * k ≤ idx) (h2 : idx < 6 * k + 6)
    (hbit : (P.loc idx).testBit sq = true) : (P.remove_at idx k sq).bits_ok := by
  have hidx : idx < 12 := by omega
  have hL : ∀ p i, p < 12 → ((P.remove_at idx k sq).loc p).testBit i
      = ((P.loc p).testBit i && !decide (i = sq ∧ p = idx)) := by
    intro p i hp
    by_cases hpi : p = idx
    · subst hpi
      simp [Placement.remove_at, arr_set_same, testBit_pop_bit (h.loc_lt p hp)]
    · simp [Placement.remove_at, arr_set_other _ _ _ _ hpi, hpi]
  have hOk : ((P.remove_at idx k sq).occ k) = pop_bit (P.occ k) sq := by
    have : k ≠ 2 := by omega
    simp [Placement.remove_at, arr_set, this]
  have hO2 : ((P.remove_at idx k sq).occ 2) = pop_bit (P.occ 2) sq := by
    simp [Placement.remove_at, arr_set]
  have hOo : ∀ j, j < 2 → j ≠ k → (P.remove_at idx k sq).occ j = P.occ j := by
    intro j hj hjk
    have : j ≠ 2 := by omega
    simp [Placement.remove_at, arr_set, this, hjk]
  have hother : ∀ p, p < 12 → p ≠ idx → (P.loc p).testBit sq = false := by
    intro p hp hne
    by_contra hc
    exact hne (h.disjoint p idx sq hp hidx (by simpa using hc) hbit)
  refine ⟨?_, ?_, ?_, ?_, ?_⟩
  · intro p hp
    by_cases hpi : p = idx
    · subst hpi
      simp only [Placement.remove_at, arr_set_same]
      exact pop_bit_lt (h.loc_lt p hp) sq
    · simp only [Placement.remove_at, arr_set_other _ _ _ _ hpi]
      exact h.loc_lt p hp
  · intro j hj
    by_cases hj2 : j = 2
    · subst hj2; rw [hO2]; exact pop_bit_lt (h.occ_lt 2 hj) sq
    · by_cases hjk : j = k
      · subst hjk; rw [hOk]; exact pop_bit_lt (h.occ_lt j hj) sq
      · rw [hOo j (by omega) hjk]; exact h.occ_lt j hj
  · intro p q i hp hq hpi hqi
    rw [hL p i hp] at hpi
    rw [hL q i hq] at hqi
    simp only [Bool.and_eq_true] at hpi hqi
    exact h.disjoint p q i hp hq hpi.1 hqi.1
  · intro j hj i
    by_cases hjk : j = k
    · subst hjk
      rw [hOk, testBit_pop_bit (h.occ_lt j (by omega)), Bool.and_eq_true, h.side_occ j hj]
      constructor
      · rintro ⟨⟨p, hp1, hp2, hp⟩, hne⟩
        refine ⟨p, hp1, hp2, ?_⟩
        rw [hL p i (by omega), hp]
        simp at hne
        simp [hne]
      · rintro ⟨p, hp1, hp2, hp⟩
        rw [hL p i (by omega)] at hp
        simp only [Bool.and_eq_true, Bool.not_eq_true', decide_eq_false_iff_not] at hp
        refine ⟨⟨p, hp1, hp2, hp.1⟩, ?_⟩
        simp only [Bool.not_eq_true', decide_eq_false_iff_not]
        intro his
        subst his
        by_cases hpidx : p = idx
        · exact hp.2 ⟨rfl, hpidx⟩
        · have := hother p (by omega) hpidx
          simp [this] at hp
    · rw [hOo j hj hjk, h.side_occ j hj]
      have hne : ∀ p, 6 * j ≤ p → p < 6 * j + 6 → p ≠ idx := by
        intro p hp1 hp2; omega
      constructor
      · rintro ⟨p, hp1, hp2, hp⟩
        refine ⟨p, hp1, hp2, ?_⟩
        rw [hL p i (by omega), hp]
        simp [hne p hp1 hp2]
      · rintro ⟨p, hp1, hp2, hp⟩
        rw [hL p i (by omega)] at hp
        simp only [Bool.and_eq_true] at hp
        exact ⟨p, hp1, hp2, hp.1⟩
  · intro i
    have hk01 : k = 0 ∨ k = 1 := by omega
    have key : ∀ j, j < 2 → ((P.remove_at idx k sq).occ j).testBit i
        = ((P.occ j).testBit i && !decide (i = sq)) := by
      intro j hj
      by_cases hjk : j = k
      · subst hjk
        rw [hOk, testBit_pop_bit (h.occ_lt j (by omega))]
      · rw [hOo j hj hjk]
        by_cases his : i = sq
        · subst his
          have : (P.occ j).testBit i = false := by
            by_contra hc
            obtain ⟨p, hp1, hp2, hp⟩ := (h.side_occ j hj i).1 (by simpa using hc)
            have := h.disjoint p idx i (by omega) hidx hp hbit
            omega
          simp [this]
        · simp [his]
    rw [hO2, testBit_pop_bit (h.occ_lt 2 (by omega)), key 0 (by omega), key 1 (by omega)]
    simp only [Bool.and_eq_true, h.all_occ i]
    tauto

/-- Putting a piece on an empty square keeps the invariant. -/
theorem Placement.bits_ok.place_at {P : Placement} (h : P.bits_ok) {idx k sq : Nat}
    (hk : k < 2) (h1 : 6 * k ≤ idx) (h2 : idx < 6 * k + 6) (hsq : sq < 64)
    (hempty : (P.occ 2).testBit sq = false) : (P.place_at idx k sq).bits_ok := by
  have hidx : idx < 12 := by omega
  have hL : ∀ p i, ((P.place_at idx k sq).loc p).testBit i
      = ((P.loc p).testBit i || decide (i = sq ∧ p = idx)) := by
    intro p i
    by_cases hpi : p = idx
    · subst hpi
      simp [Placement.place_at, arr_set_same, testBit_set_bit, hsq]
    · simp [Placement.place_at, arr_set_other _ _ _ _ hpi, hpi]
  have hOk : ((P.place_at idx k sq).occ k) = set_bit (P.occ k) sq := by
    have : k ≠ 2 := by omega
    simp [Placement.place_at, arr_set, this]
  have hO2 : ((P.place_at idx k sq).occ 2) = set_bit (P.occ 2) sq := by
    simp [Placement.place_at, arr_set]
  have hOo : ∀ j, j < 2 → j ≠ k → (P.place_at idx k sq).occ j = P.occ j := by
    intro j hj hjk
    have : j ≠ 2 := by omega
    simp [Placement.place_at, arr_set, this, hjk]
  have hnone : ∀ p, p < 12 → (P.loc p).testBit sq = false :=
    fun p hp => h.loc_of_empty hp hempty
  refine ⟨?_, ?_, ?_, ?_, ?_⟩
  · intro p hp
    by_cases hpi : p = idx
    · subst hpi
      simp only [Placement.place_at, arr_set_same]
      exact set_bit_lt (h.loc_lt p hp) sq
    · simp only [Placement.place_at, arr_set_other _ _ _ _ hpi]
      exact h.loc_lt p hp
  · intro j hj
    by_cases hj2 : j = 2
    · subst hj2; rw [hO2]; exact set_bit_lt (h.occ_lt 2 hj) sq
    · by_cases hjk : j = k
      · subst hjk; rw [hOk]; exact set_bit_lt (h.occ_lt j hj) sq
      · rw [hOo j (by omega) hjk]; exact h.occ_lt j hj
  · intro p q i hp hq hpi hqi
    rw [hL p i] at hpi
    rw [hL q i] at hqi
    simp only [Bool.or_eq_true, decide_eq_true_eq] at hpi hqi
    rcases hpi with hpi | ⟨rfl, rfl⟩
    · rcases hqi with hqi | ⟨rfl, rfl⟩
      · exact h.disjoint p q i hp hq hpi hqi
      · simp [hnone p hp] at hpi
    · rcases hqi with hqi | ⟨_, rfl⟩
      · simp [hnone q hq] at hqi
      · rfl
  · intro j hj i
    by_cases hjk : j = k
    · subst hjk
      rw [hOk, testBit_set_bit, Bool.or_eq_true, h.side_occ j hj]
      simp only [decide_eq_true_eq]
      constructor
      · rintro (⟨p, hp1, hp2, hp⟩ | ⟨rfl, _⟩)
        · exact ⟨p, hp1, hp2, by rw [hL, hp]; rfl⟩
        · exact ⟨idx, h1, h2, by rw [hL]; simp⟩
      · rintro ⟨p, hp1, hp2, hp⟩
        rw [hL p i] at hp
        simp only [Bool.or_eq_true, decide_eq_true_eq] at hp
        rcases hp with hp | ⟨rfl, rfl⟩
        · exact Or.inl ⟨p, hp1, hp2, hp⟩
        · exact Or.inr ⟨rfl, hsq⟩
    · rw [hOo j hj hjk, h.side_occ j hj]
      have hne : ∀ p, 6 * j ≤ p → p < 6 * j + 6 → p ≠ idx := by
        intro p hp1 hp2; omega
      constructor
      · rintro ⟨p, hp1, hp2, hp⟩
        exact ⟨p, hp1, hp2, by rw [hL, hp]; rfl⟩
      · rintro ⟨p, hp1, hp2, hp⟩
        rw [hL p i] at hp
        simp only [Bool.or_eq_true, decide_eq_true_eq] at hp
        rcases hp with hp | ⟨_, rfl⟩
        · exact ⟨p, hp1, hp2, hp⟩
        · exact absurd rfl (hne _ hp1 hp2)
  · intro i
    have key : ∀ j, j < 2 → ((P.place_at idx k sq).occ j).testBit i
        = ((P.occ j).testBit i || decide (i = sq ∧ j = k)) := by
      intro j hj
      by_cases hjk : j = k
      · subst hjk
        rw [hOk, testBit_set_bit]
        simp [hsq]
      · rw [hOo j hj hjk]
        simp [hjk]
    rw [hO2, testBit_set_bit, key 0 (by omega), key 1 (by omega)]
    simp only [Bool.or_eq_true, decide_eq_true_eq, h.all_occ i]
    have hk01 : k = 0 ∨ k = 1 := by omega
    constructor
    · rintro ((h0 | h1) | ⟨rfl, _⟩)
      · exact Or.inl (Or.inl h0)
      · exact Or.inr (Or.inl h1)
      · rcases hk01 with rfl | rfl
        · exact Or.inl (Or.inr ⟨rfl, rfl⟩)
        · exact Or.inr (Or.inr ⟨rfl, rfl⟩)
    · rintro ((h0 | ⟨rfl, _⟩) | (h1 | ⟨rfl, _⟩))
      · exact Or.inl (Or.inl h0)
      · exact Or.inr ⟨rfl, hsq⟩
      · exact Or.inl (Or.inr h1)
      · exact Or.inr ⟨rfl, hsq⟩

/-! ## The steps of `make_move` as removals and placements -/

theorem pop_bit_pop_bit (x sq : Nat) : pop_bit (pop_bit x sq) sq = pop_bit x sq := by
  unfold pop_bit
  rw [Nat.and_assoc, Nat.and_self]

theorem set_bit_pop_bit_self {x sq : Nat} (hx : x < 2 ^ 64) (h : x.testBit sq = true) :
    set_bit (pop_bit x sq) sq = x := by
  apply Nat.eq_of_testBit_eq
  intro i
  rw [testBit_set_bit, testBit_pop_bit hx]
  by_cases his : i = sq
  · subst his
    simp [h, testBit_of_lt_64 hx h]
  · simp [his]

theorem Placement.ext' {P Q : Placement} (h1 : ∀ p, P.loc p = Q.loc p)
    (h2 : ∀ k, P.occ k = Q.occ k) : P = Q := by
  cases P; cases Q
  simp only [Placement.mk.injEq]
  exact ⟨funext h1, funext h2⟩

theorem Side.any_toNat : Side.any.toNat = 2 := rfl

theorem Side.toNat_lt_two {s : Side} (h : s ≠ Side.any) : s.toNat < 2 := by
  cases s <;> simp [Side.toNat] at h ⊢

theorem opposite_side_toNat {s : Side} (h : s ≠ Side.any) :
    (opposite_side s).toNat = 1 - s.toNat := by
  cases s <;> simp [Side.toNat, opposite_side] at h ⊢

theorem opposite_side_ne_any {s : Side} (h : s ≠ Side.any) : opposite_side s ≠ Side.any := by
  cases s <;> simp [opposite_side] at h ⊢

/-- The loop of `pop_piece` when `idx` is the only index of the list whose bitboard
holds `sq`. -/
theorem pop_piece_loop_found (sq : Nat) (side : Side) (idx : Nat) (l : List Nat) :
    ∀ (board : Board), idx ∈ l →
    (∀ p, p ∈ l → p ≠ idx → (board.piece_location p).testBit sq = false) →
    (board.piece_location idx).testBit sq = true →
    Board.pop_piece_loop board sq side l
      = (({ board with
            piece_location := arr_set board.piece_location idx
              (pop_bit (board.piece_location idx) sq)
            hash_key := board.hash_key ^^^ piece_keys idx sq } : Board).occ_pop_bit
          side.toNat sq).occ_pop_bit Side.any.toNat sq := by
  induction l with
  | nil => intro board h; simp at h
  | cons x xs ih =>
    intro board hmem hothers hbit
    unfold Board.pop_piece_loop
    by_cases hx : x = idx
    · subst hx
      rw [get_bit_eq_testBit, if_pos hbit]
    · have hxb := hothers x (List.mem_cons_self _ _) hx
      rw [get_bit_eq_testBit, hxb]
      simp only [Bool.false_eq_true, if_false]
      apply ih board
      · rcases List.mem_cons.1 hmem with h | h
        · exact absurd h.symm hx
        · exact h
      · intro p hp hne
        exact hothers p (List.mem_cons_of_mem _ hp) hne
      · exact hbit

/-- The loop of `pop_piece` when no bitboard of the list holds `sq`. -/
theorem pop_piece_loop_none (sq : Nat) (side : Side) (l : List Nat) :
    ∀ (board : Board), (∀ p, p ∈ l → (board.piece_location p).testBit sq = false) →
    Board.pop_piece_loop board sq side l = board := by
  induction l with
  | nil => intro board _; rfl
  | cons x xs ih =>
    intro board h
    unfold Board.pop_piece_loop
    rw [get_bit_eq_testBit, h x (List.mem_cons_self _ _)]
    simp only [Bool.false_eq_true, if_false]
    exact ih board (fun p hp => h p (List.mem_cons_of_mem _ hp))

theorem mem_range'_six (k p : Nat) : p ∈ List.range' (k * 6) 6 ↔ 6 * k ≤ p ∧ p < 6 * k + 6 := by
  rw [List.mem_range'_1]
  omega

/-- The method `pop_piece` on a square held by piece `idx` of the given side. -/
theorem pop_piece_found (board : Board) (sq : Nat) (side : Side) (idx : Nat)
    (h1 : 6 * side.toNat ≤ idx) (h2 : idx < 6 * side.toNat + 6)
    (hothers : ∀ p, 6 * side.toNat ≤ p → p < 6 * side.toNat + 6 → p ≠ idx →
      (board.piece_location p).testBit sq = false)
    (hbit : (board.piece_location idx).testBit sq = true) :
    board.pop_piece sq side
      = (({ board with
            piece_location := arr_set board.piece_location idx
              (pop_bit (board.piece_location idx) sq)
            hash_key := board.hash_key ^^^ piece_keys idx sq } : Board).occ_pop_bit
          side.toNat sq).occ_pop_bit Side.any.toNat sq := by
  unfold Board.pop_piece
  simp only [NUMBER_OF_UNIQUE_PIECES]
  apply pop_piece_loop_found
  · rw [mem_range'_six]; exact ⟨h1, h2⟩
  · intro p hp hne
    rw [mem_range'_six] at hp
    exact hothers p hp.1 hp.2 hne
  · exact hbit

theorem pop_piece_placement (board : Board) (sq : Nat) (side : Side) (idx : Nat)
    (hside : side ≠ Side.any) (hok : board.placement.bits_ok)
    (h1 : 6 * side.toNat ≤ idx) (h2 : idx < 6 * side.toNat + 6)
    (hbit : (board.piece_location idx).testBit sq = true) :
    (board.pop_piece sq side).placement = board.placement.remove_at idx side.toNat sq := by
  have hk := Side.toNat_lt_two hside
  rw [pop_piece_found board sq side idx h1 h2 _ hbit]
  · have hk2 : side.toNat ≠ 2 := by omega
    apply Placement.ext'
    · intro p; rfl
    · intro j
      simp only [Board.placement, Board.occ_pop_bit, Placement.remove_at, Side.any_toNat]
      rw [arr_set_other _ _ _ 2 (fun e => hk2 e.symm)]
  · intro p hp1 hp2 hne
    by_contra hc
    exact hne (hok.disjoint p idx sq (by omega) (by omega) (by simpa using hc) hbit)

theorem occ_pop_bit_placement (board : Board) (k sq : Nat) :
    (board.occ_pop_bit k sq).placement
      = ⟨board.piece_location, arr_set board.occupancies k (pop_bit (board.occupancies k) sq)⟩ :=
  rfl

theorem occ_set_bit_placement (board : Board) (k sq : Nat) :
    (board.occ_set_bit k sq).placement
      = ⟨board.piece_location, arr_set board.occupancies k (set_bit (board.occupancies k) sq)⟩ :=
  rfl

theorem relocate_placement (P : Placement) (idx k a c : Nat) (hk : k < 2) :
    (⟨arr_set P.loc idx (set_bit (pop_bit (P.loc idx) a) c),
      arr_set (arr_set (arr_set (arr_set P.occ k (pop_bit (P.occ k) a)) k
        (set_bit (arr_set P.occ k (pop_bit (P.occ k) a) k) c)) 2
        (pop_bit (arr_set (arr_set P.occ k (pop_bit (P.occ k) a)) k
          (set_bit (arr_set P.occ k (pop_bit (P.occ k) a) k) c) 2) a)) 2
        (set_bit (arr_set (arr_set (arr_set P.occ k (pop_bit (P.occ k) a)) k
          (set_bit (arr_set P.occ k (pop_bit (P.occ k) a) k) c)) 2
          (pop_bit (arr_set (arr_set P.occ k (pop_bit (P.occ k) a)) k
            (set_bit (arr_set P.occ k (pop_bit (P.occ k) a) k) c) 2) a) 2) c)⟩ : Placement)
      = (P.remove_at idx k a).place_at idx k c := by
  have hk2 : k ≠ 2 := by omega
  have h2k : (2 : Nat) ≠ k := fun e => hk2 e.symm
  apply Placement.ext'
  · intro p
    simp only [Placement.remove_at, Placement.place_at]
    by_cases hp : p = idx
    · subst hp; simp only [arr_set_same]
    · simp only [arr_set_other _ _ _ _ hp]
  · intro j
    simp only [Placement.remove_at, Placement.place_at, arr_set]
    by_cases hj2 : j = 2 <;> by_cases hjk : j = k <;> simp [hj2, hjk, hk2, h2k]

/-- Lines 336 to 345: the mover leaves `from_sq` and lands on `to_sq`. -/
theorem mm_move_piece_placement (board : Board) (move : Move)
    (hside : move.get_side_of_piece ≠ Side.any) :
    (board.mm_move_piece move).placement
      = (board.placement.remove_at
          (move.get_piece.toNat + 6 * move.get_side_of_piece.toNat)
          move.get_side_of_piece.toNat move.get_from_sq).place_at
          (move.get_piece.toNat + 6 * move.get_side_of_piece.toNat)
          move.get_side_of_piece.toNat move.get_to_sq := by
  rw [← relocate_placement _ _ _ _ _ (Side.toNat_lt_two hside)]
  rfl

/-- Lines 358 to 382: the rook of a castling move. -/
theorem mm_castle_placement (board : Board) (move : Move)
    (hside : move.get_side_of_piece ≠ Side.any) (hcastle : move.is_castle = true) :
    (board.mm_castle move).placement
      = (board.placement.remove_at (3 + 6 * move.get_side_of_piece.toNat)
          move.get_side_of_piece.toNat
          (if move.get_to_sq % 8 = 6 then (move.get_to_sq : Int) + 1
            else (move.get_to_sq : Int) - 2).toNat).place_at
          (3 + 6 * move.get_side_of_piece.toNat) move.get_side_of_piece.toNat
          (if move.get_to_sq % 8 = 6 then (move.get_to_sq : Int) - 1
            else (move.get_to_sq : Int) + 1).toNat := by
  rw [← relocate_placement _ _ _ _ _ (Side.toNat_lt_two hside)]
  unfold Board.mm_castle
  simp only [hcastle, if_true]
  rfl

theorem mm_castle_placement_of_not (board : Board) (move : Move)
    (hcastle : move.is_castle = false) : (board.mm_castle move).placement = board.placement := by
  unfold Board.mm_castle
  simp [hcastle]

/-- Lines 328 to 334: an ordinary capture takes the enemy piece off `to_sq`. -/
theorem mm_capture_placement (board : Board) (move : Move) (idx : Nat)
    (hside : move.get_side_of_piece ≠ Side.any) (hok : board.placement.bits_ok)
    (hcap : move.is_capture = true) (hep : move.is_enpassant = false)
    (h1 : 6 * (opposite_side move.get_side_of_piece).toNat ≤ idx)
    (h2 : idx < 6 * (opposite_side move.get_side_of_piece).toNat + 6)
    (hbit : (board.piece_location idx).testBit move.get_to_sq = true) :
    (board.mm_capture move).placement
      = board.placement.remove_at idx (opposite_side move.get_side_of_piece).toNat
          move.get_to_sq := by
  have hoside := opposite_side_ne_any hside
  have hk := Side.toNat_lt_two hoside
  have hk2 : (opposite_side move.get_side_of_piece).toNat ≠ 2 := by omega
  unfold Board.mm_capture
  simp only [hcap, hep, Bool.not_false, Bool.and_self, if_true]
  rw [pop_piece_found ((board.occ_pop_bit (opposite_side move.get_side_of_piece).toNat
    move.get_to_sq).occ_pop_bit Side.any.toNat move.get_to_sq) _ _ idx h1 h2 _ hbit]
  · apply Placement.ext'
    · intro p; rfl
    · intro j
      have h2k : (2 : Nat) ≠ (opposite_side move.get_side_of_piece).toNat :=
        fun e => hk2 e.symm
      simp only [Board.placement, Board.occ_pop_bit, Placement.remove_at, Side.any_toNat,
        arr_set]
      by_cases hj2 : j = 2 <;>
        by_cases hjk : j = (opposite_side move.get_side_of_piece).toNat <;>
        simp [hj2, hjk, hk2, h2k, pop_bit_pop_bit]
  · intro p hp1 hp2 hne
    by_contra hc
    exact hne (hok.disjoint p idx _ (by omega) (by omega) (by simpa using hc) hbit)

theorem mm_capture_placement_of_not (board : Board) (move : Move)
    (h : (move.is_capture && !move.is_enpassant) = false) :
    (board.mm_capture move).placement = board.placement := by
  unfold Board.mm_capture
  simp only [h, Bool.false_eq_true, if_false]

/-- Lines 320 to 326: an en-passant capture takes the enemy piece off the square behind
`to_sq`. -/
theorem mm_enpassant_capture_placement (board : Board) (move : Move) (idx : Nat)
    (hside : move.get_side_of_piece ≠ Side.any) (hok : board.placement.bits_ok)
    (hcap : move.is_capture = true) (hep : move.is_enpassant = true)
    (h1 : 6 * (opposite_side move.get_side_of_piece).toNat ≤ idx)
    (h2 : idx < 6 * (opposite_side move.get_side_of_piece).toNat + 6)
    (hbit : (board.piece_location idx).testBit
      ((move.get_to_sq : Int) + 8 - 16 * (move.get_side_of_piece.toNat : Int)).toNat = true) :
    (board.mm_enpassant_capture move).placement
      = board.placement.remove_at idx (opposite_side move.get_side_of_piece).toNat
          ((move.get_to_sq : Int) + 8 - 16 * (move.get_side_of_piece.toNat : Int)).toNat := by
  have hoside := opposite_side_ne_any hside
  have hk := Side.toNat_lt_two hoside
  have hk2 : (opposite_side move.get_side_of_piece).toNat ≠ 2 := by omega
  unfold Board.mm_enpassant_capture
  simp only [hcap, hep, Bool.and_self, if_true]
  rw [pop_piece_found _ _ _ idx h1 h2 _ hbit]
  · apply Placement.ext'
    · intro p; rfl
    · intro j
      have h2k : (2 : Nat) ≠ (opposite_side move.get_side_of_piece).toNat :=
        fun e => hk2 e.symm
      simp only [Board.placement, Board.occ_pop_bit, Placement.remove_at, Side.any_toNat,
        arr_set]
      by_cases hj2 : j = 2 <;>
        by_cases hjk : j = (opposite_side move.get_side_of_piece).toNat <;>
        simp [hj2, hjk, hk2, h2k, pop_bit_pop_bit]
  · intro p hp1 hp2 hne
    by_contra hc
    exact hne (hok.disjoint p idx _ (by omega) (by omega) (by simpa using hc) hbit)

theorem mm_enpassant_capture_placement_of_not (board : Board) (move : Move)
    (h : (move.is_capture && move.is_enpassant) = false) :
    (board.mm_enpassant_capture move).placement = board.placement := by
  unfold Board.mm_enpassant_capture
  simp only [h, Bool.false_eq_true, if_false]

/-- Lines 347 to 356: a promotion swaps the pawn on `to_sq` for the promoted piece. -/
theorem mm_promotion_placement (board : Board) (move : Move)
    (hside : move.get_side_of_piece ≠ Side.any) (hok : board.placement.bits_ok)
    (hpromo : move.is_promo = true) (hps : move.get_prom_side = move.get_side_of_piece)
    (hbit : (board.occupancies move.get_side_of_piece.toNat).testBit move.get_to_sq = true) :
    (board.mm_promotion move).placement
      = (board.placement.remove_at
          (move.get_piece.toNat + 6 * move.get_side_of_piece.toNat)
          move.get_side_of_piece.toNat move.get_to_sq).place_at
          (move.get_prom_piece.toNat + 6 * move.get_side_of_piece.toNat)
          move.get_side_of_piece.toNat move.get_to_sq := by
  have hk := Side.toNat_lt_two hside
  have hk2 : move.get_side_of_piece.toNat ≠ 2 := by omega
  have hbit2 : (board.occupancies 2).testBit move.get_to_sq = true := by
    have := (hok.all_occ move.get_to_sq).2
    apply this
    rcases Nat.lt_succ_iff_lt_or_eq.1 hk with h0 | h1
    · have : move.get_side_of_piece.toNat = 0 := by omega
      left; rw [← this]; exact hbit
    · right; rw [← h1]; exact hbit
  unfold Board.mm_promotion
  simp only [hpromo, if_true, hps, NUMBER_OF_UNIQUE_PIECES]
  apply Placement.ext'
  · intro p; rfl
  · intro j
    have h2k : (2 : Nat) ≠ move.get_side_of_piece.toNat := fun e => hk2 e.symm
    have e1 : set_bit (pop_bit (board.occupancies move.get_side_of_piece.toNat)
        move.get_to_sq) move.get_to_sq = board.occupancies move.get_side_of_piece.toNat :=
      set_bit_pop_bit_self (hok.occ_lt _ (by omega)) hbit
    have e2 : set_bit (pop_bit (board.occupancies 2) move.get_to_sq) move.get_to_sq
        = board.occupancies 2 := set_bit_pop_bit_self (hok.occ_lt 2 (by omega)) hbit2
    simp only [Board.placement, Placement.remove_at, Placement.place_at, arr_set]
    by_cases hj2 : j = 2 <;> by_cases hjk : j = move.get_side_of_piece.toNat <;>
      simp [hj2, hjk, hk2, h2k, e1, e2]

theorem mm_promotion_placement_of_not (board : Board) (move : Move)
    (h : move.is_promo = false) : (board.mm_promotion move).placement = board.placement := by
  unfold Board.mm_promotion
  simp only [h, Bool.false_eq_true, if_false]

theorem mm_enpassant_square_placement (board : Board) (move : Move) :
    (board.mm_enpassant_square move).placement = board.placement := by
  unfold Board.mm_enpassant_square
  simp only
  split <;> split <;> rfl

theorem mm_castling_rights_placement (board : Board) (move : Move) :
    (board.mm_castling_rights move).placement = board.placement := rfl

theorem mm_side_placement (board : Board) : board.mm_side.placement = board.placement := rfl

theorem mm_fifty_placement (board : Board) (move : Move) :
    (board.mm_fifty move).placement = board.placement := by
  unfold Board.mm_fifty
  simp only
  split <;> rfl

/-- The placement after `make_move_apply` is the placement after its first five steps. -/
theorem make_move_apply_placement (board : Board) (move : Move) :
    (board.make_move_apply move).placement
      = (((((board.mm_enpassant_capture move).mm_capture move).mm_move_piece
          move).mm_promotion move).mm_castle move).placement := by
  unfold Board.make_move_apply
  simp only [mm_fifty_placement, mm_side_placement, mm_castling_rights_placement,
    mm_enpassant_square_placement]

/-! ## The placement invariant through `make_move` -/

theorem testBit_loc_remove_at {P : Placement} (h : P.bits_ok) (idx k sq p i : Nat)
    (hidx : idx < 12) :
    ((P.remove_at idx k sq).loc p).testBit i
      = ((P.loc p).testBit i && !decide (i = sq ∧ p = idx)) := by
  by_cases hpi : p = idx
  · subst hpi
    simp [Placement.remove_at, arr_set_same, testBit_pop_bit (h.loc_lt p hidx)]
  · simp [Placement.remove_at, arr_set_other _ _ _ _ hpi, hpi]

theorem testBit_occ2_remove_at {P : Placement} (h : P.bits_ok) (idx k sq i : Nat) :
    ((P.remove_at idx k sq).occ 2).testBit i = ((P.occ 2).testBit i && !decide (i = sq)) := by
  simp [Placement.remove_at, arr_set, testBit_pop_bit (h.occ_lt 2 (by omega))]

theorem testBit_loc_place_at (P : Placement) (idx k sq p i : Nat) (hsq : sq < 64) :
    ((P.place_at idx k sq).loc p).testBit i
      = ((P.loc p).testBit i || decide (i = sq ∧ p = idx)) := by
  by_cases hpi : p = idx
  · subst hpi
    simp [Placement.place_at, arr_set_same, testBit_set_bit, hsq]
  · simp [Placement.place_at, arr_set_other _ _ _ _ hpi, hpi]

theorem testBit_occ2_place_at (P : Placement) (idx k sq i : Nat) (hsq : sq < 64) :
    ((P.place_at idx k sq).occ 2).testBit i = ((P.occ 2).testBit i || decide (i = sq)) := by
  simp [Placement.place_at, arr_set, testBit_set_bit, hsq]

theorem testBit_occk_place_at (P : Placement) (idx k sq : Nat) (hk : k < 2) (hsq : sq < 64) :
    ((P.place_at idx k sq).occ k).testBit sq = true := by
  have : k ≠ 2 := by omega
  simp [Placement.place_at, arr_set, this, testBit_set_bit, hsq]

/-- Moving a piece from the square it stands on to an empty square keeps the
invariant. -/
theorem Placement.bits_ok.relocate {P : Placement} (h : P.bits_ok) {idx k a c : Nat}
    (hk : k < 2) (h1 : 6 * k ≤ idx) (h2 : idx < 6 * k + 6)
    (hbit : (P.loc idx).testBit a = true) (hc : c < 64)
    (hempty : (P.occ 2).testBit c = false) :
    ((P.remove_at idx k a).place_at idx k c).bits_ok := by
  apply (h.remove_at hk h1 h2 hbit).place_at hk h1 h2 hc
  rw [testBit_occ2_remove_at h, hempty]
  rfl

/-- Replacing a piece by another piece of the same side on the same square keeps the
invariant. -/
theorem Placement.bits_ok.swap {P : Placement} (h : P.bits_ok) {idx idx2 k sq : Nat}
    (hk : k < 2) (h1 : 6 * k ≤ idx) (h2 : idx < 6 * k + 6) (h3 : 6 * k ≤ idx2)
    (h4 : idx2 < 6 * k + 6) (hbit : (P.loc idx).testBit sq = true) :
    ((P.remove_at idx k sq).place_at idx2 k sq).bits_ok := by
  have hsq : sq < 64 := testBit_of_lt_64 (h.loc_lt idx (by omega)) hbit
  apply (h.remove_at hk h1 h2 hbit).place_at hk h3 h4 hsq
  rw [testBit_occ2_remove_at h]
  simp

theorem Move.get_to_sq_lt (m : Move) : m.get_to_sq < 64 := by
  unfold Move.get_to_sq
  have := Nat.and_pow_two_sub_one_eq_mod (m.body >>> 6) 6
  norm_num at this
  rw [this]
  omega

theorem Move.get_from_sq_lt (m : Move) : m.get_from_sq < 64 := by
  unfold Move.get_from_sq
  have := Nat.and_pow_two_sub_one_eq_mod m.body 6
  norm_num at this
  rw [this]
  omega

theorem PieceType.toNat_le (p : PieceType) : p.toNat ≤ 5 := by
  cases p <;> simp [PieceType.toNat]

/-- The placement after the two capture steps. -/
theorem capture_steps_placement (board : Board) (move : Move)
    (hok : board.placement.bits_ok) (hfit : MoveFits board.placement move) :
    ∃ victim, IsVictim board.placement move victim
      ∧ ((board.mm_enpassant_capture move).mm_capture move).placement
        = (match victim with
          | none => board.placement
          | some v => board.placement.remove_at v.1
              (opposite_side move.get_side_of_piece).toNat v.2)
      ∧ (match victim with
          | none => board.placement
          | some v => board.placement.remove_at v.1
              (opposite_side move.get_side_of_piece).toNat v.2).bits_ok
      ∧ ((match victim with
          | none => board.placement
          | some v => board.placement.remove_at v.1
              (opposite_side move.get_side_of_piece).toNat v.2).occ 2).testBit
          move.get_to_sq = false := by
  have hoside := opposite_side_ne_any hfit.side
  have hko := Side.toNat_lt_two hoside
  rcases hfit.target with ⟨hcap, hempty⟩ | ⟨hcap, hep, idx, h1, h2, hbit⟩
    | ⟨hcap, hep, hempty, idx, h1, h2, hbit⟩
  · refine ⟨none, Or.inl ⟨rfl, hcap⟩, ?_, hok, hempty⟩
    rw [mm_capture_placement_of_not _ _ (by simp [hcap]),
      mm_enpassant_capture_placement_of_not _ _ (by simp [hcap])]
  · refine ⟨some (idx, move.get_to_sq),
      Or.inr ⟨idx, _, rfl, hcap, h1, h2, hbit, Or.inl ⟨hep, rfl⟩⟩, ?_, ?_, ?_⟩
    · have e1 := mm_enpassant_capture_placement_of_not board move (by simp [hep])
      have hbit' : ((board.mm_enpassant_capture move).piece_location idx).testBit
          move.get_to_sq = true := by
        have : (board.mm_enpassant_capture move).piece_location = board.piece_location :=
          congrArg Placement.loc e1
        rw [this]; exact hbit
      rw [mm_capture_placement _ _ idx hfit.side (by rw [e1]; exact hok) hcap hep h1 h2 hbit',
        e1]
    · exact hok.remove_at hko h1 h2 hbit
    · show ((board.placement.remove_at idx _ move.get_to_sq).occ 2).testBit _ = false
      rw [testBit_occ2_remove_at hok]
      simp
  · refine ⟨some (idx, ((move.get_to_sq : Int) + 8
        - 16 * (move.get_side_of_piece.toNat : Int)).toNat),
      Or.inr ⟨idx, _, rfl, hcap, h1, h2, hbit, Or.inr ⟨hep, rfl⟩⟩, ?_, ?_, ?_⟩
    · rw [mm_capture_placement_of_not _ _ (by simp [hep]),
        mm_enpassant_capture_placement _ _ idx hfit.side hok hcap hep h1 h2 hbit]
    · exact hok.remove_at hko h1 h2 hbit
    · show ((board.placement.remove_at idx _ _).occ 2).testBit _ = false
      rw [testBit_occ2_remove_at hok, hempty]
      rfl

/-- On a placement that satisfies the invariant, a move that fits it leaves the
placement `after_move`, which satisfies the invariant again. -/
theorem make_move_apply_placement_ok (board : Board) (move : Move)
    (hok : board.placement.bits_ok) (hfit : MoveFits board.placement move) :
    ∃ victim, IsVictim board.placement move victim
      ∧ (board.make_move_apply move).placement = board.placement.after_move move victim
      ∧ (board.placement.after_move move victim).bits_ok := by
  obtain ⟨victim, hvic, e2, hok2, hempty2⟩ := capture_steps_placement board move hok hfit
  have hk := Side.toNat_lt_two hfit.side
  have hple := move.get_piece.toNat_le
  have hpple := move.get_prom_piece.toNat_le
  have hto := move.get_to_sq_lt
  refine ⟨victim, hvic, ?_⟩
  generalize hb2 : (board.mm_enpassant_capture move).mm_capture move = b2 at e2
  generalize hP2 : (match victim with
      | none => board.placement
      | some v => board.placement.remove_at v.1
          (opposite_side move.get_side_of_piece).toNat v.2) = P2 at e2 hok2 hempty2
  -- the mover is the same piece before and after the capture steps
  have hmover2 : (P2.loc (move.get_piece.toNat + 6 * move.get_side_of_piece.toNat)).testBit
      move.get_from_sq = true := by
    rw [← hP2]
    rcases hvic with ⟨rfl, _⟩ | ⟨idx, sq, rfl, _, h1, h2, _, _⟩
    · exact hfit.mover
    · show ((board.placement.remove_at idx _ sq).loc _).testBit _ = true
      rw [testBit_loc_remove_at hok _ _ _ _ _
        (by have := Side.toNat_lt_two (opposite_side_ne_any hfit.side); omega), hfit.mover]
      have hne : move.get_piece.toNat + 6 * move.get_side_of_piece.toNat ≠ idx := by
        have := opposite_side_toNat hfit.side
        omega
      simp [hne]
  have e3 := mm_move_piece_placement b2 move hfit.side
  rw [e2] at e3
  have hok3 := hok2.relocate hk (by omega)
    (by omega : move.get_piece.toNat + 6 * move.get_side_of_piece.toNat
      < 6 * move.get_side_of_piece.toNat + 6) hmover2 hto hempty2
  generalize hb3 : b2.mm_move_piece move = b3 at e3
  generalize hP3 : (P2.remove_at (move.get_piece.toNat + 6 * move.get_side_of_piece.toNat)
      move.get_side_of_piece.toNat move.get_from_sq).place_at
      (move.get_piece.toNat + 6 * move.get_side_of_piece.toNat)
      move.get_side_of_piece.toNat move.get_to_sq = P3 at e3 hok3
  have hP3to : (P3.loc (move.get_piece.toNat + 6 * move.get_side_of_piece.toNat)).testBit
      move.get_to_sq = true := by
    rw [← hP3, testBit_loc_place_at _ _ _ _ _ _ hto]
    simp
  have hrw : (board.make_move_apply move).placement
      = ((b3.mm_promotion move).mm_castle move).placement := by
    rw [make_move_apply_placement, hb2, hb3]
  have hafter : board.placement.after_move move victim
      = (if move.is_castle then
          ((if move.is_promo then
              (P3.remove_at (move.get_piece.toNat + 6 * move.get_side_of_piece.toNat)
                move.get_side_of_piece.toNat move.get_to_sq).place_at
                (move.get_prom_piece.toNat + 6 * move.get_side_of_piece.toNat)
                move.get_side_of_piece.toNat move.get_to_sq
            else P3).remove_at (3 + 6 * move.get_side_of_piece.toNat)
              move.get_side_of_piece.toNat
              (if move.get_to_sq % 8 = 6 then (move.get_to_sq : Int) + 1
                else (move.get_to_sq : Int) - 2).toNat).place_at
            (3 + 6 * move.get_side_of_piece.toNat) move.get_side_of_piece.toNat
            (if move.get_to_sq % 8 = 6 then (move.get_to_sq : Int) - 1
              else (move.get_to_sq : Int) + 1).toNat
        else
          (if move.is_promo then
              (P3.remove_at (move.get_piece.toNat + 6 * move.get_side_of_piece.toNat)
                move.get_side_of_piece.toNat move.get_to_sq).place_at
                (move.get_prom_piece.toNat + 6 * move.get_side_of_piece.toNat)
                move.get_side_of_piece.toNat move.get_to_sq
            else P3)) := by
    rw [← hP3, ← hP2]
    rfl
  rw [hrw, hafter]
  by_cases hcastle : move.is_castle = true
  · obtain ⟨hcap, hpromo, hking, hrook, hrt, hrtne, hrt64⟩ := hfit.castle hcastle
    have e4 := mm_promotion_placement_of_not b3 move hpromo
    rw [e3] at e4
    have e5 := mm_castle_placement (b3.mm_promotion move) move hfit.side hcastle
    rw [e4] at e5
    rw [if_pos hcastle, hpromo]
    simp only [Bool.false_eq_true, if_false]
    refine ⟨e5, ?_⟩
    -- the victim is none, so P2 is the placement of the board
    have hP2' : P2 = board.placement := by
      rw [← hP2]
      rcases hvic with ⟨rfl, _⟩ | ⟨idx, sq, rfl, hc, _⟩
      · rfl
      · rw [hcap] at hc; exact absurd hc (by simp)
    have hkingidx : move.get_piece.toNat = 5 := by rw [hking]; rfl
    apply hok3.relocate hk (by omega) (by omega) _ hrt64
    · rw [← hP3, testBit_occ2_place_at _ _ _ _ _ hto, testBit_occ2_remove_at hok2, hP2', hrt]
      simp [hrtne]
    · rw [← hP3, testBit_loc_place_at _ _ _ _ _ _ hto, testBit_loc_remove_at hok2 _ _ _ _ _
        (by omega), hP2', hrook]
      have : 3 + 6 * move.get_side_of_piece.toNat
          ≠ move.get_piece.toNat + 6 * move.get_side_of_piece.toNat := by omega
      simp [this]
  · have hcastle' : move.is_castle = false := by simpa using hcastle
    rw [hcastle']
    simp only [Bool.false_eq_true, if_false]
    rw [mm_castle_placement_of_not _ _ hcastle']
    by_cases hpromo : move.is_promo = true
    · have hps := hfit.promo hpromo
      have hocck : (b3.occupancies move.get_side_of_piece.toNat).testBit move.get_to_sq
          = true := by
        have : b3.occupancies = P3.occ := congrArg Placement.occ e3
        rw [this, ← hP3]
        exact testBit_occk_place_at _ _ _ _ hk hto
      have e4 := mm_promotion_placement b3 move hfit.side (by rw [e3]; exact hok3) hpromo hps
        hocck
      rw [e3] at e4
      rw [if_pos hpromo]
      exact ⟨e4, hok3.swap hk (by omega) (by omega) (by omega) (by omega) hP3to⟩
    · have hpromo' : move.is_promo = false := by simpa using hpromo
      rw [hpromo']
      simp only [Bool.false_eq_true, if_false]
      rw [mm_promotion_placement_of_not _ _ hpromo']
      exact ⟨e3, hok3⟩

/-! ## Generated moves fit a consistent position -/

theorem MoveFits.of_new (P : Placement) (from_sq to_sq : Nat) (piece : PieceType) (side : Side)
    (prom : PieceType) (prom_side : Side) (flag : MoveFlag) (is_capture : Bool)
    (hf : from_sq < 64) (ht : to_sq < 64) (hs : side ≠ Side.any)
    (hmover : (P.loc (piece.toNat + 6 * side.toNat)).testBit from_sq = true)
    (htarget : (is_capture = false ∧ (P.occ 2).testBit to_sq = false)
      ∨ (is_capture = true ∧ flag ≠ MoveFlag.EN_PASSANT
        ∧ ∃ idx, 6 * (opposite_side side).toNat ≤ idx
          ∧ idx < 6 * (opposite_side side).toNat + 6 ∧ (P.loc idx).testBit to_sq = true)
      ∨ (is_capture = true ∧ flag = MoveFlag.EN_PASSANT ∧ (P.occ 2).testBit to_sq = false
        ∧ ∃ idx, 6 * (opposite_side side).toNat ≤ idx
          ∧ idx < 6 * (opposite_side side).toNat + 6
          ∧ (P.loc idx).testBit ((to_sq : Int) + 8 - 16 * (side.toNat : Int)).toNat = true))
    (hpromo : prom_side ≠ Side.any → prom_side = side)
    (hcastle : flag = MoveFlag.CASTLE →
      is_capture = false ∧ prom_side = Side.any ∧ piece = PieceType.king
        ∧ (P.loc (3 + 6 * side.toNat)).testBit
            (if to_sq % 8 = 6 then (to_sq : Int) + 1 else (to_sq : Int) - 2).toNat = true
        ∧ (P.occ 2).testBit
            (if to_sq % 8 = 6 then (to_sq : Int) - 1 else (to_sq : Int) + 1).toNat = false
        ∧ (if to_sq % 8 = 6 then (to_sq : Int) - 1 else (to_sq : Int) + 1).toNat ≠ to_sq
        ∧ (if to_sq % 8 = 6 then (to_sq : Int) - 1 else (to_sq : Int) + 1).toNat < 64) :
    MoveFits P (Move.new from_sq to_sq piece side prom prom_side flag is_capture) := by
  obtain ⟨g1, g2, g3, g4, g5, g6, g7, g8, g9, g10, g11, -⟩ :=
    Move.getters_new from_sq to_sq piece side prom prom_side flag is_capture hf ht
  refine ⟨?_, ?_, ?_, ?_, ?_⟩
  · rw [g4]; exact hs
  · rw [g3, g4, g1]; exact hmover
  · rw [g10, g9, g2, g4]
    rcases htarget with h | ⟨h1, h2, h3⟩ | ⟨h1, h2, h3⟩
    · exact Or.inl h
    · exact Or.inr (Or.inl ⟨h1, by simpa using h2, h3⟩)
    · exact Or.inr (Or.inr ⟨h1, by simpa using h2, h3⟩)
  · rw [g11, g6, g4]
    intro h
    exact hpromo (by simpa using h)
  · rw [g8, g10, g11, g3, g2, g4]
    intro h
    obtain ⟨h1, h2, h3⟩ := hcastle (by simpa using h)
    exact ⟨h1, by simp [h2], h3⟩

theorem Board.consistent.bits_ok {board : Board} (h : board.consistent) :
    board.placement.bits_ok := by
  rw [← Placement.ok_iff_bits_ok]
  exact ⟨h.1, h.2.1, h.2.2.1⟩

theorem testBit_end_ranks : ∀ i, i < 64 →
    (0xFF000000000000FF : Nat).testBit i = decide (i < 8 ∨ 56 ≤ i) := by
  decide

/-- In a consistent position every pawn stands on ranks 2 to 7. -/
theorem Board.consistent.pawn_rank {board : Board} (h : board.consistent) {idx i : Nat}
    (hidx : idx = 0 ∨ idx = 6) (hbit : (board.piece_location idx).testBit i = true) :
    8 ≤ i ∧ i < 56 := by
  have hi : i < 64 := testBit_of_lt_64 (h.1.1 idx (by omega)) hbit
  have hp : ((board.piece_location 0 ||| board.piece_location 6)
      &&& 0xFF000000000000FF).testBit i = false := by
    have := h.2.2.2.2.1
    unfold Board.pawns_ok at this
    rw [this]; simp
  rw [Nat.testBit_and, Nat.testBit_or, testBit_end_ranks i hi] at hp
  have hor : ((board.piece_location 0).testBit i || (board.piece_location 6).testBit i)
      = true := by
    rcases hidx with rfl | rfl <;> simp [hbit]
  rw [hor] at hp
  simp at hp
  omega

theorem to_u32_of_nat (n : Nat) (h : n < 4294967296) : to_u32 (n : Int) = n := by
  unfold to_u32
  omega

theorem Board.side_ok.ne_any {board : Board} (h : board.side_ok) : board.side ≠ Side.any := by
  rcases h with h | h <;> rw [h] <;> decide

theorem Board.side_ok.toNat {board : Board} (h : board.side_ok) :
    (board.side = Side.white ∧ board.side.toNat = 0
        ∧ (opposite_side board.side).toNat = 1)
      ∨ (board.side = Side.black ∧ board.side.toNat = 1
        ∧ (opposite_side board.side).toNat = 0) := by
  rcases h with h | h <;> rw [h] <;> simp [Side.toNat, opposite_side]

theorem and_lt_of_left {a : Nat} (b : Nat) (h : a < 2 ^ 64) : a &&& b < 2 ^ 64 :=
  lt_of_le_of_lt Nat.and_le_left h

theorem and_lt_of_right (a : Nat) {b : Nat} (h : b < 2 ^ 64) : a &&& b < 2 ^ 64 :=
  lt_of_le_of_lt Nat.and_le_right h

/-- An occupied square of one side holds one of its six pieces. -/
theorem Placement.bits_ok.piece_of_occ {P : Placement} (h : P.bits_ok) {k i : Nat}
    (hk : k < 2) (hbit : (P.occ k).testBit i = true) :
    ∃ idx, 6 * k ≤ idx ∧ idx < 6 * k + 6 ∧ (P.loc idx).testBit i = true :=
  (h.side_occ k hk i).1 hbit

theorem Placement.bits_ok.empty_of_sides {P : Placement} (h : P.bits_ok) {i : Nat}
    (h0 : (P.occ 0).testBit i = false) (h1 : (P.occ 1).testBit i = false) :
    (P.occ 2).testBit i = false := by
  by_contra hc
  rcases (h.all_occ i).1 (by simpa using hc) with h' | h'
  · simp [h0] at h'
  · simp [h1] at h'


theorem Board.consistent.mover_bit {board : Board} (h : board.consistent) {piece : PieceType}
    {from_sq : Nat}
    (hfrom : from_sq ∈ squares_of (board.get_piece_bitboard piece board.side)) :
    (board.placement.loc (piece.toNat + 6 * board.side.toNat)).testBit from_sq = true
      ∧ from_sq < 64 := by
  have hlt : board.piece_location (piece.toNat + 6 * board.side.toNat) < 2 ^ 64 := by
    apply h.1.1
    have := piece.toNat_le
    have := Side.toNat_lt_two h.2.2.2.1.ne_any
    omega
  have hb : (board.piece_location (piece.toNat + 6 * board.side.toNat)).testBit from_sq
      = true := by
    rw [← mem_squares_of hlt]
    exact hfrom
  exact ⟨hb, testBit_of_lt_64 hlt hb⟩

theorem Generated.fits_push {board : Board} (h : board.consistent) (from_sq : Nat)
    (prom : PieceType) (prom_side : Side) (hps : prom_side ≠ Side.any → prom_side = board.side)
    (hfrom : from_sq ∈ squares_of (board.get_piece_bitboard PieceType.pawn board.side))
    (hto : get_bit board.get_all_occupancy
      ((from_sq : Int) + (-8 + 16 * (board.side.toNat : Int))).toNat = false) :
    MoveFits board.placement (Move.new from_sq
      (to_u32 ((from_sq : Int) + (-8 + 16 * (board.side.toNat : Int))))
      PieceType.pawn board.side prom prom_side MoveFlag.NO_FLAG false) := by
  obtain ⟨hmover, hf⟩ := h.mover_bit hfrom
  have hs := h.2.2.2.1
  rw [get_bit_eq_testBit] at hto
  rcases hs.toNat with ⟨_, hsv, _⟩ | ⟨_, hsv, _⟩
  · have hr : 8 ≤ from_sq ∧ from_sq < 56 := h.pawn_rank (Or.inl rfl)
      (by simpa [PieceType.toNat, hsv, Board.placement] using hmover)
    have e : to_u32 ((from_sq : Int) + (-8 + 16 * (board.side.toNat : Int))) = from_sq - 8 := by
      rw [hsv]; unfold to_u32; omega
    have e' : ((from_sq : Int) + (-8 + 16 * (board.side.toNat : Int))).toNat = from_sq - 8 := by
      rw [hsv]; omega
    rw [e]
    rw [e'] at hto
    exact MoveFits.of_new _ _ _ _ _ _ _ _ _ hf (by omega) hs.ne_any hmover
      (Or.inl ⟨rfl, hto⟩) hps (by intro hc; exact absurd hc (by decide))
  · have hr : 8 ≤ from_sq ∧ from_sq < 56 := h.pawn_rank (Or.inr rfl)
      (by simpa [PieceType.toNat, hsv, Board.placement] using hmover)
    have e : to_u32 ((from_sq : Int) + (-8 + 16 * (board.side.toNat : Int))) = from_sq + 8 := by
      rw [hsv]; unfold to_u32; omega
    have e' : ((from_sq : Int) + (-8 + 16 * (board.side.toNat : Int))).toNat = from_sq + 8 := by
      rw [hsv]; omega
    rw [e]
    rw [e'] at hto
    exact MoveFits.of_new _ _ _ _ _ _ _ _ _ hf (by omega) hs.ne_any hmover
      (Or.inl ⟨rfl, hto⟩) hps (by intro hc; exact absurd hc (by decide))

theorem Generated.fits_double_push {board : Board} (h : board.consistent) (from_sq : Nat)
    (hfrom : from_sq ∈ squares_of (board.get_piece_bitboard PieceType.pawn board.side))
    (hrank : ((from_sq / 8 : Nat) : Int) = 6 - 5 * (board.side.toNat : Int))
    (hto2 : get_bit board.get_all_occupancy
      ((from_sq : Int) + 2 * (-8 + 16 * (board.side.toNat : Int))).toNat = false) :
    MoveFits board.placement (Move.new from_sq
      (to_u32 ((from_sq : Int) + 2 * (-8 + 16 * (board.side.toNat : Int))))
      PieceType.pawn board.side PieceType.pawn Side.any MoveFlag.PAWN_START false) := by
  obtain ⟨hmover, hf⟩ := h.mover_bit hfrom
  have hs := h.2.2.2.1
  rw [get_bit_eq_testBit] at hto2
  rcases hs.toNat with ⟨_, hsv, _⟩ | ⟨_, hsv, _⟩
  · rw [hsv] at hrank
    have e : to_u32 ((from_sq : Int) + 2 * (-8 + 16 * (board.side.toNat : Int)))
        = from_sq - 16 := by
      rw [hsv]; unfold to_u32; omega
    have e' : ((from_sq : Int) + 2 * (-8 + 16 * (board.side.toNat : Int))).toNat
        = from_sq - 16 := by
      rw [hsv]; omega
    rw [e]
    rw [e'] at hto2
    exact MoveFits.of_new _ _ _ _ _ _ _ _ _ hf (by omega) hs.ne_any hmover
      (Or.inl ⟨rfl, hto2⟩) (by intro hc; exact absurd rfl hc)
      (by intro hc; exact absurd hc (by decide))
  · rw [hsv] at hrank
    have e : to_u32 ((from_sq : Int) + 2 * (-8 + 16 * (board.side.toNat : Int)))
        = from_sq + 16 := by
      rw [hsv]; unfold to_u32; omega
    have e' : ((from_sq : Int) + 2 * (-8 + 16 * (board.side.toNat : Int))).toNat
        = from_sq + 16 := by
      rw [hsv]; omega
    rw [e]
    rw [e'] at hto2
    exact MoveFits.of_new _ _ _ _ _ _ _ _ _ hf (by omega) hs.ne_any hmover
      (Or.inl ⟨rfl, hto2⟩) (by intro hc; exact absurd rfl hc)
      (by intro hc; exact absurd hc (by decide))

theorem generate_pawn_attacks_lt (side : Side) (sq : Nat) :
    generate_pawn_attacks side sq < 2 ^ 64 := by
  unfold generate_pawn_attacks
  simp only
  split
  · apply Nat.or_lt_two_pow
    · exact and_lt_of_right _ (not64_lt (by norm_num [FILE_A]))
    · exact and_lt_of_right _ (not64_lt (by norm_num [FILE_H]))
  · apply Nat.or_lt_two_pow
    · exact and_lt_of_left _ (shl64_lt _ _)
    · exact and_lt_of_left _ (shl64_lt _ _)

theorem Generated.fits_capture {board : Board} (h : board.consistent) (from_sq capture_sq : Nat)
    (prom : PieceType) (prom_side : Side) (hps : prom_side ≠ Side.any → prom_side = board.side)
    (hfrom : from_sq ∈ squares_of (board.get_piece_bitboard PieceType.pawn board.side))
    (hcap : capture_sq ∈ squares_of (pawn_masks board.side.toNat from_sq
      &&& board.get_occupancy (opposite_side board.side))) :
    MoveFits board.placement (Move.new from_sq capture_sq PieceType.pawn board.side prom
      prom_side MoveFlag.NO_FLAG true) := by
  obtain ⟨hmover, hf⟩ := h.mover_bit hfrom
  have hs := h.2.2.2.1
  have hlt : pawn_masks board.side.toNat from_sq
      &&& board.get_occupancy (opposite_side board.side) < 2 ^ 64 :=
    and_lt_of_left _ (generate_pawn_attacks_lt _ _)
  rw [mem_squares_of hlt, Nat.testBit_and, Bool.and_eq_true] at hcap
  have hc64 := testBit_of_lt_64 (generate_pawn_attacks_lt _ _) hcap.1
  have hko := Side.toNat_lt_two (opposite_side_ne_any hs.ne_any)
  obtain ⟨idx, h1, h2, hbit⟩ := h.bits_ok.piece_of_occ hko hcap.2
  exact MoveFits.of_new _ _ _ _ _ _ _ _ _ hf hc64 hs.ne_any hmover
    (Or.inr (Or.inl ⟨rfl, by decide, idx, h1, h2, hbit⟩)) hps
    (by intro hc; exact absurd hc (by decide))

theorem Generated.fits_en_passant {board : Board} (h : board.consistent) (from_sq : Nat)
    (hfrom : from_sq ∈ squares_of (board.get_piece_bitboard PieceType.pawn board.side))
    (hset : board.enpassant.1 = true) :
    MoveFits board.placement (Move.new from_sq (to_u32 board.enpassant.2) PieceType.pawn
      board.side PieceType.pawn Side.any MoveFlag.EN_PASSANT true) := by
  obtain ⟨hmover, hf⟩ := h.mover_bit hfrom
  have hs := h.2.2.2.1
  obtain ⟨he0, he64, hempty, hw, hb⟩ := h.2.2.2.2.2.1 hset
  obtain ⟨e, he⟩ : ∃ e : Nat, board.enpassant.2 = (e : Int) :=
    ⟨board.enpassant.2.toNat, by omega⟩
  rw [he] at hempty hw hb he64 ⊢
  simp only [Int.toNat_ofNat] at hempty hw hb
  have he64' : e < 64 := by omega
  rw [to_u32_of_nat e (by omega)]
  rcases hs.toNat with ⟨hsw, hsv, hso⟩ | ⟨hsb, hsv, hso⟩
  · refine MoveFits.of_new _ _ _ _ _ _ _ _ _ hf he64' hs.ne_any hmover
      (Or.inr (Or.inr ⟨rfl, rfl, hempty, 6, by omega, by omega, ?_⟩))
      (by intro hc; exact absurd rfl hc) (by intro hc; exact absurd hc (by decide))
    have : ((e : Int) + 8 - 16 * (board.side.toNat : Int)).toNat = e + 8 := by
      rw [hsv]; omega
    rw [this]
    exact hw hsw
  · obtain ⟨h8, hb'⟩ := hb hsb
    refine MoveFits.of_new _ _ _ _ _ _ _ _ _ hf he64' hs.ne_any hmover
      (Or.inr (Or.inr ⟨rfl, rfl, hempty, 0, by omega, by omega, ?_⟩))
      (by intro hc; exact absurd rfl hc) (by intro hc; exact absurd hc (by decide))
    have : ((e : Int) + 8 - 16 * (board.side.toNat : Int)).toNat = e - 8 := by
      rw [hsv]; omega
    rw [this]
    exact hb'

theorem Generated.fits_piece {board : Board} (h : board.consistent) (piece_type : PieceType)
    (from_sq to_sq : Nat)
    (hfrom : from_sq ∈ squares_of (board.get_piece_bitboard piece_type board.side))
    (hto : to_sq ∈ squares_of (piece_attacks piece_type from_sq board.get_all_occupancy
      &&& not64 (board.get_occupancy board.side))) :
    MoveFits board.placement (Move.new from_sq to_sq piece_type board.side PieceType.pawn
      Side.any MoveFlag.NO_FLAG
      (get_bit (board.get_occupancy (opposite_side board.side)) to_sq)) := by
  obtain ⟨hmover, hf⟩ := h.mover_bit hfrom
  have hs := h.2.2.2.1
  have hk := Side.toNat_lt_two hs.ne_any
  have hko := Side.toNat_lt_two (opposite_side_ne_any hs.ne_any)
  have hown : board.get_occupancy board.side < 2 ^ 64 := h.1.2 _ (by omega)
  have hlt : piece_attacks piece_type from_sq board.get_all_occupancy
      &&& not64 (board.get_occupancy board.side) < 2 ^ 64 :=
    and_lt_of_right _ (not64_lt hown)
  rw [mem_squares_of hlt, Nat.testBit_and, Bool.and_eq_true, testBit_not64] at hto
  have ht64 : to_sq < 64 := by
    by_contra hge
    have : decide (to_sq < 64) = false := by simpa using hge
    rw [this, Nat.testBit_lt_two_pow (lt_of_lt_of_le hown
      (Nat.pow_le_pow_right (by norm_num) (by omega)))] at hto
    simp at hto
  have hownbit : (board.occupancies board.side.toNat).testBit to_sq = false := by
    have := hto.2
    simp only [ht64, decide_True, Bool.xor_true, Bool.not_eq_true'] at this
    exact this
  rw [get_bit_eq_testBit]
  by_cases hcap : (board.get_occupancy (opposite_side board.side)).testBit to_sq = true
  · rw [hcap]
    obtain ⟨idx, h1, h2, hbit⟩ := h.bits_ok.piece_of_occ hko hcap
    exact MoveFits.of_new _ _ _ _ _ _ _ _ _ hf ht64 hs.ne_any hmover
      (Or.inr (Or.inl ⟨rfl, by decide, idx, h1, h2, hbit⟩))
      (by intro hc; exact absurd rfl hc) (by intro hc; exact absurd hc (by decide))
  · have hcap' : (board.get_occupancy (opposite_side board.side)).testBit to_sq = false := by
      simpa using hcap
    rw [hcap']
    have hempty : (board.placement.occ 2).testBit to_sq = false := by
      rcases hs.toNat with ⟨_, hsv, hso⟩ | ⟨_, hsv, hso⟩
      · apply h.bits_ok.empty_of_sides
        · rw [← hsv]; exact hownbit
        · rw [← hso]; exact hcap'
      · apply h.bits_ok.empty_of_sides
        · rw [← hso]; exact hcap'
        · rw [← hsv]; exact hownbit
    exact MoveFits.of_new _ _ _ _ _ _ _ _ _ hf ht64 hs.ne_any hmover
      (Or.inl ⟨rfl, hempty⟩)
      (by intro hc; exact absurd rfl hc) (by intro hc; exact absurd hc (by decide))


/-- What `can_castle_side` has checked when it allows castling, for the side with
index `k` (0 white, 1 black). -/
theorem can_castle_side_true {board : Board} {side : Side} {is_kingside : Bool}
    {all_pieces : Nat} {enemy_side : Side} {k : Nat} (hk : side.toNat = k) (hk1 : k ≤ 1)
    (h : can_castle_side board side is_kingside all_pieces enemy_side = true) :
    (is_kingside = true →
        board.castling &&& (1 <<< (k * 2)) ≠ 0
          ∧ all_pieces.testBit (61 - 56 * k) = false
          ∧ all_pieces.testBit (62 - 56 * k) = false
          ∧ board.is_sq_attacked (60 - 56 * k) enemy_side = false
          ∧ board.is_sq_attacked (61 - 56 * k) enemy_side = false)
      ∧ (is_kingside = false →
        board.castling &&& (2 <<< (k * 2)) ≠ 0
          ∧ all_pieces.testBit (59 - 56 * k) = false
          ∧ all_pieces.testBit (58 - 56 * k) = false
          ∧ all_pieces.testBit (57 - 56 * k) = false
          ∧ board.is_sq_attacked (60 - 56 * k) enemy_side = false
          ∧ board.is_sq_attacked (59 - 56 * k) enemy_side = false) := by
  have e0 : (60 - 56 * ((k : Nat) : Int)).toNat = 60 - 56 * k := by omega
  have e1 : (60 - 56 * ((k : Nat) : Int) + 1).toNat = 61 - 56 * k := by omega
  have e2 : (60 - 56 * ((k : Nat) : Int) + 2).toNat = 62 - 56 * k := by omega
  have e3 : (60 - 56 * ((k : Nat) : Int) - 1).toNat = 59 - 56 * k := by omega
  have e4 : (60 - 56 * ((k : Nat) : Int) - 2).toNat = 58 - 56 * k := by omega
  have e5 : (60 - 56 * ((k : Nat) : Int) - 3).toNat = 57 - 56 * k := by omega
  unfold can_castle_side at h
  rw [hk] at h
  simp only [Board.can_castle, CastlingRights.white_king, CastlingRights.white_queen,
    get_bit_eq_testBit, e0, e1, e2, e3, e4, e5] at h
  cases is_kingside
  · refine ⟨by intro hc; exact absurd hc (by decide), fun _ => ?_⟩
    simp only [Bool.false_eq_true, if_false] at h
    by_cases hr : (board.castling &&& 2 <<< (k * 2) != 0) = true
    · simp only [hr, Bool.not_true, Bool.false_eq_true, if_false] at h
      by_cases hocc : (all_pieces.testBit (59 - 56 * k) || all_pieces.testBit (58 - 56 * k)
          || all_pieces.testBit (57 - 56 * k)) = true
      · simp only [hocc, if_true] at h
        exact absurd h (by decide)
      · simp only [hocc, if_false, Bool.and_eq_true, Bool.not_eq_true',
          Bool.false_eq_true] at h
        simp only [Bool.or_eq_true, not_or, Bool.not_eq_true] at hocc
        exact ⟨by simpa using hr, hocc.1.1, hocc.1.2, hocc.2, h.1, h.2⟩
    · simp only [hr, Bool.not_false, if_true] at h
      exact absurd h (by decide)
  · refine ⟨fun _ => ?_, by intro hc; exact absurd hc (by decide)⟩
    simp only [if_true] at h
    by_cases hr : (board.castling &&& 1 <<< (k * 2) != 0) = true
    · simp only [hr, Bool.not_true, Bool.false_eq_true, if_false] at h
      by_cases hocc : (all_pieces.testBit (61 - 56 * k) || all_pieces.testBit (62 - 56 * k))
          = true
      · simp only [hocc, if_true] at h
        exact absurd h (by decide)
      · simp only [hocc, if_false, Bool.and_eq_true, Bool.not_eq_true',
          Bool.false_eq_true] at h
        simp only [Bool.or_eq_true, not_or, Bool.not_eq_true] at hocc
        exact ⟨by simpa using hr, hocc.1, hocc.2, h.1, h.2⟩
    · simp only [hr, Bool.not_false, if_true] at h
      exact absurd h (by decide)

theorem castle_squares (k : Nat) (hk1 : k ≤ 1) :
    to_u32 (60 - 56 * (k : Int)) = 60 - 56 * k
      ∧ to_u32 (60 - 56 * (k : Int) + 2) = 62 - 56 * k
      ∧ to_u32 (60 - 56 * (k : Int) - 2) = 58 - 56 * k := by
  unfold to_u32
  omega

theorem Generated.fits_castle_kingside {board : Board} (h : board.consistent)
    (hcan : can_castle_side board board.side true board.get_all_occupancy
      (opposite_side board.side) = true) :
    MoveFits board.placement (Move.new (to_u32 (60 - 56 * (board.side.toNat : Int)))
      (to_u32 (60 - 56 * (board.side.toNat : Int) + 2)) PieceType.king board.side
      PieceType.pawn Side.any MoveFlag.CASTLE false) := by
  have hs := h.2.2.2.1
  obtain ⟨cK, cQ, ck, cq⟩ := h.2.2.2.2.2.2
  rcases hs.toNat with ⟨_, hsv, _⟩ | ⟨_, hsv, _⟩
  · obtain ⟨hright, hf, hg, -, -⟩ := (can_castle_side_true hsv (by omega) hcan).1 rfl
    obtain ⟨hking, hrook⟩ := cK hright
    obtain ⟨e1, e2, -⟩ := castle_squares 0 (by omega)
    rw [hsv, e1, e2]
    exact MoveFits.of_new _ 60 62 _ _ _ _ _ _ (by omega) (by omega) hs.ne_any
      (by rw [hsv]; exact hking) (Or.inl ⟨rfl, hg⟩) (by intro hc; exact absurd rfl hc)
      (by intro _; rw [hsv]; exact ⟨rfl, rfl, rfl, hrook, hf, by decide, by decide⟩)
  · obtain ⟨hright, hf, hg, -, -⟩ := (can_castle_side_true hsv (by omega) hcan).1 rfl
    obtain ⟨hking, hrook⟩ := ck hright
    obtain ⟨e1, e2, -⟩ := castle_squares 1 (by omega)
    rw [hsv, e1, e2]
    exact MoveFits.of_new _ 4 6 _ _ _ _ _ _ (by omega) (by omega) hs.ne_any
      (by rw [hsv]; exact hking) (Or.inl ⟨rfl, hg⟩) (by intro hc; exact absurd rfl hc)
      (by intro _; rw [hsv]; exact ⟨rfl, rfl, rfl, hrook, hf, by decide, by decide⟩)

theorem Generated.fits_castle_queenside {board : Board} (h : board.consistent)
    (hcan : can_castle_side board board.side false board.get_all_occupancy
      (opposite_side board.side) = true) :
    MoveFits board.placement (Move.new (to_u32 (60 - 56 * (board.side.toNat : Int)))
      (to_u32 (60 - 56 * (board.side.toNat : Int) - 2)) PieceType.king board.side
      PieceType.pawn Side.any MoveFlag.CASTLE false) := by
  have hs := h.2.2.2.1
  obtain ⟨cK, cQ, ck, cq⟩ := h.2.2.2.2.2.2
  rcases hs.toNat with ⟨_, hsv, _⟩ | ⟨_, hsv, _⟩
  · obtain ⟨hright, hd, hc, -, -, -⟩ := (can_castle_side_true hsv (by omega) hcan).2 rfl
    obtain ⟨hking, hrook⟩ := cQ hright
    obtain ⟨e1, -, e3⟩ := castle_squares 0 (by omega)
    rw [hsv, e1, e3]
    exact MoveFits.of_new _ 60 58 _ _ _ _ _ _ (by omega) (by omega) hs.ne_any
      (by rw [hsv]; exact hking) (Or.inl ⟨rfl, hc⟩) (by intro hc; exact absurd rfl hc)
      (by intro _; rw [hsv]; exact ⟨rfl, rfl, rfl, hrook, hd, by decide, by decide⟩)
  · obtain ⟨hright, hd, hc, -, -, -⟩ := (can_castle_side_true hsv (by omega) hcan).2 rfl
    obtain ⟨hking, hrook⟩ := cq hright
    obtain ⟨e1, -, e3⟩ := castle_squares 1 (by omega)
    rw [hsv, e1, e3]
    exact MoveFits.of_new _ 4 2 _ _ _ _ _ _ (by omega) (by omega) hs.ne_any
      (by rw [hsv]; exact hking) (Or.inl ⟨rfl, hc⟩) (by intro hc; exact absurd rfl hc)
      (by intro _; rw [hsv]; exact ⟨rfl, rfl, rfl, hrook, hd, by decide, by decide⟩)

/-- Every generated move fits the placement of a consistent position. -/
theorem Generated.fits {board : Board} (h : board.consistent) {move : Move}
    (hgen : Generated board move) : MoveFits board.placement move := by
  cases hgen with
  | push from_sq hfrom hto hrank =>
    exact Generated.fits_push h from_sq _ _ (by intro hc; exact absurd rfl hc) hfrom hto
  | push_promo from_sq prom hfrom hto hrank hprom =>
    exact Generated.fits_push h from_sq _ _ (fun _ => rfl) hfrom hto
  | double_push from_sq hfrom hto hrank hto2 =>
    exact Generated.fits_double_push h from_sq hfrom hrank hto2
  | capture from_sq capture_sq hfrom hcap hrank =>
    exact Generated.fits_capture h from_sq capture_sq _ _ (by intro hc; exact absurd rfl hc)
      hfrom hcap
  | capture_promo from_sq capture_sq prom hfrom hcap hrank hprom =>
    exact Generated.fits_capture h from_sq capture_sq _ _ (fun _ => rfl) hfrom hcap
  | en_passant from_sq hfrom hset hatt =>
    exact Generated.fits_en_passant h from_sq hfrom hset
  | piece piece_type from_sq to_sq hpiece hfrom hto =>
    exact Generated.fits_piece h piece_type from_sq to_sq hfrom hto
  | castle_kingside hcan => exact Generated.fits_castle_kingside h hcan
  | castle_queenside hcan => exact Generated.fits_castle_queenside h hcan

/-! ## C2, C3, C4: what `make_move` leaves behind -/

theorem pop_piece_loop_side (sq : Nat) (side : Side) (l : List Nat) :
    ∀ board : Board, (Board.pop_piece_loop board sq side l).side = board.side := by
  induction l with
  | nil => intro board; rfl
  | cons x xs ih =>
    intro board
    unfold Board.pop_piece_loop
    split
    · rfl
    · exact ih board

theorem make_move_apply_side (board : Board) (move : Move) :
    (board.make_move_apply move).side = opposite_side board.side := by
  have h1 : ∀ b : Board, (b.mm_fifty move).side = b.side := by
    intro b; unfold Board.mm_fifty; simp only; split <;> rfl
  have h2 : ∀ b : Board, b.mm_side.side = opposite_side b.side := fun _ => rfl
  have h3 : ∀ b : Board, (b.mm_castling_rights move).side = b.side := fun _ => rfl
  have h4 : ∀ b : Board, (b.mm_enpassant_square move).side = b.side := by
    intro b; unfold Board.mm_enpassant_square; simp only; split <;> split <;> rfl
  have h5 : ∀ b : Board, (b.mm_castle move).side = b.side := by
    intro b; unfold Board.mm_castle; simp only; split <;> rfl
  have h6 : ∀ b : Board, (b.mm_promotion move).side = b.side := by
    intro b; unfold Board.mm_promotion; simp only; split <;> rfl
  have h7 : ∀ b : Board, (b.mm_move_piece move).side = b.side := fun _ => rfl
  have h8 : ∀ b : Board, (b.mm_capture move).side = b.side := by
    intro b; unfold Board.mm_capture; simp only
    split
    · unfold Board.pop_piece; rw [pop_piece_loop_side]; rfl
    · rfl
  have h9 : ∀ b : Board, (b.mm_enpassant_capture move).side = b.side := by
    intro b; unfold Board.mm_enpassant_capture; simp only
    split
    · show (Board.pop_piece _ _ _).side = _
      unfold Board.pop_piece; rw [pop_piece_loop_side]
    · rfl
  unfold Board.make_move_apply
  simp only [h1, h2, h3, h4, h5, h6, h7, h8, h9]

theorem make_move_eq_of_accepted (board : Board) (move : Move)
    (h : (board.make_move move).1 = true) :
    (board.make_move move).2 = board.make_move_apply move := by
  unfold Board.make_move at h ⊢
  simp only at h ⊢
  split
  · rename_i hatt
    rw [if_pos hatt] at h
    exact absurd h Bool.false_ne_true
  · rfl

theorem Move.new_mod (from_sq to_sq : Nat) (piece : PieceType) (side : Side)
    (prom : PieceType) (prom_side : Side) (flag : MoveFlag) (is_capture : Bool) :
    Move.new from_sq to_sq piece side prom prom_side flag is_capture
      = Move.new (from_sq % 64) (to_sq % 64) piece side prom prom_side flag is_capture := by
  have m63 : ∀ x : Nat, x &&& 0x3F = x % 64 := fun x => Nat.and_pow_two_sub_one_eq_mod x 6
  unfold Move.new
  simp only [m63, Nat.mod_mod]

theorem Move.get_side_of_piece_new (from_sq to_sq : Nat) (piece : PieceType) (side : Side)
    (prom : PieceType) (prom_side : Side) (flag : MoveFlag) (is_capture : Bool) :
    (Move.new from_sq to_sq piece side prom prom_side flag is_capture).get_side_of_piece
      = side := by
  rw [Move.new_mod]
  exact (Move.getters_new _ _ piece side prom prom_side flag is_capture
    (Nat.mod_lt _ (by norm_num)) (Nat.mod_lt _ (by norm_num))).2.2.2.1

/-- Every generated move carries the side to move as the side of its piece. -/
theorem Generated.side_of_piece {board : Board} {move : Move} (h : Generated board move) :
    move.get_side_of_piece = board.side := by
  cases h <;> exact Move.get_side_of_piece_new _ _ _ _ _ _ _ _

theorem opposite_side_opposite_side {s : Side} (h : s ≠ Side.any) :
    opposite_side (opposite_side s) = s := by
  cases s <;> simp [opposite_side] at h ⊢

theorem Placement.bits_ok.sides_disjoint {P : Placement} (h : P.bits_ok) :
    P.occ 0 &&& P.occ 1 = 0 := by
  rw [and_eq_zero_iff_forall]
  rintro i ⟨h0, h1⟩
  obtain ⟨p, hp1, hp2, hp⟩ := h.piece_of_occ (k := 0) (by omega) h0
  obtain ⟨q, hq1, hq2, hq⟩ := h.piece_of_occ (k := 1) (by omega) h1
  have := h.disjoint p q i (by omega) (by omega) hp hq
  omega

theorem make_move_apply_bits_ok {board : Board} (h : board.consistent) {move : Move}
    (hm : move ∈ fill_move_array [] board) :
    (board.make_move_apply move).placement.bits_ok := by
  obtain ⟨victim, -, e, hok⟩ := make_move_apply_placement_ok board move h.bits_ok
    (Generated.fits h (generated_of_mem board move hm))
  rw [e]
  exact hok

/-- C2 (amended): in a consistent position (64-bit words, pairwise disjoint piece
bitboards, aggregates equal to the OR of their piece bitboards, white or black to move,
no pawn on an end rank, an en-passant square that is empty with an enemy pawn behind
it, castling rights only with king and rook on their home squares), every move
produced by `fill_move_array` that `make_move` accepts leads to a position with
`occupancy[white] | occupancy[black] == occupancy[any]`,
`occupancy[white] & occupancy[black] == 0`, and each aggregate equal to the OR of the
corresponding piece bitboards. -/
theorem make_move_keeps_occupancy (board : Board) (move : Move) (hc : board.consistent)
    (hm : move ∈ fill_move_array [] board) (hacc : (board.make_move move).1 = true) :
    (board.make_move move).2.occupancies 0 ||| (board.make_move move).2.occupancies 1
        = (board.make_move move).2.occupancies 2
      ∧ (board.make_move move).2.occupancies 0 &&& (board.make_move move).2.occupancies 1 = 0
      ∧ (board.make_move move).2.aggregates_ok := by
  rw [make_move_eq_of_accepted board move hacc]
  have hbits := make_move_apply_bits_ok hc hm
  have hok := (Placement.ok_iff_bits_ok _).2 hbits
  obtain ⟨-, -, h0, h1, h2⟩ := hok
  refine ⟨?_, hbits.sides_disjoint, h0, h1, h2⟩
  show (board.make_move_apply move).placement.occ 0 ||| (board.make_move_apply move).placement.occ 1
    = (board.make_move_apply move).placement.occ 2
  rw [h2, h0, h1]

/-- C3: whenever `make_move` returns false, the board it leaves is the board it was
given, in every field; stated for boards on which a king of the moving side is
present, the domain on which the king look-up of the source is defined. -/
theorem make_move_false_restores (board : Board) (move : Move)
    (_hking : board.piece_location (get_piece_index PieceType.king move.get_side_of_piece) ≠ 0)
    (hrej : (board.make_move move).1 = false) : (board.make_move move).2 = board := by
  unfold Board.make_move at hrej ⊢
  simp only at hrej ⊢
  split
  · rfl
  · rename_i hatt
    rw [if_neg hatt] at hrej
    exact absurd hrej (fun e => Bool.false_ne_true e.symm)

/-- C4: for a position whose side to move is white or black and a move produced by
`fill_move_array`, `make_move` returns true exactly when, in the position obtained by
applying the move, the king of the side that moved is not attacked by the other side;
the side that moved is the side that was to move, and on acceptance the board left is
the applied position, with the side to move flipped. -/
theorem make_move_accepts_iff_king_safe (board : Board) (move : Move) (hs : board.side_ok)
    (hm : move ∈ fill_move_array [] board) :
    move.get_side_of_piece = board.side
      ∧ ((board.make_move move).1 = true
        ↔ (board.make_move_apply move).is_sq_attacked
            (get_lsb_index ((board.make_move_apply move).piece_location
              (get_piece_index PieceType.king move.get_side_of_piece)))
            (opposite_side move.get_side_of_piece) = false)
      ∧ ((board.make_move move).1 = true →
          (board.make_move move).2 = board.make_move_apply move
            ∧ (board.make_move move).2.side = opposite_side board.side) := by
  have hside := (generated_of_mem board move hm).side_of_piece
  refine ⟨hside, ?_, ?_⟩
  · rw [hside]
    unfold Board.make_move
    simp only [make_move_apply_side, opposite_side_opposite_side hs.ne_any]
    split
    · rename_i hatt
      simp [hatt]
    · rename_i hatt
      simpa using hatt
  · intro hacc
    have e := make_move_eq_of_accepted board move hacc
    exact ⟨e, by rw [e, make_move_apply_side]⟩

/-- C2 as stated fails: in the position `4k3/8/4p3/3P4/8/8/8/4K3 w - e6 0 1` the piece
bitboards are pairwise disjoint and the aggregates are the OR of their pieces, the
en-passant move d5-e6 is generated and accepted, and afterwards the white and the black
occupancy share the square e6. -/
theorem make_move_occupancy_counterexample :
    (Board.of_fen "4k3/8/4p3/3P4/8/8/8/4K3 w - e6 0 1").pieces_disjoint
      ∧ (Board.of_fen "4k3/8/4p3/3P4/8/8/8/4K3 w - e6 0 1").aggregates_ok
      ∧ Move.new 27 20 PieceType.pawn Side.white PieceType.pawn Side.any MoveFlag.EN_PASSANT true
          ∈ fill_move_array [] (Board.of_fen "4k3/8/4p3/3P4/8/8/8/4K3 w - e6 0 1")
      ∧ ((Board.of_fen "4k3/8/4p3/3P4/8/8/8/4K3 w - e6 0 1").make_move
          (Move.new 27 20 PieceType.pawn Side.white PieceType.pawn Side.any
            MoveFlag.EN_PASSANT true)).1 = true
      ∧ ((Board.of_fen "4k3/8/4p3/3P4/8/8/8/4K3 w - e6 0 1").make_move
          (Move.new 27 20 PieceType.pawn Side.white PieceType.pawn Side.any
            MoveFlag.EN_PASSANT true)).2.occupancies 0
        &&& ((Board.of_fen "4k3/8/4p3/3P4/8/8/8/4K3 w - e6 0 1").make_move
          (Move.new 27 20 PieceType.pawn Side.white PieceType.pawn Side.any
            MoveFlag.EN_PASSANT true)).2.occupancies 1 ≠ 0 := by
  refine ⟨?_, ?_, ?_, ?_, ?_⟩ <;> decide!

/-- C2 (amended) at the Kiwipete position with the capture Be2xa6. -/
theorem make_move_keeps_occupancy_witness :
    ((Board.of_fen
        "r3k2r/p1ppqpb1/bn2pnp1/3PN3/1p2P3/2N2Q1p/PPPBBPPP/R3K2R w KQkq - 0 1").consistent
      ∧ Move.new 52 16 PieceType.bishop Side.white PieceType.pawn Side.any MoveFlag.NO_FLAG true
          ∈ fill_move_array [] (Board.of_fen
            "r3k2r/p1ppqpb1/bn2pnp1/3PN3/1p2P3/2N2Q1p/PPPBBPPP/R3K2R w KQkq - 0 1")
      ∧ ((Board.of_fen
          "r3k2r/p1ppqpb1/bn2pnp1/3PN3/1p2P3/2N2Q1p/PPPBBPPP/R3K2R w KQkq - 0 1").make_move
          (Move.new 52 16 PieceType.bishop Side.white PieceType.pawn Side.any
            MoveFlag.NO_FLAG true)).1 = true)
      ∧ ((Board.of_fen
          "r3k2r/p1ppqpb1/bn2pnp1/3PN3/1p2P3/2N2Q1p/PPPBBPPP/R3K2R w KQkq - 0 1").make_move
          (Move.new 52 16 PieceType.bishop Side.white PieceType.pawn Side.any
            MoveFlag.NO_FLAG true)).2.occupancies 0
        &&& ((Board.of_fen
          "r3k2r/p1ppqpb1/bn2pnp1/3PN3/1p2P3/2N2Q1p/PPPBBPPP/R3K2R w KQkq - 0 1").make_move
          (Move.new 52 16 PieceType.bishop Side.white PieceType.pawn Side.any
            MoveFlag.NO_FLAG true)).2.occupancies 1 = 0 :=
  ⟨⟨by decide!, by decide!, by decide!⟩,
    (make_move_keeps_occupancy _ _ (by decide!) (by decide!) (by decide!)).2.1⟩

/-- C3 at a pinned knight: in `4r1k1/8/8/8/8/8/4N3/4K3 w - - 0 1` the move Ne2-c3 is
rejected and the board is left as it was. -/
theorem make_move_false_restores_witness :
    ((Board.of_fen "4r1k1/8/8/8/8/8/4N3/4K3 w - - 0 1").piece_location
          (get_piece_index PieceType.king
            (Move.new 52 42 PieceType.knight Side.white PieceType.pawn Side.any
              MoveFlag.NO_FLAG false).get_side_of_piece) ≠ 0
      ∧ ((Board.of_fen "4r1k1/8/8/8/8/8/4N3/4K3 w - - 0 1").make_move
          (Move.new 52 42 PieceType.knight Side.white PieceType.pawn Side.any
            MoveFlag.NO_FLAG false)).1 = false)
      ∧ ((Board.of_fen "4r1k1/8/8/8/8/8/4N3/4K3 w - - 0 1").make_move
          (Move.new 52 42 PieceType.knight Side.white PieceType.pawn Side.any
            MoveFlag.NO_FLAG false)).2
        = Board.of_fen "4r1k1/8/8/8/8/8/4N3/4K3 w - - 0 1" :=
  ⟨⟨by decide!, by decide!⟩, make_move_false_restores _ _ (by decide!) (by decide!)⟩

/-- C4 at the pinned knight: the generated move Ne2-c3 is rejected, the white king
being attacked once the knight has left the e-file. -/
theorem make_move_accepts_iff_king_safe_witness :
    ((Board.of_fen "4r1k1/8/8/8/8/8/4N3/4K3 w - - 0 1").side_ok
      ∧ Move.new 52 42 PieceType.knight Side.white PieceType.pawn Side.any MoveFlag.NO_FLAG
          false ∈ fill_move_array [] (Board.of_fen "4r1k1/8/8/8/8/8/4N3/4K3 w - - 0 1"))
      ∧ (((Board.of_fen "4r1k1/8/8/8/8/8/4N3/4K3 w - - 0 1").make_move
          (Move.new 52 42 PieceType.knight Side.white PieceType.pawn Side.any
            MoveFlag.NO_FLAG false)).1 = true
        ↔ ((Board.of_fen "4r1k1/8/8/8/8/8/4N3/4K3 w - - 0 1").make_move_apply
            (Move.new 52 42 PieceType.knight Side.white PieceType.pawn Side.any
              MoveFlag.NO_FLAG false)).is_sq_attacked
            (get_lsb_index (((Board.of_fen "4r1k1/8/8/8/8/8/4N3/4K3 w - - 0 1").make_move_apply
              (Move.new 52 42 PieceType.knight Side.white PieceType.pawn Side.any
                MoveFlag.NO_FLAG false)).piece_location
              (get_piece_index PieceType.king
                (Move.new 52 42 PieceType.knight Side.white PieceType.pawn Side.any
                  MoveFlag.NO_FLAG false).get_side_of_piece)))
            (opposite_side (Move.new 52 42 PieceType.knight Side.white PieceType.pawn Side.any
              MoveFlag.NO_FLAG false).get_side_of_piece) = false) :=
  ⟨⟨by decide!, by decide!⟩,
    (make_move_accepts_iff_king_safe _ _ (by decide!) (by decide!)).2.1⟩

/-! ## C6: the square-attacked query -/

theorem pawn_mask_iff : ∀ s, s < 64 → ∀ t, t < 64 →
    (((pawn_masks 1 s).testBit t = true ↔ pawn_attacks_sq Side.white t s)
      ∧ ((pawn_masks 0 s).testBit t = true ↔ pawn_attacks_sq Side.black t s)) := by
  decide!

theorem knight_mask_iff : ∀ s, s < 64 → ∀ t, t < 64 →
    ((knight_masks s).testBit t = true ↔ knight_leap t s) := by
  decide!

theorem king_mask_iff : ∀ s, s < 64 → ∀ t, t < 64 →
    ((king_masks s).testBit t = true ↔ king_step t s) := by
  decide!

theorem square_at_lt {r f : Int} (h : on_board r f) : square_at r f < 64 := by
  unfold on_board at h
  unfold square_at
  omega

theorem testBit_ray_loop (blockers : Nat) (dr df : Int) :
    ∀ (fuel : Nat) (r f : Int) (acc i : Nat),
      (ray_loop fuel r f dr df blockers acc).testBit i = true
        ↔ (acc.testBit i = true ∨ ∃ n, n < fuel ∧ ray_hits blockers r f dr df n i) := by
  intro fuel
  induction fuel with
  | zero =>
    intro r f acc i
    simp [ray_loop]
  | succ fuel ih =>
    intro r f acc i
    unfold ray_loop
    by_cases hb : r ≥ 0 ∧ r ≤ 7 ∧ f ≥ 0 ∧ f ≤ 7
    · have hob : on_board r f := hb
      have hsq := square_at_lt hob
      rw [if_pos hb]
      simp only
      have hbit : ∀ x : Nat, (acc ||| square_bb (r * 8 + f).toNat).testBit x = true
          ↔ (acc.testBit x = true ∨ x = square_at r f) := by
        intro x
        rw [Nat.testBit_or, Bool.or_eq_true, testBit_square_bb]
        simp only [decide_eq_true_eq]
        constructor
        · rintro (h | ⟨h, _⟩)
          · exact Or.inl h
          · exact Or.inr h
        · rintro (h | h)
          · exact Or.inl h
          · exact Or.inr ⟨h, hsq⟩
      have hzero : ray_hits blockers r f dr df 0 i ↔ i = square_at r f := by
        unfold ray_hits
        constructor
        · rintro ⟨_, h, _⟩
          simpa using h
        · intro h
          refine ⟨?_, by simpa using h, by intro j hj; omega⟩
          intro j hj
          have : j = 0 := by omega
          subst this
          simpa using hob
      have hblock : (square_bb (r * 8 + f).toNat &&& blockers ≠ 0)
          ↔ blockers.testBit (square_at r f) = true := by
        rw [and_ne_zero_iff_exists]
        constructor
        · rintro ⟨x, hx, hbx⟩
          rw [testBit_square_bb] at hx
          simp only [decide_eq_true_eq] at hx
          rw [hx.1] at hbx
          exact hbx
        · intro h
          refine ⟨square_at r f, ?_, h⟩
          rw [testBit_square_bb]
          simp only [decide_eq_true_eq]
          exact ⟨rfl, hsq⟩
      have hsucc : ∀ n, ray_hits blockers r f dr df (n + 1) i
          ↔ (blockers.testBit (square_at r f) = false
            ∧ ray_hits blockers (r + dr) (f + df) dr df n i) := by
        intro n
        have e1 : ∀ j : Nat, r + dr + (j : Int) * dr = r + ((j + 1 : Nat) : Int) * dr := by
          intro j; push_cast; ring
        have e2 : ∀ j : Nat, f + df + (j : Int) * df = f + ((j + 1 : Nat) : Int) * df := by
          intro j; push_cast; ring
        unfold ray_hits
        simp only [e1, e2]
        constructor
        · rintro ⟨h1, h2, h3⟩
          refine ⟨by simpa using h3 0 (by omega), fun j hj => h1 (j + 1) (by omega), h2,
            fun j hj => h3 (j + 1) (by omega)⟩
        · rintro ⟨h0, h1, h2, h3⟩
          refine ⟨?_, h2, ?_⟩
          · intro j hj
            cases j with
            | zero => simpa using hob
            | succ j => exact h1 j (by omega)
          · intro j hj
            cases j with
            | zero => simpa using h0
            | succ j => exact h3 j (by omega)
      by_cases hbl : square_bb (r * 8 + f).toNat &&& blockers ≠ 0
      · rw [if_pos hbl, hbit]
        have hbl' := hblock.1 hbl
        constructor
        · rintro (h | h)
          · exact Or.inl h
          · exact Or.inr ⟨0, by omega, hzero.2 h⟩
        · rintro (h | ⟨n, hn, h⟩)
          · exact Or.inl h
          · cases n with
            | zero => exact Or.inr (hzero.1 h)
            | succ n =>
              have := ((hsucc n).1 h).1
              rw [hbl'] at this
              exact absurd this (by decide)
      · rw [if_neg hbl, ih, hbit]
        have hbl' : blockers.testBit (square_at r f) = false := by
          by_contra hc
          exact hbl (hblock.2 (by simpa using hc))
        constructor
        · rintro ((h | h) | ⟨n, hn, h⟩)
          · exact Or.inl h
          · exact Or.inr ⟨0, by omega, hzero.2 h⟩
          · exact Or.inr ⟨n + 1, by omega, (hsucc n).2 ⟨hbl', h⟩⟩
        · rintro (h | ⟨n, hn, h⟩)
          · exact Or.inl (Or.inl h)
          · cases n with
            | zero => exact Or.inl (Or.inr (hzero.1 h))
            | succ n => exact Or.inr ⟨n, by omega, ((hsucc n).1 h).2⟩
    · rw [if_neg hb]
      constructor
      · intro h; exact Or.inl h
      · rintro (h | ⟨n, _, h⟩)
        · exact h
        · have := h.1 0 (by omega)
          simp only [Nat.cast_zero, zero_mul, add_zero] at this
          exact absurd this hb

theorem testBit_dirs_foldl (blockers : Nat) (row col : Int) (i : Nat) (dirs : List (Int × Int)) :
    ∀ acc : Nat,
      (dirs.foldl (fun attacks d =>
          ray_loop 8 (row + d.1) (col + d.2) d.1 d.2 blockers attacks) acc).testBit i = true
        ↔ (acc.testBit i = true
          ∨ ∃ d, d ∈ dirs ∧ ∃ n, n < 8
            ∧ ray_hits blockers (row + d.1) (col + d.2) d.1 d.2 n i) := by
  induction dirs with
  | nil => intro acc; simp
  | cons d ds ih =>
    intro acc
    rw [List.foldl_cons, ih, testBit_ray_loop]
    constructor
    · rintro ((h | h) | ⟨d', hd', h⟩)
      · exact Or.inl h
      · exact Or.inr ⟨d, List.mem_cons_self _ _, h⟩
      · exact Or.inr ⟨d', List.mem_cons_of_mem _ hd', h⟩
    · rintro (h | ⟨d', hd', h⟩)
      · exact Or.inl (Or.inl h)
      · rcases List.mem_cons.1 hd' with rfl | hmem
        · exact Or.inl (Or.inr h)
        · exact Or.inr ⟨d', hmem, h⟩

theorem testBit_rays_from (dirs : List (Int × Int)) (square blockers i : Nat) :
    (rays_from dirs square blockers).testBit i = true
      ↔ ∃ d, d ∈ dirs ∧ ∃ n, n < 8
          ∧ ray_hits blockers (sq_row square + d.1) (sq_col square + d.2) d.1 d.2 n i := by
  unfold rays_from
  simp only
  rw [testBit_dirs_foldl]
  simp [sq_row, sq_col]

/-- One direction of a ray generator seen from the far end: the walk from `s` in the
direction `(d1, d2)` arrives on `t` iff `s` lies `n ≥ 1` steps from `t` in the
opposite direction with no blocker strictly between. -/
theorem ray_hits_iff_reversed (s t : Nat) (hs : s < 64) (ht : t < 64) (blockers : Nat)
    (d1 d2 : Int) (h1 : d1 = -1 ∨ d1 = 0 ∨ d1 = 1) (h2 : d2 = -1 ∨ d2 = 0 ∨ d2 = 1)
    (hne : d1 ≠ 0 ∨ d2 ≠ 0) :
    (∃ n, n < 8 ∧ ray_hits blockers (sq_row s + d1) (sq_col s + d2) d1 d2 n t)
      ↔ ∃ n : Nat, 0 < n ∧ sq_row s = sq_row t + n * (-d1) ∧ sq_col s = sq_col t + n * (-d2)
          ∧ ∀ j : Nat, 0 < j → j < n →
            blockers.testBit (square_at (sq_row t + j * (-d1)) (sq_col t + j * (-d2)))
              = false := by
  unfold ray_hits on_board
  simp only [sq_row, sq_col, square_at]
  rcases h1 with rfl | rfl | rfl <;> rcases h2 with rfl | rfl | rfl
  case inr.inl.inr.inl => simp at hne
  all_goals
    constructor
    · rintro ⟨n, hn, hob, hi, hbl⟩
      have hobn := hob n (le_refl n)
      refine ⟨n + 1, by omega, by push_cast; omega, by push_cast; omega, ?_⟩
      intro j hj1 hj2
      have hb := hbl (n - j) (by omega)
      convert hb using 2
      omega
    · rintro ⟨n, hn, hr, hc, hbl⟩
      refine ⟨n - 1, by omega, ?_, by omega, ?_⟩
      · intro j hj
        omega
      · intro j hj
        have hb := hbl (n - 1 - j) (by omega) (by omega)
        convert hb using 2
        omega

theorem ray_reaches_congr {P Q : Nat → Prop} (h : ∀ sq, P sq ↔ Q sq) (dirs : List (Int × Int))
    (t s : Nat) : ray_reaches P dirs t s ↔ ray_reaches Q dirs t s := by
  unfold ray_reaches
  simp only [h]

theorem dirs_facts (dirs : List (Int × Int)) (hdirs : dirs = bishop_dirs ∨ dirs = rook_dirs)
    (d : Int × Int) (hd : d ∈ dirs) :
    (d.1 = -1 ∨ d.1 = 0 ∨ d.1 = 1) ∧ (d.2 = -1 ∨ d.2 = 0 ∨ d.2 = 1) ∧ (d.1 ≠ 0 ∨ d.2 ≠ 0)
      ∧ (-d.1, -d.2) ∈ dirs := by
  rcases hdirs with rfl | rfl
  · simp only [bishop_dirs, List.mem_cons, List.mem_singleton, List.not_mem_nil,
      or_false] at hd
    rcases hd with rfl | rfl | rfl | rfl <;> simp [bishop_dirs]
  · simp only [rook_dirs, List.mem_cons, List.mem_singleton, List.not_mem_nil,
      or_false] at hd
    rcases hd with rfl | rfl | rfl | rfl <;> simp [rook_dirs]

/-- The ray generators, seen from the attacked square: `t` is in the ray attack set of
`s` iff a ray from `t` reaches `s` with no blocker strictly between. -/
theorem testBit_rays_from_iff (dirs : List (Int × Int))
    (hdirs : dirs = bishop_dirs ∨ dirs = rook_dirs) (s t : Nat) (hs : s < 64) (ht : t < 64)
    (blockers : Nat) :
    (rays_from dirs s blockers).testBit t = true
      ↔ ray_reaches (fun sq => blockers.testBit sq = true) dirs t s := by
  rw [testBit_rays_from]
  unfold ray_reaches
  constructor
  · rintro ⟨d, hd, h⟩
    obtain ⟨h1, h2, hne, hneg⟩ := dirs_facts dirs hdirs d hd
    obtain ⟨n, hn, hr, hc, hbl⟩ := (ray_hits_iff_reversed s t hs ht blockers d.1 d.2 h1 h2 hne).1 h
    refine ⟨(-d.1, -d.2), hneg, n, hn, hr, hc, ?_⟩
    intro j hj1 hj2
    simpa using hbl j hj1 hj2
  · rintro ⟨d, hd, n, hn, hr, hc, hbl⟩
    obtain ⟨h1, h2, hne, hneg⟩ := dirs_facts dirs hdirs d hd
    refine ⟨(-d.1, -d.2), hneg, ?_⟩
    have h1' : -d.1 = -1 ∨ -d.1 = 0 ∨ -d.1 = 1 := by omega
    have h2' : -d.2 = -1 ∨ -d.2 = 0 ∨ -d.2 = 1 := by omega
    have hne' : -d.1 ≠ 0 ∨ -d.2 ≠ 0 := by omega
    apply (ray_hits_iff_reversed s t hs ht blockers (-d.1) (-d.2) h1' h2' hne').2
    refine ⟨n, hn, by simpa using hr, by simpa using hc, ?_⟩
    intro j hj1 hj2
    simpa using hbl j hj1 hj2

theorem Board.occupied_iff {board : Board} (ha : board.aggregates_ok) (sq : Nat) :
    (board.occupancies 2).testBit sq = true ↔ board.occupied sq := by
  rw [ha.2.2, Nat.testBit_or, Bool.or_eq_true, testBit_or_pieces, testBit_or_pieces]
  unfold Board.occupied
  constructor
  · rintro (⟨p, _, hp, h⟩ | ⟨p, _, hp, h⟩)
    · exact ⟨p, by omega, h⟩
    · exact ⟨p, by omega, h⟩
  · rintro ⟨p, hp, h⟩
    by_cases hlt : p < 6
    · exact Or.inl ⟨p, by omega, by omega, h⟩
    · exact Or.inr ⟨p, by omega, by omega, h⟩

theorem is_sq_attacked_eq_true (board : Board) (square : Nat) (attacking_side : Side) :
    board.is_sq_attacked square attacking_side = true
      ↔ (board.piece_location (get_piece_index PieceType.pawn attacking_side)
            &&& pawn_masks (if attacking_side = Side.white then Side.black
              else Side.white).toNat square ≠ 0
          ∨ board.piece_location (get_piece_index PieceType.knight attacking_side)
            &&& knight_masks square ≠ 0
          ∨ board.piece_location (get_piece_index PieceType.bishop attacking_side)
            &&& get_bishop_attacks square (board.occupancies Side.any.toNat) ≠ 0
          ∨ board.piece_location (get_piece_index PieceType.rook attacking_side)
            &&& get_rook_attacks square (board.occupancies Side.any.toNat) ≠ 0
          ∨ board.piece_location (get_piece_index PieceType.queen attacking_side)
            &&& get_queen_attacks square (board.occupancies Side.any.toNat) ≠ 0
          ∨ board.piece_location (get_piece_index PieceType.king attacking_side)
            &&& king_masks square ≠ 0) := by
  unfold Board.is_sq_attacked
  simp only
  split_ifs <;> simp_all

/-- The square-attacked query in the words of the rules. -/
theorem is_sq_attacked_iff_attacks_from (board : Board) (hw : board.words_ok)
    (ha : board.aggregates_ok) (s : Nat) (hs : s < 64) (c : Side) (hc : c ≠ Side.any) :
    board.is_sq_attacked s c = true ↔ ∃ t, t < 64 ∧ board.attacks_from c t s := by
  have hk := Side.toNat_lt_two hc
  have hlt : ∀ p : PieceType, board.piece_location (get_piece_index p c) < 2 ^ 64 := by
    intro p
    apply hw.1
    have := p.toNat_le
    unfold get_piece_index NUMBER_OF_UNIQUE_PIECES
    omega
  have hbb : ∀ p : PieceType, board.get_piece_bitboard p c
      = board.piece_location (get_piece_index p c) := fun _ => rfl
  have hocc : ∀ dirs t, ray_reaches (fun sq => (board.occupancies 2).testBit sq = true) dirs t s
      ↔ ray_reaches board.occupied dirs t s :=
    fun dirs t => ray_reaches_congr (Board.occupied_iff ha) dirs t s
  have hpawn : ∀ t, t < 64 →
      ((pawn_masks (if c = Side.white then Side.black else Side.white).toNat s).testBit t = true
        ↔ pawn_attacks_sq c t s) := by
    intro t ht
    cases c with
    | white => exact (pawn_mask_iff s hs t ht).1
    | black => exact (pawn_mask_iff s hs t ht).2
    | any => exact absurd rfl hc
  rw [is_sq_attacked_eq_true]
  simp only [and_ne_zero_iff_exists, Side.any_toNat, get_queen_attacks, get_bishop_attacks,
    get_rook_attacks, generate_bishop_attacks, generate_rook_attacks, Nat.testBit_or,
    Bool.or_eq_true]
  unfold Board.attacks_from
  simp only [hbb]
  constructor
  · rintro (⟨t, h1, h2⟩ | ⟨t, h1, h2⟩ | ⟨t, h1, h2⟩ | ⟨t, h1, h2⟩ | ⟨t, h1, h2⟩ | ⟨t, h1, h2⟩)
    · have ht := testBit_of_lt_64 (hlt _) h1
      exact ⟨t, ht, Or.inl ⟨h1, (hpawn t ht).1 h2⟩⟩
    · have ht := testBit_of_lt_64 (hlt _) h1
      exact ⟨t, ht, Or.inr (Or.inl ⟨h1, (knight_mask_iff s hs t ht).1 h2⟩)⟩
    · have ht := testBit_of_lt_64 (hlt _) h1
      exact ⟨t, ht, Or.inr (Or.inr (Or.inr (Or.inl ⟨h1, (hocc _ _).1
        ((testBit_rays_from_iff _ (Or.inl rfl) s t hs ht _).1 h2)⟩)))⟩
    · have ht := testBit_of_lt_64 (hlt _) h1
      exact ⟨t, ht, Or.inr (Or.inr (Or.inr (Or.inr (Or.inl ⟨h1, (hocc _ _).1
        ((testBit_rays_from_iff _ (Or.inr rfl) s t hs ht _).1 h2)⟩))))⟩
    · have ht := testBit_of_lt_64 (hlt _) h1
      refine ⟨t, ht, Or.inr (Or.inr (Or.inr (Or.inr (Or.inr ⟨h1, ?_⟩))))⟩
      rcases h2 with h2 | h2
      · exact Or.inl ((hocc _ _).1 ((testBit_rays_from_iff _ (Or.inl rfl) s t hs ht _).1 h2))
      · exact Or.inr ((hocc _ _).1 ((testBit_rays_from_iff _ (Or.inr rfl) s t hs ht _).1 h2))
    · have ht := testBit_of_lt_64 (hlt _) h1
      exact ⟨t, ht, Or.inr (Or.inr (Or.inl ⟨h1, (king_mask_iff s hs t ht).1 h2⟩))⟩
  · rintro ⟨t, ht, ⟨h1, h2⟩ | ⟨h1, h2⟩ | ⟨h1, h2⟩ | ⟨h1, h2⟩ | ⟨h1, h2⟩ | ⟨h1, h2⟩⟩
    · exact Or.inl ⟨t, h1, (hpawn t ht).2 h2⟩
    · exact Or.inr (Or.inl ⟨t, h1, (knight_mask_iff s hs t ht).2 h2⟩)
    · exact Or.inr (Or.inr (Or.inr (Or.inr (Or.inr
        ⟨t, h1, (king_mask_iff s hs t ht).2 h2⟩))))
    · exact Or.inr (Or.inr (Or.inl ⟨t, h1,
        (testBit_rays_from_iff _ (Or.inl rfl) s t hs ht _).2 ((hocc _ _).2 h2)⟩))
    · exact Or.inr (Or.inr (Or.inr (Or.inl ⟨t, h1,
        (testBit_rays_from_iff _ (Or.inr rfl) s t hs ht _).2 ((hocc _ _).2 h2)⟩)))
    · refine Or.inr (Or.inr (Or.inr (Or.inr (Or.inl ⟨t, h1, ?_⟩))))
      rcases h2 with h2 | h2
      · exact Or.inl ((testBit_rays_from_iff _ (Or.inl rfl) s t hs ht _).2 ((hocc _ _).2 h2))
      · exact Or.inr ((testBit_rays_from_iff _ (Or.inr rfl) s t hs ht _).2 ((hocc _ _).2 h2))

/-- C6: in a position of 64-bit words whose aggregates are the OR of the piece
bitboards, for every square `s` in 0..63 and every side `c` in {white, black},
`is_sq_attacked(s, c)` is true iff some piece of `c` standing on a square `t` attacks
`s`: a pawn whose capture squares include `s`, a knight a leap away, a king a step
away, or a bishop, rook or queen whose ray from `t` reaches `s` with no occupied square
strictly between (the slider lookups being the blocked-ray attack sets). -/
theorem is_sq_attacked_iff_attacked (board : Board) (hw : board.words_ok)
    (ha : board.aggregates_ok) (s : Nat) (hs : s < 64) (c : Side) (hc : c ≠ Side.any) :
    board.is_sq_attacked s c = true ↔ ∃ t, t < 64 ∧ board.attacks_from c t s :=
  is_sq_attacked_iff_attacks_from board hw ha s hs c hc

/-- C6 at the Kiwipete position: whether white attacks a6. -/
theorem is_sq_attacked_iff_attacked_witness :
    ((Board.of_fen
        "r3k2r/p1ppqpb1/bn2pnp1/3PN3/1p2P3/2N2Q1p/PPPBBPPP/R3K2R w KQkq - 0 1").words_ok
      ∧ (Board.of_fen
        "r3k2r/p1ppqpb1/bn2pnp1/3PN3/1p2P3/2N2Q1p/PPPBBPPP/R3K2R w KQkq - 0 1").aggregates_ok
      ∧ 16 < 64 ∧ Side.white ≠ Side.any)
      ∧ ((Board.of_fen
          "r3k2r/p1ppqpb1/bn2pnp1/3PN3/1p2P3/2N2Q1p/PPPBBPPP/R3K2R w KQkq - 0 1").is_sq_attacked
          16 Side.white = true
        ↔ ∃ t, t < 64 ∧ (Board.of_fen
          "r3k2r/p1ppqpb1/bn2pnp1/3PN3/1p2P3/2N2Q1p/PPPBBPPP/R3K2R w KQkq - 0 1").attacks_from
          Side.white t 16) :=
  ⟨⟨by decide!, by decide!, by decide, by decide⟩,
    is_sq_attacked_iff_attacked _ (by decide!) (by decide!) 16 (by decide) Side.white
      (by decide)⟩

/-! ## C5: one king per side -/

theorem pawn_mask_forward : ∀ s, s < 64 → ∀ t, t < 64 →
    (((pawn_masks 0 s).testBit t = true ↔ pawn_attacks_sq Side.white s t)
      ∧ ((pawn_masks 1 s).testBit t = true ↔ pawn_attacks_sq Side.black s t)) := by
  decide!

theorem knight_mask_forward : ∀ s, s < 64 → ∀ t, t < 64 →
    ((knight_masks s).testBit t = true ↔ knight_leap s t) := by
  decide!

theorem king_mask_forward : ∀ s, s < 64 → ∀ t, t < 64 →
    ((king_masks s).testBit t = true ↔ king_step s t) := by
  decide!

/-- One direction of a ray generator seen from the near end. -/
theorem ray_hits_iff_forward (s t : Nat) (hs : s < 64) (ht : t < 64) (blockers : Nat)
    (d1 d2 : Int) (h1 : d1 = -1 ∨ d1 = 0 ∨ d1 = 1) (h2 : d2 = -1 ∨ d2 = 0 ∨ d2 = 1)
    (hne : d1 ≠ 0 ∨ d2 ≠ 0) :
    (∃ n, n < 8 ∧ ray_hits blockers (sq_row s + d1) (sq_col s + d2) d1 d2 n t)
      ↔ ∃ n : Nat, 0 < n ∧ sq_row t = sq_row s + n * d1 ∧ sq_col t = sq_col s + n * d2
          ∧ ∀ j : Nat, 0 < j → j < n →
            blockers.testBit (square_at (sq_row s + j * d1) (sq_col s + j * d2)) = false := by
  unfold ray_hits on_board
  simp only [sq_row, sq_col, square_at]
  rcases h1 with rfl | rfl | rfl <;> rcases h2 with rfl | rfl | rfl
  case inr.inl.inr.inl => simp at hne
  all_goals
    constructor
    · rintro ⟨n, hn, hob, hi, hbl⟩
      have hobn := hob n (le_refl n)
      refine ⟨n + 1, by omega, by push_cast; omega, by push_cast; omega, ?_⟩
      intro j hj1 hj2
      have hb := hbl (j - 1) (by omega)
      convert hb using 2
      omega
    · rintro ⟨n, hn, hr, hc, hbl⟩
      refine ⟨n - 1, by omega, ?_, by omega, ?_⟩
      · intro j hj
        omega
      · intro j hj
        have hb := hbl (j + 1) (by omega) (by omega)
        convert hb using 2
        omega

/-- The ray generators, seen from the attacking square. -/
theorem testBit_rays_from_forward (dirs : List (Int × Int))
    (hdirs : dirs = bishop_dirs ∨ dirs = rook_dirs) (s t : Nat) (hs : s < 64) (ht : t < 64)
    (blockers : Nat) :
    (rays_from dirs s blockers).testBit t = true
      ↔ ray_reaches (fun sq => blockers.testBit sq = true) dirs s t := by
  rw [testBit_rays_from]
  unfold ray_reaches
  constructor
  · rintro ⟨d, hd, h⟩
    obtain ⟨h1, h2, hne, -⟩ := dirs_facts dirs hdirs d hd
    obtain ⟨n, hn, hr, hc, hbl⟩ := (ray_hits_iff_forward s t hs ht blockers d.1 d.2 h1 h2 hne).1 h
    refine ⟨d, hd, n, hn, hr, hc, ?_⟩
    intro j hj1 hj2
    simpa using hbl j hj1 hj2
  · rintro ⟨d, hd, n, hn, hr, hc, hbl⟩
    obtain ⟨h1, h2, hne, -⟩ := dirs_facts dirs hdirs d hd
    refine ⟨d, hd, ?_⟩
    apply (ray_hits_iff_forward s t hs ht blockers d.1 d.2 h1 h2 hne).2
    refine ⟨n, hn, hr, hc, ?_⟩
    intro j hj1 hj2
    simpa using hbl j hj1 hj2

/-- The getters of a constructed move, whatever the squares passed in. -/
theorem Move.getters_new_any (from_sq to_sq : Nat) (piece : PieceType) (side : Side)
    (prom : PieceType) (prom_side : Side) (flag : MoveFlag) (is_capture : Bool) :
    (Move.new from_sq to_sq piece side prom prom_side flag is_capture).get_from_sq
        = from_sq % 64
      ∧ (Move.new from_sq to_sq piece side prom prom_side flag is_capture).get_to_sq
        = to_sq % 64
      ∧ (Move.new from_sq to_sq piece side prom prom_side flag is_capture).get_piece = piece
      ∧ (Move.new from_sq to_sq piece side prom prom_side flag is_capture).get_prom_piece
        = prom
      ∧ (Move.new from_sq to_sq piece side prom prom_side flag is_capture).is_enpassant
        = decide (flag = MoveFlag.EN_PASSANT)
      ∧ (Move.new from_sq to_sq piece side prom prom_side flag is_capture).is_capture
        = is_capture
      ∧ (Move.new from_sq to_sq piece side prom prom_side flag is_capture).is_promo
        = decide (prom_side ≠ Side.any) := by
  rw [Move.new_mod]
  obtain ⟨g1, g2, g3, -, g5, -, -, -, g9, g10, g11, -⟩ :=
    Move.getters_new (from_sq % 64) (to_sq % 64) piece side prom prom_side flag is_capture
      (Nat.mod_lt _ (by norm_num)) (Nat.mod_lt _ (by norm_num))
  exact ⟨g1, g2, g3, g5, g9, g10, g11⟩

/-- A generated promotion never promotes to a king. -/
theorem Generated.prom_piece_ne_king {board : Board} {move : Move} (h : Generated board move)
    (hpromo : move.is_promo = true) : move.get_prom_piece ≠ PieceType.king := by
  cases h with
  | push_promo from_sq prom hfrom hto hrank hprom =>
    rw [(Move.getters_new_any _ _ _ _ _ _ _ _).2.2.2.1]
    rcases hprom with rfl | rfl | rfl | rfl <;> decide
  | capture_promo from_sq capture_sq prom hfrom hcap hrank hprom =>
    rw [(Move.getters_new_any _ _ _ _ _ _ _ _).2.2.2.1]
    rcases hprom with rfl | rfl | rfl | rfl <;> decide
  | _ =>
    rw [(Move.getters_new_any _ _ _ _ _ _ _ _).2.2.2.2.2.2] at hpromo
    simp at hpromo

/-- A generated ordinary capture is made by a piece that attacks the destination. -/
theorem Generated.capture_attacks {board : Board} (h : board.consistent) {move : Move}
    (hgen : Generated board move) (hcap : move.is_capture = true)
    (hep : move.is_enpassant = false) :
    move.get_to_sq < 64
      ∧ board.attacks_from board.side move.get_from_sq move.get_to_sq := by
  have hs := h.2.2.2.1
  have hk := Side.toNat_lt_two hs.ne_any
  refine ⟨move.get_to_sq_lt, ?_⟩
  have hpawn : ∀ from_sq capture_sq : Nat, from_sq < 64 →
      capture_sq ∈ squares_of (pawn_masks board.side.toNat from_sq
        &&& board.get_occupancy (opposite_side board.side)) →
      capture_sq < 64 ∧ pawn_attacks_sq board.side from_sq capture_sq := by
    intro from_sq capture_sq hf hc
    have hlt : pawn_masks board.side.toNat from_sq
        &&& board.get_occupancy (opposite_side board.side) < 2 ^ 64 :=
      and_lt_of_left _ (generate_pawn_attacks_lt _ _)
    rw [mem_squares_of hlt, Nat.testBit_and, Bool.and_eq_true] at hc
    have hc64 := testBit_of_lt_64 (generate_pawn_attacks_lt _ _) hc.1
    refine ⟨hc64, ?_⟩
    rcases hs.toNat with ⟨hsw, hsv, _⟩ | ⟨hsb, hsv, _⟩
    · rw [hsw]; rw [hsv] at hc
      exact ((pawn_mask_forward from_sq hf capture_sq hc64).1).1 hc.1
    · rw [hsb]; rw [hsv] at hc
      exact ((pawn_mask_forward from_sq hf capture_sq hc64).2).1 hc.1
  cases hgen with
  | push from_sq hfrom hto hrank =>
    rw [(Move.getters_new_any _ _ _ _ _ _ _ _).2.2.2.2.2.1] at hcap
    exact absurd hcap (by decide)
  | push_promo from_sq prom hfrom hto hrank hprom =>
    rw [(Move.getters_new_any _ _ _ _ _ _ _ _).2.2.2.2.2.1] at hcap
    exact absurd hcap (by decide)
  | double_push from_sq hfrom hto hrank hto2 =>
    rw [(Move.getters_new_any _ _ _ _ _ _ _ _).2.2.2.2.2.1] at hcap
    exact absurd hcap (by decide)
  | castle_kingside hcan =>
    rw [(Move.getters_new_any _ _ _ _ _ _ _ _).2.2.2.2.2.1] at hcap
    exact absurd hcap (by decide)
  | castle_queenside hcan =>
    rw [(Move.getters_new_any _ _ _ _ _ _ _ _).2.2.2.2.2.1] at hcap
    exact absurd hcap (by decide)
  | en_passant from_sq hfrom hset hatt =>
    rw [(Move.getters_new_any _ _ _ _ _ _ _ _).2.2.2.2.1] at hep
    exact absurd hep (by decide)
  | capture from_sq capture_sq hfrom hc hrank =>
    obtain ⟨hmover, hf⟩ := h.mover_bit hfrom
    obtain ⟨hc64, hatt⟩ := hpawn from_sq capture_sq hf hc
    obtain ⟨g1, g2, -⟩ := Move.getters_new_any from_sq capture_sq PieceType.pawn board.side
      PieceType.pawn Side.any MoveFlag.NO_FLAG true
    rw [g1, g2, Nat.mod_eq_of_lt hf, Nat.mod_eq_of_lt hc64]
    exact Or.inl ⟨hmover, hatt⟩
  | capture_promo from_sq capture_sq prom hfrom hc hrank hprom =>
    obtain ⟨hmover, hf⟩ := h.mover_bit hfrom
    obtain ⟨hc64, hatt⟩ := hpawn from_sq capture_sq hf hc
    obtain ⟨g1, g2, -⟩ := Move.getters_new_any from_sq capture_sq PieceType.pawn board.side
      prom board.side MoveFlag.NO_FLAG true
    rw [g1, g2, Nat.mod_eq_of_lt hf, Nat.mod_eq_of_lt hc64]
    exact Or.inl ⟨hmover, hatt⟩
  | piece piece_type from_sq to_sq hpiece hfrom hto =>
    obtain ⟨hmover, hf⟩ := h.mover_bit hfrom
    have hown : board.get_occupancy board.side < 2 ^ 64 := h.1.2 _ (by omega)
    have hlt : piece_attacks piece_type from_sq board.get_all_occupancy
        &&& not64 (board.get_occupancy board.side) < 2 ^ 64 :=
      and_lt_of_right _ (not64_lt hown)
    rw [mem_squares_of hlt] at hto
    have ht64 := testBit_of_lt_64 hlt hto
    rw [Nat.testBit_and, Bool.and_eq_true] at hto
    have hatt := hto.1
    obtain ⟨g1, g2, -⟩ := Move.getters_new_any from_sq to_sq piece_type board.side
      PieceType.pawn Side.any MoveFlag.NO_FLAG
      (get_bit (board.get_occupancy (opposite_side board.side)) to_sq)
    rw [g1, g2, Nat.mod_eq_of_lt hf, Nat.mod_eq_of_lt ht64]
    have hocc : ∀ dirs, ray_reaches (fun sq => (board.occupancies 2).testBit sq = true) dirs
        from_sq to_sq ↔ ray_reaches board.occupied dirs from_sq to_sq :=
      fun dirs => ray_reaches_congr (Board.occupied_iff h.2.2.1) dirs from_sq to_sq
    unfold Board.attacks_from
    cases piece_type with
    | pawn => exact absurd rfl hpiece
    | knight =>
      exact Or.inr (Or.inl ⟨hmover, (knight_mask_forward from_sq hf to_sq ht64).1 hatt⟩)
    | king =>
      exact Or.inr (Or.inr (Or.inl ⟨hmover, (king_mask_forward from_sq hf to_sq ht64).1 hatt⟩))
    | bishop =>
      exact Or.inr (Or.inr (Or.inr (Or.inl ⟨hmover, (hocc _).1
        ((testBit_rays_from_forward _ (Or.inl rfl) from_sq to_sq hf ht64 _).1 hatt)⟩)))
    | rook =>
      exact Or.inr (Or.inr (Or.inr (Or.inr (Or.inl ⟨hmover, (hocc _).1
        ((testBit_rays_from_forward _ (Or.inr rfl) from_sq to_sq hf ht64 _).1 hatt)⟩))))
    | queen =>
      refine Or.inr (Or.inr (Or.inr (Or.inr (Or.inr ⟨hmover, ?_⟩))))
      simp only [piece_attacks, get_queen_attacks, Nat.testBit_or, Bool.or_eq_true] at hatt
      rcases hatt with hatt | hatt
      · exact Or.inl ((hocc _).1
          ((testBit_rays_from_forward _ (Or.inl rfl) from_sq to_sq hf ht64 _).1 hatt))
      · exact Or.inr ((hocc _).1
          ((testBit_rays_from_forward _ (Or.inr rfl) from_sq to_sq hf ht64 _).1 hatt))

theorem count_bits_aux_eq_zero (fuel : Nat) : ∀ x, x < 2 ^ fuel →
    (count_bits_aux fuel x = 0 ↔ x = 0) := by
  induction fuel with
  | zero => intro x hx; simp at hx; simp [count_bits_aux, hx]
  | succ fuel ih =>
    intro x hx
    unfold count_bits_aux
    have hx2 : x / 2 < 2 ^ fuel := by
      rw [Nat.pow_succ] at hx
      omega
    have := ih (x / 2) hx2
    omega

theorem count_bits_aux_eq_one (fuel : Nat) : ∀ x, x < 2 ^ fuel →
    (count_bits_aux fuel x = 1 ↔ ∃ sq, sq < fuel ∧ x = 2 ^ sq) := by
  induction fuel with
  | zero =>
    intro x hx
    simp at hx
    simp [count_bits_aux, hx]
  | succ fuel ih =>
    intro x hx
    unfold count_bits_aux
    have hx2 : x / 2 < 2 ^ fuel := by
      rw [Nat.pow_succ] at hx
      omega
    have h0 := count_bits_aux_eq_zero fuel (x / 2) hx2
    have h1 := ih (x / 2) hx2
    constructor
    · intro h
      by_cases hodd : x % 2 = 1
      · have : x / 2 = 0 := h0.1 (by omega)
        exact ⟨0, by omega, by simp; omega⟩
      · obtain ⟨sq, hsq, he⟩ := h1.1 (by omega)
        refine ⟨sq + 1, by omega, ?_⟩
        rw [Nat.pow_succ, ← he]
        omega
    · rintro ⟨sq, hsq, rfl⟩
      cases sq with
      | zero =>
        have hz : count_bits_aux fuel 0 = 0 :=
          (count_bits_aux_eq_zero fuel 0 (Nat.pos_of_ne_zero (by positivity))).2 rfl
        simp [hz]
      | succ sq =>
        have e : 2 ^ (sq + 1) / 2 = 2 ^ sq := by
          rw [Nat.pow_succ]; omega
        have e' : 2 ^ (sq + 1) % 2 = 0 := by
          rw [Nat.pow_succ]; omega
        rw [e] at h1 hx2
        rw [e, e', (ih (2 ^ sq) hx2).2 ⟨sq, by omega, rfl⟩]

/-- A 64-bit word has exactly one bit set iff it is a power of two. -/
theorem count_bits_eq_one {x : Nat} (hx : x < 2 ^ 64) :
    count_bits x = 1 ↔ ∃ sq, sq < 64 ∧ x = 2 ^ sq :=
  count_bits_aux_eq_one 64 x hx

theorem get_lsb_index_two_pow : ∀ sq, sq < 64 → get_lsb_index (2 ^ sq) = sq := by
  decide!

theorem relocate_single_bit {a c : Nat} (ha : a < 64) (hc : c < 64) :
    set_bit (pop_bit (2 ^ a) a) c = 2 ^ c := by
  apply Nat.eq_of_testBit_eq
  intro i
  rw [testBit_set_bit, testBit_pop_bit (Nat.pow_lt_pow_right (by norm_num) ha),
    Nat.testBit_two_pow, Nat.testBit_two_pow]
  by_cases h1 : a = i <;> by_cases h2 : i = c <;> simp [h1, h2, hc, eq_comm] <;> omega

theorem remove_at_loc_other (P : Placement) (idx k sq p : Nat) (h : p ≠ idx) :
    (P.remove_at idx k sq).loc p = P.loc p := arr_set_other _ _ _ _ h

theorem place_at_loc_other (P : Placement) (idx k sq p : Nat) (h : p ≠ idx) :
    (P.place_at idx k sq).loc p = P.loc p := arr_set_other _ _ _ _ h

theorem remove_at_loc_same (P : Placement) (idx k sq : Nat) :
    (P.remove_at idx k sq).loc idx = pop_bit (P.loc idx) sq := arr_set_same _ _ _

theorem place_at_loc_same (P : Placement) (idx k sq : Nat) :
    (P.place_at idx k sq).loc idx = set_bit (P.loc idx) sq := arr_set_same _ _ _

/-- The bitboard of a piece index that no step of the move touches is unchanged. -/
theorem after_move_loc_other (P : Placement) (move : Move) (victim : Option (Nat × Nat))
    (p : Nat) (hv : ∀ v, victim = some v → p ≠ v.1)
    (h1 : p ≠ move.get_piece.toNat + 6 * move.get_side_of_piece.toNat)
    (h2 : move.is_promo = true →
      p ≠ move.get_prom_piece.toNat + 6 * move.get_side_of_piece.toNat)
    (h3 : p ≠ 3 + 6 * move.get_side_of_piece.toNat) :
    (P.after_move move victim).loc p = P.loc p := by
  have hvic : (match victim with
      | none => P
      | some v => P.remove_at v.1 (opposite_side move.get_side_of_piece).toNat v.2).loc p
      = P.loc p := by
    cases victim with
    | none => rfl
    | some v => exact remove_at_loc_other _ _ _ _ _ (hv v rfl)
  unfold Placement.after_move
  simp only
  cases hpromo : move.is_promo <;> cases hcastle : move.is_castle
  · simp only [if_false, Bool.false_eq_true,
      remove_at_loc_other _ _ _ _ _ h1, place_at_loc_other _ _ _ _ _ h1, hvic]
  · simp only [if_true, if_false, Bool.false_eq_true, place_at_loc_other _ _ _ _ _ h3,
      remove_at_loc_other _ _ _ _ _ h3,
      remove_at_loc_other _ _ _ _ _ h1, place_at_loc_other _ _ _ _ _ h1, hvic]
  · have h2' := h2 hpromo
    simp only [if_true, if_false, Bool.false_eq_true, place_at_loc_other _ _ _ _ _ h2',
      remove_at_loc_other _ _ _ _ _ h1, place_at_loc_other _ _ _ _ _ h1, hvic]
  · have h2' := h2 hpromo
    simp only [if_true, place_at_loc_other _ _ _ _ _ h3,
      remove_at_loc_other _ _ _ _ _ h3, place_at_loc_other _ _ _ _ _ h2',
      remove_at_loc_other _ _ _ _ _ h1, place_at_loc_other _ _ _ _ _ h1, hvic]

/-- The bitboard of the moving piece after a move that is no promotion. -/
theorem after_move_loc_mover (P : Placement) (move : Move) (victim : Option (Nat × Nat))
    (hv : ∀ v, victim = some v →
      move.get_piece.toNat + 6 * move.get_side_of_piece.toNat ≠ v.1)
    (h2 : move.is_promo = false)
    (h3 : move.get_piece.toNat + 6 * move.get_side_of_piece.toNat
      ≠ 3 + 6 * move.get_side_of_piece.toNat) :
    (P.after_move move victim).loc (move.get_piece.toNat + 6 * move.get_side_of_piece.toNat)
      = set_bit (pop_bit (P.loc (move.get_piece.toNat + 6 * move.get_side_of_piece.toNat))
          move.get_from_sq) move.get_to_sq := by
  have hvic : (match victim with
      | none => P
      | some v => P.remove_at v.1 (opposite_side move.get_side_of_piece).toNat v.2).loc
        (move.get_piece.toNat + 6 * move.get_side_of_piece.toNat)
      = P.loc (move.get_piece.toNat + 6 * move.get_side_of_piece.toNat) := by
    cases victim with
    | none => rfl
    | some v => exact remove_at_loc_other _ _ _ _ _ (hv v rfl)
  unfold Placement.after_move
  simp only
  cases hcastle : move.is_castle
  · simp only [h2, if_false, Bool.false_eq_true,
      place_at_loc_same, remove_at_loc_same, hvic]
  · simp only [h2, if_true, if_false, Bool.false_eq_true,
      place_at_loc_other _ _ _ _ _ h3, remove_at_loc_other _ _ _ _ _ h3,
      place_at_loc_same, remove_at_loc_same, hvic]

/-- Only pawns are promoted by the generator. -/
theorem Generated.promo_is_pawn {board : Board} {move : Move} (h : Generated board move)
    (hpromo : move.is_promo = true) : move.get_piece = PieceType.pawn := by
  cases h with
  | push_promo from_sq prom hfrom hto hrank hprom =>
    exact (Move.getters_new_any _ _ _ _ _ _ _ _).2.2.1
  | capture_promo from_sq capture_sq prom hfrom hcap hrank hprom =>
    exact (Move.getters_new_any _ _ _ _ _ _ _ _).2.2.1
  | _ =>
    rw [(Move.getters_new_any _ _ _ _ _ _ _ _).2.2.2.2.2.2] at hpromo
    simp at hpromo

/-- The piece taken by a generated en-passant capture is an enemy pawn. -/
theorem Generated.enpassant_victim {board : Board} (h : board.consistent) {move : Move}
    (hgen : Generated board move) (hep : move.is_enpassant = true) :
    (board.piece_location (6 * (opposite_side board.side).toNat)).testBit
      ((move.get_to_sq : Int) + 8 - 16 * (board.side.toNat : Int)).toNat = true := by
  cases hgen with
  | en_passant from_sq hfrom hset hatt =>
    have hs := h.2.2.2.1
    obtain ⟨he0, he64, hempty, hw, hb⟩ := h.2.2.2.2.2.1 hset
    obtain ⟨e, he⟩ : ∃ e : Nat, board.enpassant.2 = (e : Int) :=
      ⟨board.enpassant.2.toNat, by omega⟩
    rw [he] at hw hb he64 ⊢
    simp only [Int.toNat_ofNat] at hw hb
    have he64' : e < 64 := by omega
    rw [(Move.getters_new_any _ _ _ _ _ _ _ _).2.1, to_u32_of_nat e (by omega),
      Nat.mod_eq_of_lt he64']
    rcases hs.toNat with ⟨hsw, hsv, hso⟩ | ⟨hsb, hsv, hso⟩
    · have : ((e : Int) + 8 - 16 * (board.side.toNat : Int)).toNat = e + 8 := by
        rw [hsv]; omega
      rw [this, hso]
      exact hw hsw
    · obtain ⟨h8, hb'⟩ := hb hsb
      have : ((e : Int) + 8 - 16 * (board.side.toNat : Int)).toNat = e - 8 := by
        rw [hsv]; omega
      rw [this, hso]
      exact hb'
  | _ =>
    rw [(Move.getters_new_any _ _ _ _ _ _ _ _).2.2.2.2.1] at hep
    exact absurd hep (by decide)

/-- Applying a generated move to a consistent position with one king a side, the enemy
king not being attacked, leaves one king a side. -/
theorem make_move_apply_kings {board : Board} (hc : board.consistent)
    (hk : ∀ j, j < 2 → count_bits (board.piece_location (5 + 6 * j)) = 1)
    (hsafe : board.is_sq_attacked
      (get_lsb_index (board.piece_location (5 + 6 * (opposite_side board.side).toNat)))
      board.side = false)
    {move : Move} (hm : move ∈ fill_move_array [] board) :
    ∀ j, j < 2 → count_bits ((board.make_move_apply move).piece_location (5 + 6 * j)) = 1 := by
  have hgen := generated_of_mem board move hm
  have hfit := Generated.fits hc hgen
  have hbits := hc.bits_ok
  obtain ⟨victim, hvic, e, hok⟩ := make_move_apply_placement_ok board move hbits hfit
  have hloc : (board.make_move_apply move).piece_location
      = (board.placement.after_move move victim).loc := congrArg Placement.loc e
  have hside := hgen.side_of_piece
  have hs := hc.2.2.2.1
  have hk2 := Side.toNat_lt_two hs.ne_any
  have ho := opposite_side_toNat hs.ne_any
  have hple := move.get_piece.toNat_le
  have hpple := move.get_prom_piece.toNat_le
  have hP : ∀ p, board.placement.loc p = board.piece_location p := fun _ => rfl
  intro j hj
  rw [hloc]
  have hlt : board.piece_location (5 + 6 * j) < 2 ^ 64 := hc.1.1 _ (by omega)
  obtain ⟨ksq, hksq, hkeq⟩ := (count_bits_eq_one hlt).1 (hk j hj)
  by_cases hjk : j = board.side.toNat
  · -- the king of the side that moves
    have hvown : ∀ v, victim = some v → 5 + 6 * j ≠ v.1 := by
      intro v hv
      rcases hvic with ⟨hnone, -⟩ | ⟨idx, sq, hsome, -, hlo, hhi, -⟩
      · rw [hnone] at hv; exact absurd hv (by simp)
      · rw [hsome] at hv
        obtain rfl := Option.some.inj hv
        rw [hside, ho] at hlo hhi
        show 5 + 6 * j ≠ idx
        omega
    by_cases hpk : move.get_piece = PieceType.king
    · have hnp : move.is_promo = false := by
        cases hp : move.is_promo with
        | false => rfl
        | true =>
          have := hgen.promo_is_pawn hp
          rw [hpk] at this
          exact absurd this (by decide)
      have hidx : move.get_piece.toNat + 6 * move.get_side_of_piece.toNat = 5 + 6 * j := by
        rw [hpk, hside, hjk]; rfl
      have key := after_move_loc_mover board.placement move victim
        (by rw [hidx]; exact hvown) hnp (by rw [hidx]; omega)
      rw [hidx] at key
      have hmover := hfit.mover
      rw [hidx, hP, hkeq, Nat.testBit_two_pow] at hmover
      have hfrom : ksq = move.get_from_sq := by simpa using hmover
      rw [key, hP, hkeq, hfrom, relocate_single_bit move.get_from_sq_lt move.get_to_sq_lt]
      exact (count_bits_eq_one (Nat.pow_lt_pow_right (by norm_num) move.get_to_sq_lt)).2
        ⟨_, move.get_to_sq_lt, rfl⟩
    · have hne : move.get_piece.toNat ≠ 5 := by
        intro h5
        apply hpk
        cases hq : move.get_piece <;> rw [hq] at h5 <;> simp [PieceType.toNat] at h5
      rw [after_move_loc_other board.placement move victim (5 + 6 * j) hvown
        (by rw [hside]; omega)
        (by
          intro hp
          have h1 := hgen.prom_piece_ne_king hp
          have h2 : move.get_prom_piece.toNat ≠ 5 := by
            intro h5
            apply h1
            cases hq : move.get_prom_piece <;> rw [hq] at h5 <;> simp [PieceType.toNat] at h5
          rw [hside]; omega)
        (by rw [hside]; omega), hP]
      exact hk j hj
  · -- the king of the other side
    have hjo : j = (opposite_side board.side).toNat := by omega
    have hvopp : ∀ v, victim = some v → 5 + 6 * j ≠ v.1 := by
      intro v hv
      rcases hvic with ⟨hnone, -⟩ | ⟨idx, sq, hsome, hcap, hlo, hhi, hbit, hsq⟩
      · rw [hnone] at hv; exact absurd hv (by simp)
      · rw [hsome] at hv
        obtain rfl := Option.some.inj hv
        show 5 + 6 * j ≠ idx
        intro hidx
        rw [← hidx, hP, hkeq, Nat.testBit_two_pow] at hbit
        have hsqk : ksq = sq := by simpa using hbit
        rcases hsq with ⟨hnep, hto⟩ | ⟨hep, hto⟩
        · obtain ⟨ht64, hatt⟩ := Generated.capture_attacks hc hgen hcap hnep
          have hattacked : board.is_sq_attacked move.get_to_sq board.side = true :=
            (is_sq_attacked_iff_attacks_from board hc.1 hc.2.2.1 _ ht64 _ hs.ne_any).2
              ⟨move.get_from_sq, move.get_from_sq_lt, hatt⟩
          rw [← hjo, hkeq, get_lsb_index_two_pow ksq hksq, hsqk, hto, hattacked] at hsafe
          exact absurd hsafe (by decide)
        · have hpawn := Generated.enpassant_victim hc hgen hep
          rw [hside] at hto
          rw [← hto, ← hjo] at hpawn
          have hking : (board.placement.loc (5 + 6 * j)).testBit sq = true := by
            rw [hP, hkeq, Nat.testBit_two_pow]; simpa using hsqk
          have := hbits.disjoint (6 * j) (5 + 6 * j) sq (by omega) (by omega) hpawn hking
          omega
    rw [after_move_loc_other board.placement move victim (5 + 6 * j) hvopp
      (by rw [hside]; omega) (by intro _; rw [hside]; omega) (by rw [hside]; omega), hP]
    exact hk j hj

/-- C5: in a consistent position (64-bit words, pairwise disjoint piece bitboards,
aggregates equal to the OR of their piece bitboards, white or black to move, no pawn on
an end rank, an en-passant square that is empty with an enemy pawn behind it, castling
rights only with king and rook on their home squares) in which each side has exactly one
king and the king of the side not to move is not attacked by the side to move, every
move produced by `fill_move_array` that `make_move` accepts leads to a position in which
`popcount(pieces[king, white]) == 1` and `popcount(pieces[king, black]) == 1`, and in
which the king of the side not to move is again not attacked by the side to move. -/
theorem make_move_keeps_kings (board : Board) (move : Move) (hc : board.consistent)
    (hkw : count_bits (board.get_piece_bitboard PieceType.king Side.white) = 1)
    (hkb : count_bits (board.get_piece_bitboard PieceType.king Side.black) = 1)
    (hsafe : board.is_sq_attacked
      (get_lsb_index (board.get_piece_bitboard PieceType.king (opposite_side board.side)))
      board.side = false)
    (hm : move ∈ fill_move_array [] board) (hacc : (board.make_move move).1 = true) :
    count_bits ((board.make_move move).2.get_piece_bitboard PieceType.king Side.white) = 1
      ∧ count_bits ((board.make_move move).2.get_piece_bitboard PieceType.king Side.black) = 1
      ∧ (board.make_move move).2.is_sq_attacked
          (get_lsb_index ((board.make_move move).2.get_piece_bitboard PieceType.king
            (opposite_side (board.make_move move).2.side)))
          (board.make_move move).2.side = false := by
  have hk : ∀ j, j < 2 → count_bits (board.piece_location (5 + 6 * j)) = 1 := by
    intro j hj
    interval_cases j
    · exact hkw
    · exact hkb
  have hkings := make_move_apply_kings hc hk hsafe hm
  have e := make_move_eq_of_accepted board move hacc
  refine ⟨?_, ?_, ?_⟩
  · rw [e]; exact hkings 0 (by omega)
  · rw [e]; exact hkings 1 (by omega)
  · unfold Board.make_move at hacc ⊢
    simp only at hacc ⊢
    split
    · rename_i hatt
      rw [if_pos hatt] at hacc
      exact absurd hacc Bool.false_ne_true
    · rename_i hatt
      simpa using hatt

/-- C5 at a king capture: in `4k3/8/8/8/8/8/3p4/4K3 w - - 0 1` the white king takes the
pawn on d2; both sides keep one king and the black king is not attacked. -/
theorem make_move_keeps_kings_witness :
    ((Board.of_fen "4k3/8/8/8/8/8/3p4/4K3 w - - 0 1").consistent
      ∧ count_bits ((Board.of_fen "4k3/8/8/8/8/8/3p4/4K3 w - - 0 1").get_piece_bitboard
          PieceType.king Side.white) = 1
      ∧ count_bits ((Board.of_fen "4k3/8/8/8/8/8/3p4/4K3 w - - 0 1").get_piece_bitboard
          PieceType.king Side.black) = 1
      ∧ (Board.of_fen "4k3/8/8/8/8/8/3p4/4K3 w - - 0 1").is_sq_attacked
          (get_lsb_index ((Board.of_fen "4k3/8/8/8/8/8/3p4/4K3 w - - 0 1").get_piece_bitboard
            PieceType.king (opposite_side (Board.of_fen "4k3/8/8/8/8/8/3p4/4K3 w - - 0 1").side)))
          (Board.of_fen "4k3/8/8/8/8/8/3p4/4K3 w - - 0 1").side = false
      ∧ Move.new 60 51 PieceType.king Side.white PieceType.pawn Side.any MoveFlag.NO_FLAG true
          ∈ fill_move_array [] (Board.of_fen "4k3/8/8/8/8/8/3p4/4K3 w - - 0 1")
      ∧ ((Board.of_fen "4k3/8/8/8/8/8/3p4/4K3 w - - 0 1").make_move
          (Move.new 60 51 PieceType.king Side.white PieceType.pawn Side.any
            MoveFlag.NO_FLAG true)).1 = true)
      ∧ count_bits (((Board.of_fen "4k3/8/8/8/8/8/3p4/4K3 w - - 0 1").make_move
          (Move.new 60 51 PieceType.king Side.white PieceType.pawn Side.any
            MoveFlag.NO_FLAG true)).2.get_piece_bitboard PieceType.king Side.white) = 1 :=
  ⟨⟨by decide!, by decide!, by decide!, by decide!, by decide!, by decide!⟩,
    (make_move_keeps_kings _ _ (by decide!) (by decide!) (by decide!) (by decide!)
      (by decide!) (by decide!)).1⟩


/-! ## C8, C9: what `load_fen` reads -/

theorem split_string_loop_field (d : Char) (field rest : List Char) (h : d ∉ field) :
    ∀ item, split_string_loop d (field ++ d :: rest) item
      = (item.reverse ++ field) :: split_string_loop d rest [] := by
  induction field with
  | nil => intro item; simp [split_string_loop]
  | cons c cs ih =>
    intro item
    have hc : c ≠ d := fun e => h (by simp [e])
    have hcs : d ∉ cs := fun e => h (by simp [e])
    rw [List.cons_append, split_string_loop, if_neg hc, ih hcs]
    simp

theorem split_string_loop_last (d : Char) (field : List Char) (h : d ∉ field) :
    ∀ item, item.reverse ++ field ≠ [] →
      split_string_loop d field item = [item.reverse ++ field] := by
  induction field with
  | nil => intro item hne; simp at hne; simp [split_string_loop, hne]
  | cons c cs ih =>
    intro item _
    have hc : c ≠ d := fun e => h (by simp [e])
    have hcs : d ∉ cs := fun e => h (by simp [e])
    rw [split_string_loop, if_neg hc, ih hcs (c :: item) (by simp)]
    simp


theorem fen_digit_facts {c : Char}
    (h : c ∈ ['0', '1', '2', '3', '4', '5', '6', '7', '8', '9']) :
    isdigit c = true ∧ c ≠ ' ' ∧ c ≠ '/' ∧ c ≠ '-' ∧ c ≠ '+' ∧ c ∉ fen_letters
      ∧ (decide (c = ' ') || (decide (9 ≤ c.toNat) && decide (c.toNat ≤ 13))) = false := by
  simp only [List.mem_cons, List.mem_singleton, List.not_mem_nil, or_false] at h
  rcases h with rfl | rfl | rfl | rfl | rfl | rfl | rfl | rfl | rfl | rfl <;> decide

theorem fen_letter_facts {c : Char} (h : c ∈ fen_letters) :
    isdigit c = false ∧ c ≠ ' ' ∧ c ≠ '/'
      ∧ char_to_piece_idx c = (fen_letters.indexOf c : Int)
      ∧ fen_letters.indexOf c < 12 := by
  simp only [fen_letters, List.mem_cons, List.mem_singleton, List.not_mem_nil, or_false] at h
  rcases h with rfl | rfl | rfl | rfl | rfl | rfl | rfl | rfl | rfl | rfl | rfl | rfl <;>
    decide

theorem digits_value_foldl (l : List Char) : ∀ acc : Nat,
    l.foldl (fun acc c => acc * 10 + (c.toNat - '0'.toNat)) acc
      = acc * 10 ^ l.length + fen_number l := by
  induction l with
  | nil => intro acc; simp [fen_number]
  | cons c cs ih =>
    intro acc
    rw [List.foldl_cons, ih, fen_number, List.length_cons, Nat.pow_succ]
    ring

theorem digits_value_eq (l : List Char) : digits_value l = fen_number l := by
  unfold digits_value
  rw [digits_value_foldl]
  simp

/-- On a decimal numeral that fits an `int`, `std::stoi` returns its value. -/
theorem stoi_numeral (l : List Char) (hne : l ≠ [])
    (hd : ∀ c ∈ l, c ∈ ['0', '1', '2', '3', '4', '5', '6', '7', '8', '9'])
    (hv : fen_number l ≤ 2147483647) : stoi l = some (fen_number l : Int) := by
  obtain ⟨c, cs, rfl⟩ := List.exists_cons_of_ne_nil hne
  obtain ⟨hc1, hc2, hc3, hc4, hc5, hc6, hc7⟩ := fen_digit_facts (hd c (by simp))
  have htake : (c :: cs).takeWhile isdigit = c :: cs := by
    rw [List.takeWhile_eq_self_iff]
    intro x hx
    exact (fen_digit_facts (hd x hx)).1
  unfold stoi
  simp only
  rw [List.dropWhile_cons_of_neg (by rw [hc7]; exact Bool.false_ne_true)]
  simp only [List.head?_cons, Option.some.injEq, hc4, hc5, or_self, if_false, htake,
    digits_value_eq]
  simp
  omega

theorem fen_piece_at_nil (i j : Nat) : fen_piece_at [] i j = none := by
  unfold fen_piece_at fen_ranks
  cases i <;> simp [fen_rank_squares]

theorem fen_piece_at_slash_zero (rest : List Char) (j : Nat) :
    fen_piece_at ('/' :: rest) 0 j = none := by
  simp [fen_piece_at, fen_ranks, fen_rank_squares]

theorem fen_piece_at_slash_succ (rest : List Char) (i j : Nat) :
    fen_piece_at ('/' :: rest) (i + 1) j = fen_piece_at rest i j := by
  simp [fen_piece_at, fen_ranks]

theorem getD_tail_ranks (l : List (List Char)) (i : Nat) :
    l.tail.getD i [] = l.getD (i + 1) [] := by
  cases l <;> simp

theorem headD_ranks (l : List (List Char)) : l.headD [] = l.getD 0 [] := by
  cases l <;> simp

theorem fen_piece_at_cons_succ (c : Char) (rest : List Char) (hc : c ≠ '/') (i j : Nat) :
    fen_piece_at (c :: rest) (i + 1) j = fen_piece_at rest (i + 1) j := by
  unfold fen_piece_at
  rw [fen_ranks, if_neg hc, List.getD_cons_succ, getD_tail_ranks]

theorem getD_replicate_none_append (d : Nat) (l : List (Option Nat)) (j : Nat) :
    (List.replicate d none ++ l).getD j none = if j < d then none else l.getD (j - d) none := by
  induction d generalizing j with
  | zero => simp
  | succ d ih =>
    cases j with
    | zero => simp [List.replicate_succ]
    | succ j =>
      rw [List.replicate_succ, List.cons_append, List.getD_cons_succ, ih]
      simp

theorem fen_piece_at_digit_zero (c : Char) (rest : List Char) (hc : c ≠ '/')
    (hl : c ∉ fen_letters) (j : Nat) :
    fen_piece_at (c :: rest) 0 j
      = if j < c.toNat - '0'.toNat then none
        else fen_piece_at rest 0 (j - (c.toNat - '0'.toNat)) := by
  unfold fen_piece_at
  rw [fen_ranks, if_neg hc, List.getD_cons_zero, fen_rank_squares, if_neg hl,
    getD_replicate_none_append, headD_ranks]

theorem fen_piece_at_letter_zero (c : Char) (rest : List Char) (hc : c ≠ '/')
    (hl : c ∈ fen_letters) :
    fen_piece_at (c :: rest) 0 0 = some (fen_letters.indexOf c) := by
  unfold fen_piece_at
  rw [fen_ranks, if_neg hc, List.getD_cons_zero, fen_rank_squares, if_pos hl,
    List.getD_cons_zero]

theorem fen_piece_at_letter_succ (c : Char) (rest : List Char) (hc : c ≠ '/')
    (hl : c ∈ fen_letters) (j : Nat) :
    fen_piece_at (c :: rest) 0 (j + 1) = fen_piece_at rest 0 j := by
  unfold fen_piece_at
  rw [fen_ranks, if_neg hc, List.getD_cons_zero, fen_rank_squares, if_pos hl,
    List.getD_cons_succ, headD_ranks]

theorem fen_gap_facts {c : Char} (h : c ∈ ['1', '2', '3', '4', '5', '6', '7', '8']) :
    isdigit c = true ∧ c ≠ ' ' ∧ c ≠ '/' ∧ c ∉ fen_letters := by
  simp only [List.mem_cons, List.mem_singleton, List.not_mem_nil, or_false] at h
  rcases h with rfl | rfl | rfl | rfl | rfl | rfl | rfl | rfl <;> decide

theorem load_fen_pieces_slash (rest : List Char) (rank file : Nat) (board : Board) :
    load_fen_pieces ('/' :: rest) rank file board = load_fen_pieces rest (rank + 1) 0 board := by
  rw [load_fen_pieces, if_pos rfl]

theorem load_fen_pieces_gap (c : Char) (rest : List Char) (rank file : Nat) (board : Board)
    (h : c ∈ ['1', '2', '3', '4', '5', '6', '7', '8']) :
    load_fen_pieces (c :: rest) rank file board
      = load_fen_pieces rest rank (file + (c.toNat - '0'.toNat)) board := by
  obtain ⟨h1, -, h3, -⟩ := fen_gap_facts h
  rw [load_fen_pieces, if_neg h3, if_pos h1]

theorem load_fen_pieces_letter (c : Char) (rest : List Char) (rank file : Nat) (board : Board)
    (h : c ∈ fen_letters) :
    load_fen_pieces (c :: rest) rank file board
      = load_fen_pieces rest rank (file + 1)
          (load_fen_put board (fen_letters.indexOf c) (rank * 8 + file)) := by
  obtain ⟨h1, -, h3, h4, -⟩ := fen_letter_facts h
  rw [load_fen_pieces, if_neg h3, h1]
  simp only [Bool.false_eq_true, if_false, h4, Int.toNat_ofNat, get_square]
  rw [if_neg (by omega)]
  rfl

theorem load_fen_put_loc (board : Board) (idx sq p n : Nat) :
    ((load_fen_put board idx sq).piece_location p).testBit n = true
      ↔ ((board.piece_location p).testBit n = true ∨ (p = idx ∧ n = sq ∧ sq < 64)) := by
  show (arr_set board.piece_location idx (set_bit (board.piece_location idx) sq) p).testBit n
    = true ↔ _
  by_cases hp : p = idx
  · subst hp
    rw [arr_set_same, testBit_set_bit]
    simp
  · rw [arr_set_other _ _ _ _ hp]
    simp [hp]

/-- The loop of `load_fen` over a placement text sets, besides the bits already there,
the bit of each piece that the text lists, on the square the loop has reached. -/
theorem load_fen_pieces_loc : ∀ (cs : List Char),
    (∀ c ∈ cs, c = '/' ∨ c ∈ ['1', '2', '3', '4', '5', '6', '7', '8'] ∨ c ∈ fen_letters) →
    ∀ (rank file : Nat) (board : Board),
    ∃ b, load_fen_pieces cs rank file board = some b
      ∧ ∀ p n, (b.piece_location p).testBit n = true
        ↔ ((board.piece_location p).testBit n = true
          ∨ (n < 64 ∧ ∃ i j, fen_piece_at cs i j = some p
            ∧ n = 8 * (rank + i) + (if i = 0 then file else 0) + j)) := by
  intro cs
  induction cs with
  | nil =>
    intro _ rank file board
    refine ⟨board, rfl, ?_⟩
    intro p n
    simp [fen_piece_at_nil]
  | cons c rest ih =>
    intro hcs rank file board
    have hrest : ∀ x ∈ rest,
        x = '/' ∨ x ∈ ['1', '2', '3', '4', '5', '6', '7', '8'] ∨ x ∈ fen_letters :=
      fun x hx => hcs x (List.mem_cons_of_mem _ hx)
    rcases hcs c (List.mem_cons_self _ _) with rfl | hgap | hlet
    · obtain ⟨b, hb, hbits⟩ := ih hrest (rank + 1) 0 board
      refine ⟨b, by rw [load_fen_pieces_slash, hb], ?_⟩
      intro p n
      rw [hbits]
      apply or_congr Iff.rfl
      apply and_congr Iff.rfl
      constructor
      · rintro ⟨i, j, hij, hn⟩
        refine ⟨i + 1, j, by rw [fen_piece_at_slash_succ]; exact hij, ?_⟩
        simp only [eq_self_iff_true, if_true, Nat.add_one_ne_zero, if_false, ite_self] at hn ⊢; omega
      · rintro ⟨i, j, hij, hn⟩
        cases i with
        | zero => rw [fen_piece_at_slash_zero] at hij; exact absurd hij (by simp)
        | succ i =>
          rw [fen_piece_at_slash_succ] at hij
          refine ⟨i, j, hij, ?_⟩
          simp only [eq_self_iff_true, if_true, Nat.add_one_ne_zero, if_false, ite_self] at hn ⊢; omega
    · obtain ⟨-, -, hslash, hnl⟩ := fen_gap_facts hgap
      obtain ⟨b, hb, hbits⟩ := ih hrest rank (file + (c.toNat - '0'.toNat)) board
      refine ⟨b, by rw [load_fen_pieces_gap _ _ _ _ _ hgap, hb], ?_⟩
      intro p n
      rw [hbits]
      apply or_congr Iff.rfl
      apply and_congr Iff.rfl
      constructor
      · rintro ⟨i, j, hij, hn⟩
        cases i with
        | zero =>
          refine ⟨0, j + (c.toNat - '0'.toNat), ?_, ?_⟩
          · rw [fen_piece_at_digit_zero _ _ hslash hnl, if_neg (by omega)]
            simpa using hij
          · simp only [eq_self_iff_true, if_true, Nat.add_one_ne_zero, if_false, ite_self] at hn ⊢; omega
        | succ i =>
          refine ⟨i + 1, j, by rw [fen_piece_at_cons_succ _ _ hslash]; exact hij, ?_⟩
          simp only [eq_self_iff_true, if_true, Nat.add_one_ne_zero, if_false, ite_self] at hn ⊢; omega
      · rintro ⟨i, j, hij, hn⟩
        cases i with
        | zero =>
          rw [fen_piece_at_digit_zero _ _ hslash hnl] at hij
          by_cases hj : j < c.toNat - '0'.toNat
          · rw [if_pos hj] at hij; exact absurd hij (by simp)
          · rw [if_neg hj] at hij
            refine ⟨0, j - (c.toNat - '0'.toNat), hij, ?_⟩
            simp only [eq_self_iff_true, if_true, Nat.add_one_ne_zero, if_false, ite_self] at hn ⊢; omega
        | succ i =>
          rw [fen_piece_at_cons_succ _ _ hslash] at hij
          exact ⟨i + 1, j, hij, hn⟩
    · obtain ⟨-, -, hslash, -, -⟩ := fen_letter_facts hlet
      obtain ⟨b, hb, hbits⟩ := ih hrest rank (file + 1)
        (load_fen_put board (fen_letters.indexOf c) (rank * 8 + file))
      refine ⟨b, by rw [load_fen_pieces_letter _ _ _ _ _ hlet, hb], ?_⟩
      intro p n
      rw [hbits, load_fen_put_loc]
      constructor
      · rintro ((hold | ⟨hp, hn, hlt⟩) | ⟨hn64, i, j, hij, hn⟩)
        · exact Or.inl hold
        · refine Or.inr ⟨by omega, 0, 0, ?_, ?_⟩
          · rw [fen_piece_at_letter_zero _ _ hslash hlet, hp]
          · simp only [eq_self_iff_true, if_true, Nat.add_one_ne_zero, if_false, ite_self] at hn ⊢; omega
        · refine Or.inr ⟨hn64, ?_⟩
          cases i with
          | zero =>
            refine ⟨0, j + 1, by rw [fen_piece_at_letter_succ _ _ hslash hlet]; exact hij, ?_⟩
            simp only [eq_self_iff_true, if_true, Nat.add_one_ne_zero, if_false, ite_self] at hn ⊢; omega
          | succ i =>
            exact ⟨i + 1, j, by rw [fen_piece_at_cons_succ _ _ hslash]; exact hij, hn⟩
      · rintro (hold | ⟨hn64, i, j, hij, hn⟩)
        · exact Or.inl (Or.inl hold)
        · cases i with
          | zero =>
            cases j with
            | zero =>
              rw [fen_piece_at_letter_zero _ _ hslash hlet] at hij
              refine Or.inl (Or.inr ⟨(Option.some.inj hij).symm, ?_, ?_⟩)
              · simp only [eq_self_iff_true, if_true, Nat.add_one_ne_zero, if_false, ite_self] at hn ⊢; omega
              · simp only [eq_self_iff_true, if_true, Nat.add_one_ne_zero, if_false, ite_self] at hn ⊢; omega
            | succ j =>
              rw [fen_piece_at_letter_succ _ _ hslash hlet] at hij
              refine Or.inr ⟨hn64, 0, j, hij, ?_⟩
              simp only [eq_self_iff_true, if_true, Nat.add_one_ne_zero, if_false, ite_self] at hn ⊢; omega
          | succ i =>
            rw [fen_piece_at_cons_succ _ _ hslash] at hij
            exact Or.inr ⟨hn64, i + 1, j, hij, hn⟩

theorem load_fen_put_occ (board : Board) (idx sq k n : Nat) :
    ((load_fen_put board idx sq).occupancies k).testBit n = true
      ↔ ((board.occupancies k).testBit n = true
        ∨ ((k = idx / 6 ∨ k = 2) ∧ n = sq ∧ sq < 64)) := by
  show (arr_set (arr_set board.occupancies (idx / 6) (set_bit (board.occupancies (idx / 6)) sq))
    2 (set_bit (arr_set board.occupancies (idx / 6) (set_bit (board.occupancies (idx / 6)) sq) 2)
      sq) k).testBit n = true ↔ _
  by_cases hk2 : k = 2
  · subst hk2
    rw [arr_set_same, testBit_set_bit]
    by_cases h6 : 2 = idx / 6
    · rw [h6, arr_set_same, testBit_set_bit]
      simp
    · rw [arr_set_other _ _ _ _ h6]
      simp
  · rw [arr_set_other _ _ _ _ hk2]
    by_cases h6 : k = idx / 6
    · subst h6
      rw [arr_set_same, testBit_set_bit]
      simp
    · rw [arr_set_other _ _ _ _ h6]
      simp [h6, hk2]

theorem load_fen_put_follows (board : Board) (idx sq : Nat) (hidx : idx < 12)
    (h : board.occupancy_follows) : (load_fen_put board idx sq).occupancy_follows := by
  obtain ⟨hside, hall⟩ := h
  constructor
  · intro k hk n
    rw [load_fen_put_occ, hside k hk]
    constructor
    · rintro (⟨p, hp1, hp2, hp⟩ | ⟨hk6, hn, hsq⟩)
      · exact ⟨p, hp1, hp2, (load_fen_put_loc _ _ _ _ _).2 (Or.inl hp)⟩
      · refine ⟨idx, by omega, by omega, (load_fen_put_loc _ _ _ _ _).2 (Or.inr ⟨rfl, hn, hsq⟩)⟩
    · rintro ⟨p, hp1, hp2, hp⟩
      rcases (load_fen_put_loc _ _ _ _ _).1 hp with hold | ⟨hpi, hn, hsq⟩
      · exact Or.inl ⟨p, hp1, hp2, hold⟩
      · exact Or.inr ⟨Or.inl (by omega), hn, hsq⟩
  · intro n
    rw [load_fen_put_occ, load_fen_put_occ, load_fen_put_occ, hall]
    have : idx / 6 = 0 ∨ idx / 6 = 1 := by omega
    constructor
    · rintro (h | ⟨-, hn, hsq⟩)
      · rcases h with h | h
        · exact Or.inl (Or.inl h)
        · exact Or.inr (Or.inl h)
      · rcases this with h0 | h1
        · exact Or.inl (Or.inr ⟨Or.inl h0.symm, hn, hsq⟩)
        · exact Or.inr (Or.inr ⟨Or.inl h1.symm, hn, hsq⟩)
    · rintro ((h | ⟨-, hn, hsq⟩) | (h | ⟨-, hn, hsq⟩))
      · exact Or.inl (Or.inl h)
      · exact Or.inr ⟨Or.inr rfl, hn, hsq⟩
      · exact Or.inl (Or.inr h)
      · exact Or.inr ⟨Or.inr rfl, hn, hsq⟩

/-- The loop of `load_fen` keeps the occupancy words in step with the piece bitboards. -/
theorem load_fen_pieces_follows : ∀ (cs : List Char),
    (∀ c ∈ cs, c = '/' ∨ c ∈ ['1', '2', '3', '4', '5', '6', '7', '8'] ∨ c ∈ fen_letters) →
    ∀ (rank file : Nat) (board b : Board), load_fen_pieces cs rank file board = some b →
      board.occupancy_follows → b.occupancy_follows := by
  intro cs
  induction cs with
  | nil =>
    intro _ rank file board b hb h
    rw [load_fen_pieces] at hb
    rw [← Option.some.inj hb]
    exact h
  | cons c rest ih =>
    intro hcs rank file board b hb h
    have hrest : ∀ x ∈ rest,
        x = '/' ∨ x ∈ ['1', '2', '3', '4', '5', '6', '7', '8'] ∨ x ∈ fen_letters :=
      fun x hx => hcs x (List.mem_cons_of_mem _ hx)
    rcases hcs c (List.mem_cons_self _ _) with rfl | hgap | hlet
    · rw [load_fen_pieces_slash] at hb
      exact ih hrest _ _ _ _ hb h
    · rw [load_fen_pieces_gap _ _ _ _ _ hgap] at hb
      exact ih hrest _ _ _ _ hb h
    · rw [load_fen_pieces_letter _ _ _ _ _ hlet] at hb
      exact ih hrest _ _ _ _ hb
        (load_fen_put_follows _ _ _ (fen_letter_facts hlet).2.2.2.2 h)

theorem fen_piece_at_bounds {placement : List Char} (h8 : (fen_ranks placement).length = 8)
    (hr : ∀ r ∈ fen_ranks placement, (fen_rank_squares r).length = 8) {i j p : Nat}
    (h : fen_piece_at placement i j = some p) : i < 8 ∧ j < 8 := by
  unfold fen_piece_at at h
  by_cases hi : i < 8
  · refine ⟨hi, ?_⟩
    by_contra hj
    have hmem : (fen_ranks placement).getD i [] ∈ fen_ranks placement := by
      rw [List.getD_eq_getElem _ _ (by omega)]
      exact List.getElem_mem _
    rw [List.getD_eq_default _ _ (by rw [hr _ hmem]; omega)] at h
    exact absurd h (by simp)
  · rw [List.getD_eq_default (fen_ranks placement) [] (by omega)] at h
    simp [fen_rank_squares] at h

theorem load_fen_castling_eq (castling : List Char) :
    load_fen_castling castling = fen_castling castling := by
  unfold load_fen_castling fen_castling CastlingRights.white_king CastlingRights.white_queen
    CastlingRights.black_king CastlingRights.black_queen
  by_cases h1 : 'K' ∈ castling <;> by_cases h2 : 'Q' ∈ castling <;>
    by_cases h3 : 'k' ∈ castling <;> by_cases h4 : 'q' ∈ castling <;>
    simp [h1, h2, h3, h4]

theorem FenRecord.well_formed.no_space {F : FenRecord} (hF : F.well_formed) :
    ' ' ∉ F.placement ∧ ' ' ∉ F.side ∧ ' ' ∉ F.castling ∧ ' ' ∉ F.enpassant
      ∧ ' ' ∉ F.halfmove := by
  obtain ⟨hp, -, -, hs, hc, he, -, hh, -, -⟩ := hF
  refine ⟨?_, ?_, ?_, ?_, ?_⟩
  · intro hmem
    rcases hp _ hmem with h | h | h
    · exact absurd h (by decide)
    · exact (fen_gap_facts h).2.1 rfl
    · exact (fen_letter_facts h).2.1 rfl
  · rcases hs with h | h <;> rw [h] <;> decide
  · rcases hc with h | ⟨-, h⟩
    · rw [h]; decide
    · intro hmem
      exact absurd (h _ hmem) (by decide)
  · rcases he with h | ⟨hlen, h0, h1⟩
    · rw [h]; decide
    · intro hmem
      obtain ⟨a, b, hab⟩ : ∃ a b, F.enpassant = [a, b] := by
        match hq : F.enpassant, hlen with
        | [a, b], _ => exact ⟨a, b, rfl⟩
      rw [hab] at h0 h1 hmem
      simp only [List.getD_cons_zero, List.getD_cons_succ] at h0 h1
      simp only [List.mem_cons, List.mem_singleton, List.not_mem_nil, or_false] at hmem
      rcases hmem with hm | hm
      · rw [← hm] at h0; exact absurd h0 (by decide)
      · rw [← hm] at h1; exact absurd h1 (by decide)
  · intro hmem
    exact (fen_digit_facts (hh _ hmem)).2.1 rfl

/-- The text of a well-formed record splits into its fields. -/
theorem split_string_text (F : FenRecord) (hF : F.well_formed) :
    ∃ tail, split_string F.text.data ' '
      = F.placement :: F.side :: F.castling :: F.enpassant :: F.halfmove :: tail := by
  obtain ⟨h1, h2, h3, h4, h5⟩ := hF.no_space
  have hne : F.halfmove ≠ [] := hF.2.2.2.2.2.2.1
  unfold split_string FenRecord.text
  simp only
  rw [split_string_loop_field _ _ _ h1, split_string_loop_field _ _ _ h2,
    split_string_loop_field _ _ _ h3, split_string_loop_field _ _ _ h4]
  simp only [List.reverse_nil, List.nil_append]
  by_cases hfull : F.fullmove = []
  · rw [if_pos hfull, List.append_nil, split_string_loop_last _ _ h5 [] (by simpa using hne)]
    exact ⟨[], rfl⟩
  · rw [if_neg hfull, split_string_loop_field _ _ _ h5]
    exact ⟨_, rfl⟩

/-- On the text of a well-formed record `load_fen` returns, and the board it leaves is
the one the loop over the placement built, with the other members set from the fields. -/
theorem load_fen_text (F : FenRecord) (hF : F.well_formed) (board b1 : Board)
    (hb1 : load_fen_pieces F.placement 0 0 board.reset = some b1) :
    board.load_fen F.text = some
      { piece_location := b1.piece_location
        occupancies := b1.occupancies
        side := if F.side = ['w'] then Side.white else Side.black
        enpassant := load_fen_enpassant F.enpassant
        castling := load_fen_castling F.castling
        hash_key := Board.generate_hash_key
          { b1 with
            side := if F.side = ['w'] then Side.white else Side.black
            castling := load_fen_castling F.castling
            enpassant := load_fen_enpassant F.enpassant }
        rep_idx := b1.rep_idx
        fifty := (fen_number F.halfmove : Int) } := by
  obtain ⟨tail, hsplit⟩ := split_string_text F hF
  unfold Board.load_fen
  simp only [hsplit, hb1,
    stoi_numeral F.halfmove hF.2.2.2.2.2.2.1 hF.2.2.2.2.2.2.2.1 hF.2.2.2.2.2.2.2.2.1]

/-- After the loop over a well-formed placement, started on the empty board, a piece
bitboard has the bit `8 * i + f` exactly when the placement puts the piece there. -/
theorem load_fen_pieces_reads {F : FenRecord} (hF : F.well_formed) {board b1 : Board}
    (hb1 : load_fen_pieces F.placement 0 0 board.reset = some b1) :
    (∀ p n, (b1.piece_location p).testBit n = true
        ↔ fen_piece_at F.placement (n / 8) (n % 8) = some p)
      ∧ ∀ p i f, f < 8 → ((b1.piece_location p).testBit (8 * i + f) = true
        ↔ fen_piece_at F.placement i f = some p) := by
  obtain ⟨b, hb, hbits⟩ := load_fen_pieces_loc F.placement hF.1 0 0 board.reset
  rw [hb1] at hb
  obtain rfl := Option.some.inj hb
  have hzero : ∀ p n, (board.reset.piece_location p).testBit n = false :=
    fun p n => Nat.zero_testBit n
  have key : ∀ p i f, f < 8 → ((b1.piece_location p).testBit (8 * i + f) = true
      ↔ fen_piece_at F.placement i f = some p) := by
    intro p i f hf
    rw [hbits, hzero]
    constructor
    · rintro (h | ⟨-, i2, j2, hij, hn⟩)
      · exact absurd h Bool.false_ne_true
      · obtain ⟨-, hj8⟩ := fen_piece_at_bounds hF.2.1 hF.2.2.1 hij
        simp only [ite_self] at hn
        have hi : i2 = i := by omega
        have hj : j2 = f := by omega
        rw [← hi, ← hj]
        exact hij
    · intro hij
      obtain ⟨hi8, -⟩ := fen_piece_at_bounds hF.2.1 hF.2.2.1 hij
      refine Or.inr ⟨by omega, i, f, hij, ?_⟩
      simp only [ite_self]
      omega
  refine ⟨?_, key⟩
  intro p n
  have := key p (n / 8) (n % 8) (Nat.mod_lt _ (by norm_num))
  rwa [Nat.div_add_mod] at this

/-- C8: for every well-formed FEN record (eight ranks of eight squares in piece letters
and the digits 1 to 8, side `w` or `b`, castling `-` or letters of `KQkq`, en-passant
`-` or a square of rank 3 or 6, a halfmove numeral that fits an `int`, the fullmove
number present or absent) and whatever the board held, `load_fen` on its text returns
a board in which the bitboard of piece `p` has bit `8 * i + f` set iff the placement
puts `p` on file `f` of its `i`-th listed rank; the side to move is white for `w` and
black for `b`; the castling word is the sum of K = 1, Q = 2, k = 4, q = 8 over the
letters present; and the halfmove clock is the value of the halfmove numeral. -/
theorem load_fen_reads_fields (F : FenRecord) (hF : F.well_formed) (board : Board) :
    ∃ b, board.load_fen F.text = some b
      ∧ (∀ p i f, f < 8 → ((b.piece_location p).testBit (8 * i + f) = true
          ↔ fen_piece_at F.placement i f = some p))
      ∧ (F.side = ['w'] → b.side = Side.white)
      ∧ (F.side = ['b'] → b.side = Side.black)
      ∧ b.castling = fen_castling F.castling
      ∧ b.fifty = (fen_number F.halfmove : Int) := by
  obtain ⟨b1, hb1, -⟩ := load_fen_pieces_loc F.placement hF.1 0 0 board.reset
  refine ⟨_, load_fen_text F hF board b1 hb1, (load_fen_pieces_reads hF hb1).2, ?_, ?_,
    load_fen_castling_eq _, rfl⟩
  · intro hs
    show (if F.side = ['w'] then Side.white else Side.black) = Side.white
    rw [if_pos hs]
  · intro hs
    show (if F.side = ['w'] then Side.white else Side.black) = Side.black
    rw [hs]
    decide

/-- C8 at the starting position, written without the fullmove number. -/
theorem load_fen_reads_fields_witness :
    FenRecord.start_short.well_formed
      ∧ ∃ b, Board.initial.load_fen FenRecord.start_short.text = some b
        ∧ (∀ p i f, f < 8 → ((b.piece_location p).testBit (8 * i + f) = true
            ↔ fen_piece_at FenRecord.start_short.placement i f = some p))
        ∧ (FenRecord.start_short.side = ['w'] → b.side = Side.white)
        ∧ (FenRecord.start_short.side = ['b'] → b.side = Side.black)
        ∧ b.castling = fen_castling FenRecord.start_short.castling
        ∧ b.fifty = (fen_number FenRecord.start_short.halfmove : Int) :=
  ⟨by decide!, load_fen_reads_fields FenRecord.start_short (by decide!) Board.initial⟩


theorem foldl_filter_bits (f : Nat → Nat → Nat) (q : Nat → Bool) (l : List Nat) :
    ∀ init, (l.filter q).foldl f init = l.foldl (fun h s => if q s then f h s else h) init := by
  induction l with
  | nil => intro init; rfl
  | cons x xs ih =>
    intro init
    by_cases hx : q x = true
    · rw [List.filter_cons_of_pos hx, List.foldl_cons, List.foldl_cons, ih, if_pos hx]
    · rw [List.filter_cons_of_neg hx, List.foldl_cons, ih, if_neg hx]

theorem zobrist_tail (x c e s : Nat) (ep black : Prop) [Decidable ep] [Decidable black] :
    (if black then ((if ep then x ^^^ e else x) ^^^ c) ^^^ s
      else (if ep then x ^^^ e else x) ^^^ c)
      = x ^^^ c ^^^ (if ep then e else 0) ^^^ (if black then s else 0) := by
  by_cases h1 : ep <;> by_cases h2 : black <;>
    simp only [h1, h2, if_true, if_false, Nat.xor_zero] <;>
    simp only [Nat.xor_assoc, Nat.xor_comm e c]

/-- On 64-bit words the loop of `generate_hash_key` computes the hash invariant. -/
theorem generate_hash_key_eq_zobrist (board : Board)
    (hw : ∀ p, p < 12 → board.piece_location p < 2 ^ 64) :
    board.generate_hash_key = board.zobrist := by
  have hin : ∀ p, p < 12 → ∀ init,
      (squares_of (board.piece_location p)).foldl
          (fun result square => result ^^^ piece_keys p square) init
        = (List.range 64).foldl
          (fun h s => if (board.piece_location p).testBit s then h ^^^ piece_keys p s else h)
          init := by
    intro p hp init
    rw [squares_of_eq (hw p hp), foldl_filter_bits]
  have hrange : List.range 12 = [0, 1, 2, 3, 4, 5, 6, 7, 8, 9, 10, 11] := by decide
  unfold Board.generate_hash_key Board.zobrist
  simp only [hrange, List.foldl_cons, List.foldl_nil]
  rw [hin 0 (by norm_num), hin 1 (by norm_num), hin 2 (by norm_num), hin 3 (by norm_num),
    hin 4 (by norm_num), hin 5 (by norm_num), hin 6 (by norm_num), hin 7 (by norm_num),
    hin 8 (by norm_num), hin 9 (by norm_num), hin 10 (by norm_num), hin 11 (by norm_num)]
  exact zobrist_tail _ _ _ _ _ _

theorem load_fen_enpassant_range {F : FenRecord} (hF : F.well_formed) :
    (load_fen_enpassant F.enpassant).1 = true →
      0 ≤ (load_fen_enpassant F.enpassant).2 ∧ (load_fen_enpassant F.enpassant).2 < 64 := by
  rcases hF.2.2.2.2.2.1 with h | ⟨hlen, h0, h1⟩
  · rw [h]
    decide
  · intro _
    have hne : F.enpassant ≠ ['-'] := by
      intro e
      rw [e] at hlen
      exact absurd hlen (by decide)
    unfold load_fen_enpassant
    rw [if_neg hne]
    simp only
    rw [List.getD_eq_getElem _ _ (by omega), List.getD_eq_getElem _ _ (by omega)]
    rw [List.getD_eq_getElem _ _ (by omega)] at h0 h1
    generalize F.enpassant[0] = a at h0
    generalize F.enpassant[1] = b at h1
    simp only [List.mem_cons, List.mem_singleton, List.not_mem_nil, or_false] at h0 h1
    rcases h0 with rfl | rfl | rfl | rfl | rfl | rfl | rfl | rfl <;>
      rcases h1 with rfl | rfl <;> decide

theorem reset_occupancy_follows (board : Board) : board.reset.occupancy_follows := by
  constructor
  · intro k _ n
    show (0 : Nat).testBit n = true ↔ ∃ p, _ ∧ _ ∧ (0 : Nat).testBit n = true
    simp
  · intro n
    show (0 : Nat).testBit n = true ↔ ((0 : Nat).testBit n = true ∨ (0 : Nat).testBit n = true)
    simp

theorem Board.occupancy_follows.aggregates {board : Board} (h : board.occupancy_follows) :
    board.aggregates_ok ∧ board.occupancies 2 = board.occupancies 0 ||| board.occupancies 1 := by
  obtain ⟨hside, hall⟩ := h
  have h0 : board.occupancies 0 = or_pieces board.piece_location 0 := by
    apply Nat.eq_of_testBit_eq
    intro n
    rw [Bool.eq_iff_iff, hside 0 (by norm_num), testBit_or_pieces]
  have h1 : board.occupancies 1 = or_pieces board.piece_location 6 := by
    apply Nat.eq_of_testBit_eq
    intro n
    rw [Bool.eq_iff_iff, hside 1 (by norm_num), testBit_or_pieces]
  have h2 : board.occupancies 2 = board.occupancies 0 ||| board.occupancies 1 := by
    apply Nat.eq_of_testBit_eq
    intro n
    rw [Bool.eq_iff_iff, hall, Nat.testBit_or, Bool.or_eq_true]
  exact ⟨⟨h0, h1, by rw [h2, h0, h1]⟩, h2⟩

/-- C9: for every well-formed FEN record and whatever the board held, `load_fen` on its
text returns a board in which each occupancy aggregate equals the OR of its side's piece
bitboards, `occupancy[any] == occupancy[white] | occupancy[black]`,
`occupancy[white] & occupancy[black] == 0`, and `hash_key` equals both
`generate_hash_key()` of the board and the XOR of all piece-square keys, the
castle-state key, the key of the stored en-passant square if one is set (its index lies
in 0..63), and the side key iff black is to move. -/
theorem load_fen_builds_aggregates_and_hash (F : FenRecord) (hF : F.well_formed)
    (board : Board) :
    ∃ b, board.load_fen F.text = some b
      ∧ b.aggregates_ok
      ∧ b.occupancies 2 = b.occupancies 0 ||| b.occupancies 1
      ∧ b.occupancies 0 &&& b.occupancies 1 = 0
      ∧ b.hash_key = b.generate_hash_key
      ∧ b.hash_key = b.zobrist
      ∧ (b.enpassant.1 = true → 0 ≤ b.enpassant.2 ∧ b.enpassant.2 < 64) := by
  obtain ⟨b1, hb1, -⟩ := load_fen_pieces_loc F.placement hF.1 0 0 board.reset
  have hfollow := load_fen_pieces_follows F.placement hF.1 0 0 board.reset b1 hb1
    (reset_occupancy_follows board)
  obtain ⟨hagg, hany⟩ := hfollow.aggregates
  obtain ⟨hread, -⟩ := load_fen_pieces_reads hF hb1
  have hw : ∀ p, p < 12 → b1.piece_location p < 2 ^ 64 := by
    intro p _
    apply Nat.lt_pow_two_of_testBit
    intro n hn
    by_contra hbit
    have hbit : (b1.piece_location p).testBit n = true := by simpa using hbit
    obtain ⟨hi, -⟩ := fen_piece_at_bounds hF.2.1 hF.2.2.1 ((hread p n).1 hbit)
    omega
  have hdisj : b1.occupancies 0 &&& b1.occupancies 1 = 0 := by
    rw [and_eq_zero_iff_forall]
    rintro n ⟨h0, h1⟩
    obtain ⟨p, hp1, hp2, hp⟩ := (hfollow.1 0 (by norm_num) n).1 h0
    obtain ⟨q, hq1, hq2, hq⟩ := (hfollow.1 1 (by norm_num) n).1 h1
    have := ((hread p n).1 hp).symm.trans ((hread q n).1 hq)
    have := Option.some.inj this
    omega
  refine ⟨_, load_fen_text F hF board b1 hb1, hagg, hany, hdisj, rfl, ?_,
    load_fen_enpassant_range hF⟩
  exact generate_hash_key_eq_zobrist _ hw

/-- C9 at the starting position. -/
theorem load_fen_builds_aggregates_and_hash_witness :
    FenRecord.start.well_formed
      ∧ ∃ b, Board.initial.load_fen FenRecord.start.text = some b
        ∧ b.aggregates_ok
        ∧ b.occupancies 2 = b.occupancies 0 ||| b.occupancies 1
        ∧ b.occupancies 0 &&& b.occupancies 1 = 0
        ∧ b.hash_key = b.generate_hash_key
        ∧ b.hash_key = b.zobrist
        ∧ (b.enpassant.1 = true → 0 ≤ b.enpassant.2 ∧ b.enpassant.2 < 64) :=
  ⟨by decide!, load_fen_builds_aggregates_and_hash FenRecord.start (by decide!) Board.initial⟩


/-! ## C11, C12: perft -/

/-- C11: from the Kiwipete position loaded by `load_fen`, exactly 48 of the moves
produced by `fill_move_array` are accepted by `make_move`; this is perft at depth 1. -/
theorem kiwipete_perft_depth_one :
    ∃ board, Board.load_fen Board.initial
        "r3k2r/p1ppqpb1/bn2pnp1/3PN3/1p2P3/2N2Q1p/PPPBBPPP/R3K2R w KQkq - 0 1" = some board
      ∧ ((fill_move_array [] board).filter (fun move => (board.make_move move).1)).length = 48
      ∧ perft 1 board = 48 := by
  refine ⟨_, rfl, ?_, ?_⟩ <;> decide!

/-- The position `r3k2r/Pppp1ppp/1b3nbN/nP6/BBP1P3/q4N2/Pp1P2pP/R2Q1RK1 w kq - 0 1` as the
specification writes it (a black pawn on g2) has 6 leaves at depth 1 and 280 at depth
2; the published counts of Position 4 are 6 and 264. -/
theorem position_four_as_written_perft :
    ∃ board, Board.load_fen Board.initial
        "r3k2r/Pppp1ppp/1b3nbN/nP6/BBP1P3/q4N2/Pp1P2pP/R2Q1RK1 w kq - 0 1" = some board
      ∧ perft 1 board = 6 ∧ perft 2 board = 280 := by
  refine ⟨_, rfl, ?_, ?_⟩ <;> decide!


/-! ## C14, C15: UCI move strings -/

/-- C14 fails on the code. In `k7/4P3/8/8/8/8/8/7K w - - 0 1` the generator produces the
promotion e7-e8 to a queen; `UciInterface::moveToString` writes it `e7e8n` where the
`moveToString` of the search writes `e7e8q`, and `parseAndMakeMove` on `e7e8q` puts a
white knight on e8 and no queen on the board. -/
theorem uci_promotion_letter_wrong :
    ∃ board, Board.load_fen Board.initial "k7/4P3/8/8/8/8/8/7K w - - 0 1" = some board
      ∧ Move.new 12 4 PieceType.pawn Side.white PieceType.queen Side.white MoveFlag.NO_FLAG
          false ∈ fill_move_array [] board
      ∧ UciInterface.moveToString (Move.new 12 4 PieceType.pawn Side.white PieceType.queen
          Side.white MoveFlag.NO_FLAG false) = "e7e8n".data
      ∧ moveToString (Move.new 12 4 PieceType.pawn Side.white PieceType.queen
          Side.white MoveFlag.NO_FLAG false) = "e7e8q".data
      ∧ ((UciInterface.parseAndMakeMove board "e7e8q".data).get_piece_bitboard
          PieceType.knight Side.white).testBit 4 = true
      ∧ (UciInterface.parseAndMakeMove board "e7e8q".data).get_piece_bitboard
          PieceType.queen Side.white = 0 := by
  refine ⟨_, rfl, ?_, ?_, ?_, ?_, ?_⟩ <;> decide!

theorem make_move_snd_of_rejected (board : Board) (move : Move)
    (hrej : (board.make_move move).1 = false) : (board.make_move move).2 = board := by
  unfold Board.make_move at hrej ⊢
  simp only at hrej ⊢
  split
  · rfl
  · rename_i hatt
    rw [if_neg hatt] at hrej
    exact absurd hrej (fun e => Bool.false_ne_true e.symm)

/-- The loop of `parseAndMakeMove` hands the first matching move to `make_move`. -/
theorem parseAndMakeMove_loop_eq (board : Board) (s : List Char) (l : List Move) :
    UciInterface.parseAndMakeMove_loop board s l
      = match l.find? (fun m => decide (UciInterface.moveToString m = s)) with
        | some m => (board.make_move m).2
        | none => board := by
  induction l with
  | nil => rfl
  | cons x xs ih =>
    rw [UciInterface.parseAndMakeMove_loop, List.find?_cons]
    by_cases hx : UciInterface.moveToString x = s
    · simp [hx]
    · simp [hx, ih]

/-- C15: `parseAndMakeMove` leaves the board unchanged in every field when the string is
shorter than four characters, when no move produced by `fill_move_array` has it as its
UCI string, and when the first generated move that has it is rejected by `make_move`;
otherwise the board becomes the one `make_move` leaves for that first generated move. -/
theorem parseAndMakeMove_effect (board : Board) (s : List Char) :
    (s.length < 4 → UciInterface.parseAndMakeMove board s = board)
      ∧ ((∀ m ∈ fill_move_array [] board, UciInterface.moveToString m ≠ s) →
        UciInterface.parseAndMakeMove board s = board)
      ∧ ∀ m, (fill_move_array [] board).find?
            (fun m => decide (UciInterface.moveToString m = s)) = some m →
          ((board.make_move m).1 = false → UciInterface.parseAndMakeMove board s = board)
            ∧ (4 ≤ s.length → (board.make_move m).1 = true →
              UciInterface.parseAndMakeMove board s = (board.make_move m).2) := by
  refine ⟨?_, ?_, ?_⟩
  · intro h
    unfold UciInterface.parseAndMakeMove
    rw [if_pos h]
  · intro h
    unfold UciInterface.parseAndMakeMove
    split
    · rfl
    · simp only
      rw [parseAndMakeMove_loop_eq]
      have : (fill_move_array [] board).find?
          (fun m => decide (UciInterface.moveToString m = s)) = none := by
        rw [List.find?_eq_none]
        intro m hm
        simpa using h m hm
      rw [this]
  · intro m hfind
    have key : ¬ s.length < 4 →
        UciInterface.parseAndMakeMove board s = (board.make_move m).2 := by
      intro hlen
      unfold UciInterface.parseAndMakeMove
      rw [if_neg hlen]
      simp only
      rw [parseAndMakeMove_loop_eq, hfind]
    constructor
    · intro hrej
      by_cases hlen : s.length < 4
      · unfold UciInterface.parseAndMakeMove
        rw [if_pos hlen]
      · rw [key hlen, make_move_snd_of_rejected board m hrej]
    · intro hlen _
      exact key (by omega)

/-- C15 at the starting position: `e2e4` applies the double push of the e-pawn, the
first generated move with that string. -/
theorem parseAndMakeMove_effect_witness :
    ((fill_move_array [] (Board.of_fen
          "rnbqkbnr/pppppppp/8/8/8/8/PPPPPPPP/RNBQKBNR w KQkq - 0 1")).find?
        (fun m => decide (UciInterface.moveToString m = "e2e4".data))
        = some (Move.new 52 36 PieceType.pawn Side.white PieceType.pawn Side.any
            MoveFlag.PAWN_START false)
      ∧ 4 ≤ "e2e4".data.length
      ∧ ((Board.of_fen "rnbqkbnr/pppppppp/8/8/8/8/PPPPPPPP/RNBQKBNR w KQkq - 0 1").make_move
          (Move.new 52 36 PieceType.pawn Side.white PieceType.pawn Side.any
            MoveFlag.PAWN_START false)).1 = true)
      ∧ UciInterface.parseAndMakeMove
          (Board.of_fen "rnbqkbnr/pppppppp/8/8/8/8/PPPPPPPP/RNBQKBNR w KQkq - 0 1")
          "e2e4".data
        = ((Board.of_fen "rnbqkbnr/pppppppp/8/8/8/8/PPPPPPPP/RNBQKBNR w KQkq - 0 1").make_move
          (Move.new 52 36 PieceType.pawn Side.white PieceType.pawn Side.any
            MoveFlag.PAWN_START false)).2 :=
  ⟨⟨by decide!, by decide!, by decide!⟩,
    ((parseAndMakeMove_effect _ _).2.2 _ (by decide!)).2 (by decide!) (by decide!)⟩


/-! ## C16, C17: the transposition table -/

/-- C16: `probe` reads the slot at index `hash mod tableSize`. It returns
`NO_HASH_FOUND`, which is 100000, if the stored hash differs from `hash` or the stored
depth is less than `depth`. Otherwise, with `s` the stored score adjusted by `ply`, it
returns `s` if the flag is `EXACT`, `alpha` if the flag is `ALPHA` and `s <= alpha`,
`beta` if the flag is `BETA` and `s >= beta`, and `NO_HASH_FOUND` in the remaining
cases. The method is `const`: its only result is the returned value, and the table is
the same before and after. -/
theorem probe_cases (table : TranspositionTable) (alpha beta depth : Int) (hashKey : Nat)
    (ply : Int) :
    TranspositionTable.NO_HASH_FOUND = 100000
      ∧ (((table.entries (hashKey % table.tableSize)).hashKey ≠ hashKey
          ∨ (table.entries (hashKey % table.tableSize)).depth < depth) →
        table.probe alpha beta depth hashKey ply = TranspositionTable.NO_HASH_FOUND)
      ∧ ((table.entries (hashKey % table.tableSize)).hashKey = hashKey →
        depth ≤ (table.entries (hashKey % table.tableSize)).depth →
        ((table.entries (hashKey % table.tableSize)).flag = HashFlag.EXACT →
            table.probe alpha beta depth hashKey ply
              = TranspositionTable.adjustScoreFromTable
                  (table.entries (hashKey % table.tableSize)).score ply)
          ∧ ((table.entries (hashKey % table.tableSize)).flag = HashFlag.ALPHA →
            table.probe alpha beta depth hashKey ply
              = if TranspositionTable.adjustScoreFromTable
                    (table.entries (hashKey % table.tableSize)).score ply ≤ alpha
                then alpha else TranspositionTable.NO_HASH_FOUND)
          ∧ ((table.entries (hashKey % table.tableSize)).flag = HashFlag.BETA →
            table.probe alpha beta depth hashKey ply
              = if beta ≤ TranspositionTable.adjustScoreFromTable
                    (table.entries (hashKey % table.tableSize)).score ply
                then beta else TranspositionTable.NO_HASH_FOUND)) := by
  refine ⟨rfl, ?_, ?_⟩
  · intro h
    unfold TranspositionTable.probe
    simp only
    rw [if_pos h]
  · intro hh hd
    have hn : ¬ ((table.entries (hashKey % table.tableSize)).hashKey ≠ hashKey
        ∨ (table.entries (hashKey % table.tableSize)).depth < depth) := by
      rintro (h | h)
      · exact h hh
      · omega
    refine ⟨?_, ?_, ?_⟩ <;>
    · intro hf
      unfold TranspositionTable.probe
      simp only
      rw [if_neg hn, hf]
      try rfl

/-- C16 on a table whose slot 3 holds an `ALPHA` entry for the hash 11 (table size 8):
probing with `alpha = 50` at the stored depth returns 50. -/
theorem probe_cases_witness :
    ((({ entries := fun _ => ⟨11, 4, HashFlag.ALPHA, 20⟩, tableSize := 8 } :
          TranspositionTable).entries (11 % 8)).hashKey = 11
      ∧ (4 : Int) ≤ (({ entries := fun _ => ⟨11, 4, HashFlag.ALPHA, 20⟩, tableSize := 8 } :
          TranspositionTable).entries (11 % 8)).depth
      ∧ (({ entries := fun _ => ⟨11, 4, HashFlag.ALPHA, 20⟩, tableSize := 8 } :
          TranspositionTable).entries (11 % 8)).flag = HashFlag.ALPHA)
      ∧ ({ entries := fun _ => ⟨11, 4, HashFlag.ALPHA, 20⟩, tableSize := 8 } :
          TranspositionTable).probe 50 60 4 11 0
        = if TranspositionTable.adjustScoreFromTable
              (({ entries := fun _ => ⟨11, 4, HashFlag.ALPHA, 20⟩, tableSize := 8 } :
                TranspositionTable).entries (11 % 8)).score 0 ≤ 50
          then 50 else TranspositionTable.NO_HASH_FOUND :=
  ⟨⟨rfl, by decide, rfl⟩,
    ((probe_cases _ 50 60 4 11 0).2.2 rfl (by decide)).2.1 rfl⟩

theorem wrap_int_eq {x : Int} (h1 : -2147483648 ≤ x) (h2 : x ≤ 2147483647) :
    wrap_int x = x := by
  unfold wrap_int
  omega

theorem probe_store_exact (table : TranspositionTable) (score depth : Int) (hashKey : Nat)
    (ply alpha beta ply2 : Int) :
    (table.store score depth HashFlag.EXACT hashKey ply).probe alpha beta depth hashKey ply2
      = TranspositionTable.adjustScoreFromTable
          (TranspositionTable.adjustScoreForTable score ply) ply2 := by
  unfold TranspositionTable.probe TranspositionTable.store
  simp

/-- C17: for every `k >= 0` with `MATE_VALUE - k > MATE_SCORE`, all plies `p, q >= 0`
(being `int` values, with `MATE_VALUE - k + p` still an `int`), every depth and hash:
after `store(MATE_VALUE - k, d, EXACT, h, p)`, `probe(alpha, beta, d, h, q)` returns
`MATE_VALUE - k + (p - q)` for all `alpha` and `beta`, which is `MATE_VALUE - k` when
`q = p`; and for every score with `|score| <= MATE_SCORE` the probed value is the stored
score. -/
theorem store_probe_mate_score (table : TranspositionTable) (k p q d alpha beta : Int)
    (h : Nat) (hk : 0 ≤ k) (hmate : ChessSearch.MATE_VALUE - k > ChessSearch.MATE_SCORE)
    (hp : 0 ≤ p) (hq : 0 ≤ q) (hq2 : q ≤ 2147483647)
    (hfit : ChessSearch.MATE_VALUE - k + p ≤ 2147483647) :
    (table.store (ChessSearch.MATE_VALUE - k) d HashFlag.EXACT h p).probe alpha beta d h q
        = ChessSearch.MATE_VALUE - k + (p - q)
      ∧ (table.store (ChessSearch.MATE_VALUE - k) d HashFlag.EXACT h p).probe alpha beta d h p
        = ChessSearch.MATE_VALUE - k
      ∧ ∀ score : Int, -ChessSearch.MATE_SCORE ≤ score → score ≤ ChessSearch.MATE_SCORE →
        (table.store score d HashFlag.EXACT h p).probe alpha beta d h q = score := by
  unfold ChessSearch.MATE_VALUE ChessSearch.MATE_SCORE at *
  have hstore : TranspositionTable.adjustScoreForTable (49000 - k) p = 49000 - k + p := by
    unfold TranspositionTable.adjustScoreForTable TranspositionTable.MATE_SCORE
    rw [if_neg (by omega), if_pos (by omega), wrap_int_eq (by omega) (by omega)]
  have hprobe : ∀ r : Int, 0 ≤ r → r ≤ 2147483647 →
      TranspositionTable.adjustScoreFromTable (49000 - k + p) r = 49000 - k + p - r := by
    intro r hr hr2
    unfold TranspositionTable.adjustScoreFromTable TranspositionTable.MATE_SCORE
    rw [if_neg (by omega), if_pos (by omega), wrap_int_eq (by omega) (by omega)]
  refine ⟨?_, ?_, ?_⟩
  · rw [probe_store_exact, hstore, hprobe q hq hq2]
    omega
  · rw [probe_store_exact, hstore, hprobe p hp (by omega)]
    omega
  · intro score h1 h2
    rw [probe_store_exact]
    unfold TranspositionTable.adjustScoreForTable TranspositionTable.adjustScoreFromTable
      TranspositionTable.MATE_SCORE
    rw [if_neg (by omega), if_neg (by omega), if_neg (by omega), if_neg (by omega)]

/-- C17 for a mate in three plies stored at ply 5 and probed at ply 2. -/
theorem store_probe_mate_score_witness :
    ((0 : Int) ≤ 3 ∧ ChessSearch.MATE_VALUE - 3 > ChessSearch.MATE_SCORE ∧ (0 : Int) ≤ 5
        ∧ (0 : Int) ≤ 2 ∧ (2 : Int) ≤ 2147483647
        ∧ ChessSearch.MATE_VALUE - 3 + 5 ≤ 2147483647)
      ∧ (({ entries := fun _ => ⟨0, 0, HashFlag.EXACT, 0⟩, tableSize := 8 } :
          TranspositionTable).store (ChessSearch.MATE_VALUE - 3) 7 HashFlag.EXACT 11 5).probe
          (-10) 10 7 11 2 = ChessSearch.MATE_VALUE - 3 + (5 - 2) :=
  ⟨by decide,
    (store_probe_mate_score _ 3 5 2 7 (-10) 10 11 (by decide) (by decide) (by decide)
      (by decide) (by decide) (by decide)).1⟩


/-! ## C18: the time budget -/

theorem wrap_int64_eq {x : Int} (h1 : -9223372036854775808 ≤ x)
    (h2 : x ≤ 9223372036854775807) : wrap_int64 x = x := by
  unfold wrap_int64
  omega

theorem tdiv_bounds (a b : Int) (ha : 0 ≤ a) (hb : 0 < b) :
    0 ≤ a.tdiv b ∧ a.tdiv b ≤ a := by
  rw [Int.tdiv_eq_ediv ha (le_of_lt hb)]
  constructor
  · exact Int.ediv_nonneg ha (le_of_lt hb)
  · exact Int.ediv_le_self b ha

theorem tdiv_four_bounds (a : Int) (h1 : -4611686018427387904 ≤ a)
    (h2 : a ≤ 4611686018427387904) :
    -4611686018427387904 ≤ a.tdiv 4 ∧ a.tdiv 4 ≤ 4611686018427387904 := by
  by_cases h : 0 ≤ a
  · rw [Int.tdiv_eq_ediv h (by norm_num)]
    omega
  · have e : a.tdiv 4 = -((-a).tdiv 4) := by rw [Int.neg_tdiv, neg_neg]
    rw [e, Int.tdiv_eq_ediv (by omega) (by norm_num)]
    omega

/-- For a positive player time within range, `TimeManager::calculateTimeAllocation` is
`min(max(b0, 100), player_time / 2)`. -/
theorem TimeManager.calculateTimeAllocation_pos (playerTime opponentTime playerIncrement
    opponentIncrement movesToGo : Int) (hpos : 0 < playerTime)
    (hmax : playerTime ≤ 2305843009213693952)
    (hi1 : -1152921504606846976 ≤ playerIncrement)
    (hi2 : playerIncrement ≤ 1152921504606846976) :
    TimeManager.calculateTimeAllocation playerTime opponentTime playerIncrement
        opponentIncrement movesToGo
      = min (max (if movesToGo > 0 then
            playerTime.tdiv movesToGo + (playerIncrement * 3).tdiv 4
          else if playerTime > 300000 then playerTime.tdiv 40 + playerIncrement
          else if playerTime > 60000 then playerTime.tdiv 30 + playerIncrement
          else playerTime.tdiv 20 + playerIncrement) 100) (playerTime.tdiv 2) := by
  have h3 : wrap_int64 (playerIncrement * 3) = playerIncrement * 3 :=
    wrap_int64_eq (by omega) (by omega)
  have hq := tdiv_four_bounds (playerIncrement * 3) (by omega) (by omega)
  have hdiv : ∀ b : Int, 0 < b → wrap_int64 (playerTime.tdiv b + playerIncrement)
      = playerTime.tdiv b + playerIncrement := by
    intro b hb
    have := tdiv_bounds playerTime b (le_of_lt hpos) hb
    exact wrap_int64_eq (by omega) (by omega)
  have hmtg : 0 < movesToGo → wrap_int64 (playerTime.tdiv movesToGo
      + (playerIncrement * 3).tdiv 4)
      = playerTime.tdiv movesToGo + (playerIncrement * 3).tdiv 4 := by
    intro hb
    have := tdiv_bounds playerTime movesToGo (le_of_lt hpos) hb
    exact wrap_int64_eq (by omega) (by omega)
  unfold TimeManager.calculateTimeAllocation
  simp only [TimeManager.DEFAULT_SEARCH_TIME, TimeManager.MINIMUM_TIME_ALLOCATION,
    TimeManager.LONG_GAME_THRESHOLD, TimeManager.MEDIUM_GAME_THRESHOLD,
    TimeManager.LONG_GAME_DIVISOR, TimeManager.MEDIUM_GAME_DIVISOR,
    TimeManager.SHORT_GAME_DIVISOR, TimeManager.INCREMENT_MULTIPLIER,
    TimeManager.INCREMENT_DIVISOR, TimeManager.MAX_TIME_FRACTION]
  rw [if_neg (by omega), h3, hdiv 40 (by norm_num), hdiv 30 (by norm_num),
    hdiv 20 (by norm_num)]
  by_cases hm : movesToGo > 0
  · simp only [hm, if_true, hmtg hm]
  · simp only [hm, if_false]

/-- C18: `UciInterface::calculateTimeAllocation` returns `INT64_MAX` when the infinite
flag is set or `player_time == 0`. Otherwise, for `player_time > 0` (times and
increments within the range in which no 64-bit sum or product overflows), it returns the
budget `time_budget`: `b0 = player_time / moves_to_go + player_inc * 3 / 4` if
`moves_to_go > 0`, else `player_time / 40 + inc` above 300000, `player_time / 30 + inc`
above 60000, `player_time / 20 + inc` otherwise; `b1 = min(max(b0, 100),
player_time / 2)`; the result is `min(player_time / 10, 5000)` if `b1 < 100`, else `b1`.
The result does not depend on the opponent's time or increment. -/
theorem calculateTimeAllocation_budget (playerTime opponentTime playerIncrement
    opponentIncrement movesToGo : Int) (infiniteSearch : Bool) :
    INT64_MAX = 9223372036854775807
      ∧ (infiniteSearch = true ∨ playerTime = 0 →
        UciInterface.calculateTimeAllocation playerTime opponentTime playerIncrement
          opponentIncrement movesToGo infiniteSearch = INT64_MAX)
      ∧ (infiniteSearch = false → 0 < playerTime → playerTime ≤ 2305843009213693952 →
        -1152921504606846976 ≤ playerIncrement → playerIncrement ≤ 1152921504606846976 →
        UciInterface.calculateTimeAllocation playerTime opponentTime playerIncrement
            opponentIncrement movesToGo infiniteSearch
          = time_budget playerTime playerIncrement movesToGo)
      ∧ ∀ opponentTime2 opponentIncrement2 : Int,
        UciInterface.calculateTimeAllocation playerTime opponentTime playerIncrement
            opponentIncrement movesToGo infiniteSearch
          = UciInterface.calculateTimeAllocation playerTime opponentTime2 playerIncrement
            opponentIncrement2 movesToGo infiniteSearch := by
  refine ⟨rfl, ?_, ?_, ?_⟩
  · intro h
    unfold UciInterface.calculateTimeAllocation
    rw [if_pos h]
  · intro hinf hpos hmax hi1 hi2
    unfold UciInterface.calculateTimeAllocation calculateTimeAllocation time_budget
    simp only [UciInterface.MINIMUM_TIME_ALLOCATION, UciInterface.EMERGENCY_TIME_DIVISOR,
      UciInterface.MAXIMUM_EMERGENCY_TIME]
    rw [if_neg (by rw [hinf]; simp; omega)]
    simp only [TimeManager.calculateTimeAllocation_pos playerTime opponentTime
      playerIncrement opponentIncrement movesToGo hpos hmax hi1 hi2]
  · intro ot2 oi2
    rfl

/-- C18 for five minutes on the clock, two seconds of increment and no move count: the
budget is 300000 / 30 + 2000 = 12000. -/
theorem calculateTimeAllocation_budget_witness :
    ((0 : Int) < 300000 ∧ (300000 : Int) ≤ 2305843009213693952
        ∧ (-1152921504606846976 : Int) ≤ 2000 ∧ (2000 : Int) ≤ 1152921504606846976)
      ∧ UciInterface.calculateTimeAllocation 300000 250000 2000 1000 0 false
        = time_budget 300000 2000 0
      ∧ time_budget 300000 2000 0 = 12000 :=
  ⟨by decide,
    (calculateTimeAllocation_budget 300000 250000 2000 1000 0 false).2.2.1 rfl (by decide)
      (by decide) (by decide) (by decide),
    by decide⟩


/-! ## C13: castling moves -/

/-- The flag getters of a constructed move, whatever the squares passed in. -/
theorem Move.flag_getters_new_any (from_sq to_sq : Nat) (piece : PieceType) (side : Side)
    (prom : PieceType) (prom_side : Side) (flag : MoveFlag) (is_capture : Bool) :
    (Move.new from_sq to_sq piece side prom prom_side flag is_capture).is_castle
        = decide (flag = MoveFlag.CASTLE)
      ∧ (Move.new from_sq to_sq piece side prom prom_side flag is_capture).is_double_pawn
        = decide (flag = MoveFlag.PAWN_START) := by
  rw [Move.new_mod]
  obtain ⟨-, -, -, -, -, -, g7, g8, -⟩ :=
    Move.getters_new (from_sq % 64) (to_sq % 64) piece side prom prom_side flag is_capture
      (Nat.mod_lt _ (by norm_num)) (Nat.mod_lt _ (by norm_num))
  exact ⟨g8, g7⟩

/-- A generated move that carries the castle flag is one of the two castling moves, and
`can_castle_side` allowed it. -/
theorem Generated.castle_cases {board : Board} {move : Move} (h : Generated board move)
    (hc : move.is_castle = true) :
    (can_castle_side board board.side true board.get_all_occupancy
          (opposite_side board.side) = true
        ∧ move = Move.new (to_u32 (60 - 56 * (board.side.toNat : Int)))
          (to_u32 (60 - 56 * (board.side.toNat : Int) + 2)) PieceType.king board.side
          PieceType.pawn Side.any MoveFlag.CASTLE false)
      ∨ (can_castle_side board board.side false board.get_all_occupancy
          (opposite_side board.side) = true
        ∧ move = Move.new (to_u32 (60 - 56 * (board.side.toNat : Int)))
          (to_u32 (60 - 56 * (board.side.toNat : Int) - 2)) PieceType.king board.side
          PieceType.pawn Side.any MoveFlag.CASTLE false) := by
  cases h with
  | castle_kingside hcan => exact Or.inl ⟨hcan, rfl⟩
  | castle_queenside hcan => exact Or.inr ⟨hcan, rfl⟩
  | _ =>
    rw [(Move.flag_getters_new_any _ _ _ _ _ _ _ _).1] at hc
    exact absurd hc (by decide)

theorem mem_generate_castling_moves (board : Board) (m : Move) :
    m ∈ generate_castling_moves [] board board.side
      ↔ ((can_castle_side board board.side true board.get_all_occupancy
            (opposite_side board.side) = true
          ∧ m = Move.new (to_u32 (60 - 56 * (board.side.toNat : Int)))
            (to_u32 (60 - 56 * (board.side.toNat : Int) + 2)) PieceType.king board.side
            PieceType.pawn Side.any MoveFlag.CASTLE false)
        ∨ (can_castle_side board board.side false board.get_all_occupancy
            (opposite_side board.side) = true
          ∧ m = Move.new (to_u32 (60 - 56 * (board.side.toNat : Int)))
            (to_u32 (60 - 56 * (board.side.toNat : Int) - 2)) PieceType.king board.side
            PieceType.pawn Side.any MoveFlag.CASTLE false)) := by
  unfold generate_castling_moves
  simp only
  by_cases hk : can_castle_side board board.side true board.get_all_occupancy
      (opposite_side board.side) = true <;>
    by_cases hq : can_castle_side board board.side false board.get_all_occupancy
      (opposite_side board.side) = true <;>
    simp [hk, hq, add_move_eq]

/-- A castling move is in the list of `fill_move_array` exactly when it is in its last
section. -/
theorem castle_mem_fill_move_array (board : Board) (m : Move) (hc : m.is_castle = true) :
    m ∈ fill_move_array [] board ↔ m ∈ generate_castling_moves [] board board.side := by
  constructor
  · intro hm
    rw [mem_generate_castling_moves]
    exact (generated_of_mem board m hm).castle_cases hc
  · intro hm
    rw [fill_move_array_eq]
    exact List.mem_append_right _ hm

theorem can_castle_side_kingside_iff (board : Board) (side : Side) (all_pieces : Nat)
    (enemy_side : Side) (k : Nat) (hk : side.toNat = k) (hk1 : k ≤ 1) :
    can_castle_side board side true all_pieces enemy_side = true
      ↔ (board.castling &&& (1 <<< (k * 2)) ≠ 0
        ∧ all_pieces.testBit (61 - 56 * k) = false
        ∧ all_pieces.testBit (62 - 56 * k) = false
        ∧ board.is_sq_attacked (60 - 56 * k) enemy_side = false
        ∧ board.is_sq_attacked (61 - 56 * k) enemy_side = false) := by
  constructor
  · intro h
    exact (can_castle_side_true hk hk1 h).1 rfl
  · rintro ⟨h1, h2, h3, h4, h5⟩
    have e0 : (60 - 56 * ((k : Nat) : Int)).toNat = 60 - 56 * k := by omega
    have e1 : (60 - 56 * ((k : Nat) : Int) + 1).toNat = 61 - 56 * k := by omega
    have e2 : (60 - 56 * ((k : Nat) : Int) + 2).toNat = 62 - 56 * k := by omega
    unfold can_castle_side
    rw [hk]
    simp only [Board.can_castle, CastlingRights.white_king, get_bit_eq_testBit, e0, e1, e2,
      h2, h3, h4, h5]
    simp [h1]

theorem can_castle_side_queenside_iff (board : Board) (side : Side) (all_pieces : Nat)
    (enemy_side : Side) (k : Nat) (hk : side.toNat = k) (hk1 : k ≤ 1) :
    can_castle_side board side false all_pieces enemy_side = true
      ↔ (board.castling &&& (2 <<< (k * 2)) ≠ 0
        ∧ all_pieces.testBit (59 - 56 * k) = false
        ∧ all_pieces.testBit (58 - 56 * k) = false
        ∧ all_pieces.testBit (57 - 56 * k) = false
        ∧ board.is_sq_attacked (60 - 56 * k) enemy_side = false
        ∧ board.is_sq_attacked (59 - 56 * k) enemy_side = false) := by
  constructor
  · intro h
    exact (can_castle_side_true hk hk1 h).2 rfl
  · rintro ⟨h1, h2, h3, h4, h5, h6⟩
    have e0 : (60 - 56 * ((k : Nat) : Int)).toNat = 60 - 56 * k := by omega
    have e3 : (60 - 56 * ((k : Nat) : Int) - 1).toNat = 59 - 56 * k := by omega
    have e4 : (60 - 56 * ((k : Nat) : Int) - 2).toNat = 58 - 56 * k := by omega
    have e5 : (60 - 56 * ((k : Nat) : Int) - 3).toNat = 57 - 56 * k := by omega
    unfold can_castle_side
    rw [hk]
    simp only [Board.can_castle, CastlingRights.white_queen, get_bit_eq_testBit, e0, e3, e4,
      e5, h2, h3, h4, h5, h6]
    simp [h1]

/-- C13 (amended): for white or black to move (`k` is 0 for white and 1 for black, the
king's square is `60 - 56 * k`), `fill_move_array` emits the kingside castling move
(king from the e-file to the g-file, flag CASTLE) exactly when the side holds the
kingside right bit (`1 << 2k`), f and g are empty, and neither the king's square nor f
is attacked by the enemy; it emits the queenside castling move (king to the c-file)
exactly when the side holds the queenside right bit (`2 << 2k`), b, c and d are empty,
and neither the king's square nor d is attacked by the enemy; and every move of the list
that carries the castle flag is one of these two. The destination square (g or c) may
be attacked: that is left to the king test of `make_move`. -/
theorem castling_generated_iff (board : Board) (hs : board.side_ok) :
    (Move.new (60 - 56 * board.side.toNat) (62 - 56 * board.side.toNat) PieceType.king
          board.side PieceType.pawn Side.any MoveFlag.CASTLE false
          ∈ fill_move_array [] board
        ↔ (board.castling &&& (1 <<< (board.side.toNat * 2)) ≠ 0
          ∧ board.get_all_occupancy.testBit (61 - 56 * board.side.toNat) = false
          ∧ board.get_all_occupancy.testBit (62 - 56 * board.side.toNat) = false
          ∧ board.is_sq_attacked (60 - 56 * board.side.toNat)
              (opposite_side board.side) = false
          ∧ board.is_sq_attacked (61 - 56 * board.side.toNat)
              (opposite_side board.side) = false))
      ∧ (Move.new (60 - 56 * board.side.toNat) (58 - 56 * board.side.toNat) PieceType.king
          board.side PieceType.pawn Side.any MoveFlag.CASTLE false
          ∈ fill_move_array [] board
        ↔ (board.castling &&& (2 <<< (board.side.toNat * 2)) ≠ 0
          ∧ board.get_all_occupancy.testBit (59 - 56 * board.side.toNat) = false
          ∧ board.get_all_occupancy.testBit (58 - 56 * board.side.toNat) = false
          ∧ board.get_all_occupancy.testBit (57 - 56 * board.side.toNat) = false
          ∧ board.is_sq_attacked (60 - 56 * board.side.toNat)
              (opposite_side board.side) = false
          ∧ board.is_sq_attacked (59 - 56 * board.side.toNat)
              (opposite_side board.side) = false))
      ∧ ∀ m ∈ fill_move_array [] board, m.is_castle = true →
        m = Move.new (60 - 56 * board.side.toNat) (62 - 56 * board.side.toNat)
            PieceType.king board.side PieceType.pawn Side.any MoveFlag.CASTLE false
          ∨ m = Move.new (60 - 56 * board.side.toNat) (58 - 56 * board.side.toNat)
            PieceType.king board.side PieceType.pawn Side.any MoveFlag.CASTLE false := by
  have hk1 : board.side.toNat ≤ 1 := by
    have := Side.toNat_lt_two hs.ne_any
    omega
  obtain ⟨e1, e2, e3⟩ := castle_squares board.side.toNat hk1
  have hto : ∀ t, t < 64 → (Move.new (60 - 56 * board.side.toNat) t PieceType.king
      board.side PieceType.pawn Side.any MoveFlag.CASTLE false).get_to_sq = t := by
    intro t ht
    exact (Move.getters_new _ t _ _ _ _ _ _ (by omega) ht).2.1
  have hne : Move.new (60 - 56 * board.side.toNat) (62 - 56 * board.side.toNat)
      PieceType.king board.side PieceType.pawn Side.any MoveFlag.CASTLE false
      ≠ Move.new (60 - 56 * board.side.toNat) (58 - 56 * board.side.toNat)
        PieceType.king board.side PieceType.pawn Side.any MoveFlag.CASTLE false := by
    intro e
    have := congrArg Move.get_to_sq e
    rw [hto _ (by omega), hto _ (by omega)] at this
    omega
  have hflag : ∀ t, (Move.new (60 - 56 * board.side.toNat) t PieceType.king
      board.side PieceType.pawn Side.any MoveFlag.CASTLE false).is_castle = true := by
    intro t
    rw [(Move.flag_getters_new_any _ _ _ _ _ _ _ _).1]
    decide
  refine ⟨?_, ?_, ?_⟩
  · rw [castle_mem_fill_move_array _ _ (hflag _), mem_generate_castling_moves, e1, e2, e3,
      ← can_castle_side_kingside_iff board board.side board.get_all_occupancy
        (opposite_side board.side) board.side.toNat rfl hk1]
    constructor
    · rintro (⟨h, -⟩ | ⟨-, h⟩)
      · exact h
      · exact absurd h hne
    · intro h
      exact Or.inl ⟨h, rfl⟩
  · rw [castle_mem_fill_move_array _ _ (hflag _), mem_generate_castling_moves, e1, e2, e3,
      ← can_castle_side_queenside_iff board board.side board.get_all_occupancy
        (opposite_side board.side) board.side.toNat rfl hk1]
    constructor
    · rintro (⟨-, h⟩ | ⟨h, -⟩)
      · exact absurd h.symm hne
      · exact h
    · intro h
      exact Or.inr ⟨h, rfl⟩
  · intro m hm hc
    rcases (generated_of_mem board m hm).castle_cases hc with ⟨-, h⟩ | ⟨-, h⟩
    · rw [e1, e2] at h
      exact Or.inl h
    · rw [e1, e3] at h
      exact Or.inr h

/-- C13 as stated fails: in `4k3/8/8/8/8/8/6r1/4K2R w K - 0 1` the square g1 is attacked by
the black rook on g2, and `fill_move_array` still emits the kingside castling move of
white (which `make_move` then rejects). -/
theorem castling_emitted_with_g_attacked :
    ∃ board, Board.load_fen Board.initial "4k3/8/8/8/8/8/6r1/4K2R w K - 0 1" = some board
      ∧ board.side = Side.white
      ∧ board.is_sq_attacked 62 Side.black = true
      ∧ Move.new 60 62 PieceType.king Side.white PieceType.pawn Side.any MoveFlag.CASTLE
          false ∈ fill_move_array [] board
      ∧ (board.make_move (Move.new 60 62 PieceType.king Side.white PieceType.pawn Side.any
          MoveFlag.CASTLE false)).1 = false := by
  refine ⟨_, rfl, ?_, ?_, ?_, ?_⟩ <;> decide!

/-- C13 (amended) at the Kiwipete position: white may castle on both sides, and both
castling moves are in the list. -/
theorem castling_generated_iff_witness :
    (Board.of_fen
        "r3k2r/p1ppqpb1/bn2pnp1/3PN3/1p2P3/2N2Q1p/PPPBBPPP/R3K2R w KQkq - 0 1").side_ok
      ∧ Move.new 60 62 PieceType.king Side.white PieceType.pawn Side.any MoveFlag.CASTLE
          false ∈ fill_move_array [] (Board.of_fen
            "r3k2r/p1ppqpb1/bn2pnp1/3PN3/1p2P3/2N2Q1p/PPPBBPPP/R3K2R w KQkq - 0 1") :=
  ⟨by decide!,
    (castling_generated_iff (Board.of_fen
      "r3k2r/p1ppqpb1/bn2pnp1/3PN3/1p2P3/2N2Q1p/PPPBBPPP/R3K2R w KQkq - 0 1")
      (by decide!)).1.2 (by decide!)⟩


/-! ## C20: moves of knights, bishops, rooks, queens and kings -/

/-- Every move of the pawn section is a pawn move. -/
theorem pawn_body_piece (board : Board) (from_sq : Nat) (m : Move)
    (hm : m ∈ generate_pawn_moves_body board board.side [] from_sq) :
    m.get_piece = PieceType.pawn := by
  have key : ∀ (a b : Nat) (p : PieceType) (s : Side) (f : MoveFlag) (c : Bool),
      (Move.new a b PieceType.pawn board.side p s f c).get_piece = PieceType.pawn :=
    fun a b p s f c => (Move.getters_new_any _ _ _ _ _ _ _ _).2.2.1
  unfold generate_pawn_moves_body at hm
  simp only at hm
  rw [handle_en_passant_append, handle_pawn_captures_append] at hm
  rw [List.mem_append, List.mem_append] at hm
  rcases hm with (hm | hm) | hm
  · split at hm
    · rw [handle_double_pawn_push_append, List.mem_append] at hm
      rcases hm with hm | hm
      · unfold handle_pawn_push at hm
        split at hm
        · rw [add_promotion_moves_eq] at hm
          simp only [List.nil_append, List.mem_cons, List.mem_singleton, List.not_mem_nil,
            or_false] at hm
          rcases hm with rfl | rfl | rfl | rfl <;> exact key _ _ _ _ _ _
        · rw [add_move_eq] at hm
          simp only [List.nil_append, List.mem_singleton] at hm
          subst hm
          exact key _ _ _ _ _ _
      · unfold handle_double_pawn_push at hm
        split at hm
        · simp at hm
        · simp only at hm
          split at hm
          · simp at hm
          · rw [add_move_eq] at hm
            simp only [List.nil_append, List.mem_singleton] at hm
            subst hm
            exact key _ _ _ _ _ _
    · simp at hm
  · rw [handle_pawn_captures_nil, List.mem_flatMap] at hm
    obtain ⟨c, -, hm⟩ := hm
    split at hm
    · rw [add_promotion_moves_eq] at hm
      simp only [List.nil_append, List.mem_cons, List.mem_singleton, List.not_mem_nil,
        or_false] at hm
      rcases hm with rfl | rfl | rfl | rfl <;> exact key _ _ _ _ _ _
    · rw [add_move_eq] at hm
      simp only [List.nil_append, List.mem_singleton] at hm
      subst hm
      exact key _ _ _ _ _ _
  · unfold handle_en_passant at hm
    simp only at hm
    split at hm
    · simp at hm
    · split at hm
      · simp at hm
      · rw [add_move_eq] at hm
        simp only [List.nil_append, List.mem_singleton] at hm
        subst hm
        exact key _ _ _ _ _ _

/-- The moves of one section of `generate_piece_moves`. -/
theorem mem_piece_section (board : Board) (piece_type : PieceType) (m : Move) :
    m ∈ (squares_of (board.get_piece_bitboard piece_type board.side)).flatMap
        (generate_piece_moves_body piece_type board board.side [])
      ↔ ∃ f, f ∈ squares_of (board.get_piece_bitboard piece_type board.side)
        ∧ ∃ t, t ∈ squares_of (piece_attacks piece_type f board.get_all_occupancy
            &&& not64 (board.get_occupancy board.side))
          ∧ m = Move.new f t piece_type board.side PieceType.pawn Side.any MoveFlag.NO_FLAG
              (get_bit (board.get_occupancy (opposite_side board.side)) t) := by
  rw [List.mem_flatMap]
  constructor
  · rintro ⟨f, hf, hm⟩
    rw [generate_piece_moves_body_eq, List.nil_append, List.mem_map] at hm
    obtain ⟨t, ht, rfl⟩ := hm
    exact ⟨f, hf, t, ht, rfl⟩
  · rintro ⟨f, hf, t, ht, rfl⟩
    refine ⟨f, hf, ?_⟩
    rw [generate_piece_moves_body_eq, List.nil_append, List.mem_map]
    exact ⟨t, ht, rfl⟩

theorem piece_section_mem_fill (board : Board) (piece_type : PieceType)
    (hp : piece_type ≠ PieceType.pawn) (m : Move)
    (hm : m ∈ (squares_of (board.get_piece_bitboard piece_type board.side)).flatMap
        (generate_piece_moves_body piece_type board board.side [])) :
    m ∈ fill_move_array [] board := by
  rw [fill_move_array_eq]
  simp only [List.nil_append, List.mem_append]
  cases piece_type with
  | pawn => exact absurd rfl hp
  | knight => exact Or.inl (Or.inl (Or.inl (Or.inl (Or.inl (Or.inr hm)))))
  | bishop => exact Or.inl (Or.inl (Or.inl (Or.inl (Or.inr hm))))
  | rook => exact Or.inl (Or.inl (Or.inl (Or.inr hm)))
  | queen => exact Or.inl (Or.inl (Or.inr hm))
  | king => exact Or.inl (Or.inr hm)

/-- The destinations of a piece: the bits of its attack set that are not the mover's. -/
theorem testBit_piece_targets (board : Board) (hw : board.words_ok) (hs : board.side_ok)
    (piece_type : PieceType) (f t : Nat) :
    t ∈ squares_of (piece_attacks piece_type f board.get_all_occupancy
        &&& not64 (board.get_occupancy board.side))
      ↔ (t < 64 ∧ (piece_attacks piece_type f board.get_all_occupancy).testBit t = true
        ∧ (board.get_occupancy board.side).testBit t = false) := by
  have hk := Side.toNat_lt_two hs.ne_any
  have hown : board.get_occupancy board.side < 2 ^ 64 := hw.2 _ (by omega)
  have hlt : piece_attacks piece_type f board.get_all_occupancy
      &&& not64 (board.get_occupancy board.side) < 2 ^ 64 :=
    and_lt_of_right _ (not64_lt hown)
  rw [mem_squares_of hlt, Nat.testBit_and, Bool.and_eq_true, testBit_not64]
  constructor
  · rintro ⟨h1, h2⟩
    have ht : t < 64 := by
      by_contra hge
      have hd : decide (t < 64) = false := by simpa using hge
      rw [hd, Nat.testBit_lt_two_pow (lt_of_lt_of_le hown
        (Nat.pow_le_pow_right (by norm_num) (by omega)))] at h2
      simp at h2
    refine ⟨ht, h1, ?_⟩
    simpa [ht] using h2
  · rintro ⟨ht, h1, h2⟩
    refine ⟨h1, ?_⟩
    simp [ht, h2]

theorem squares_of_nodup {b : Nat} (hb : b < 2 ^ 64) : (squares_of b).Nodup := by
  rw [squares_of_eq hb]
  exact (List.nodup_range 64).filter _

theorem squares_of_lt {b : Nat} (hb : b < 2 ^ 64) {sq : Nat} (h : sq ∈ squares_of b) :
    sq < 64 := by
  rw [squares_of_eq hb, List.mem_filter, List.mem_range] at h
  exact h.1

theorem Board.words_ok.piece_lt {board : Board} (hw : board.words_ok) (hs : board.side_ok)
    (piece_type : PieceType) : board.get_piece_bitboard piece_type board.side < 2 ^ 64 := by
  apply hw.1
  have := piece_type.toNat_le
  have := Side.toNat_lt_two hs.ne_any
  unfold NUMBER_OF_UNIQUE_PIECES
  omega

/-- The getters of a move emitted by `generate_piece_moves`. -/
theorem piece_move_getters (f t : Nat) (piece_type : PieceType) (side : Side) (cap : Bool)
    (hf : f < 64) (ht : t < 64) :
    (Move.new f t piece_type side PieceType.pawn Side.any MoveFlag.NO_FLAG cap).get_from_sq = f
      ∧ (Move.new f t piece_type side PieceType.pawn Side.any MoveFlag.NO_FLAG cap).get_to_sq
        = t
      ∧ (Move.new f t piece_type side PieceType.pawn Side.any MoveFlag.NO_FLAG cap).get_piece
        = piece_type
      ∧ (Move.new f t piece_type side PieceType.pawn Side.any MoveFlag.NO_FLAG
          cap).get_side_of_piece = side
      ∧ (Move.new f t piece_type side PieceType.pawn Side.any MoveFlag.NO_FLAG cap).is_promo
        = false
      ∧ (Move.new f t piece_type side PieceType.pawn Side.any MoveFlag.NO_FLAG
          cap).is_double_pawn = false
      ∧ (Move.new f t piece_type side PieceType.pawn Side.any MoveFlag.NO_FLAG cap).is_castle
        = false
      ∧ (Move.new f t piece_type side PieceType.pawn Side.any MoveFlag.NO_FLAG
          cap).is_enpassant = false
      ∧ (Move.new f t piece_type side PieceType.pawn Side.any MoveFlag.NO_FLAG cap).is_capture
        = cap := by
  obtain ⟨g1, g2, g3, g4, -, -, g7, g8, g9, g10, g11, -⟩ :=
    Move.getters_new f t piece_type side PieceType.pawn Side.any MoveFlag.NO_FLAG cap hf ht
  exact ⟨g1, g2, g3, g4, g11, g7, g8, g9, g10⟩

/-- No move is emitted twice within one section of `generate_piece_moves`. -/
theorem piece_section_nodup (board : Board) (hw : board.words_ok) (hs : board.side_ok)
    (piece_type : PieceType) :
    ((squares_of (board.get_piece_bitboard piece_type board.side)).flatMap
      (generate_piece_moves_body piece_type board board.side [])).Nodup := by
  have hk := Side.toNat_lt_two hs.ne_any
  have hown : board.get_occupancy board.side < 2 ^ 64 := hw.2 _ (by omega)
  have hlt : ∀ f, piece_attacks piece_type f board.get_all_occupancy
      &&& not64 (board.get_occupancy board.side) < 2 ^ 64 :=
    fun f => and_lt_of_right _ (not64_lt hown)
  have hpl := hw.piece_lt hs piece_type
  rw [List.nodup_flatMap]
  constructor
  · intro f _
    rw [generate_piece_moves_body_eq, List.nil_append]
    apply List.Nodup.map_on _ (squares_of_nodup (hlt f))
    intro x hx y hy e
    have := congrArg Move.get_to_sq e
    rw [(Move.getters_new_any _ _ _ _ _ _ _ _).2.1,
      (Move.getters_new_any _ _ _ _ _ _ _ _).2.1,
      Nat.mod_eq_of_lt (squares_of_lt (hlt f) hx),
      Nat.mod_eq_of_lt (squares_of_lt (hlt f) hy)] at this
    exact this
  · apply (squares_of_nodup hpl).pairwise_of_forall_ne
    intro a ha b hb hab
    show List.Disjoint _ _
    intro m hma hmb
    rw [generate_piece_moves_body_eq, List.nil_append, List.mem_map] at hma hmb
    obtain ⟨x, -, rfl⟩ := hma
    obtain ⟨y, -, e⟩ := hmb
    have := congrArg Move.get_from_sq e
    rw [(Move.getters_new_any _ _ _ _ _ _ _ _).1, (Move.getters_new_any _ _ _ _ _ _ _ _).1,
      Nat.mod_eq_of_lt (squares_of_lt hpl ha), Nat.mod_eq_of_lt (squares_of_lt hpl hb)] at this
    exact hab this.symm

/-- A move of a section of `generate_piece_moves` is in the list of `fill_move_array`
exactly once. -/
theorem count_piece_move (board : Board) (hw : board.words_ok) (hs : board.side_ok)
    (piece_type : PieceType) (hp : piece_type ≠ PieceType.pawn) (m : Move)
    (hm : m ∈ (squares_of (board.get_piece_bitboard piece_type board.side)).flatMap
        (generate_piece_moves_body piece_type board board.side [])) :
    (fill_move_array [] board).count m = 1 := by
  have hshape := (mem_piece_section board piece_type m).1 hm
  obtain ⟨f, -, t, -, hmeq⟩ := hshape
  have hpiece : m.get_piece = piece_type := by
    rw [hmeq]; exact (Move.getters_new_any _ _ _ _ _ _ _ _).2.2.1
  have hcastle : m.is_castle = false := by
    rw [hmeq, (Move.flag_getters_new_any _ _ _ _ _ _ _ _).1]; decide
  have hz_pawn : List.count m
      ((squares_of (board.get_piece_bitboard PieceType.pawn board.side)).flatMap
        (generate_pawn_moves_body board board.side [])) = 0 := by
    apply List.count_eq_zero_of_not_mem
    intro h
    obtain ⟨g, -, hg⟩ := List.mem_flatMap.1 h
    have := pawn_body_piece board g m hg
    rw [hpiece] at this
    exact hp this
  have hz : ∀ other : PieceType, other ≠ piece_type → List.count m
      ((squares_of (board.get_piece_bitboard other board.side)).flatMap
        (generate_piece_moves_body other board board.side [])) = 0 := by
    intro other hne
    apply List.count_eq_zero_of_not_mem
    intro h
    obtain ⟨g, -, u, -, e⟩ := (mem_piece_section board other m).1 h
    have : m.get_piece = other := by
      rw [e]; exact (Move.getters_new_any _ _ _ _ _ _ _ _).2.2.1
    rw [hpiece] at this
    exact hne this.symm
  have hz_castle : List.count m (generate_castling_moves [] board board.side) = 0 := by
    apply List.count_eq_zero_of_not_mem
    intro h
    have hc : m.is_castle = true := by
      rcases (mem_generate_castling_moves board m).1 h with ⟨-, e⟩ | ⟨-, e⟩ <;>
      · rw [e, (Move.flag_getters_new_any _ _ _ _ _ _ _ _).1]
        decide
    rw [hcastle] at hc
    exact absurd hc (by decide)
  have h1 := List.count_eq_one_of_mem (piece_section_nodup board hw hs piece_type) hm
  rw [fill_move_array_eq]
  simp only [List.nil_append, List.count_append]
  cases piece_type with
  | pawn => exact absurd rfl hp
  | knight =>
    rw [hz_pawn, h1, hz .bishop (by decide), hz .rook (by decide), hz .queen (by decide),
      hz .king (by decide), hz_castle]
  | bishop =>
    rw [hz_pawn, h1, hz .knight (by decide), hz .rook (by decide), hz .queen (by decide),
      hz .king (by decide), hz_castle]
  | rook =>
    rw [hz_pawn, h1, hz .knight (by decide), hz .bishop (by decide), hz .queen (by decide),
      hz .king (by decide), hz_castle]
  | queen =>
    rw [hz_pawn, h1, hz .knight (by decide), hz .bishop (by decide), hz .rook (by decide),
      hz .king (by decide), hz_castle]
  | king =>
    rw [hz_pawn, h1, hz .knight (by decide), hz .bishop (by decide), hz .rook (by decide),
      hz .queen (by decide), hz_castle]


/-- The attack set chosen by `generate_piece_moves`, in the words of the rules. -/
theorem piece_attacks_iff_reaches (board : Board) (ha : board.aggregates_ok)
    (piece_type : PieceType) (hp : piece_type ≠ PieceType.pawn) (f t : Nat) (hf : f < 64)
    (ht : t < 64) :
    (piece_attacks piece_type f board.get_all_occupancy).testBit t = true
      ↔ board.piece_reaches piece_type f t := by
  have hocc : ∀ dirs, ray_reaches (fun sq => (board.occupancies 2).testBit sq = true) dirs f t
      ↔ ray_reaches board.occupied dirs f t :=
    fun dirs => ray_reaches_congr (Board.occupied_iff ha) dirs f t
  cases piece_type with
  | pawn => exact absurd rfl hp
  | knight => exact knight_mask_forward f hf t ht
  | king => exact king_mask_forward f hf t ht
  | bishop =>
    exact (testBit_rays_from_forward _ (Or.inl rfl) f t hf ht _).trans (hocc _)
  | rook =>
    exact (testBit_rays_from_forward _ (Or.inr rfl) f t hf ht _).trans (hocc _)
  | queen =>
    simp only [piece_attacks, get_queen_attacks, Nat.testBit_or, Bool.or_eq_true,
      Board.piece_reaches]
    exact or_congr
      ((testBit_rays_from_forward _ (Or.inl rfl) f t hf ht _).trans (hocc _))
      ((testBit_rays_from_forward _ (Or.inr rfl) f t hf ht _).trans (hocc _))

/-- C20: in a consistent position, for a knight, bishop, rook, queen or king of the
side to move on `from_sq`, the moves of `fill_move_array` with that piece type and that
origin that are no castling moves are exactly the moves
`Move(from_sq, to_sq, piece, side, pawn, any, NO_FLAG, capture)` with `to_sq` a bit of
the attack set (`knight_masks` or `king_masks` of the origin for the leapers, the
blocked-ray attack set against all occupancy for the sliders, the union of the bishop's
and the rook's for the queen) that is not a bit of the mover's occupancy, and with the
capture bit equal to the bit of the enemy occupancy on `to_sq`. Each such move is in the
list exactly once; it carries the mover's piece type and side, is no promotion and has
no special flag. The attack set is the set of squares the piece reaches by the rules. -/
theorem piece_moves_generated (board : Board) (hc : board.consistent)
    (piece_type : PieceType) (hp : piece_type ≠ PieceType.pawn) (from_sq : Nat)
    (hfrom : (board.get_piece_bitboard piece_type board.side).testBit from_sq = true) :
    (∀ m, (m ∈ fill_move_array [] board ∧ m.get_piece = piece_type
          ∧ m.get_from_sq = from_sq ∧ m.is_castle = false)
        ↔ ∃ to_sq, to_sq < 64
          ∧ (piece_attacks piece_type from_sq board.get_all_occupancy).testBit to_sq = true
          ∧ (board.get_occupancy board.side).testBit to_sq = false
          ∧ m = Move.new from_sq to_sq piece_type board.side PieceType.pawn Side.any
              MoveFlag.NO_FLAG ((board.get_occupancy (opposite_side board.side)).testBit to_sq))
      ∧ (∀ to_sq, to_sq < 64 →
          (piece_attacks piece_type from_sq board.get_all_occupancy).testBit to_sq = true →
          (board.get_occupancy board.side).testBit to_sq = false →
          (fill_move_array [] board).count
              (Move.new from_sq to_sq piece_type board.side PieceType.pawn Side.any
                MoveFlag.NO_FLAG
                ((board.get_occupancy (opposite_side board.side)).testBit to_sq)) = 1
            ∧ (Move.new from_sq to_sq piece_type board.side PieceType.pawn Side.any
                MoveFlag.NO_FLAG
                ((board.get_occupancy (opposite_side board.side)).testBit to_sq)).get_to_sq
              = to_sq
            ∧ (Move.new from_sq to_sq piece_type board.side PieceType.pawn Side.any
                MoveFlag.NO_FLAG
                ((board.get_occupancy (opposite_side board.side)).testBit
                  to_sq)).get_side_of_piece = board.side
            ∧ (Move.new from_sq to_sq piece_type board.side PieceType.pawn Side.any
                MoveFlag.NO_FLAG
                ((board.get_occupancy (opposite_side board.side)).testBit to_sq)).is_promo
              = false
            ∧ (Move.new from_sq to_sq piece_type board.side PieceType.pawn Side.any
                MoveFlag.NO_FLAG
                ((board.get_occupancy (opposite_side board.side)).testBit
                  to_sq)).is_double_pawn = false
            ∧ (Move.new from_sq to_sq piece_type board.side PieceType.pawn Side.any
                MoveFlag.NO_FLAG
                ((board.get_occupancy (opposite_side board.side)).testBit
                  to_sq)).is_enpassant = false
            ∧ (Move.new from_sq to_sq piece_type board.side PieceType.pawn Side.any
                MoveFlag.NO_FLAG
                ((board.get_occupancy (opposite_side board.side)).testBit to_sq)).is_capture
              = (board.get_occupancy (opposite_side board.side)).testBit to_sq)
      ∧ ∀ to_sq, to_sq < 64 →
          ((piece_attacks piece_type from_sq board.get_all_occupancy).testBit to_sq = true
            ↔ board.piece_reaches piece_type from_sq to_sq) := by
  have hw := hc.1
  have hs := hc.2.2.2.1
  have hpl := hw.piece_lt hs piece_type
  have hf64 : from_sq < 64 := testBit_of_lt_64 hpl hfrom
  have hfmem : from_sq ∈ squares_of (board.get_piece_bitboard piece_type board.side) :=
    (mem_squares_of hpl from_sq).2 hfrom
  have hsec : ∀ to_sq, to_sq < 64 →
      (piece_attacks piece_type from_sq board.get_all_occupancy).testBit to_sq = true →
      (board.get_occupancy board.side).testBit to_sq = false →
      Move.new from_sq to_sq piece_type board.side PieceType.pawn Side.any MoveFlag.NO_FLAG
          ((board.get_occupancy (opposite_side board.side)).testBit to_sq)
        ∈ (squares_of (board.get_piece_bitboard piece_type board.side)).flatMap
          (generate_piece_moves_body piece_type board board.side []) := by
    intro to_sq ht hatt hown
    rw [mem_piece_section]
    exact ⟨from_sq, hfmem, to_sq,
      (testBit_piece_targets board hw hs piece_type from_sq to_sq).2 ⟨ht, hatt, hown⟩,
      by rw [get_bit_eq_testBit]⟩
  refine ⟨?_, ?_, ?_⟩
  · intro m
    constructor
    · rintro ⟨hm, h1, h2, h3⟩
      have hgen := generated_of_mem board m hm
      cases hgen with
      | piece pt f t hpiece hf ht =>
        rw [(Move.getters_new_any _ _ _ _ _ _ _ _).2.2.1] at h1
        subst h1
        have hf64b := squares_of_lt hpl hf
        rw [(Move.getters_new_any _ _ _ _ _ _ _ _).1, Nat.mod_eq_of_lt hf64b] at h2
        subst h2
        obtain ⟨a, b, c⟩ := (testBit_piece_targets board hw hs pt f t).1 ht
        exact ⟨t, a, b, c, by rw [get_bit_eq_testBit]⟩
      | castle_kingside hcan =>
        rw [(Move.flag_getters_new_any _ _ _ _ _ _ _ _).1] at h3
        exact absurd h3 (by decide)
      | castle_queenside hcan =>
        rw [(Move.flag_getters_new_any _ _ _ _ _ _ _ _).1] at h3
        exact absurd h3 (by decide)
      | _ =>
        rw [(Move.getters_new_any _ _ _ _ _ _ _ _).2.2.1] at h1
        exact absurd h1.symm hp
    · rintro ⟨to_sq, ht, hatt, hown, rfl⟩
      obtain ⟨g1, -, g3, -, -, -, g7, -⟩ := piece_move_getters from_sq to_sq piece_type
        board.side ((board.get_occupancy (opposite_side board.side)).testBit to_sq) hf64 ht
      exact ⟨piece_section_mem_fill board piece_type hp _ (hsec to_sq ht hatt hown),
        g3, g1, g7⟩
  · intro to_sq ht hatt hown
    obtain ⟨-, g2, -, g4, g5, g6, -, g8, g9⟩ := piece_move_getters from_sq to_sq piece_type
      board.side ((board.get_occupancy (opposite_side board.side)).testBit to_sq) hf64 ht
    exact ⟨count_piece_move board hw hs piece_type hp _ (hsec to_sq ht hatt hown),
      g2, g4, g5, g6, g8, g9⟩
  · intro to_sq ht
    exact piece_attacks_iff_reaches board hc.2.2.1 piece_type hp from_sq to_sq hf64 ht

/-- C20 at the Kiwipete position: the capture of the pawn on g6 by the knight on e5 is in
the list exactly once. -/
theorem piece_moves_generated_witness :
    ((Board.of_fen
          "r3k2r/p1ppqpb1/bn2pnp1/3PN3/1p2P3/2N2Q1p/PPPBBPPP/R3K2R w KQkq - 0 1").consistent
        ∧ PieceType.knight ≠ PieceType.pawn
        ∧ ((Board.of_fen
          "r3k2r/p1ppqpb1/bn2pnp1/3PN3/1p2P3/2N2Q1p/PPPBBPPP/R3K2R w KQkq - 0 1").get_piece_bitboard
            PieceType.knight (Board.of_fen
          "r3k2r/p1ppqpb1/bn2pnp1/3PN3/1p2P3/2N2Q1p/PPPBBPPP/R3K2R w KQkq - 0 1").side).testBit
            28 = true)
      ∧ (fill_move_array [] (Board.of_fen
          "r3k2r/p1ppqpb1/bn2pnp1/3PN3/1p2P3/2N2Q1p/PPPBBPPP/R3K2R w KQkq - 0 1")).count
          (Move.new 28 22 PieceType.knight Side.white PieceType.pawn Side.any
            MoveFlag.NO_FLAG true) = 1 :=
  ⟨⟨by decide!, by decide, by decide!⟩,
    ((piece_moves_generated (Board.of_fen
        "r3k2r/p1ppqpb1/bn2pnp1/3PN3/1p2P3/2N2Q1p/PPPBBPPP/R3K2R w KQkq - 0 1")
      (by decide!) PieceType.knight (by decide) 28 (by decide!)).2.1 22 (by decide)
      (by decide!) (by decide!)).1⟩


/-! ## C19: the number of moves pushed -/

theorem length_squares_of {b : Nat} (hb : b < 2 ^ 64) :
    (squares_of b).length = (List.range 64).countP (fun i => b.testBit i) := by
  rw [squares_of_eq hb, List.countP_eq_length_filter]

theorem squares_of_length_le_of_subset {a b : Nat} (ha : a < 2 ^ 64) (hb : b < 2 ^ 64)
    (h : ∀ i, a.testBit i = true → b.testBit i = true) :
    (squares_of a).length ≤ (squares_of b).length := by
  rw [length_squares_of ha, length_squares_of hb]
  exact List.countP_mono_left (fun i _ hi => h i hi)

theorem squares_of_length_and_le {a : Nat} (b : Nat) (ha : a < 2 ^ 64) :
    (squares_of (a &&& b)).length ≤ (squares_of a).length := by
  apply squares_of_length_le_of_subset (and_lt_of_left _ ha) ha
  intro i hi
  rw [Nat.testBit_and, Bool.and_eq_true] at hi
  exact hi.1

theorem countP_or_le (p q : Nat → Bool) (l : List Nat) :
    l.countP (fun i => p i || q i) ≤ l.countP p + l.countP q := by
  induction l with
  | nil => simp
  | cons x xs ih =>
    simp only [List.countP_cons]
    cases hp : p x <;> cases hq : q x <;> simp <;> omega

theorem squares_of_length_or_le {a b : Nat} (ha : a < 2 ^ 64) (hb : b < 2 ^ 64) :
    (squares_of (a ||| b)).length ≤ (squares_of a).length + (squares_of b).length := by
  rw [length_squares_of (Nat.or_lt_two_pow ha hb), length_squares_of ha, length_squares_of hb]
  simp only [Nat.testBit_or]
  exact countP_or_le _ _ _

theorem countP_testBit_range (fuel : Nat) : ∀ x : Nat,
    (List.range fuel).countP (fun i => x.testBit i) = count_bits_aux fuel x := by
  induction fuel with
  | zero => intro x; rfl
  | succ fuel ih =>
    intro x
    rw [List.range_succ_eq_map, List.countP_cons, List.countP_map, count_bits_aux, ← ih (x / 2)]
    have e : ((fun i => x.testBit i) ∘ Nat.succ) = fun i => (x / 2).testBit i := by
      funext i
      simp [Nat.testBit_succ]
    rw [e]
    have h0 : (if x.testBit 0 = true then 1 else 0) = x % 2 := by
      rw [Nat.testBit_zero]
      rcases Nat.mod_two_eq_zero_or_one x with h | h <;> simp [h]
    rw [h0]
    omega

/-- The popcount of a 64-bit word is the number of squares its bit loop visits. -/
theorem count_bits_eq_length {b : Nat} (hb : b < 2 ^ 64) :
    count_bits b = (squares_of b).length := by
  rw [length_squares_of hb, countP_testBit_range]
  rfl

theorem length_flatMap_le {α : Type} (f : α → List Move) (c : Nat) (l : List α)
    (h : ∀ x ∈ l, (f x).length ≤ c) : (l.flatMap f).length ≤ c * l.length := by
  induction l with
  | nil => simp
  | cons x xs ih =>
    rw [List.flatMap_cons, List.length_append, List.length_cons]
    have h1 := h x (List.mem_cons_self _ _)
    have h2 := ih (fun y hy => h y (List.mem_cons_of_mem _ hy))
    rw [Nat.mul_succ]
    omega

theorem leaper_mask_counts : ∀ s, s < 64 →
    knight_masks s < 2 ^ 64 ∧ (squares_of (knight_masks s)).length ≤ 8
      ∧ king_masks s < 2 ^ 64 ∧ (squares_of (king_masks s)).length ≤ 8
      ∧ (squares_of (pawn_masks 0 s)).length ≤ 2
      ∧ (squares_of (pawn_masks 1 s)).length ≤ 2 := by
  decide!

theorem open_ray_counts : ∀ s, s < 64 →
    (squares_of (generate_bishop_attacks s 0)).length ≤ 13
      ∧ (squares_of (generate_rook_attacks s 0)).length ≤ 14 := by
  decide!

theorem rays_from_lt (dirs : List (Int × Int)) (square blockers : Nat) :
    rays_from dirs square blockers < 2 ^ 64 := by
  apply Nat.lt_pow_two_of_testBit
  intro i hi
  by_contra hbit
  have hbit : (rays_from dirs square blockers).testBit i = true := by simpa using hbit
  obtain ⟨d, -, n, -, hob, hsq, -⟩ := (testBit_rays_from dirs square blockers i).1 hbit
  have := square_at_lt (hob n (le_refl n))
  omega

/-- Blockers only shorten rays: a blocked ray lies within the ray on the empty board. -/
theorem rays_from_subset_open (dirs : List (Int × Int)) (square blockers i : Nat)
    (h : (rays_from dirs square blockers).testBit i = true) :
    (rays_from dirs square 0).testBit i = true := by
  rw [testBit_rays_from] at h ⊢
  obtain ⟨d, hd, n, hn, hob, hsq, -⟩ := h
  exact ⟨d, hd, n, hn, hob, hsq, fun j _ => Nat.zero_testBit _⟩

theorem piece_attacks_lt (piece_type : PieceType) (f occ : Nat) (hf : f < 64) :
    piece_attacks piece_type f occ < 2 ^ 64 := by
  obtain ⟨h1, -, h2, -⟩ := leaper_mask_counts f hf
  cases piece_type with
  | pawn => show (0 : Nat) < 2 ^ 64; norm_num
  | knight => exact h1
  | king => exact h2
  | bishop => exact rays_from_lt _ _ _
  | rook => exact rays_from_lt _ _ _
  | queen => exact Nat.or_lt_two_pow (rays_from_lt _ _ _) (rays_from_lt _ _ _)

theorem piece_attacks_count (piece_type : PieceType) (f occ : Nat) (hf : f < 64) :
    (squares_of (piece_attacks piece_type f occ)).length ≤ mobility_bound piece_type := by
  obtain ⟨-, h1, -, h2, -⟩ := leaper_mask_counts f hf
  obtain ⟨h3, h4⟩ := open_ray_counts f hf
  have hb : (squares_of (rays_from bishop_dirs f occ)).length ≤ 13 :=
    le_trans (squares_of_length_le_of_subset (rays_from_lt _ _ _) (rays_from_lt _ _ _)
      (rays_from_subset_open _ _ _)) h3
  have hr : (squares_of (rays_from rook_dirs f occ)).length ≤ 14 :=
    le_trans (squares_of_length_le_of_subset (rays_from_lt _ _ _) (rays_from_lt _ _ _)
      (rays_from_subset_open _ _ _)) h4
  cases piece_type with
  | pawn => show (squares_of 0).length ≤ 13; decide
  | knight => exact h1
  | king => exact h2
  | bishop => exact hb
  | rook => exact hr
  | queen =>
    exact le_trans (squares_of_length_or_le (rays_from_lt _ _ _) (rays_from_lt _ _ _))
      (Nat.add_le_add hb hr)

/-- One piece contributes at most `mobility_bound` moves. -/
theorem piece_body_length_le (piece_type : PieceType) (board : Board) (side : Side)
    (f : Nat) (hf : f < 64) :
    (generate_piece_moves_body piece_type board side [] f).length
      ≤ mobility_bound piece_type := by
  rw [generate_piece_moves_body_eq, List.nil_append, List.length_map]
  exact le_trans (squares_of_length_and_le _ (piece_attacks_lt _ _ _ hf))
    (piece_attacks_count _ _ _ hf)

theorem castling_length_le (board : Board) (side : Side) :
    (generate_castling_moves [] board side).length ≤ 2 := by
  unfold generate_castling_moves
  simp only
  split <;> split <;> simp [add_move_eq]

theorem handle_pawn_push_length (f : Nat) (to_sq : Int) (side : Side)
    (rank promo_rank : Int) :
    (handle_pawn_push [] f to_sq side rank promo_rank).length
      = if rank = promo_rank then 4 else 1 := by
  unfold handle_pawn_push
  split <;> simp [add_promotion_moves_eq, add_move_eq]

theorem handle_double_pawn_push_length_le (board : Board) (f : Nat) (direction : Int)
    (side : Side) (rank start_rank : Int) :
    (handle_double_pawn_push [] board f direction side rank start_rank).length
      ≤ if rank = start_rank then 1 else 0 := by
  unfold handle_double_pawn_push
  by_cases hr : rank = start_rank
  · simp only [hr, ne_eq, not_true_eq_false, if_false, if_true]
    split <;> simp [add_move_eq]
  · simp [hr]

theorem handle_en_passant_length_le (board : Board) (f : Nat) (side : Side) :
    (handle_en_passant [] board f side).length ≤ 1 := by
  unfold handle_en_passant
  simp only
  split
  · simp
  · split <;> simp [add_move_eq]

theorem handle_pawn_captures_length_le (f : Nat) (hf : f < 64) (side : Side)
    (hside : side ≠ Side.any) (rank promo_rank : Int) (enemy_pieces : Nat) :
    (handle_pawn_captures [] f side rank promo_rank enemy_pieces).length
      ≤ if rank = promo_rank then 8 else 2 := by
  have hcount : (squares_of (pawn_masks side.toNat f &&& enemy_pieces)).length ≤ 2 := by
    obtain ⟨-, -, -, -, h0, h1⟩ := leaper_mask_counts f hf
    refine le_trans (squares_of_length_and_le _ (generate_pawn_attacks_lt _ _)) ?_
    cases side with
    | white => exact h0
    | black => exact h1
    | any => exact absurd rfl hside
  rw [handle_pawn_captures_nil]
  by_cases hr : rank = promo_rank
  · simp only [hr, if_true]
    have := length_flatMap_le (fun capture_sq => add_promotion_moves [] f capture_sq side true)
      4 (squares_of (pawn_masks side.toNat f &&& enemy_pieces))
      (fun x _ => by simp [add_promotion_moves_eq])
    omega
  · simp only [hr, if_false]
    have := length_flatMap_le (fun capture_sq => add_move [] f capture_sq PieceType.pawn side
        PieceType.pawn Side.any MoveFlag.NO_FLAG true)
      1 (squares_of (pawn_masks side.toNat f &&& enemy_pieces))
      (fun x _ => by simp [add_move_eq])
    omega

/-- One pawn contributes at most 13 moves. -/
theorem pawn_body_length_le (board : Board) (hs : board.side_ok) (f : Nat) (hf : f < 64) :
    (generate_pawn_moves_body board board.side [] f).length ≤ 13 := by
  have hk := Side.toNat_lt_two hs.ne_any
  unfold generate_pawn_moves_body
  simp only
  rw [handle_en_passant_append, handle_pawn_captures_append, List.length_append,
    List.length_append]
  have hep := handle_en_passant_length_le board f board.side
  have hcap := handle_pawn_captures_length_le f hf board.side hs.ne_any
    ((f / 8 : Nat) : Int) (1 + 5 * (board.side.toNat : Int))
    (board.get_occupancy (opposite_side board.side))
  have hpush := handle_pawn_push_length f ((f : Int) + (-8 + 16 * (board.side.toNat : Int)))
    board.side ((f / 8 : Nat) : Int) (1 + 5 * (board.side.toNat : Int))
  have hdbl := handle_double_pawn_push_length_le board f (-8 + 16 * (board.side.toNat : Int))
    board.side ((f / 8 : Nat) : Int) (6 - 5 * (board.side.toNat : Int))
  split
  · rw [handle_double_pawn_push_append, List.length_append]
    by_cases hr : ((f / 8 : Nat) : Int) = 1 + 5 * (board.side.toNat : Int)
    · have hne : ¬ ((f / 8 : Nat) : Int) = 6 - 5 * (board.side.toNat : Int) := by omega
      rw [if_pos hr] at hcap hpush
      rw [if_neg hne] at hdbl
      omega
    · rw [if_neg hr] at hcap hpush
      split at hdbl <;> omega
  · by_cases hr : ((f / 8 : Nat) : Int) = 1 + 5 * (board.side.toNat : Int)
    · rw [if_pos hr] at hcap
      simp only [List.length_nil]
      omega
    · rw [if_neg hr] at hcap
      simp only [List.length_nil]
      omega

theorem piece_section_length_le (board : Board) (hw : board.words_ok) (hs : board.side_ok)
    (piece_type : PieceType) :
    ((squares_of (board.get_piece_bitboard piece_type board.side)).flatMap
        (generate_piece_moves_body piece_type board board.side [])).length
      ≤ mobility_bound piece_type
        * count_bits (board.get_piece_bitboard piece_type board.side) := by
  have hpl := hw.piece_lt hs piece_type
  rw [count_bits_eq_length hpl]
  exact length_flatMap_le _ _ _ (fun f hf => piece_body_length_le _ _ _ f (squares_of_lt hpl hf))

theorem pawn_section_length_le (board : Board) (hw : board.words_ok) (hs : board.side_ok) :
    ((squares_of (board.get_piece_bitboard PieceType.pawn board.side)).flatMap
        (generate_pawn_moves_body board board.side [])).length
      ≤ 13 * count_bits (board.get_piece_bitboard PieceType.pawn board.side) := by
  have hpl := hw.piece_lt hs PieceType.pawn
  rw [count_bits_eq_length hpl]
  exact length_flatMap_le _ _ _ (fun f hf => pawn_body_length_le board hs f (squares_of_lt hpl hf))

/-- A bound by the material alone: for every position of 64-bit bitboards with white or
black to move, `fill_move_array` called on an empty `MoveArray` pushes at most
`13 P + 8 N + 13 B + 14 R + 27 Q + 8 K + 2` moves, where `P`, `N`, `B`, `R`, `Q`, `K` are
the popcounts of the pawn, knight, bishop, rook, queen and king bitboards of the side to
move. With the material of the starting position (at most 8 pawns, 2 knights, 2 bishops,
2 rooks, 1 queen and 1 king) this is at most `MAX_MOVES`. -/
theorem fill_move_array_length_le (board : Board) (hw : board.words_ok)
    (hs : board.side_ok) :
    (fill_move_array [] board).length
        ≤ 13 * count_bits (board.get_piece_bitboard PieceType.pawn board.side)
          + 8 * count_bits (board.get_piece_bitboard PieceType.knight board.side)
          + 13 * count_bits (board.get_piece_bitboard PieceType.bishop board.side)
          + 14 * count_bits (board.get_piece_bitboard PieceType.rook board.side)
          + 27 * count_bits (board.get_piece_bitboard PieceType.queen board.side)
          + 8 * count_bits (board.get_piece_bitboard PieceType.king board.side) + 2
      ∧ (count_bits (board.get_piece_bitboard PieceType.pawn board.side) ≤ 8 →
        count_bits (board.get_piece_bitboard PieceType.knight board.side) ≤ 2 →
        count_bits (board.get_piece_bitboard PieceType.bishop board.side) ≤ 2 →
        count_bits (board.get_piece_bitboard PieceType.rook board.side) ≤ 2 →
        count_bits (board.get_piece_bitboard PieceType.queen board.side) ≤ 1 →
        count_bits (board.get_piece_bitboard PieceType.king board.side) ≤ 1 →
        (fill_move_array [] board).length ≤ MAX_MOVES) := by
  have key : (fill_move_array [] board).length
      ≤ 13 * count_bits (board.get_piece_bitboard PieceType.pawn board.side)
        + 8 * count_bits (board.get_piece_bitboard PieceType.knight board.side)
        + 13 * count_bits (board.get_piece_bitboard PieceType.bishop board.side)
        + 14 * count_bits (board.get_piece_bitboard PieceType.rook board.side)
        + 27 * count_bits (board.get_piece_bitboard PieceType.queen board.side)
        + 8 * count_bits (board.get_piece_bitboard PieceType.king board.side) + 2 := by
    have h0 := pawn_section_length_le board hw hs
    have h1 := piece_section_length_le board hw hs PieceType.knight
    have h2 := piece_section_length_le board hw hs PieceType.bishop
    have h3 := piece_section_length_le board hw hs PieceType.rook
    have h4 := piece_section_length_le board hw hs PieceType.queen
    have h5 := piece_section_length_le board hw hs PieceType.king
    have h6 := castling_length_le board board.side
    simp only [mobility_bound] at h1 h2 h3 h4 h5
    rw [fill_move_array_eq]
    simp only [List.nil_append, List.length_append]
    omega
  refine ⟨key, ?_⟩
  intro p n b r q k
  unfold MAX_MOVES
  omega

/-- The bound by the material at the starting position. -/
theorem fill_move_array_length_le_witness :
    ((Board.of_fen "rnbqkbnr/pppppppp/8/8/8/8/PPPPPPPP/RNBQKBNR w KQkq - 0 1").words_ok
        ∧ (Board.of_fen "rnbqkbnr/pppppppp/8/8/8/8/PPPPPPPP/RNBQKBNR w KQkq - 0 1").side_ok)
      ∧ (fill_move_array []
          (Board.of_fen "rnbqkbnr/pppppppp/8/8/8/8/PPPPPPPP/RNBQKBNR w KQkq - 0 1")).length
        ≤ MAX_MOVES :=
  ⟨⟨by decide!, by decide!⟩,
    (fill_move_array_length_le _ (by decide!) (by decide!)).2 (by decide!) (by decide!)
      (by decide!) (by decide!) (by decide!) (by decide!)⟩

/-! ## C26, C27, C29: the counters and rights left by `make_move` -/

/-- The fields that `pop_piece` leaves alone. -/
theorem pop_piece_loop_frame (sq : Nat) (side : Side) (l : List Nat) :
    ∀ board : Board,
      (Board.pop_piece_loop board sq side l).enpassant = board.enpassant
        ∧ (Board.pop_piece_loop board sq side l).castling = board.castling
        ∧ (Board.pop_piece_loop board sq side l).fifty = board.fifty := by
  induction l with
  | nil => intro board; exact ⟨rfl, rfl, rfl⟩
  | cons x xs ih =>
    intro board
    unfold Board.pop_piece_loop
    split
    · exact ⟨rfl, rfl, rfl⟩
    · exact ih board

/-- The fields that the placement steps of `make_move` leave alone. -/
theorem mm_placement_steps_frame (board : Board) (move : Move) :
    (((((board.mm_enpassant_capture move).mm_capture move).mm_move_piece
          move).mm_promotion move).mm_castle move).enpassant = board.enpassant
      ∧ (((((board.mm_enpassant_capture move).mm_capture move).mm_move_piece
          move).mm_promotion move).mm_castle move).castling = board.castling
      ∧ (((((board.mm_enpassant_capture move).mm_capture move).mm_move_piece
          move).mm_promotion move).mm_castle move).fifty = board.fifty := by
  have h5 : ∀ b : Board, (b.mm_castle move).enpassant = b.enpassant
      ∧ (b.mm_castle move).castling = b.castling ∧ (b.mm_castle move).fifty = b.fifty := by
    intro b; unfold Board.mm_castle; simp only; split <;> exact ⟨rfl, rfl, rfl⟩
  have h6 : ∀ b : Board, (b.mm_promotion move).enpassant = b.enpassant
      ∧ (b.mm_promotion move).castling = b.castling
      ∧ (b.mm_promotion move).fifty = b.fifty := by
    intro b; unfold Board.mm_promotion; simp only; split <;> exact ⟨rfl, rfl, rfl⟩
  have h7 : ∀ b : Board, (b.mm_move_piece move).enpassant = b.enpassant
      ∧ (b.mm_move_piece move).castling = b.castling
      ∧ (b.mm_move_piece move).fifty = b.fifty := fun _ => ⟨rfl, rfl, rfl⟩
  have h8 : ∀ b : Board, (b.mm_capture move).enpassant = b.enpassant
      ∧ (b.mm_capture move).castling = b.castling
      ∧ (b.mm_capture move).fifty = b.fifty := by
    intro b; unfold Board.mm_capture; simp only
    split
    · unfold Board.pop_piece
      exact pop_piece_loop_frame _ _ _ _
    · exact ⟨rfl, rfl, rfl⟩
  have h9 : ∀ b : Board, (b.mm_enpassant_capture move).enpassant = b.enpassant
      ∧ (b.mm_enpassant_capture move).castling = b.castling
      ∧ (b.mm_enpassant_capture move).fifty = b.fifty := by
    intro b; unfold Board.mm_enpassant_capture; simp only
    split
    · show (Board.pop_piece _ _ _).enpassant = _ ∧ (Board.pop_piece _ _ _).castling = _
        ∧ (Board.pop_piece _ _ _).fifty = _
      unfold Board.pop_piece
      exact pop_piece_loop_frame _ _ _ _
    · exact ⟨rfl, rfl, rfl⟩
  refine ⟨?_, ?_, ?_⟩
  · rw [(h5 _).1, (h6 _).1, (h7 _).1, (h8 _).1, (h9 _).1]
  · rw [(h5 _).2.1, (h6 _).2.1, (h7 _).2.1, (h8 _).2.1, (h9 _).2.1]
  · rw [(h5 _).2.2, (h6 _).2.2, (h7 _).2.2, (h8 _).2.2, (h9 _).2.2]

/-- The fifty-move counter after the statements of `make_move`. -/
theorem make_move_apply_fifty (board : Board) (move : Move) :
    (board.make_move_apply move).fifty
      = if (move.get_piece == PieceType.pawn || move.is_capture) = true then 0
        else board.fifty + 1 := by
  have h2 : ∀ b : Board, b.mm_side.fifty = b.fifty := fun _ => rfl
  have h3 : ∀ b : Board, (b.mm_castling_rights move).fifty = b.fifty := fun _ => rfl
  have h4 : ∀ b : Board, (b.mm_enpassant_square move).fifty = b.fifty := by
    intro b; unfold Board.mm_enpassant_square; simp only; split <;> split <;> rfl
  unfold Board.make_move_apply
  simp only
  unfold Board.mm_fifty
  simp only
  split
  · rfl
  · show (Board.mm_side _).fifty + 1 = _
    rw [h2, h3, h4, (mm_placement_steps_frame board move).2.2]

/-- The castling rights after the statements of `make_move`. -/
theorem make_move_apply_castling (board : Board) (move : Move) :
    (board.make_move_apply move).castling
      = board.castling &&& castling_rights move.get_from_sq
        &&& castling_rights move.get_to_sq := by
  have h1 : ∀ b : Board, (b.mm_fifty move).castling = b.castling := by
    intro b; unfold Board.mm_fifty; simp only; split <;> rfl
  have h2 : ∀ b : Board, b.mm_side.castling = b.castling := fun _ => rfl
  have h3 : ∀ b : Board, (b.mm_castling_rights move).castling
      = b.castling &&& castling_rights move.get_from_sq
        &&& castling_rights move.get_to_sq := fun _ => rfl
  have h4 : ∀ b : Board, (b.mm_enpassant_square move).castling = b.castling := by
    intro b; unfold Board.mm_enpassant_square; simp only; split <;> split <;> rfl
  unfold Board.make_move_apply
  simp only
  rw [h1, h2, h3, h4, (mm_placement_steps_frame board move).2.1]

/-- The en-passant member after the statements of `make_move`. -/
theorem make_move_apply_enpassant (board : Board) (move : Move) :
    (board.make_move_apply move).enpassant
      = if move.is_double_pawn = true then
          (true, (move.get_to_sq : Int) + 8 - 16 * (move.get_side_of_piece.toNat : Int))
        else (false, board.enpassant.2) := by
  have h1 : ∀ b : Board, (b.mm_fifty move).enpassant = b.enpassant := by
    intro b; unfold Board.mm_fifty; simp only; split <;> rfl
  have h2 : ∀ b : Board, b.mm_side.enpassant = b.enpassant := fun _ => rfl
  have h3 : ∀ b : Board, (b.mm_castling_rights move).enpassant = b.enpassant := fun _ => rfl
  have h4 : ∀ b : Board, (b.mm_enpassant_square move).enpassant
      = if move.is_double_pawn = true then
          (true, (move.get_to_sq : Int) + 8 - 16 * (move.get_side_of_piece.toNat : Int))
        else (false, b.enpassant.2) := by
    intro b; unfold Board.mm_enpassant_square; simp only; split <;> split <;> rfl
  unfold Board.make_move_apply
  simp only
  rw [h1, h2, h3, h4, (mm_placement_steps_frame board move).1]

/-- C26: when `make_move` returns true, the fifty-move counter of the board it leaves is
0 if the moved piece is a pawn or the move is a capture, and the counter before the move
plus one otherwise. -/
theorem make_move_halfmove_clock (board : Board) (move : Move)
    (h : (board.make_move move).1 = true) :
    ((move.get_piece = PieceType.pawn ∨ move.is_capture = true) →
        (board.make_move move).2.fifty = 0)
      ∧ (¬ (move.get_piece = PieceType.pawn ∨ move.is_capture = true) →
        (board.make_move move).2.fifty = board.fifty + 1) := by
  rw [make_move_eq_of_accepted board move h, make_move_apply_fifty]
  constructor
  · intro hc
    rw [if_pos]
    rcases hc with hc | hc
    · simp [hc]
    · simp [hc]
  · intro hc
    rw [if_neg]
    intro hx
    apply hc
    simpa using hx

/-- C26 at the starting position: the knight move g1-f3 raises the counter from 0 to 1,
and the pawn move e2-e4 leaves it at 0. -/
theorem make_move_halfmove_clock_witness :
    ((Board.of_fen "rnbqkbnr/pppppppp/8/8/8/8/PPPPPPPP/RNBQKBNR w KQkq - 0 1").make_move
        (Move.new 62 45 PieceType.knight Side.white PieceType.pawn Side.any MoveFlag.NO_FLAG
          false)).1 = true
      ∧ ((Board.of_fen "rnbqkbnr/pppppppp/8/8/8/8/PPPPPPPP/RNBQKBNR w KQkq - 0 1").make_move
        (Move.new 62 45 PieceType.knight Side.white PieceType.pawn Side.any MoveFlag.NO_FLAG
          false)).2.fifty
        = (Board.of_fen "rnbqkbnr/pppppppp/8/8/8/8/PPPPPPPP/RNBQKBNR w KQkq - 0 1").fifty + 1 :=
  ⟨by decide!,
    (make_move_halfmove_clock _ _ (by decide!)).2 (by decide!)⟩

/-- The table `castling_rights` keeps, of the four rights, those that the square does not
clear. -/
theorem castling_rights_eq_cleared :
    ∀ sq, sq < 64 → castling_rights sq = 15 ^^^ rights_cleared sq ∧ rights_cleared sq < 16 := by
  decide

theorem testBit_fifteen (i : Nat) : (15 : Nat).testBit i = decide (i < 4) :=
  Nat.testBit_two_pow_sub_one 4 i

theorem testBit_of_lt_sixteen {x i : Nat} (hx : x < 16) (hi : 4 ≤ i) : x.testBit i = false :=
  Nat.testBit_lt_two_pow (lt_of_lt_of_le hx
    (le_trans (by norm_num : 16 ≤ 2 ^ 4) (Nat.pow_le_pow_right (by norm_num) hi)))

/-- The bits of an entry of the table `castling_rights`. -/
theorem testBit_castling_rights (sq : Nat) (hsq : sq < 64) (i : Nat) :
    (castling_rights sq).testBit i = (decide (i < 4) && !(rights_cleared sq).testBit i) := by
  obtain ⟨e, hlt⟩ := castling_rights_eq_cleared sq hsq
  rw [e, Nat.testBit_xor, testBit_fifteen]
  by_cases hi : i < 4
  · simp [hi]
  · rw [testBit_of_lt_sixteen hlt (by omega)]
    simp [hi]

/-- C27: when `make_move` returns true, each of the four castling rights is held
afterwards exactly when it was held before and neither the from-square nor the
to-square of the move clears it, where e1 clears both white rights, e8 both black
rights, h1 white kingside, a1 white queenside, h8 black kingside, a8 black queenside,
and every other square clears nothing; no bit of the rights word is ever added; and a
rights word that holds only the four rights equals the word before with exactly the
cleared bits removed. -/
theorem make_move_castling_rights (board : Board) (move : Move)
    (h : (board.make_move move).1 = true) :
    (∀ i, i < 4 → (board.make_move move).2.castling.testBit i
        = (board.castling.testBit i
          && !(rights_cleared move.get_from_sq ||| rights_cleared move.get_to_sq).testBit i))
      ∧ (∀ i, (board.make_move move).2.castling.testBit i = true →
        board.castling.testBit i = true)
      ∧ (board.castling < 16 →
        (board.make_move move).2.castling = board.castling
          &&& (15 ^^^ (rights_cleared move.get_from_sq ||| rights_cleared move.get_to_sq))) := by
  rw [make_move_eq_of_accepted board move h, make_move_apply_castling]
  have hf := testBit_castling_rights _ move.get_from_sq_lt
  have ht := testBit_castling_rights _ move.get_to_sq_lt
  refine ⟨?_, ?_, ?_⟩
  · intro i hi
    rw [Nat.testBit_and, Nat.testBit_and, hf, ht, Nat.testBit_or]
    simp only [hi, decide_True, Bool.true_and]
    cases board.castling.testBit i <;> cases (rights_cleared move.get_from_sq).testBit i <;>
      cases (rights_cleared move.get_to_sq).testBit i <;> rfl
  · intro i hi
    rw [Nat.testBit_and, Nat.testBit_and, Bool.and_eq_true, Bool.and_eq_true] at hi
    exact hi.1.1
  · intro hlt
    apply Nat.eq_of_testBit_eq
    intro i
    rw [Nat.testBit_and, Nat.testBit_and, hf, ht, Nat.testBit_and, Nat.testBit_xor,
      testBit_fifteen, Nat.testBit_or]
    by_cases hi : i < 4
    · simp only [hi, decide_True, Bool.true_and]
      cases board.castling.testBit i <;> cases (rights_cleared move.get_from_sq).testBit i <;>
        cases (rights_cleared move.get_to_sq).testBit i <;> rfl
    · rw [testBit_of_lt_sixteen hlt (by omega)]
      simp

/-- C27 at the starting position with the kingside open: the rook move h1-g1 is accepted
and clears the white kingside right only, leaving queenside and both black rights. -/
theorem make_move_castling_rights_witness :
    ((Board.of_fen "rnbqkbnr/pppppppp/8/8/8/8/PPPPPPPP/RNBQK2R w KQkq - 0 1").make_move
        (Move.new 63 62 PieceType.rook Side.white PieceType.pawn Side.any MoveFlag.NO_FLAG
          false)).1 = true
      ∧ (Board.of_fen "rnbqkbnr/pppppppp/8/8/8/8/PPPPPPPP/RNBQK2R w KQkq - 0 1").castling < 16
      ∧ ((Board.of_fen "rnbqkbnr/pppppppp/8/8/8/8/PPPPPPPP/RNBQK2R w KQkq - 0 1").make_move
        (Move.new 63 62 PieceType.rook Side.white PieceType.pawn Side.any MoveFlag.NO_FLAG
          false)).2.castling
        = (Board.of_fen "rnbqkbnr/pppppppp/8/8/8/8/PPPPPPPP/RNBQK2R w KQkq - 0 1").castling
          &&& (15 ^^^ (rights_cleared (Move.new 63 62 PieceType.rook Side.white PieceType.pawn
              Side.any MoveFlag.NO_FLAG false).get_from_sq
            ||| rights_cleared (Move.new 63 62 PieceType.rook Side.white PieceType.pawn
              Side.any MoveFlag.NO_FLAG false).get_to_sq)) :=
  ⟨by decide!, by decide!,
    (make_move_castling_rights _ _ (by decide!)).2.2 (by decide!)⟩

/-- A generated move that carries the double-push flag goes two squares ahead from the
starting rank of its side. -/
theorem Generated.double_push_cases {board : Board} {move : Move} (h : Generated board move)
    (hd : move.is_double_pawn = true) :
    ∃ from_sq, from_sq ∈ squares_of (board.get_piece_bitboard PieceType.pawn board.side)
      ∧ ((from_sq / 8 : Nat) : Int) = 6 - 5 * (board.side.toNat : Int)
      ∧ get_bit board.get_all_occupancy
          ((from_sq : Int) + (-8 + 16 * (board.side.toNat : Int))).toNat = false
      ∧ get_bit board.get_all_occupancy
          ((from_sq : Int) + 2 * (-8 + 16 * (board.side.toNat : Int))).toNat = false
      ∧ move = Move.new from_sq
          (to_u32 ((from_sq : Int) + 2 * (-8 + 16 * (board.side.toNat : Int))))
          PieceType.pawn board.side PieceType.pawn Side.any MoveFlag.PAWN_START false := by
  cases h with
  | double_push from_sq hfrom hto hrank hto2 => exact ⟨from_sq, hfrom, hrank, hto, hto2, rfl⟩
  | _ =>
    rw [(Move.flag_getters_new_any _ _ _ _ _ _ _ _).2] at hd
    exact absurd hd (by decide)

/-- The squares and the side of a generated double push. -/
theorem Generated.double_push_squares {board : Board} (hw : board.words_ok)
    (hs : board.side_ok) {move : Move} (h : Generated board move)
    (hd : move.is_double_pawn = true) :
    move.get_side_of_piece = board.side
      ∧ ((board.side = Side.white ∧ 48 ≤ move.get_from_sq ∧ move.get_from_sq < 56
          ∧ move.get_to_sq + 16 = move.get_from_sq)
        ∨ (board.side = Side.black ∧ 8 ≤ move.get_from_sq ∧ move.get_from_sq < 16
          ∧ move.get_to_sq = move.get_from_sq + 16)) := by
  obtain ⟨f, hf, hrank, -, -, rfl⟩ := h.double_push_cases hd
  have hflt : f < 64 := squares_of_lt (hw.piece_lt hs PieceType.pawn) hf
  obtain ⟨g1, g2, -⟩ := Move.getters_new_any f
    (to_u32 ((f : Int) + 2 * (-8 + 16 * (board.side.toNat : Int)))) PieceType.pawn board.side
    PieceType.pawn Side.any MoveFlag.PAWN_START false
  refine ⟨Move.get_side_of_piece_new _ _ _ _ _ _ _ _, ?_⟩
  rw [g1, g2]
  rcases hs.toNat with ⟨hside, hk, -⟩ | ⟨hside, hk, -⟩
  · left
    rw [hk] at hrank ⊢
    have h6 : f / 8 = 6 := by omega
    refine ⟨hside, ?_⟩
    unfold to_u32
    omega
  · right
    rw [hk] at hrank ⊢
    have h1 : f / 8 = 1 := by omega
    refine ⟨hside, ?_⟩
    unfold to_u32
    omega

/-- C29: when `make_move` returns true, the board it leaves has an en-passant square set
exactly when the move carries the double-pawn-push flag, so that a square set before the
move is cleared unless the move sets a new one; and for a double push produced by
`fill_move_array` (on a board of 64-bit words with white or black to move) the square
set is the midpoint `(from + to) / 2` of the push. -/
theorem make_move_enpassant_square (board : Board) (move : Move)
    (h : (board.make_move move).1 = true) :
    ((board.make_move move).2.enpassant.1 = true ↔ move.is_double_pawn = true)
      ∧ (move.is_double_pawn = true → board.words_ok → board.side_ok →
        move ∈ fill_move_array [] board →
          (board.make_move move).2.enpassant.2
            = (((move.get_from_sq + move.get_to_sq) / 2 : Nat) : Int)) := by
  rw [make_move_eq_of_accepted board move h, make_move_apply_enpassant]
  constructor
  · by_cases hd : move.is_double_pawn = true
    · rw [if_pos hd]
      simp [hd]
    · rw [if_neg hd]
      simp [hd]
  · intro hd hw hs hm
    rw [if_pos hd]
    obtain ⟨hside, hsq⟩ := (generated_of_mem board move hm).double_push_squares hw hs hd
    show (move.get_to_sq : Int) + 8 - 16 * (move.get_side_of_piece.toNat : Int) = _
    rw [hside]
    rcases hsq with ⟨hc, h1, h2, h3⟩ | ⟨hc, h1, h2, h3⟩
    · rw [hc]
      simp only [Side.toNat]
      omega
    · rw [hc]
      simp only [Side.toNat]
      omega

/-- C29 at the starting position: the double push e2-e4 is accepted and sets the
en-passant square e3 (44), the midpoint of e2 (52) and e4 (36). -/
theorem make_move_enpassant_square_witness :
    ((Board.of_fen "rnbqkbnr/pppppppp/8/8/8/8/PPPPPPPP/RNBQKBNR w KQkq - 0 1").make_move
        (Move.new 52 36 PieceType.pawn Side.white PieceType.pawn Side.any MoveFlag.PAWN_START
          false)).1 = true
      ∧ ((Board.of_fen "rnbqkbnr/pppppppp/8/8/8/8/PPPPPPPP/RNBQKBNR w KQkq - 0 1").make_move
        (Move.new 52 36 PieceType.pawn Side.white PieceType.pawn Side.any MoveFlag.PAWN_START
          false)).2.enpassant.2
        = (((Move.new 52 36 PieceType.pawn Side.white PieceType.pawn Side.any
              MoveFlag.PAWN_START false).get_from_sq
            + (Move.new 52 36 PieceType.pawn Side.white PieceType.pawn Side.any
              MoveFlag.PAWN_START false).get_to_sq) / 2 : Nat) :=
  ⟨by decide!,
    (make_move_enpassant_square _ _ (by decide!)).2 (by decide!) (by decide!) (by decide!)
      (by decide!)⟩

/-! ## C28: the position after castling -/

/-- The placement after a castling move: the king is relocated, then the rook. -/
theorem make_move_apply_castle_placement (board : Board) (move : Move)
    (hside : move.get_side_of_piece ≠ Side.any) (hcap : move.is_capture = false)
    (hpromo : move.is_promo = false) (hcastle : move.is_castle = true) :
    (board.make_move_apply move).placement
      = (((board.placement.remove_at
            (move.get_piece.toNat + 6 * move.get_side_of_piece.toNat)
            move.get_side_of_piece.toNat move.get_from_sq).place_at
            (move.get_piece.toNat + 6 * move.get_side_of_piece.toNat)
            move.get_side_of_piece.toNat move.get_to_sq).remove_at
          (3 + 6 * move.get_side_of_piece.toNat) move.get_side_of_piece.toNat
          (if move.get_to_sq % 8 = 6 then (move.get_to_sq : Int) + 1
            else (move.get_to_sq : Int) - 2).toNat).place_at
          (3 + 6 * move.get_side_of_piece.toNat) move.get_side_of_piece.toNat
          (if move.get_to_sq % 8 = 6 then (move.get_to_sq : Int) - 1
            else (move.get_to_sq : Int) + 1).toNat := by
  rw [make_move_apply_placement, mm_castle_placement _ _ hside hcastle,
    mm_promotion_placement_of_not _ _ hpromo, mm_move_piece_placement _ _ hside,
    mm_capture_placement_of_not _ _ (by simp [hcap]),
    mm_enpassant_capture_placement_of_not _ _ (by simp [hcap])]

/-- The piece bitboards after a relocation of the king followed by one of the rook. -/
theorem castle_placement_loc (P : Placement) (k a c ra rc : Nat) :
    ((((P.remove_at (5 + 6 * k) k a).place_at (5 + 6 * k) k c).remove_at (3 + 6 * k) k
        ra).place_at (3 + 6 * k) k rc).loc (5 + 6 * k) = set_bit (pop_bit (P.loc (5 + 6 * k)) a) c
      ∧ ((((P.remove_at (5 + 6 * k) k a).place_at (5 + 6 * k) k c).remove_at (3 + 6 * k) k
        ra).place_at (3 + 6 * k) k rc).loc (3 + 6 * k)
          = set_bit (pop_bit (P.loc (3 + 6 * k)) ra) rc
      ∧ ∀ p, p ≠ 5 + 6 * k → p ≠ 3 + 6 * k →
        ((((P.remove_at (5 + 6 * k) k a).place_at (5 + 6 * k) k c).remove_at (3 + 6 * k) k
          ra).place_at (3 + 6 * k) k rc).loc p = P.loc p := by
  have hne : 5 + 6 * k ≠ 3 + 6 * k := by omega
  have hne' : 3 + 6 * k ≠ 5 + 6 * k := by omega
  refine ⟨?_, ?_, ?_⟩
  · rw [place_at_loc_other _ _ _ _ _ hne, remove_at_loc_other _ _ _ _ _ hne,
      place_at_loc_same, remove_at_loc_same]
  · rw [place_at_loc_same, remove_at_loc_same, place_at_loc_other _ _ _ _ _ hne',
      remove_at_loc_other _ _ _ _ _ hne']
  · intro p h5 h3
    rw [place_at_loc_other _ _ _ _ _ h3, remove_at_loc_other _ _ _ _ _ h3,
      place_at_loc_other _ _ _ _ _ h5, remove_at_loc_other _ _ _ _ _ h5]

/-- The getters of the two castling moves of the side with number `k`. -/
theorem castle_move_getters (k : Nat) (hk1 : k ≤ 1) (side : Side) (t : Nat) (ht : t < 64) :
    (Move.new (60 - 56 * k) t PieceType.king side PieceType.pawn Side.any MoveFlag.CASTLE
        false).get_from_sq = 60 - 56 * k
      ∧ (Move.new (60 - 56 * k) t PieceType.king side PieceType.pawn Side.any MoveFlag.CASTLE
        false).get_to_sq = t
      ∧ (Move.new (60 - 56 * k) t PieceType.king side PieceType.pawn Side.any MoveFlag.CASTLE
        false).get_piece = PieceType.king
      ∧ (Move.new (60 - 56 * k) t PieceType.king side PieceType.pawn Side.any MoveFlag.CASTLE
        false).get_side_of_piece = side
      ∧ (Move.new (60 - 56 * k) t PieceType.king side PieceType.pawn Side.any MoveFlag.CASTLE
        false).is_capture = false
      ∧ (Move.new (60 - 56 * k) t PieceType.king side PieceType.pawn Side.any MoveFlag.CASTLE
        false).is_promo = false
      ∧ (Move.new (60 - 56 * k) t PieceType.king side PieceType.pawn Side.any MoveFlag.CASTLE
        false).is_castle = true := by
  obtain ⟨g1, g2, g3, -, -, g6, g7⟩ := Move.getters_new_any (60 - 56 * k) t PieceType.king side
    PieceType.pawn Side.any MoveFlag.CASTLE false
  refine ⟨?_, ?_, g3, Move.get_side_of_piece_new _ _ _ _ _ _ _ _, g6, ?_, ?_⟩
  · rw [g1]; omega
  · rw [g2]; omega
  · rw [g7]; rfl
  · rw [(Move.flag_getters_new_any _ _ _ _ _ _ _ _).1]; rfl

/-- Both castling rights of the side with number `k` are cleared by a move from its king
square. -/
theorem castling_cleared_from_king_square (castling t k : Nat) (hk1 : k ≤ 1) :
    (castling &&& castling_rights (60 - 56 * k) &&& castling_rights t)
        &&& (CastlingRights.white_king <<< (2 * k)) = 0
      ∧ (castling &&& castling_rights (60 - 56 * k) &&& castling_rights t)
        &&& (CastlingRights.white_queen <<< (2 * k)) = 0 := by
  have key : ∀ r : Nat, castling_rights (60 - 56 * k) &&& r = 0 →
      (castling &&& castling_rights (60 - 56 * k) &&& castling_rights t) &&& r = 0 := by
    intro r hr
    apply Nat.eq_of_testBit_eq
    intro i
    have hi := congrArg (fun x => x.testBit i) hr
    simp only [Nat.testBit_and, Nat.zero_testBit] at hi ⊢
    cases h1 : (castling_rights (60 - 56 * k)).testBit i
    · simp
    · rw [h1] at hi
      simp only [Bool.true_and] at hi
      simp [hi]
  have hk : k = 0 ∨ k = 1 := by omega
  rcases hk with rfl | rfl
  · exact ⟨key _ (by decide), key _ (by decide)⟩
  · exact ⟨key _ (by decide), key _ (by decide)⟩

/-- C28: for white or black to move (number `k` = 0 or 1, back rank squares a = 56 - 56k
to h = 63 - 56k), a castling move in the list of `fill_move_array` goes from the king's
square e to g (kingside) or to c (queenside); when `make_move` accepts it, the king
bitboard of the mover is the one before with e cleared and g (or c) set, the rook
bitboard of the mover is the one before with h cleared and f set (kingside) or a cleared
and d set (queenside), every other piece bitboard is unchanged, and neither castling
right of the mover is held any more. Where the castling data agree with the placement,
the king stood on e and the rook on h (or a) before the move. -/
theorem castling_move_result (board : Board) (hs : board.side_ok) (move : Move)
    (hm : move ∈ fill_move_array [] board) (hc : move.is_castle = true)
    (h : (board.make_move move).1 = true) :
    move.get_from_sq = 60 - 56 * board.side.toNat
      ∧ (move.get_to_sq = 62 - 56 * board.side.toNat
        ∨ move.get_to_sq = 58 - 56 * board.side.toNat)
      ∧ (move.get_to_sq = 62 - 56 * board.side.toNat →
        (board.make_move move).2.piece_location (5 + 6 * board.side.toNat)
            = set_bit (pop_bit (board.piece_location (5 + 6 * board.side.toNat))
                (60 - 56 * board.side.toNat)) (62 - 56 * board.side.toNat)
          ∧ (board.make_move move).2.piece_location (3 + 6 * board.side.toNat)
            = set_bit (pop_bit (board.piece_location (3 + 6 * board.side.toNat))
                (63 - 56 * board.side.toNat)) (61 - 56 * board.side.toNat)
          ∧ (board.castling_ok →
            (board.piece_location (5 + 6 * board.side.toNat)).testBit
                (60 - 56 * board.side.toNat) = true
              ∧ (board.piece_location (3 + 6 * board.side.toNat)).testBit
                (63 - 56 * board.side.toNat) = true))
      ∧ (move.get_to_sq = 58 - 56 * board.side.toNat →
        (board.make_move move).2.piece_location (5 + 6 * board.side.toNat)
            = set_bit (pop_bit (board.piece_location (5 + 6 * board.side.toNat))
                (60 - 56 * board.side.toNat)) (58 - 56 * board.side.toNat)
          ∧ (board.make_move move).2.piece_location (3 + 6 * board.side.toNat)
            = set_bit (pop_bit (board.piece_location (3 + 6 * board.side.toNat))
                (56 - 56 * board.side.toNat)) (59 - 56 * board.side.toNat)
          ∧ (board.castling_ok →
            (board.piece_location (5 + 6 * board.side.toNat)).testBit
                (60 - 56 * board.side.toNat) = true
              ∧ (board.piece_location (3 + 6 * board.side.toNat)).testBit
                (56 - 56 * board.side.toNat) = true))
      ∧ (∀ p, p ≠ 5 + 6 * board.side.toNat → p ≠ 3 + 6 * board.side.toNat →
        (board.make_move move).2.piece_location p = board.piece_location p)
      ∧ (board.make_move move).2.can_castle
          (CastlingRights.white_king <<< (2 * board.side.toNat)) = false
      ∧ (board.make_move move).2.can_castle
          (CastlingRights.white_queen <<< (2 * board.side.toNat)) = false := by
  have hk1 : board.side.toNat ≤ 1 := by
    have := Side.toNat_lt_two hs.ne_any
    omega
  obtain ⟨e1, e2, e3⟩ := castle_squares board.side.toNat hk1
  have hacc := make_move_eq_of_accepted board move h
  have hloc : ∀ p, (board.make_move move).2.piece_location p
      = (board.make_move_apply move).placement.loc p := by
    intro p; rw [hacc]; rfl
  have hcastling : (board.make_move move).2.castling
      = board.castling &&& castling_rights move.get_from_sq
        &&& castling_rights move.get_to_sq := by
    rw [hacc, make_move_apply_castling]
  -- the shape of the move
  have hshape : ∃ t, t < 64 ∧ (t = 62 - 56 * board.side.toNat ∨ t = 58 - 56 * board.side.toNat)
      ∧ move = Move.new (60 - 56 * board.side.toNat) t PieceType.king board.side
          PieceType.pawn Side.any MoveFlag.CASTLE false
      ∧ (t = 62 - 56 * board.side.toNat →
          can_castle_side board board.side true board.get_all_occupancy
            (opposite_side board.side) = true)
      ∧ (t = 58 - 56 * board.side.toNat →
          can_castle_side board board.side false board.get_all_occupancy
            (opposite_side board.side) = true) := by
    rcases (generated_of_mem board move hm).castle_cases hc with ⟨hcan, rfl⟩ | ⟨hcan, rfl⟩
    · refine ⟨62 - 56 * board.side.toNat, by omega, Or.inl rfl, by rw [e1, e2],
        fun _ => hcan, fun hx => ?_⟩
      omega
    · refine ⟨58 - 56 * board.side.toNat, by omega, Or.inr rfl, by rw [e1, e3],
        fun hx => ?_, fun _ => hcan⟩
      omega
  obtain ⟨t, ht, htcases, rfl, hcanK, hcanQ⟩ := hshape
  obtain ⟨g1, g2, g3, g4, g5, g6, g7⟩ := castle_move_getters board.side.toNat hk1 board.side t ht
  have hpl := make_move_apply_castle_placement board _ (by rw [g4]; exact hs.ne_any) g5 g6 g7
  rw [g1, g2, g3, g4] at hpl
  have hking : PieceType.king.toNat = 5 := rfl
  rw [hking] at hpl
  rw [g1, g2] at hcastling ⊢
  obtain ⟨l1, l2, l3⟩ := castle_placement_loc board.placement board.side.toNat
    (60 - 56 * board.side.toNat) t
    (if t % 8 = 6 then (t : Int) + 1 else (t : Int) - 2).toNat
    (if t % 8 = 6 then (t : Int) - 1 else (t : Int) + 1).toNat
  obtain ⟨c1, c2⟩ := castling_cleared_from_king_square board.castling t board.side.toNat hk1
  refine ⟨rfl, htcases, ?_, ?_, ?_, ?_, ?_⟩
  · intro he
    subst he
    have hmod : (62 - 56 * board.side.toNat) % 8 = 6 := by omega
    rw [if_pos hmod, if_pos hmod] at hpl l1 l2
    have r1 : (((62 - 56 * board.side.toNat : Nat) : Int) + 1).toNat
        = 63 - 56 * board.side.toNat := by omega
    have r2 : (((62 - 56 * board.side.toNat : Nat) : Int) - 1).toNat
        = 61 - 56 * board.side.toNat := by omega
    rw [r1, r2] at hpl l1 l2
    refine ⟨by rw [hloc, hpl, l1]; rfl, by rw [hloc, hpl, l2]; rfl, ?_⟩
    intro hco
    obtain ⟨hright, -⟩ := (can_castle_side_true rfl hk1 (hcanK rfl)).1 rfl
    obtain ⟨cK, cQ, ck, cq⟩ := hco
    rcases hs.toNat with ⟨-, hsv, -⟩ | ⟨-, hsv, -⟩
    · rw [hsv] at hright ⊢
      exact cK hright
    · rw [hsv] at hright ⊢
      exact ck hright
  · intro he
    subst he
    have hmod : ¬ (58 - 56 * board.side.toNat) % 8 = 6 := by omega
    rw [if_neg hmod, if_neg hmod] at hpl l1 l2
    have r1 : (((58 - 56 * board.side.toNat : Nat) : Int) - 2).toNat
        = 56 - 56 * board.side.toNat := by omega
    have r2 : (((58 - 56 * board.side.toNat : Nat) : Int) + 1).toNat
        = 59 - 56 * board.side.toNat := by omega
    rw [r1, r2] at hpl l1 l2
    refine ⟨by rw [hloc, hpl, l1]; rfl, by rw [hloc, hpl, l2]; rfl, ?_⟩
    intro hco
    obtain ⟨hright, -⟩ := (can_castle_side_true rfl hk1 (hcanQ rfl)).2 rfl
    obtain ⟨cK, cQ, ck, cq⟩ := hco
    rcases hs.toNat with ⟨-, hsv, -⟩ | ⟨-, hsv, -⟩
    · rw [hsv] at hright ⊢
      exact cQ hright
    · rw [hsv] at hright ⊢
      exact cq hright
  · intro p h5 h3
    rw [hloc, hpl, l3 p h5 h3]
    rfl
  · unfold Board.can_castle
    rw [hcastling, c1]
    rfl
  · unfold Board.can_castle
    rw [hcastling, c2]
    rfl

/-- C28 at the Kiwipete position: white castles kingside, and no white castling right is
left. -/
theorem castling_move_result_witness :
    ((Board.of_fen
          "r3k2r/p1ppqpb1/bn2pnp1/3PN3/1p2P3/2N2Q1p/PPPBBPPP/R3K2R w KQkq - 0 1").side_ok
      ∧ Move.new 60 62 PieceType.king Side.white PieceType.pawn Side.any MoveFlag.CASTLE
          false ∈ fill_move_array [] (Board.of_fen
            "r3k2r/p1ppqpb1/bn2pnp1/3PN3/1p2P3/2N2Q1p/PPPBBPPP/R3K2R w KQkq - 0 1")
      ∧ (Move.new 60 62 PieceType.king Side.white PieceType.pawn Side.any MoveFlag.CASTLE
          false).is_castle = true
      ∧ ((Board.of_fen
          "r3k2r/p1ppqpb1/bn2pnp1/3PN3/1p2P3/2N2Q1p/PPPBBPPP/R3K2R w KQkq - 0 1").make_move
          (Move.new 60 62 PieceType.king Side.white PieceType.pawn Side.any MoveFlag.CASTLE
            false)).1 = true)
      ∧ ((Board.of_fen
          "r3k2r/p1ppqpb1/bn2pnp1/3PN3/1p2P3/2N2Q1p/PPPBBPPP/R3K2R w KQkq - 0 1").make_move
          (Move.new 60 62 PieceType.king Side.white PieceType.pawn Side.any MoveFlag.CASTLE
            false)).2.can_castle
          (CastlingRights.white_king <<< (2 * (Board.of_fen
            "r3k2r/p1ppqpb1/bn2pnp1/3PN3/1p2P3/2N2Q1p/PPPBBPPP/R3K2R w KQkq - 0 1").side.toNat))
        = false :=
  ⟨⟨by decide!, by decide!, by decide!, by decide!⟩,
    (castling_move_result _ (by decide!) _ (by decide!) (by decide!) (by decide!)).2.2.2.2.2.1⟩

/-! ## C21, C22, C23: the moves of a pawn -/

/-- The moves that the body of `generate_pawn_moves` pushes for the pawn on `from_sq`. -/
theorem pawn_body_eq (board : Board) (side : Side) (from_sq : Nat) :
    generate_pawn_moves_body board side [] from_sq
      = (if get_bit board.get_all_occupancy
            ((from_sq : Int) + (-8 + 16 * (side.toNat : Int))).toNat = true then []
          else
            (if ((from_sq / 8 : Nat) : Int) = 1 + 5 * (side.toNat : Int) then
                promotion_moves from_sq
                  (to_u32 ((from_sq : Int) + (-8 + 16 * (side.toNat : Int)))) side false
              else [Move.new from_sq
                (to_u32 ((from_sq : Int) + (-8 + 16 * (side.toNat : Int)))) PieceType.pawn side
                PieceType.pawn Side.any MoveFlag.NO_FLAG false])
            ++ (if ((from_sq / 8 : Nat) : Int) = 6 - 5 * (side.toNat : Int)
                  ∧ get_bit board.get_all_occupancy
                    ((from_sq : Int) + 2 * (-8 + 16 * (side.toNat : Int))).toNat = false then
                [Move.new from_sq
                  (to_u32 ((from_sq : Int) + 2 * (-8 + 16 * (side.toNat : Int))))
                  PieceType.pawn side PieceType.pawn Side.any MoveFlag.PAWN_START false]
              else []))
        ++ (squares_of (pawn_masks side.toNat from_sq
              &&& board.get_occupancy (opposite_side side))).flatMap
            (fun capture_sq =>
              if ((from_sq / 8 : Nat) : Int) = 1 + 5 * (side.toNat : Int) then
                promotion_moves from_sq capture_sq side true
              else [Move.new from_sq capture_sq PieceType.pawn side PieceType.pawn Side.any
                MoveFlag.NO_FLAG true])
        ++ (if board.enpassant.1 = true
              ∧ pawn_masks side.toNat from_sq &&& shl64 1 board.enpassant.2.toNat ≠ 0 then
            [Move.new from_sq (to_u32 board.enpassant.2) PieceType.pawn side PieceType.pawn
              Side.any MoveFlag.EN_PASSANT true]
          else []) := by
  have hpush : handle_pawn_push [] from_sq ((from_sq : Int) + (-8 + 16 * (side.toNat : Int)))
      side ((from_sq / 8 : Nat) : Int) (1 + 5 * (side.toNat : Int))
      = (if ((from_sq / 8 : Nat) : Int) = 1 + 5 * (side.toNat : Int) then
          promotion_moves from_sq
            (to_u32 ((from_sq : Int) + (-8 + 16 * (side.toNat : Int)))) side false
        else [Move.new from_sq
          (to_u32 ((from_sq : Int) + (-8 + 16 * (side.toNat : Int)))) PieceType.pawn side
          PieceType.pawn Side.any MoveFlag.NO_FLAG false]) := by
    unfold handle_pawn_push
    split
    · rw [add_promotion_moves_eq]; rfl
    · rw [add_move_eq]; rfl
  have hdouble : handle_double_pawn_push [] board from_sq (-8 + 16 * (side.toNat : Int)) side
      ((from_sq / 8 : Nat) : Int) (6 - 5 * (side.toNat : Int))
      = (if ((from_sq / 8 : Nat) : Int) = 6 - 5 * (side.toNat : Int)
            ∧ get_bit board.get_all_occupancy
              ((from_sq : Int) + 2 * (-8 + 16 * (side.toNat : Int))).toNat = false then
          [Move.new from_sq
            (to_u32 ((from_sq : Int) + 2 * (-8 + 16 * (side.toNat : Int))))
            PieceType.pawn side PieceType.pawn Side.any MoveFlag.PAWN_START false]
        else []) := by
    unfold handle_double_pawn_push
    by_cases hr : ((from_sq / 8 : Nat) : Int) = 6 - 5 * (side.toNat : Int)
    · by_cases h2 : get_bit board.get_all_occupancy
          ((from_sq : Int) + 2 * (-8 + 16 * (side.toNat : Int))).toNat = true
      · simp only [hr, h2, ne_eq, not_true_eq_false, if_false, if_true, Bool.true_eq_false,
          and_false]
      · have h2' : get_bit board.get_all_occupancy
            ((from_sq : Int) + 2 * (-8 + 16 * (side.toNat : Int))).toNat = false := by
          simpa using h2
        simp only [hr, h2', ne_eq, not_true_eq_false, if_false, if_true, Bool.false_eq_true,
          and_self, add_move_eq, List.nil_append]
    · simp only [hr, ne_eq, not_false_eq_true, if_true, false_and, if_false]
  have hcap : (fun capture_sq =>
        if ((from_sq / 8 : Nat) : Int) = 1 + 5 * (side.toNat : Int) then
          add_promotion_moves [] from_sq capture_sq side true
        else add_move [] from_sq capture_sq PieceType.pawn side PieceType.pawn Side.any
          MoveFlag.NO_FLAG true)
      = (fun capture_sq =>
        if ((from_sq / 8 : Nat) : Int) = 1 + 5 * (side.toNat : Int) then
          promotion_moves from_sq capture_sq side true
        else [Move.new from_sq capture_sq PieceType.pawn side PieceType.pawn Side.any
          MoveFlag.NO_FLAG true]) := by
    funext capture_sq
    split
    · rw [add_promotion_moves_eq]; rfl
    · rw [add_move_eq]; rfl
  have hep : handle_en_passant [] board from_sq side
      = (if board.enpassant.1 = true
            ∧ pawn_masks side.toNat from_sq &&& shl64 1 board.enpassant.2.toNat ≠ 0 then
          [Move.new from_sq (to_u32 board.enpassant.2) PieceType.pawn side PieceType.pawn
            Side.any MoveFlag.EN_PASSANT true]
        else []) := by
    unfold handle_en_passant
    by_cases hset : board.enpassant.1 = true
    · by_cases hatt : pawn_masks side.toNat from_sq &&& shl64 1 board.enpassant.2.toNat = 0
      · simp only [hset, hatt, Bool.not_true, Bool.false_eq_true, if_false, if_true, ne_eq,
          not_true_eq_false, and_false]
      · simp only [hset, hatt, Bool.not_true, Bool.false_eq_true, if_false, if_true, ne_eq,
          not_false_eq_true, and_self, add_move_eq, List.nil_append]
    · have hset' : board.enpassant.1 = false := by simpa using hset
      simp only [hset', Bool.not_false, if_true, Bool.false_eq_true, false_and, if_false]
  unfold generate_pawn_moves_body
  simp only
  rw [handle_en_passant_append, handle_pawn_captures_append, handle_pawn_captures_nil, hcap,
    hep]
  by_cases hfree : get_bit board.get_all_occupancy
      ((from_sq : Int) + (-8 + 16 * (side.toNat : Int))).toNat = true
  · simp only [hfree, Bool.not_true, Bool.false_eq_true, if_false, if_true]
  · have hfree' : get_bit board.get_all_occupancy
        ((from_sq : Int) + (-8 + 16 * (side.toNat : Int))).toNat = false := by
      simpa using hfree
    simp only [hfree', Bool.not_false, if_true, Bool.false_eq_true, if_false]
    rw [handle_double_pawn_push_append, hpush, hdouble]

/-- Every move of the body of `generate_pawn_moves` is a pawn move of `side` from
`from_sq`. -/
theorem pawn_body_shape (board : Board) (side : Side) (from_sq : Nat) (m : Move)
    (hm : m ∈ generate_pawn_moves_body board side [] from_sq) :
    ∃ to_sq prom prom_side flag is_capture,
      m = Move.new from_sq to_sq PieceType.pawn side prom prom_side flag is_capture := by
  rw [pawn_body_eq] at hm
  simp only [List.mem_append, List.mem_flatMap] at hm
  have hpromo : ∀ t c, m ∈ promotion_moves from_sq t side c →
      ∃ to_sq prom prom_side flag is_capture,
        m = Move.new from_sq to_sq PieceType.pawn side prom prom_side flag is_capture := by
    intro t c h
    unfold promotion_moves at h
    simp only [List.mem_cons, List.mem_singleton, List.not_mem_nil, or_false] at h
    rcases h with rfl | rfl | rfl | rfl <;> exact ⟨_, _, _, _, _, rfl⟩
  rcases hm with (hm | ⟨c, -, hm⟩) | hm
  · split at hm
    · simp at hm
    · rcases List.mem_append.1 hm with hm | hm
      · split at hm
        · exact hpromo _ _ hm
        · rw [List.mem_singleton] at hm
          exact ⟨_, _, _, _, _, hm⟩
      · split at hm
        · rw [List.mem_singleton] at hm
          exact ⟨_, _, _, _, _, hm⟩
        · simp at hm
  · split at hm
    · exact hpromo _ _ hm
    · rw [List.mem_singleton] at hm
      exact ⟨_, _, _, _, _, hm⟩
  · split at hm
    · rw [List.mem_singleton] at hm
      exact ⟨_, _, _, _, _, hm⟩
    · simp at hm

/-- The from-square of a move of the body of `generate_pawn_moves`. -/
theorem pawn_body_from (board : Board) (side : Side) (from_sq : Nat) (hf : from_sq < 64)
    (m : Move) (hm : m ∈ generate_pawn_moves_body board side [] from_sq) :
    m.get_from_sq = from_sq ∧ m.get_piece = PieceType.pawn ∧ m.get_side_of_piece = side := by
  obtain ⟨t, p, s, fl, c, rfl⟩ := pawn_body_shape board side from_sq m hm
  obtain ⟨g1, -, g3, -⟩ := Move.getters_new_any from_sq t PieceType.pawn side p s fl c
  exact ⟨by rw [g1]; omega, g3, Move.get_side_of_piece_new _ _ _ _ _ _ _ _⟩

/-- A move of the sections of knights, bishops, rooks, queens and kings, and a castling
move, is not a pawn move. -/
theorem piece_section_not_pawn (board : Board) (piece_type : PieceType)
    (hp : piece_type ≠ PieceType.pawn) (m : Move)
    (hm : m ∈ (squares_of (board.get_piece_bitboard piece_type board.side)).flatMap
        (generate_piece_moves_body piece_type board board.side [])) :
    m.get_piece ≠ PieceType.pawn := by
  obtain ⟨f, -, t, -, rfl⟩ := (mem_piece_section board piece_type m).1 hm
  rw [(Move.getters_new_any _ _ _ _ _ _ _ _).2.2.1]
  exact hp

theorem castling_section_not_pawn (board : Board) (m : Move)
    (hm : m ∈ generate_castling_moves [] board board.side) :
    m.get_piece ≠ PieceType.pawn := by
  rcases (mem_generate_castling_moves board m).1 hm with ⟨-, rfl⟩ | ⟨-, rfl⟩ <;>
    rw [(Move.getters_new_any _ _ _ _ _ _ _ _).2.2.1] <;> decide

/-- The pawn moves from `from_sq` in the list of `fill_move_array` are the moves pushed by
the body of `generate_pawn_moves` for that pawn. -/
theorem mem_fill_pawn_iff (board : Board) (hw : board.words_ok) (hs : board.side_ok)
    (from_sq : Nat)
    (hf : from_sq ∈ squares_of (board.get_piece_bitboard PieceType.pawn board.side))
    (m : Move) :
    (m ∈ fill_move_array [] board ∧ m.get_piece = PieceType.pawn ∧ m.get_from_sq = from_sq)
      ↔ m ∈ generate_pawn_moves_body board board.side [] from_sq := by
  have hlt := hw.piece_lt hs PieceType.pawn
  have hflt : from_sq < 64 := squares_of_lt hlt hf
  constructor
  · rintro ⟨hm, hp, hfrom⟩
    rw [fill_move_array_eq] at hm
    simp only [List.nil_append, List.mem_append] at hm
    rcases hm with (((((hm | hm) | hm) | hm) | hm) | hm) | hm
    · rw [List.mem_flatMap] at hm
      obtain ⟨f, hf', hm⟩ := hm
      have := (pawn_body_from board board.side f (squares_of_lt hlt hf') m hm).1
      rw [hfrom] at this
      rw [this]
      exact hm
    · exact absurd hp (piece_section_not_pawn board _ (by decide) m hm)
    · exact absurd hp (piece_section_not_pawn board _ (by decide) m hm)
    · exact absurd hp (piece_section_not_pawn board _ (by decide) m hm)
    · exact absurd hp (piece_section_not_pawn board _ (by decide) m hm)
    · exact absurd hp (piece_section_not_pawn board _ (by decide) m hm)
    · exact absurd hp (castling_section_not_pawn board m hm)
  · intro hm
    obtain ⟨g1, g2, -⟩ := pawn_body_from board board.side from_sq hflt m hm
    refine ⟨?_, g2, g1⟩
    rw [fill_move_array_eq]
    simp only [List.nil_append, List.mem_append]
    exact Or.inl (Or.inl (Or.inl (Or.inl (Or.inl (Or.inl
      (List.mem_flatMap.2 ⟨from_sq, hf, hm⟩))))))

/-- Filtering a concatenation of blocks by a test that holds on one block and fails on
the others leaves that block. -/
theorem filter_flatMap_single {α β : Type} (g : α → List β) (P : β → Bool) (a : α) :
    ∀ l : List α, l.Nodup → a ∈ l →
      (∀ x ∈ l, x ≠ a → ∀ m ∈ g x, P m = false) → (∀ m ∈ g a, P m = true) →
      (l.flatMap g).filter P = g a := by
  intro l
  induction l with
  | nil => intro _ ha; exact absurd ha (List.not_mem_nil _)
  | cons x xs ih =>
    intro hnd ha h1 h2
    rw [List.flatMap_cons, List.filter_append]
    rw [List.nodup_cons] at hnd
    by_cases hx : x = a
    · subst hx
      have e1 : (g x).filter P = g x := List.filter_eq_self.2 h2
      have e2 : (xs.flatMap g).filter P = [] := by
        rw [List.filter_eq_nil_iff]
        intro m hm
        obtain ⟨y, hy, hmy⟩ := List.mem_flatMap.1 hm
        have hyx : y ≠ x := fun e => hnd.1 (e ▸ hy)
        simp [h1 y (List.mem_cons_of_mem _ hy) hyx m hmy]
      rw [e1, e2, List.append_nil]
    · have e1 : (g x).filter P = [] := by
        rw [List.filter_eq_nil_iff]
        intro m hm
        simp [h1 x (List.mem_cons_self _ _) hx m hm]
      have ha' : a ∈ xs := by
        rcases List.mem_cons.1 ha with e | e
        · exact absurd e.symm hx
        · exact e
      rw [e1, List.nil_append]
      exact ih hnd.2 ha' (fun y hy => h1 y (List.mem_cons_of_mem _ hy)) h2

/-- The sublist of the pawn moves from `from_sq` in the list of `fill_move_array`. -/
theorem filter_fill_pawn (board : Board) (hw : board.words_ok) (hs : board.side_ok)
    (from_sq : Nat)
    (hf : from_sq ∈ squares_of (board.get_piece_bitboard PieceType.pawn board.side)) :
    (fill_move_array [] board).filter
        (fun m => decide (m.get_piece = PieceType.pawn ∧ m.get_from_sq = from_sq))
      = generate_pawn_moves_body board board.side [] from_sq := by
  have hlt := hw.piece_lt hs PieceType.pawn
  have hflt : from_sq < 64 := squares_of_lt hlt hf
  have hnil : ∀ l : List Move, (∀ m ∈ l, m.get_piece ≠ PieceType.pawn) →
      l.filter (fun m => decide (m.get_piece = PieceType.pawn ∧ m.get_from_sq = from_sq))
        = [] := by
    intro l hl
    rw [List.filter_eq_nil_iff]
    intro m hm
    simp [hl m hm]
  rw [fill_move_array_eq]
  simp only [List.nil_append, List.filter_append]
  rw [hnil _ (piece_section_not_pawn board PieceType.knight (by decide)),
    hnil _ (piece_section_not_pawn board PieceType.bishop (by decide)),
    hnil _ (piece_section_not_pawn board PieceType.rook (by decide)),
    hnil _ (piece_section_not_pawn board PieceType.queen (by decide)),
    hnil _ (piece_section_not_pawn board PieceType.king (by decide)),
    hnil _ (castling_section_not_pawn board)]
  simp only [List.append_nil]
  apply filter_flatMap_single _ _ _ _ (squares_of_nodup hlt) hf
  · intro x hx hne m hm
    have := (pawn_body_from board board.side x (squares_of_lt hlt hx) m hm).1
    simp [this, hne]
  · intro m hm
    obtain ⟨g1, g2, -⟩ := pawn_body_from board board.side from_sq hflt m hm
    simp [g1, g2]

theorem pawn_masks_lt (k sq : Nat) : pawn_masks k sq < 2 ^ 64 := by
  unfold pawn_masks
  exact generate_pawn_attacks_lt _ _

/-- A set en-passant square within the board lies in a pawn's attack mask exactly when
the test of `handle_en_passant` succeeds. -/
theorem enpassant_test_iff (k from_sq e : Nat) (he : e < 64) :
    pawn_masks k from_sq &&& shl64 1 e ≠ 0 ↔ (pawn_masks k from_sq).testBit e = true := by
  rw [and_ne_zero_iff_exists]
  have hb : ∀ i, (shl64 1 e).testBit i = decide (i = e ∧ e < 64) := testBit_square_bb e
  constructor
  · rintro ⟨i, h1, h2⟩
    rw [hb] at h2
    have : i = e := by simpa [he] using h2
    rw [← this]; exact h1
  · intro h
    exact ⟨e, h, by rw [hb]; simp [he]⟩

/-- The moves of a pawn of the side to move in a consistent position, with the squares
ahead written as board squares. -/
theorem pawn_body_consistent (board : Board) (hc : board.consistent) (from_sq : Nat)
    (hf : from_sq ∈ squares_of (board.get_piece_bitboard PieceType.pawn board.side)) :
    generate_pawn_moves_body board board.side [] from_sq
      = (if board.get_all_occupancy.testBit (square_ahead board.side from_sq 1) = true then []
          else
            (if from_sq / 8 = 1 + 5 * board.side.toNat then
                promotion_moves from_sq (square_ahead board.side from_sq 1) board.side false
              else [Move.new from_sq (square_ahead board.side from_sq 1) PieceType.pawn
                board.side PieceType.pawn Side.any MoveFlag.NO_FLAG false])
            ++ (if from_sq / 8 = 6 - 5 * board.side.toNat
                  ∧ board.get_all_occupancy.testBit (square_ahead board.side from_sq 2)
                    = false then
                [Move.new from_sq (square_ahead board.side from_sq 2) PieceType.pawn board.side
                  PieceType.pawn Side.any MoveFlag.PAWN_START false]
              else []))
        ++ (squares_of (pawn_masks board.side.toNat from_sq
              &&& board.get_occupancy (opposite_side board.side))).flatMap
            (fun capture_sq =>
              if from_sq / 8 = 1 + 5 * board.side.toNat then
                promotion_moves from_sq capture_sq board.side true
              else [Move.new from_sq capture_sq PieceType.pawn board.side PieceType.pawn
                Side.any MoveFlag.NO_FLAG true])
        ++ (if board.enpassant.1 = true
              ∧ (pawn_masks board.side.toNat from_sq).testBit board.enpassant.2.toNat
                = true then
            [Move.new from_sq board.enpassant.2.toNat PieceType.pawn board.side PieceType.pawn
              Side.any MoveFlag.EN_PASSANT true]
          else []) := by
  have hs := hc.2.2.2.1
  obtain ⟨hbit, hflt⟩ := hc.mover_bit hf
  have hidx : PieceType.pawn.toNat + 6 * board.side.toNat = 0
      ∨ PieceType.pawn.toNat + 6 * board.side.toNat = 6 := by
    rcases hs.toNat with ⟨-, hsv, -⟩ | ⟨-, hsv, -⟩ <;> rw [hsv] <;> simp [PieceType.toNat]
  obtain ⟨h8, h56⟩ := hc.pawn_rank hidx hbit
  rw [pawn_body_eq]
  -- the en-passant block
  have hepb : (if board.enpassant.1 = true
        ∧ pawn_masks board.side.toNat from_sq &&& shl64 1 board.enpassant.2.toNat ≠ 0 then
      [Move.new from_sq (to_u32 board.enpassant.2) PieceType.pawn board.side PieceType.pawn
        Side.any MoveFlag.EN_PASSANT true]
    else [])
      = (if board.enpassant.1 = true
        ∧ (pawn_masks board.side.toNat from_sq).testBit board.enpassant.2.toNat = true then
      [Move.new from_sq board.enpassant.2.toNat PieceType.pawn board.side PieceType.pawn
        Side.any MoveFlag.EN_PASSANT true]
    else []) := by
    by_cases hset : board.enpassant.1 = true
    · obtain ⟨he0, he64, -⟩ := hc.2.2.2.2.2.1 hset
      have he : board.enpassant.2.toNat < 64 := by omega
      have hu : to_u32 board.enpassant.2 = board.enpassant.2.toNat := by
        unfold to_u32; omega
      rw [hu]
      by_cases hatt : (pawn_masks board.side.toNat from_sq).testBit board.enpassant.2.toNat
          = true
      · rw [if_pos ⟨hset, (enpassant_test_iff _ _ _ he).2 hatt⟩, if_pos ⟨hset, hatt⟩]
      · rw [if_neg (fun h => hatt ((enpassant_test_iff _ _ _ he).1 h.2)),
          if_neg (fun h => hatt h.2)]
    · rw [if_neg (fun h => hset h.1), if_neg (fun h => hset h.1)]
  rw [hepb]
  -- the capture block
  have hcapb : (fun capture_sq =>
        if ((from_sq / 8 : Nat) : Int) = 1 + 5 * (board.side.toNat : Int) then
          promotion_moves from_sq capture_sq board.side true
        else [Move.new from_sq capture_sq PieceType.pawn board.side PieceType.pawn Side.any
          MoveFlag.NO_FLAG true])
      = (fun capture_sq =>
        if from_sq / 8 = 1 + 5 * board.side.toNat then
          promotion_moves from_sq capture_sq board.side true
        else [Move.new from_sq capture_sq PieceType.pawn board.side PieceType.pawn Side.any
          MoveFlag.NO_FLAG true]) := by
    funext capture_sq
    by_cases hr : from_sq / 8 = 1 + 5 * board.side.toNat
    · rw [if_pos hr, if_pos (by omega)]
    · rw [if_neg hr, if_neg (by omega)]
  rw [hcapb]
  -- the push block
  have hk := Side.toNat_lt_two hs.ne_any
  have ha1 : square_ahead board.side from_sq 1
      = ((from_sq : Int) + (-8 + 16 * (board.side.toNat : Int))).toNat := by
    unfold square_ahead
    rcases hs.toNat with ⟨hsw, hsv, -⟩ | ⟨hsb, hsv, -⟩
    · rw [if_pos hsw, hsv]; omega
    · rw [if_neg (by rw [hsb]; decide), hsv]; omega
  have hu1 : to_u32 ((from_sq : Int) + (-8 + 16 * (board.side.toNat : Int)))
      = square_ahead board.side from_sq 1 := by
    rw [ha1]; unfold to_u32; omega
  have ha2 : from_sq / 8 = 6 - 5 * board.side.toNat →
      square_ahead board.side from_sq 2
        = ((from_sq : Int) + 2 * (-8 + 16 * (board.side.toNat : Int))).toNat
      ∧ to_u32 ((from_sq : Int) + 2 * (-8 + 16 * (board.side.toNat : Int)))
        = square_ahead board.side from_sq 2 := by
    intro hr
    unfold square_ahead to_u32
    rcases hs.toNat with ⟨hsw, hsv, -⟩ | ⟨hsb, hsv, -⟩
    · rw [hsv] at hr ⊢
      rw [if_pos hsw]
      omega
    · rw [hsv] at hr ⊢
      rw [if_neg (by rw [hsb]; decide)]
      omega
  rw [get_bit_eq_testBit, ← ha1, hu1]
  congr 2
  by_cases hfree : board.get_all_occupancy.testBit (square_ahead board.side from_sq 1) = true
  · rw [if_pos hfree, if_pos hfree]
  · rw [if_neg hfree, if_neg hfree]
    congr 1
    · by_cases hr : from_sq / 8 = 1 + 5 * board.side.toNat
      · rw [if_pos hr, if_pos (by omega)]
      · rw [if_neg hr, if_neg (by omega)]
    · by_cases hr : from_sq / 8 = 6 - 5 * board.side.toNat
      · obtain ⟨e1, e2⟩ := ha2 hr
        rw [get_bit_eq_testBit, ← e1, e2]
        by_cases h2 : board.get_all_occupancy.testBit (square_ahead board.side from_sq 2)
            = false
        · rw [if_pos ⟨by omega, h2⟩, if_pos ⟨hr, h2⟩]
        · rw [if_neg (fun h => h2 h.2), if_neg (fun h => h2 h.2)]
      · rw [if_neg (fun h => hr (by omega)), if_neg (fun h => hr h.1)]

/-- The moves of a pawn of the side to move in a consistent position, case by case. -/
theorem mem_pawn_body_consistent (board : Board) (hc : board.consistent) (from_sq : Nat)
    (hf : from_sq ∈ squares_of (board.get_piece_bitboard PieceType.pawn board.side))
    (m : Move) :
    m ∈ generate_pawn_moves_body board board.side [] from_sq
      ↔ ((board.get_all_occupancy.testBit (square_ahead board.side from_sq 1) = false
          ∧ from_sq / 8 = 1 + 5 * board.side.toNat
          ∧ m ∈ promotion_moves from_sq (square_ahead board.side from_sq 1) board.side false)
        ∨ (board.get_all_occupancy.testBit (square_ahead board.side from_sq 1) = false
          ∧ from_sq / 8 ≠ 1 + 5 * board.side.toNat
          ∧ m = Move.new from_sq (square_ahead board.side from_sq 1) PieceType.pawn
              board.side PieceType.pawn Side.any MoveFlag.NO_FLAG false)
        ∨ (board.get_all_occupancy.testBit (square_ahead board.side from_sq 1) = false
          ∧ from_sq / 8 = 6 - 5 * board.side.toNat
          ∧ board.get_all_occupancy.testBit (square_ahead board.side from_sq 2) = false
          ∧ m = Move.new from_sq (square_ahead board.side from_sq 2) PieceType.pawn
              board.side PieceType.pawn Side.any MoveFlag.PAWN_START false)
        ∨ (∃ t, t ∈ squares_of (pawn_masks board.side.toNat from_sq
              &&& board.get_occupancy (opposite_side board.side))
          ∧ from_sq / 8 = 1 + 5 * board.side.toNat
          ∧ m ∈ promotion_moves from_sq t board.side true)
        ∨ (∃ t, t ∈ squares_of (pawn_masks board.side.toNat from_sq
              &&& board.get_occupancy (opposite_side board.side))
          ∧ from_sq / 8 ≠ 1 + 5 * board.side.toNat
          ∧ m = Move.new from_sq t PieceType.pawn board.side PieceType.pawn Side.any
              MoveFlag.NO_FLAG true)
        ∨ (board.enpassant.1 = true
          ∧ (pawn_masks board.side.toNat from_sq).testBit board.enpassant.2.toNat = true
          ∧ m = Move.new from_sq board.enpassant.2.toNat PieceType.pawn board.side
              PieceType.pawn Side.any MoveFlag.EN_PASSANT true)) := by
  rw [pawn_body_consistent board hc from_sq hf]
  simp only [List.mem_append, List.mem_flatMap]
  constructor
  · rintro ((hm | ⟨t, ht, hm⟩) | hm)
    · split at hm
      · simp at hm
      · rename_i hfree
        have hfree' : board.get_all_occupancy.testBit (square_ahead board.side from_sq 1)
            = false := by simpa using hfree
        rcases List.mem_append.1 hm with hm | hm
        · split at hm
          · rename_i hr
            exact Or.inl ⟨hfree', hr, hm⟩
          · rename_i hr
            exact Or.inr (Or.inl ⟨hfree', hr, List.mem_singleton.1 hm⟩)
        · split at hm
          · rename_i hr
            exact Or.inr (Or.inr (Or.inl ⟨hfree', hr.1, hr.2, List.mem_singleton.1 hm⟩))
          · simp at hm
    · split at hm
      · rename_i hr
        exact Or.inr (Or.inr (Or.inr (Or.inl ⟨t, ht, hr, hm⟩)))
      · rename_i hr
        exact Or.inr (Or.inr (Or.inr (Or.inr (Or.inl ⟨t, ht, hr, List.mem_singleton.1 hm⟩))))
    · split at hm
      · rename_i hr
        exact Or.inr (Or.inr (Or.inr (Or.inr (Or.inr
          ⟨hr.1, hr.2, List.mem_singleton.1 hm⟩))))
      · simp at hm
  · rintro (⟨hfree, hr, hm⟩ | ⟨hfree, hr, hm⟩ | ⟨hfree, hr, h2, hm⟩ | ⟨t, ht, hr, hm⟩
      | ⟨t, ht, hr, hm⟩ | ⟨hset, hatt, hm⟩)
    · refine Or.inl (Or.inl ?_)
      rw [if_neg (by simp [hfree])]
      exact List.mem_append_left _ (by rw [if_pos hr]; exact hm)
    · refine Or.inl (Or.inl ?_)
      rw [if_neg (by simp [hfree])]
      exact List.mem_append_left _ (by rw [if_neg hr]; exact List.mem_singleton.2 hm)
    · refine Or.inl (Or.inl ?_)
      rw [if_neg (by simp [hfree])]
      exact List.mem_append_right _ (by rw [if_pos ⟨hr, h2⟩]; exact List.mem_singleton.2 hm)
    · exact Or.inl (Or.inr ⟨t, ht, by rw [if_pos hr]; exact hm⟩)
    · exact Or.inl (Or.inr ⟨t, ht, by rw [if_neg hr]; exact List.mem_singleton.2 hm⟩)
    · exact Or.inr (by rw [if_pos ⟨hset, hatt⟩]; exact List.mem_singleton.2 hm)

/-- A pawn move of the list of `fill_move_array` was pushed for one of the pawns of the
side to move. -/
theorem mem_fill_pawn_body (board : Board) (m : Move) (hm : m ∈ fill_move_array [] board)
    (hp : m.get_piece = PieceType.pawn) :
    ∃ f, f ∈ squares_of (board.get_piece_bitboard PieceType.pawn board.side)
      ∧ m ∈ generate_pawn_moves_body board board.side [] f := by
  rw [fill_move_array_eq] at hm
  simp only [List.nil_append, List.mem_append] at hm
  rcases hm with (((((hm | hm) | hm) | hm) | hm) | hm) | hm
  · exact List.mem_flatMap.1 hm
  · exact absurd hp (piece_section_not_pawn board _ (by decide) m hm)
  · exact absurd hp (piece_section_not_pawn board _ (by decide) m hm)
  · exact absurd hp (piece_section_not_pawn board _ (by decide) m hm)
  · exact absurd hp (piece_section_not_pawn board _ (by decide) m hm)
  · exact absurd hp (piece_section_not_pawn board _ (by decide) m hm)
  · exact absurd hp (castling_section_not_pawn board m hm)

/-- The squares of a pawn's attack mask lie one rank ahead of the pawn. -/
theorem pawn_mask_rank (k f t : Nat) (hk : k < 2) (hf : f < 64)
    (h : (pawn_masks k f).testBit t = true) :
    t < 64 ∧ (k = 0 → t / 8 + 1 = f / 8) ∧ (k = 1 → t / 8 = f / 8 + 1) := by
  have ht : t < 64 := testBit_of_lt_64 (pawn_masks_lt k f) h
  obtain ⟨p0, p1⟩ := pawn_mask_forward f hf t ht
  refine ⟨ht, ?_, ?_⟩
  · intro hk0
    subst hk0
    have := p0.1 h
    unfold pawn_attacks_sq sq_row at this
    simp only [if_true] at this
    omega
  · intro hk1
    subst hk1
    have := p1.1 h
    unfold pawn_attacks_sq sq_row at this
    rw [if_neg (by decide)] at this
    omega

/-- The getters of a promotion move. -/
theorem promotion_moves_getters (f t : Nat) (side : Side) (hs : side ≠ Side.any) (c : Bool)
    (m : Move) (hm : m ∈ promotion_moves f t side c) :
    m.get_to_sq = t % 64 ∧ m.is_promo = true ∧ m.get_prom_side = side
      ∧ m.is_capture = c ∧ m.is_enpassant = false ∧ m.is_double_pawn = false := by
  have key : ∀ p, (Move.new f t PieceType.pawn side p side MoveFlag.NO_FLAG c).get_to_sq
        = t % 64
      ∧ (Move.new f t PieceType.pawn side p side MoveFlag.NO_FLAG c).is_promo = true
      ∧ (Move.new f t PieceType.pawn side p side MoveFlag.NO_FLAG c).get_prom_side = side
      ∧ (Move.new f t PieceType.pawn side p side MoveFlag.NO_FLAG c).is_capture = c
      ∧ (Move.new f t PieceType.pawn side p side MoveFlag.NO_FLAG c).is_enpassant = false
      ∧ (Move.new f t PieceType.pawn side p side MoveFlag.NO_FLAG c).is_double_pawn
        = false := by
    intro p
    obtain ⟨-, g2, -, -, g5, g6, g7⟩ :=
      Move.getters_new_any f t PieceType.pawn side p side MoveFlag.NO_FLAG c
    refine ⟨g2, by rw [g7]; simpa using hs, ?_, g6, by rw [g5]; rfl,
      by rw [(Move.flag_getters_new_any _ _ _ _ _ _ _ _).2]; rfl⟩
    rw [Move.new_mod]
    exact (Move.getters_new _ _ PieceType.pawn side p side MoveFlag.NO_FLAG c
      (Nat.mod_lt _ (by norm_num)) (Nat.mod_lt _ (by norm_num))).2.2.2.2.2.1
  unfold promotion_moves at hm
  simp only [List.mem_cons, List.mem_singleton, List.not_mem_nil, or_false] at hm
  rcases hm with rfl | rfl | rfl | rfl <;> exact key _

/-- The getters of a pawn move that does not promote. -/
theorem quiet_pawn_getters (f t : Nat) (side : Side) (flag : MoveFlag) (c : Bool) :
    (Move.new f t PieceType.pawn side PieceType.pawn Side.any flag c).get_to_sq = t % 64
      ∧ (Move.new f t PieceType.pawn side PieceType.pawn Side.any flag c).is_promo = false
      ∧ (Move.new f t PieceType.pawn side PieceType.pawn Side.any flag c).is_capture = c
      ∧ (Move.new f t PieceType.pawn side PieceType.pawn Side.any flag c).is_enpassant
        = decide (flag = MoveFlag.EN_PASSANT)
      ∧ (Move.new f t PieceType.pawn side PieceType.pawn Side.any flag c).is_double_pawn
        = decide (flag = MoveFlag.PAWN_START) := by
  obtain ⟨-, g2, -, -, g5, g6, g7⟩ :=
    Move.getters_new_any f t PieceType.pawn side PieceType.pawn Side.any flag c
  exact ⟨g2, by rw [g7]; rfl, g6, g5, (Move.flag_getters_new_any _ _ _ _ _ _ _ _).2⟩

/-- The facts about a pawn of the side to move in a consistent position that the pawn
theorems share. -/
theorem pawn_facts (board : Board) (hc : board.consistent) (from_sq : Nat)
    (hf : (board.get_piece_bitboard PieceType.pawn board.side).testBit from_sq = true) :
    from_sq ∈ squares_of (board.get_piece_bitboard PieceType.pawn board.side)
      ∧ 8 ≤ from_sq ∧ from_sq < 56 ∧ board.side.toNat < 2
      ∧ (board.side.toNat = 0 → board.side = Side.white)
      ∧ (board.side.toNat = 1 → board.side = Side.black) := by
  have hs := hc.2.2.2.1
  have hlt := hc.1.piece_lt hs PieceType.pawn
  have hmem := (mem_squares_of hlt from_sq).2 hf
  obtain ⟨hbit, -⟩ := hc.mover_bit hmem
  have hidx : PieceType.pawn.toNat + 6 * board.side.toNat = 0
      ∨ PieceType.pawn.toNat + 6 * board.side.toNat = 6 := by
    rcases hs.toNat with ⟨-, hsv, -⟩ | ⟨-, hsv, -⟩ <;> rw [hsv] <;> simp [PieceType.toNat]
  obtain ⟨h8, h56⟩ := hc.pawn_rank hidx hbit
  refine ⟨hmem, h8, h56, Side.toNat_lt_two hs.ne_any, ?_, ?_⟩
  · intro h0
    rcases hs.toNat with ⟨hsw, -, -⟩ | ⟨-, hsv, -⟩
    · exact hsw
    · omega
  · intro h1
    rcases hs.toNat with ⟨-, hsv, -⟩ | ⟨hsb, -, -⟩
    · omega
    · exact hsb

/-- The value of `square_ahead` for the side with number `k`. -/
theorem square_ahead_eq (board : Board) (hs : board.side_ok) (sq n : Nat) :
    (board.side.toNat = 0 ∧ square_ahead board.side sq n = sq - 8 * n)
      ∨ (board.side.toNat = 1 ∧ square_ahead board.side sq n = sq + 8 * n) := by
  unfold square_ahead
  rcases hs.toNat with ⟨hsw, hsv, -⟩ | ⟨hsb, hsv, -⟩
  · exact Or.inl ⟨hsv, by rw [if_pos hsw]⟩
  · exact Or.inr ⟨hsv, by rw [if_neg (by rw [hsb]; decide)]⟩

/-- C21: in a consistent position with no pawn of the side to move on its own last rank
(`k` is 0 for white and 1 for black, the rows are counted from rank 8, so the last rank
is row `7 * k` and a pawn one step from promotion stands on row `1 + 5 * k`), for a pawn
of the side to move on `from_sq`: if it stands one step from promotion, the pawn moves
from `from_sq` in the list of `fill_move_array` are, in this order, the four promotions
(queen, rook, bishop, knight, promotion side the mover's) to the square ahead when that
square is empty, then the four capturing promotions to each enemy-occupied square of the
attack mask, and nothing else; if it stands on another rank, none of its moves promotes;
and a pawn move of the list lands on the last rank exactly when `is_promo` holds. The
en-passant square of a position lies on rank 3 or rank 6, behind a pawn that made a
double step; of this the theorem uses only `hep`, that the square is not on the last
rank of the side to move. -/
theorem promotion_moves_generated (board : Board) (hc : board.consistent)
    (hep : board.enpassant.1 = true → board.enpassant.2.toNat / 8 ≠ 7 * board.side.toNat)
    (from_sq : Nat)
    (hf : (board.get_piece_bitboard PieceType.pawn board.side).testBit from_sq = true) :
    (from_sq / 8 = 1 + 5 * board.side.toNat →
        (fill_move_array [] board).filter
            (fun m => decide (m.get_piece = PieceType.pawn ∧ m.get_from_sq = from_sq))
          = (if board.get_all_occupancy.testBit (square_ahead board.side from_sq 1) = true
              then []
              else promotion_moves from_sq (square_ahead board.side from_sq 1) board.side
                false)
            ++ (squares_of (pawn_masks board.side.toNat from_sq
                &&& board.get_occupancy (opposite_side board.side))).flatMap
              (fun t => promotion_moves from_sq t board.side true))
      ∧ (from_sq / 8 ≠ 1 + 5 * board.side.toNat →
        ∀ m ∈ fill_move_array [] board, m.get_piece = PieceType.pawn →
          m.get_from_sq = from_sq → m.is_promo = false)
      ∧ (∀ m ∈ fill_move_array [] board, m.get_piece = PieceType.pawn →
        (m.get_to_sq / 8 = 7 * board.side.toNat ↔ m.is_promo = true)) := by
  have hs := hc.2.2.2.1
  have hw := hc.1
  obtain ⟨hmem, h8, h56, hk, -, -⟩ := pawn_facts board hc from_sq hf
  have hnoep : ∀ f, f ∈ squares_of (board.get_piece_bitboard PieceType.pawn board.side) →
      f / 8 = 1 + 5 * board.side.toNat →
      ¬ (board.enpassant.1 = true
        ∧ (pawn_masks board.side.toNat f).testBit board.enpassant.2.toNat = true) := by
    rintro f hfm hr ⟨hset, hatt⟩
    have hflt := squares_of_lt (hw.piece_lt hs PieceType.pawn) hfm
    obtain ⟨-, r0, r1⟩ := pawn_mask_rank _ f _ hk hflt hatt
    have := hep hset
    have hk' : board.side.toNat = 0 ∨ board.side.toNat = 1 := by omega
    rcases hk' with h0 | h1
    · have := r0 h0; omega
    · have := r1 h1; omega
  refine ⟨?_, ?_, ?_⟩
  · intro hr
    rw [filter_fill_pawn board hw hs from_sq hmem, pawn_body_consistent board hc from_sq hmem]
    rw [if_neg (hnoep from_sq hmem hr), List.append_nil]
    have hcap : (fun capture_sq =>
          if from_sq / 8 = 1 + 5 * board.side.toNat then
            promotion_moves from_sq capture_sq board.side true
          else [Move.new from_sq capture_sq PieceType.pawn board.side PieceType.pawn Side.any
            MoveFlag.NO_FLAG true])
        = (fun t => promotion_moves from_sq t board.side true) := by
      funext t
      rw [if_pos hr]
    have hnd : ¬ (from_sq / 8 = 6 - 5 * board.side.toNat
        ∧ board.get_all_occupancy.testBit (square_ahead board.side from_sq 2) = false) := by
      intro h
      omega
    rw [hcap, if_pos hr, if_neg hnd, List.append_nil]
  · intro hr m hm hp hfrom
    have hbody := (mem_fill_pawn_iff board hw hs from_sq hmem m).1 ⟨hm, hp, hfrom⟩
    rcases (mem_pawn_body_consistent board hc from_sq hmem m).1 hbody with
      ⟨-, hr', -⟩ | ⟨-, -, rfl⟩ | ⟨-, -, -, rfl⟩ | ⟨t, -, hr', -⟩ | ⟨t, -, -, rfl⟩
      | ⟨-, -, rfl⟩
    · exact absurd hr' hr
    · exact (quiet_pawn_getters _ _ _ _ _).2.1
    · exact (quiet_pawn_getters _ _ _ _ _).2.1
    · exact absurd hr' hr
    · exact (quiet_pawn_getters _ _ _ _ _).2.1
    · exact (quiet_pawn_getters _ _ _ _ _).2.1
  · intro m hm hp
    obtain ⟨f, hfm, hbody⟩ := mem_fill_pawn_body board m hm hp
    have hlt := hw.piece_lt hs PieceType.pawn
    have hfbit := (mem_squares_of hlt f).1 hfm
    obtain ⟨-, f8, f56, -, -, -⟩ := pawn_facts board hc f hfbit
    have hflt : f < 64 := by omega
    have hk' : board.side.toNat = 0 ∨ board.side.toNat = 1 := by omega
    have hmask : ∀ t, t ∈ squares_of (pawn_masks board.side.toNat f
        &&& board.get_occupancy (opposite_side board.side)) →
        t < 64 ∧ (board.side.toNat = 0 → t / 8 + 1 = f / 8)
          ∧ (board.side.toNat = 1 → t / 8 = f / 8 + 1) := by
      intro t ht
      have hb := (mem_squares_of (and_lt_of_left _ (pawn_masks_lt _ _)) t).1 ht
      rw [Nat.testBit_and, Bool.and_eq_true] at hb
      exact pawn_mask_rank _ f t hk hflt hb.1
    have hquiet : ∀ t fl c, t < 64 → t / 8 ≠ 7 * board.side.toNat →
        ((Move.new f t PieceType.pawn board.side PieceType.pawn Side.any fl c).get_to_sq / 8
            = 7 * board.side.toNat
          ↔ (Move.new f t PieceType.pawn board.side PieceType.pawn Side.any fl c).is_promo
            = true) := by
      intro t fl c ht hne
      obtain ⟨g1, g2, -⟩ := quiet_pawn_getters f t board.side fl c
      rw [g1, g2, Nat.mod_eq_of_lt ht]
      constructor
      · intro h; exact absurd h hne
      · intro h; exact absurd h (by decide)
    have hprom : ∀ t c m', t < 64 → t / 8 = 7 * board.side.toNat →
        m' ∈ promotion_moves f t board.side c →
        (m'.get_to_sq / 8 = 7 * board.side.toNat ↔ m'.is_promo = true) := by
      intro t c m' ht he hm'
      obtain ⟨g1, g2, -⟩ := promotion_moves_getters f t board.side hs.ne_any c m' hm'
      rw [g1, g2, Nat.mod_eq_of_lt ht]
      exact ⟨fun _ => rfl, fun _ => he⟩
    rcases (mem_pawn_body_consistent board hc f hfm m).1 hbody with
      ⟨-, hr, hm'⟩ | ⟨-, hr, rfl⟩ | ⟨-, hr, -, rfl⟩ | ⟨t, ht, hr, hm'⟩ | ⟨t, ht, hr, rfl⟩
      | ⟨hset, hatt, rfl⟩
    · rcases square_ahead_eq board hs f 1 with ⟨h0, e⟩ | ⟨h1, e⟩
      · exact hprom _ _ m (by rw [e]; omega) (by rw [e]; omega) hm'
      · exact hprom _ _ m (by rw [e]; omega) (by rw [e]; omega) hm'
    · rcases square_ahead_eq board hs f 1 with ⟨h0, e⟩ | ⟨h1, e⟩
      · exact hquiet _ _ _ (by rw [e]; omega) (by rw [e]; omega)
      · exact hquiet _ _ _ (by rw [e]; omega) (by rw [e]; omega)
    · rcases square_ahead_eq board hs f 2 with ⟨h0, e⟩ | ⟨h1, e⟩
      · exact hquiet _ _ _ (by rw [e]; omega) (by rw [e]; omega)
      · exact hquiet _ _ _ (by rw [e]; omega) (by rw [e]; omega)
    · obtain ⟨h64, r0, r1⟩ := hmask t ht
      refine hprom t _ m h64 ?_ hm'
      rcases hk' with h0 | h1
      · have := r0 h0; omega
      · have := r1 h1; omega
    · obtain ⟨h64, r0, r1⟩ := hmask t ht
      refine hquiet t _ _ h64 ?_
      rcases hk' with h0 | h1
      · have := r0 h0; omega
      · have := r1 h1; omega
    · obtain ⟨h64, -, -⟩ := pawn_mask_rank _ f _ hk hflt hatt
      exact hquiet _ _ _ h64 (hep hset)

/-- What `hep` keeps out: `load_fen` also accepts the en-passant field `e8`, which no
well-formed FEN has and which `make_move` never sets. In
`k7/3Pp3/8/8/8/8/8/4K3 w - e8 0 1` the white pawn on d7 (11) then yields the en-passant
capture d7-e8 (4), a move that lands on the last rank without promoting. -/
theorem enpassant_move_lands_on_last_rank :
    ∃ board, Board.load_fen Board.initial "k7/3Pp3/8/8/8/8/8/4K3 w - e8 0 1" = some board
      ∧ board.consistent
      ∧ board.side = Side.white
      ∧ board.get_piece_bitboard PieceType.pawn board.side &&& 0xFF = 0
      ∧ (board.get_piece_bitboard PieceType.pawn board.side).testBit 11 = true
      ∧ Move.new 11 4 PieceType.pawn Side.white PieceType.pawn Side.any MoveFlag.EN_PASSANT
          true ∈ fill_move_array [] board
      ∧ (Move.new 11 4 PieceType.pawn Side.white PieceType.pawn Side.any MoveFlag.EN_PASSANT
          true).get_piece = PieceType.pawn
      ∧ (Move.new 11 4 PieceType.pawn Side.white PieceType.pawn Side.any MoveFlag.EN_PASSANT
          true).get_from_sq = 11
      ∧ (Move.new 11 4 PieceType.pawn Side.white PieceType.pawn Side.any MoveFlag.EN_PASSANT
          true).get_to_sq / 8 = 0
      ∧ (Move.new 11 4 PieceType.pawn Side.white PieceType.pawn Side.any MoveFlag.EN_PASSANT
          true).is_promo = false := by
  refine ⟨_, rfl, ?_, ?_, ?_, ?_, ?_, ?_, ?_, ?_, ?_⟩ <;> decide!

/-- C21 at `3n4/4P3/8/8/8/8/8/k3K3 w - - 0 1`: the white pawn on e7 (12) has the
four promotions to e8 followed by the four capturing promotions on d8. -/
theorem promotion_moves_generated_witness :
    ((Board.of_fen "3n4/4P3/8/8/8/8/8/k3K3 w - - 0 1").consistent
      ∧ ((Board.of_fen "3n4/4P3/8/8/8/8/8/k3K3 w - - 0 1").enpassant.1 = true →
        (Board.of_fen "3n4/4P3/8/8/8/8/8/k3K3 w - - 0 1").enpassant.2.toNat / 8
          ≠ 7 * (Board.of_fen "3n4/4P3/8/8/8/8/8/k3K3 w - - 0 1").side.toNat)
      ∧ ((Board.of_fen "3n4/4P3/8/8/8/8/8/k3K3 w - - 0 1").get_piece_bitboard PieceType.pawn
          (Board.of_fen "3n4/4P3/8/8/8/8/8/k3K3 w - - 0 1").side).testBit 12 = true
      ∧ 12 / 8 = 1 + 5 * (Board.of_fen "3n4/4P3/8/8/8/8/8/k3K3 w - - 0 1").side.toNat)
      ∧ (fill_move_array [] (Board.of_fen "3n4/4P3/8/8/8/8/8/k3K3 w - - 0 1")).filter
          (fun m => decide (m.get_piece = PieceType.pawn ∧ m.get_from_sq = 12))
        = (if (Board.of_fen "3n4/4P3/8/8/8/8/8/k3K3 w - - 0 1").get_all_occupancy.testBit
              (square_ahead (Board.of_fen "3n4/4P3/8/8/8/8/8/k3K3 w - - 0 1").side 12 1) = true
            then []
            else promotion_moves 12
              (square_ahead (Board.of_fen "3n4/4P3/8/8/8/8/8/k3K3 w - - 0 1").side 12 1)
              (Board.of_fen "3n4/4P3/8/8/8/8/8/k3K3 w - - 0 1").side false)
          ++ (squares_of (pawn_masks
                (Board.of_fen "3n4/4P3/8/8/8/8/8/k3K3 w - - 0 1").side.toNat 12
              &&& (Board.of_fen "3n4/4P3/8/8/8/8/8/k3K3 w - - 0 1").get_occupancy
                (opposite_side (Board.of_fen "3n4/4P3/8/8/8/8/8/k3K3 w - - 0 1").side))).flatMap
            (fun t => promotion_moves 12 t
              (Board.of_fen "3n4/4P3/8/8/8/8/8/k3K3 w - - 0 1").side true) :=
  ⟨⟨by decide!, by decide!, by decide!, by decide!⟩,
    (promotion_moves_generated _ (by decide!) (by decide!) 12 (by decide!)).1 (by decide!)⟩

/-! ## C22: pushes and captures of a pawn -/

/-- The first promotion move of the list is the queen promotion. -/
theorem queen_promotion_mem (f t : Nat) (side : Side) (c : Bool) :
    Move.new f t PieceType.pawn side PieceType.queen side MoveFlag.NO_FLAG c
      ∈ promotion_moves f t side c := by
  unfold promotion_moves
  exact List.mem_cons_self _ _

/-- C22: in a consistent position, for a pawn of the side to move on `from_sq` (`k` is 0
for white and 1 for black; the square ahead is `from_sq - 8` for white and `from_sq + 8`
for black): the list of `fill_move_array` holds a push of that pawn to the square ahead
(a pawn move that is no capture and no double push, promoting or not) exactly when that
square is empty; it holds the double push to the square two ahead, with the flag
PAWN_START, exactly when the pawn stands on its starting rank (row `6 - 5 * k`) and both
squares ahead are empty, and this is the only move of the pawn with that flag; and it
holds a capture of that pawn onto `t` (capture bit set, not en passant) exactly for the
squares `t` of the pawn's attack mask that the enemy occupies. -/
theorem pawn_pushes_and_captures (board : Board) (hc : board.consistent) (from_sq : Nat)
    (hf : (board.get_piece_bitboard PieceType.pawn board.side).testBit from_sq = true) :
    ((∃ m ∈ fill_move_array [] board, m.get_piece = PieceType.pawn
          ∧ m.get_from_sq = from_sq ∧ m.get_to_sq = square_ahead board.side from_sq 1
          ∧ m.is_capture = false ∧ m.is_double_pawn = false)
        ↔ board.get_all_occupancy.testBit (square_ahead board.side from_sq 1) = false)
      ∧ (Move.new from_sq (square_ahead board.side from_sq 2) PieceType.pawn board.side
            PieceType.pawn Side.any MoveFlag.PAWN_START false ∈ fill_move_array [] board
        ↔ (from_sq / 8 = 6 - 5 * board.side.toNat
          ∧ board.get_all_occupancy.testBit (square_ahead board.side from_sq 1) = false
          ∧ board.get_all_occupancy.testBit (square_ahead board.side from_sq 2) = false))
      ∧ (∀ m ∈ fill_move_array [] board, m.get_piece = PieceType.pawn →
        m.get_from_sq = from_sq → m.is_double_pawn = true →
          m = Move.new from_sq (square_ahead board.side from_sq 2) PieceType.pawn board.side
            PieceType.pawn Side.any MoveFlag.PAWN_START false)
      ∧ (∀ t, (∃ m ∈ fill_move_array [] board, m.get_piece = PieceType.pawn
            ∧ m.get_from_sq = from_sq ∧ m.get_to_sq = t ∧ m.is_capture = true
            ∧ m.is_enpassant = false)
        ↔ ((pawn_masks board.side.toNat from_sq).testBit t = true
          ∧ (board.get_occupancy (opposite_side board.side)).testBit t = true)) := by
  have hs := hc.2.2.2.1
  have hw := hc.1
  obtain ⟨hmem, h8, h56, hk, -, -⟩ := pawn_facts board hc from_sq hf
  have hflt : from_sq < 64 := by omega
  have hbody : ∀ m, (m ∈ fill_move_array [] board ∧ m.get_piece = PieceType.pawn
      ∧ m.get_from_sq = from_sq) ↔ _ :=
    fun m => (mem_fill_pawn_iff board hw hs from_sq hmem m).trans
      (mem_pawn_body_consistent board hc from_sq hmem m)
  have ha1 : square_ahead board.side from_sq 1 < 64 := by
    rcases square_ahead_eq board hs from_sq 1 with ⟨-, e⟩ | ⟨-, e⟩ <;> rw [e] <;> omega
  have hmask : ∀ t, t ∈ squares_of (pawn_masks board.side.toNat from_sq
      &&& board.get_occupancy (opposite_side board.side))
      ↔ ((pawn_masks board.side.toNat from_sq).testBit t = true
        ∧ (board.get_occupancy (opposite_side board.side)).testBit t = true) := by
    intro t
    rw [mem_squares_of (and_lt_of_left _ (pawn_masks_lt _ _)), Nat.testBit_and,
      Bool.and_eq_true]
  have hmask64 : ∀ t, (pawn_masks board.side.toNat from_sq).testBit t = true → t < 64 :=
    fun t h => testBit_of_lt_64 (pawn_masks_lt _ _) h
  refine ⟨?_, ?_, ?_, ?_⟩
  · constructor
    · rintro ⟨m, hm, hp, hfrom, hto, hcap, hdbl⟩
      rcases (hbody m).1 ⟨hm, hp, hfrom⟩ with
        ⟨hfree, -, -⟩ | ⟨hfree, -, -⟩ | ⟨hfree, -, -, -⟩ | ⟨t, -, -, hm'⟩ | ⟨t, -, -, rfl⟩
        | ⟨-, -, rfl⟩
      · exact hfree
      · exact hfree
      · exact hfree
      · have := (promotion_moves_getters _ _ _ hs.ne_any _ m hm').2.2.2.1
        rw [hcap] at this
        exact absurd this (by decide)
      · rw [(quiet_pawn_getters _ _ _ _ _).2.2.1] at hcap
        exact absurd hcap (by decide)
      · rw [(quiet_pawn_getters _ _ _ _ _).2.2.1] at hcap
        exact absurd hcap (by decide)
    · intro hfree
      by_cases hr : from_sq / 8 = 1 + 5 * board.side.toNat
      · have hin := (hbody _).2 (Or.inl ⟨hfree, hr, queen_promotion_mem from_sq
          (square_ahead board.side from_sq 1) board.side false⟩)
        obtain ⟨g1, -, -, g4, -, g6⟩ := promotion_moves_getters from_sq
          (square_ahead board.side from_sq 1) board.side hs.ne_any false _
          (queen_promotion_mem _ _ _ _)
        exact ⟨_, hin.1, hin.2.1, hin.2.2, by rw [g1, Nat.mod_eq_of_lt ha1], g4, g6⟩
      · have hin := (hbody _).2 (Or.inr (Or.inl ⟨hfree, hr, rfl⟩))
        obtain ⟨g1, -, g3, -, g5⟩ := quiet_pawn_getters from_sq
          (square_ahead board.side from_sq 1) board.side MoveFlag.NO_FLAG false
        exact ⟨_, hin.1, hin.2.1, hin.2.2, by rw [g1, Nat.mod_eq_of_lt ha1], g3,
          by rw [g5]; rfl⟩
  · have hd : (Move.new from_sq (square_ahead board.side from_sq 2) PieceType.pawn board.side
        PieceType.pawn Side.any MoveFlag.PAWN_START false).is_double_pawn = true := by
      rw [(quiet_pawn_getters _ _ _ _ _).2.2.2.2]; rfl
    obtain ⟨g1, -, g3, -⟩ := Move.getters_new_any from_sq (square_ahead board.side from_sq 2)
      PieceType.pawn board.side PieceType.pawn Side.any MoveFlag.PAWN_START false
    constructor
    · intro hm
      rcases (hbody _).1 ⟨hm, g3, by rw [g1]; omega⟩ with
        ⟨-, -, hm'⟩ | ⟨-, -, e⟩ | ⟨hfree, hr, h2, -⟩ | ⟨t, -, -, hm'⟩ | ⟨t, -, -, e⟩
        | ⟨-, -, e⟩
      · have := (promotion_moves_getters _ _ _ hs.ne_any _ _ hm').2.2.2.2.2
        rw [hd] at this
        exact absurd this (by decide)
      · rw [e, (quiet_pawn_getters _ _ _ _ _).2.2.2.2] at hd
        exact absurd hd (by decide)
      · exact ⟨hr, hfree, h2⟩
      · have := (promotion_moves_getters _ _ _ hs.ne_any _ _ hm').2.2.2.2.2
        rw [hd] at this
        exact absurd this (by decide)
      · rw [e, (quiet_pawn_getters _ _ _ _ _).2.2.2.2] at hd
        exact absurd hd (by decide)
      · rw [e, (quiet_pawn_getters _ _ _ _ _).2.2.2.2] at hd
        exact absurd hd (by decide)
    · rintro ⟨hr, hfree, h2⟩
      exact ((hbody _).2 (Or.inr (Or.inr (Or.inl ⟨hfree, hr, h2, rfl⟩)))).1
  · intro m hm hp hfrom hd
    rcases (hbody m).1 ⟨hm, hp, hfrom⟩ with
      ⟨-, -, hm'⟩ | ⟨-, -, rfl⟩ | ⟨-, -, -, e⟩ | ⟨t, -, -, hm'⟩ | ⟨t, -, -, rfl⟩
      | ⟨-, -, rfl⟩
    · have := (promotion_moves_getters _ _ _ hs.ne_any _ _ hm').2.2.2.2.2
      rw [hd] at this
      exact absurd this (by decide)
    · rw [(quiet_pawn_getters _ _ _ _ _).2.2.2.2] at hd
      exact absurd hd (by decide)
    · exact e
    · have := (promotion_moves_getters _ _ _ hs.ne_any _ _ hm').2.2.2.2.2
      rw [hd] at this
      exact absurd this (by decide)
    · rw [(quiet_pawn_getters _ _ _ _ _).2.2.2.2] at hd
      exact absurd hd (by decide)
    · rw [(quiet_pawn_getters _ _ _ _ _).2.2.2.2] at hd
      exact absurd hd (by decide)
  · intro t
    constructor
    · rintro ⟨m, hm, hp, hfrom, hto, hcap, hep⟩
      rcases (hbody m).1 ⟨hm, hp, hfrom⟩ with
        ⟨-, -, hm'⟩ | ⟨-, -, rfl⟩ | ⟨-, -, -, rfl⟩ | ⟨t', ht', -, hm'⟩ | ⟨t', ht', -, rfl⟩
        | ⟨-, -, rfl⟩
      · have := (promotion_moves_getters _ _ _ hs.ne_any _ _ hm').2.2.2.1
        rw [hcap] at this
        exact absurd this (by decide)
      · rw [(quiet_pawn_getters _ _ _ _ _).2.2.1] at hcap
        exact absurd hcap (by decide)
      · rw [(quiet_pawn_getters _ _ _ _ _).2.2.1] at hcap
        exact absurd hcap (by decide)
      · have hb := (hmask t').1 ht'
        have := (promotion_moves_getters _ _ _ hs.ne_any _ _ hm').1
        rw [hto, Nat.mod_eq_of_lt (hmask64 t' hb.1)] at this
        rw [this]
        exact hb
      · have hb := (hmask t').1 ht'
        have := (quiet_pawn_getters from_sq t' board.side MoveFlag.NO_FLAG true).1
        rw [hto, Nat.mod_eq_of_lt (hmask64 t' hb.1)] at this
        rw [this]
        exact hb
      · rw [(quiet_pawn_getters _ _ _ _ _).2.2.2.1] at hep
        exact absurd hep (by decide)
    · intro hb
      have ht := (hmask t).2 hb
      have h64 := hmask64 t hb.1
      by_cases hr : from_sq / 8 = 1 + 5 * board.side.toNat
      · have hin := (hbody _).2 (Or.inr (Or.inr (Or.inr (Or.inl
          ⟨t, ht, hr, queen_promotion_mem from_sq t board.side true⟩))))
        obtain ⟨g1, -, -, g4, g5, -⟩ := promotion_moves_getters from_sq t board.side
          hs.ne_any true _ (queen_promotion_mem _ _ _ _)
        exact ⟨_, hin.1, hin.2.1, hin.2.2, by rw [g1, Nat.mod_eq_of_lt h64], g4, g5⟩
      · have hin := (hbody _).2 (Or.inr (Or.inr (Or.inr (Or.inr (Or.inl ⟨t, ht, hr, rfl⟩)))))
        obtain ⟨g1, -, g3, g4, -⟩ := quiet_pawn_getters from_sq t board.side
          MoveFlag.NO_FLAG true
        exact ⟨_, hin.1, hin.2.1, hin.2.2, by rw [g1, Nat.mod_eq_of_lt h64], g3,
          by rw [g4]; rfl⟩

/-- C22 at the starting position: the e-pawn (52) stands on its starting rank with e3 and
e4 empty, so its double push is in the list. -/
theorem pawn_pushes_and_captures_witness :
    ((Board.of_fen "rnbqkbnr/pppppppp/8/8/8/8/PPPPPPPP/RNBQKBNR w KQkq - 0 1").consistent
      ∧ ((Board.of_fen
          "rnbqkbnr/pppppppp/8/8/8/8/PPPPPPPP/RNBQKBNR w KQkq - 0 1").get_piece_bitboard
          PieceType.pawn
          (Board.of_fen "rnbqkbnr/pppppppp/8/8/8/8/PPPPPPPP/RNBQKBNR w KQkq - 0 1").side).testBit
          52 = true)
      ∧ Move.new 52
          (square_ahead
            (Board.of_fen "rnbqkbnr/pppppppp/8/8/8/8/PPPPPPPP/RNBQKBNR w KQkq - 0 1").side 52 2)
          PieceType.pawn
          (Board.of_fen "rnbqkbnr/pppppppp/8/8/8/8/PPPPPPPP/RNBQKBNR w KQkq - 0 1").side
          PieceType.pawn Side.any MoveFlag.PAWN_START false
        ∈ fill_move_array []
          (Board.of_fen "rnbqkbnr/pppppppp/8/8/8/8/PPPPPPPP/RNBQKBNR w KQkq - 0 1") :=
  ⟨⟨by decide!, by decide!⟩,
    (pawn_pushes_and_captures _ (by decide!) 52 (by decide!)).2.1.2
      ⟨by decide!, by decide!, by decide!⟩⟩

/-! ## C23: en-passant captures -/

/-- The bitboard of the victim after a move that neither promotes nor castles, when the
victim is no piece of the mover's own index. -/
theorem after_move_loc_victim (P : Placement) (move : Move) (idx sq : Nat)
    (h1 : idx ≠ move.get_piece.toNat + 6 * move.get_side_of_piece.toNat)
    (h2 : move.is_promo = false) (h3 : move.is_castle = false) :
    (P.after_move move (some (idx, sq))).loc idx = pop_bit (P.loc idx) sq := by
  unfold Placement.after_move
  simp only [h2, h3, if_false, Bool.false_eq_true]
  rw [place_at_loc_other _ _ _ _ _ h1, remove_at_loc_other _ _ _ _ _ h1, remove_at_loc_same]

/-- C23 (amended): in a consistent position (so that a set en-passant square is an empty
square of the board with an enemy pawn directly behind it), for a pawn of the side to
move on `from_sq`: the list of `fill_move_array` holds an en-passant move of that pawn
exactly when an en-passant square is set and lies in the pawn's attack mask; such a move
goes to the en-passant square and carries the flag EN_PASSANT and the capture bit; and
when `make_move` accepts it, an enemy pawn stood on the square directly behind the
destination (destination + 8 for a white mover, destination - 8 for a black mover), that
pawn is removed, and every other piece bitboard of the enemy is unchanged. -/
theorem enpassant_move_generated (board : Board) (hc : board.consistent) (from_sq : Nat)
    (hf : (board.get_piece_bitboard PieceType.pawn board.side).testBit from_sq = true) :
    ((∃ m ∈ fill_move_array [] board, m.get_piece = PieceType.pawn
          ∧ m.get_from_sq = from_sq ∧ m.is_enpassant = true)
        ↔ (board.enpassant.1 = true
          ∧ (pawn_masks board.side.toNat from_sq).testBit board.enpassant.2.toNat = true))
      ∧ ∀ m ∈ fill_move_array [] board, m.get_piece = PieceType.pawn →
        m.get_from_sq = from_sq → m.is_enpassant = true →
          m = Move.new from_sq board.enpassant.2.toNat PieceType.pawn board.side
              PieceType.pawn Side.any MoveFlag.EN_PASSANT true
            ∧ m.get_to_sq = board.enpassant.2.toNat
            ∧ m.is_capture = true
            ∧ ((board.make_move m).1 = true →
              (board.piece_location (6 * (opposite_side board.side).toNat)).testBit
                  (if board.side = Side.white then m.get_to_sq + 8 else m.get_to_sq - 8) = true
                ∧ (board.make_move m).2.piece_location (6 * (opposite_side board.side).toNat)
                  = pop_bit (board.piece_location (6 * (opposite_side board.side).toNat))
                      (if board.side = Side.white then m.get_to_sq + 8 else m.get_to_sq - 8)
                ∧ ∀ p, 6 * (opposite_side board.side).toNat < p →
                    p < 6 * (opposite_side board.side).toNat + 6 →
                    (board.make_move m).2.piece_location p = board.piece_location p) := by
  have hs := hc.2.2.2.1
  have hw := hc.1
  obtain ⟨hmem, h8, h56, hk, -, -⟩ := pawn_facts board hc from_sq hf
  have hflt : from_sq < 64 := by omega
  have hbody : ∀ m, (m ∈ fill_move_array [] board ∧ m.get_piece = PieceType.pawn
      ∧ m.get_from_sq = from_sq) ↔ _ :=
    fun m => (mem_fill_pawn_iff board hw hs from_sq hmem m).trans
      (mem_pawn_body_consistent board hc from_sq hmem m)
  have hshape : ∀ m ∈ fill_move_array [] board, m.get_piece = PieceType.pawn →
      m.get_from_sq = from_sq → m.is_enpassant = true →
      board.enpassant.1 = true
        ∧ (pawn_masks board.side.toNat from_sq).testBit board.enpassant.2.toNat = true
        ∧ m = Move.new from_sq board.enpassant.2.toNat PieceType.pawn board.side
            PieceType.pawn Side.any MoveFlag.EN_PASSANT true := by
    intro m hm hp hfrom hep
    rcases (hbody m).1 ⟨hm, hp, hfrom⟩ with
      ⟨-, -, hm'⟩ | ⟨-, -, rfl⟩ | ⟨-, -, -, rfl⟩ | ⟨t, -, -, hm'⟩ | ⟨t, -, -, rfl⟩
      | ⟨hset, hatt, e⟩
    · have := (promotion_moves_getters _ _ _ hs.ne_any _ _ hm').2.2.2.2.1
      rw [hep] at this
      exact absurd this (by decide)
    · rw [(quiet_pawn_getters _ _ _ _ _).2.2.2.1] at hep
      exact absurd hep (by decide)
    · rw [(quiet_pawn_getters _ _ _ _ _).2.2.2.1] at hep
      exact absurd hep (by decide)
    · have := (promotion_moves_getters _ _ _ hs.ne_any _ _ hm').2.2.2.2.1
      rw [hep] at this
      exact absurd this (by decide)
    · rw [(quiet_pawn_getters _ _ _ _ _).2.2.2.1] at hep
      exact absurd hep (by decide)
    · exact ⟨hset, hatt, e⟩
  refine ⟨⟨?_, ?_⟩, ?_⟩
  · rintro ⟨m, hm, hp, hfrom, hep⟩
    obtain ⟨hset, hatt, -⟩ := hshape m hm hp hfrom hep
    exact ⟨hset, hatt⟩
  · rintro ⟨hset, hatt⟩
    have hin := (hbody _).2 (Or.inr (Or.inr (Or.inr (Or.inr (Or.inr ⟨hset, hatt, rfl⟩)))))
    exact ⟨_, hin.1, hin.2.1, hin.2.2, by rw [(quiet_pawn_getters _ _ _ _ _).2.2.2.1]; rfl⟩
  · intro m hm hp hfrom hep
    obtain ⟨hset, hatt, e⟩ := hshape m hm hp hfrom hep
    have he64 : board.enpassant.2.toNat < 64 := testBit_of_lt_64 (pawn_masks_lt _ _) hatt
    obtain ⟨g1, g2, g3, -, -⟩ := quiet_pawn_getters from_sq board.enpassant.2.toNat board.side
      MoveFlag.EN_PASSANT true
    have hto : m.get_to_sq = board.enpassant.2.toNat := by
      rw [e, g1, Nat.mod_eq_of_lt he64]
    have hcap : m.is_capture = true := by rw [e, g3]
    have hpromo : m.is_promo = false := by rw [e, g2]
    have hcastle : m.is_castle = false := by
      rw [e, (Move.flag_getters_new_any _ _ _ _ _ _ _ _).1]; rfl
    refine ⟨e, hto, hcap, ?_⟩
    intro hacc
    have hgen := generated_of_mem board m hm
    have hside := hgen.side_of_piece
    have hbits := hc.bits_ok
    obtain ⟨victim, hvic, epl, -⟩ := make_move_apply_placement_ok board m hbits (hgen.fits hc)
    have hloc : ∀ p, (board.make_move m).2.piece_location p
        = (board.placement.after_move m victim).loc p := by
      intro p
      rw [make_move_eq_of_accepted board m hacc]
      exact congrFun (congrArg Placement.loc epl) p
    have ho := opposite_side_toNat hs.ne_any
    have hpawn := hgen.enpassant_victim hc hep
    have hbehind : ((m.get_to_sq : Int) + 8 - 16 * (board.side.toNat : Int)).toNat
        = (if board.side = Side.white then m.get_to_sq + 8 else m.get_to_sq - 8) := by
      rcases hs.toNat with ⟨hsw, hsv, -⟩ | ⟨hsb, hsv, -⟩
      · rw [if_pos hsw, hsv]; omega
      · rw [if_neg (by rw [hsb]; decide), hsv]; omega
    rw [hbehind] at hpawn
    have hP : ∀ p, board.placement.loc p = board.piece_location p := fun _ => rfl
    have hmover : m.get_piece.toNat + 6 * m.get_side_of_piece.toNat
        = 6 * board.side.toNat := by
      rw [hp, hside]; simp [PieceType.toNat]
    -- the victim is the enemy pawn behind the destination
    rcases hvic with ⟨-, hnc⟩ | ⟨idx, sq, hsome, -, hlo, hhi, hbit, hwhere⟩
    · rw [hcap] at hnc; exact absurd hnc (by decide)
    · have hsq : sq = (if board.side = Side.white then m.get_to_sq + 8
          else m.get_to_sq - 8) := by
        rcases hwhere with ⟨hne, -⟩ | ⟨-, hsq⟩
        · rw [hep] at hne; exact absurd hne (by decide)
        · rw [hsq, hside, hbehind]
      have hidx : idx = 6 * (opposite_side board.side).toNat := by
        rw [hside] at hlo hhi
        exact hbits.disjoint idx _ sq (by omega) (by omega) hbit (by rw [hsq]; exact hpawn)
      subst hsome
      refine ⟨hpawn, ?_, ?_⟩
      · rw [hloc, hidx, after_move_loc_victim _ _ _ _ (by rw [hmover]; omega) hpromo hcastle,
          hsq, hP]
      · intro p hp1 hp2
        rw [hloc, after_move_loc_other _ _ _ p (by
            intro v hv
            obtain rfl := Option.some.inj hv
            show p ≠ idx
            omega) (by rw [hmover]; omega) (by intro h; rw [hpromo] at h; exact absurd h (by decide))
          (by rw [hside]; omega), hP]

/-- C23 as stated fails: in `4k3/8/8/3Pn3/8/8/8/4K3 w - e6 0 1` the en-passant square e6
(20) is set and lies in the attack mask of the white pawn on d5 (27), so the en-passant
move d5-e6 is in the list; `make_move` accepts it and removes the black knight from e5
(28), the square behind the destination, and no pawn. -/
theorem enpassant_capture_removes_knight :
    ∃ board, Board.load_fen Board.initial "4k3/8/8/3Pn3/8/8/8/4K3 w - e6 0 1" = some board
      ∧ board.side = Side.white
      ∧ (board.get_piece_bitboard PieceType.pawn board.side).testBit 27 = true
      ∧ Move.new 27 20 PieceType.pawn Side.white PieceType.pawn Side.any MoveFlag.EN_PASSANT
          true ∈ fill_move_array [] board
      ∧ (board.make_move (Move.new 27 20 PieceType.pawn Side.white PieceType.pawn Side.any
          MoveFlag.EN_PASSANT true)).1 = true
      ∧ (board.get_piece_bitboard PieceType.pawn Side.black).testBit 28 = false
      ∧ (board.get_piece_bitboard PieceType.knight Side.black).testBit 28 = true
      ∧ ((board.make_move (Move.new 27 20 PieceType.pawn Side.white PieceType.pawn Side.any
          MoveFlag.EN_PASSANT true)).2.get_piece_bitboard PieceType.knight Side.black).testBit
          28 = false
      ∧ (board.make_move (Move.new 27 20 PieceType.pawn Side.white PieceType.pawn Side.any
          MoveFlag.EN_PASSANT true)).2.get_piece_bitboard PieceType.pawn Side.black
        = board.get_piece_bitboard PieceType.pawn Side.black := by
  refine ⟨_, rfl, ?_, ?_, ?_, ?_, ?_, ?_, ?_, ?_⟩ <;> decide!

/-- C23 (amended) at `4k3/8/8/3Pp3/8/8/8/4K3 w - e6 0 1`: the white pawn on d5 (27) has
the en-passant square e6 (20) in its attack mask, so an en-passant move of that pawn is
in the list. -/
theorem enpassant_move_generated_witness :
    ((Board.of_fen "4k3/8/8/3Pp3/8/8/8/4K3 w - e6 0 1").consistent
      ∧ ((Board.of_fen "4k3/8/8/3Pp3/8/8/8/4K3 w - e6 0 1").get_piece_bitboard PieceType.pawn
          (Board.of_fen "4k3/8/8/3Pp3/8/8/8/4K3 w - e6 0 1").side).testBit 27 = true)
      ∧ ∃ m ∈ fill_move_array [] (Board.of_fen "4k3/8/8/3Pp3/8/8/8/4K3 w - e6 0 1"),
        m.get_piece = PieceType.pawn ∧ m.get_from_sq = 27 ∧ m.is_enpassant = true :=
  ⟨⟨by decide!, by decide!⟩,
    (enpassant_move_generated _ (by decide!) 27 (by decide!)).1.2 ⟨by decide!, by decide!⟩⟩

/-! ## C24 and C30: the draw rule and the capture scores of the search -/

/-- The method `isPositionRepeated` is true exactly when the key occurs below
`repetitionIndex`. -/
theorem isPositionRepeated_iff (search : ChessSearch) (hashKey : Nat) :
    search.isPositionRepeated hashKey = true
      ↔ ∃ i : Nat, (i : Int) < search.repetitionIndex ∧ search.repetitionTable i = hashKey := by
  unfold ChessSearch.isPositionRepeated
  rw [List.any_eq_true]
  constructor
  · rintro ⟨i, hi, he⟩
    rw [List.mem_range] at hi
    exact ⟨i, by omega, by simpa using he⟩
  · rintro ⟨i, hi, he⟩
    exact ⟨i, List.mem_range.2 (by omega), by simpa using he⟩

/-- C24: at a node that is not the root (`currentPly != 0`), when the fifty-move counter
of the board is at least 100 or the hash key of the board occurs in
`repetitionTable[0 .. repetitionIndex)`, `negamaxSearch` returns 0 for every alpha, beta
and depth. The state it leaves differs from the one it was given only in the
principal-variation length of the current ply, and the board is untouched; the result
does not depend on the evaluator or on the content of the transposition table, neither
of which is consulted. -/
theorem negamaxSearch_draw_returns_zero (evaluate : Board → Int) (fuel : Nat)
    (alpha beta depth : Int) (board : Board) (search : ChessSearch)
    (hply : search.currentPly ≠ 0)
    (hdraw : board.fifty ≥ 100
      ∨ ∃ i : Nat, (i : Int) < search.repetitionIndex
        ∧ search.repetitionTable i = board.hash_key) :
    ChessSearch.negamaxSearch evaluate (fuel + 1) alpha beta depth board search
        = some (0,
          { search with
            principalVariationLengths :=
              tab_set search.principalVariationLengths search.currentPly.toNat
                search.currentPly },
          board)
      ∧ ∀ (evaluate' : Board → Int) (table : TranspositionTable),
        (ChessSearch.negamaxSearch evaluate' (fuel + 1) alpha beta depth board
          { search with transpositionTable := table }).map (fun r => r.1) = some 0 := by
  have key : ∀ (ev : Board → Int) (s : ChessSearch), s.currentPly ≠ 0 →
      (board.fifty ≥ 100
        ∨ ∃ i : Nat, (i : Int) < s.repetitionIndex ∧ s.repetitionTable i = board.hash_key) →
      ChessSearch.negamaxSearch ev (fuel + 1) alpha beta depth board s
        = some (0,
          { s with
            principalVariationLengths :=
              tab_set s.principalVariationLengths s.currentPly.toNat s.currentPly },
          board) := by
    intro ev s hp hd
    have hcond : ({ s with
          principalVariationLengths :=
            tab_set s.principalVariationLengths s.currentPly.toNat s.currentPly }
          : ChessSearch).currentPly ≠ 0
        ∧ (({ s with
          principalVariationLengths :=
            tab_set s.principalVariationLengths s.currentPly.toNat s.currentPly }
          : ChessSearch).isPositionRepeated board.hash_key = true ∨ board.fifty ≥ 100) := by
      refine ⟨hp, ?_⟩
      rcases hd with h | h
      · exact Or.inr h
      · exact Or.inl ((isPositionRepeated_iff _ _).2 h)
    rw [ChessSearch.negamaxSearch]
    simp only
    rw [if_pos hcond]
  refine ⟨key evaluate search hply hdraw, ?_⟩
  intro evaluate' table
  rw [key evaluate' { search with transpositionTable := table } hply hdraw]
  rfl

/-- C24 at a position with the fifty-move counter at 100, one ply below the root. -/
theorem negamaxSearch_draw_returns_zero_witness :
    (({ ChessSearch.init ⟨fun _ => ⟨0, 0, HashFlag.EXACT, 0⟩, 1024⟩ (fun _ => 0) with
          currentPly := 1 } : ChessSearch).currentPly ≠ 0
      ∧ ((Board.of_fen "4k3/8/8/8/8/8/8/4K2R w - - 100 80").fifty ≥ 100
        ∨ ∃ i : Nat,
          (i : Int) < ({ ChessSearch.init ⟨fun _ => ⟨0, 0, HashFlag.EXACT, 0⟩, 1024⟩
              (fun _ => 0) with currentPly := 1 } : ChessSearch).repetitionIndex
          ∧ ({ ChessSearch.init ⟨fun _ => ⟨0, 0, HashFlag.EXACT, 0⟩, 1024⟩ (fun _ => 0) with
              currentPly := 1 } : ChessSearch).repetitionTable i
            = (Board.of_fen "4k3/8/8/8/8/8/8/4K2R w - - 100 80").hash_key))
      ∧ (ChessSearch.negamaxSearch (fun _ => 0) (0 + 1) (-500000) 500000 3
          (Board.of_fen "4k3/8/8/8/8/8/8/4K2R w - - 100 80")
          { ChessSearch.init ⟨fun _ => ⟨0, 0, HashFlag.EXACT, 0⟩, 1024⟩ (fun _ => 0) with
            currentPly := 1 }).map (fun r => r.1) = some 0 :=
  ⟨⟨by decide, Or.inl (by decide!)⟩,
    by
      have h := (negamaxSearch_draw_returns_zero (fun _ => 0) 0 (-500000) 500000 3
        (Board.of_fen "4k3/8/8/8/8/8/8/4K2R w - - 100 80")
        { ChessSearch.init ⟨fun _ => ⟨0, 0, HashFlag.EXACT, 0⟩, 1024⟩ (fun _ => 0) with
          currentPly := 1 } (by decide) (Or.inl (by decide!))).1
      rw [h]
      rfl⟩

/-- C30 (the code departs from the claim): `calculateMoveScore` hands the moving piece
to `calculateMvvLvaScore` as the victim and the piece found on the to-square as the
attacker. In `4k3/7p/8/3q4/4P3/8/8/4K2Q w - - 0 1`, with no principal-variation scoring,
the pawn capture of the queen e4xd5 scores 10000 + 100 + 1 = 10101 where the claim gives
10000 + 500 + (5 - 0) = 10505, and the queen capture of the pawn h1xh7 scores
10000 + 500 + 5 = 10505 where the claim gives 10000 + 100 + (5 - 4) = 10101: the less
valuable victim scores higher. -/
theorem capture_score_swaps_victim_and_attacker :
    ∃ board, Board.load_fen Board.initial "4k3/7p/8/3q4/4P3/8/8/4K2Q w - - 0 1" = some board
      ∧ Move.new 36 27 PieceType.pawn Side.white PieceType.pawn Side.any MoveFlag.NO_FLAG true
          ∈ fill_move_array [] board
      ∧ Move.new 63 15 PieceType.queen Side.white PieceType.pawn Side.any MoveFlag.NO_FLAG
          true ∈ fill_move_array [] board
      ∧ (board.get_piece_bitboard PieceType.queen Side.black).testBit 27 = true
      ∧ (board.get_piece_bitboard PieceType.pawn Side.black).testBit 15 = true
      ∧ (ChessSearch.init ⟨fun _ => ⟨0, 0, HashFlag.EXACT, 0⟩, 1024⟩
          (fun _ => 0)).scorePrincipalVariation = false
      ∧ (ChessSearch.init ⟨fun _ => ⟨0, 0, HashFlag.EXACT, 0⟩, 1024⟩
          (fun _ => 0)).calculateMoveScore
          (Move.new 36 27 PieceType.pawn Side.white PieceType.pawn Side.any MoveFlag.NO_FLAG
            true) board = 10101
      ∧ (ChessSearch.init ⟨fun _ => ⟨0, 0, HashFlag.EXACT, 0⟩, 1024⟩
          (fun _ => 0)).calculateMoveScore
          (Move.new 63 15 PieceType.queen Side.white PieceType.pawn Side.any MoveFlag.NO_FLAG
            true) board = 10505
      ∧ (10101 : Int) ≠ 10000 + 500 + (5 - 0) := by
  refine ⟨_, rfl, ?_, ?_, ?_, ?_, ?_, ?_, ?_, ?_⟩ <;> decide!

/-! ## C19: the generator pushes one move for each pseudo-legal move -/

/-- Putting an element of a list in front and the old head in its place rearranges the
list. -/
theorem getElem_cons_set_perm {α : Type} (x d : α) :
    ∀ (xs : List α) (j : Nat), j < xs.length →
      List.Perm (xs.getD j d :: xs.set j x) (x :: xs) := by
  intro xs
  induction xs with
  | nil => intro j hj; exact absurd hj (Nat.not_lt_zero _)
  | cons z zs ih =>
    intro j hj
    cases j with
    | zero => exact List.Perm.swap _ _ _
    | succ k =>
      have hk : k < zs.length := by simpa using hj
      have h1 : List.Perm (zs.getD k d :: z :: zs.set k x) (z :: zs.getD k d :: zs.set k x) :=
        List.Perm.swap _ _ _
      have h2 : List.Perm (z :: zs.getD k d :: zs.set k x) (z :: x :: zs) :=
        List.Perm.cons _ (ih k hk)
      have h3 : List.Perm (z :: x :: zs) (x :: z :: zs) := List.Perm.swap _ _ _
      exact (h1.trans h2).trans h3

/-- Exchanging two cells of a list rearranges the list. -/
theorem swap_cells_perm {α : Type} (d : α) :
    ∀ (l : List α) (i j : Nat), i < l.length → j < l.length →
      List.Perm ((l.set i (l.getD j d)).set j (l.getD i d)) l := by
  intro l
  induction l with
  | nil => intro i j hi; exact absurd hi (Nat.not_lt_zero _)
  | cons x xs ih =>
    intro i j hi hj
    cases i with
    | zero =>
      cases j with
      | zero => exact List.Perm.refl _
      | succ k =>
        have hk : k < xs.length := by simpa using hj
        exact getElem_cons_set_perm x d xs k hk
    | succ m =>
      have hm : m < xs.length := by simpa using hi
      cases j with
      | zero => exact getElem_cons_set_perm x d xs m hm
      | succ k =>
        have hk : k < xs.length := by simpa using hj
        exact List.Perm.cons _ (ih m k hm hk)

theorem MoveArray.swap_perm (moves : MoveArray) (i j : Nat) (hi : i < moves.length)
    (hj : j < moves.length) : List.Perm (moves.swap i j) moves :=
  swap_cells_perm default moves i j hi hj

theorem MoveArray.length_swap (moves : MoveArray) (i j : Nat) :
    (moves.swap i j).length = moves.length := by
  unfold MoveArray.swap
  rw [List.length_set, List.length_set]

/-- The inner loop of `sortMoves` rearranges the moves. -/
theorem sortMoves_inner_perm (i : Nat) :
    ∀ (js : List Nat) (state : MoveArray × List Int), i < state.1.length →
      (∀ j ∈ js, j < state.1.length) →
      List.Perm (ChessSearch.sortMoves_inner i js state).1 state.1
        ∧ (ChessSearch.sortMoves_inner i js state).1.length = state.1.length := by
  intro js
  induction js with
  | nil => intro state _ _; exact ⟨List.Perm.refl _, rfl⟩
  | cons j rest ih =>
    intro state hi hjs
    have hj : j < state.1.length := hjs j (List.mem_cons_self _ _)
    have hrest : ∀ k ∈ rest, k < state.1.length :=
      fun k hk => hjs k (List.mem_cons_of_mem _ hk)
    unfold ChessSearch.sortMoves_inner
    split
    · have hl := MoveArray.length_swap state.1 i j
      obtain ⟨p, len⟩ := ih (state.1.swap i j, swap_scores state.2 i j)
        (by rw [hl]; exact hi) (by intro k hk; rw [hl]; exact hrest k hk)
      exact ⟨p.trans (MoveArray.swap_perm state.1 i j hi hj), len.trans hl⟩
    · exact ih state hi hrest

/-- The outer loop of `sortMoves` rearranges the moves. -/
theorem sortMoves_outer_perm (n : Nat) :
    ∀ (is : List Nat) (state : MoveArray × List Int), state.1.length = n →
      (∀ i ∈ is, i < n) →
      List.Perm (is.foldl
          (fun state i =>
            ChessSearch.sortMoves_inner i (List.range' (i + 1) (n - (i + 1))) state)
          state).1 state.1 := by
  intro is
  induction is with
  | nil => intro state _ _; exact List.Perm.refl _
  | cons i rest ih =>
    intro state hlen his
    have hi : i < n := his i (List.mem_cons_self _ _)
    rw [List.foldl_cons]
    obtain ⟨p, len⟩ := sortMoves_inner_perm i (List.range' (i + 1) (n - (i + 1))) state
      (by rw [hlen]; exact hi)
      (by
        intro j hj
        rw [List.mem_range'_1] at hj
        rw [hlen]
        omega)
    exact (ih _ (len.trans hlen) (fun k hk => his k (List.mem_cons_of_mem _ hk))).trans p

/-- The array left by `sortMoves` is a rearrangement of the array it was given. -/
theorem sortMoves_perm (search : ChessSearch) (moves : MoveArray) (board : Board) :
    List.Perm (search.sortMoves moves board) moves := by
  unfold ChessSearch.sortMoves
  exact sortMoves_outer_perm moves.length _ _ rfl (fun i hi => List.mem_range.1 hi)

/-! ## The best score over a list of moves -/

theorem best_score_nil (test : Move → Bool) (value : Move → Int) (init : Int) :
    best_score test value [] init = init := rfl

theorem best_score_cons (test : Move → Bool) (value : Move → Int) (m : Move)
    (l : List Move) (init : Int) :
    best_score test value (m :: l) init
      = best_score test value l (if test m then max init (value m) else init) := rfl

theorem best_score_ge_init (test : Move → Bool) (value : Move → Int) :
    ∀ (l : List Move) (init : Int), init ≤ best_score test value l init := by
  intro l
  induction l with
  | nil => intro init; exact le_refl _
  | cons m rest ih =>
    intro init
    rw [best_score_cons]
    refine le_trans ?_ (ih _)
    split
    · exact le_max_left _ _
    · exact le_refl _

theorem best_score_mono (test : Move → Bool) (value : Move → Int) :
    ∀ (l : List Move) (a b : Int), a ≤ b →
      best_score test value l a ≤ best_score test value l b := by
  intro l
  induction l with
  | nil => intro a b h; exact h
  | cons m rest ih =>
    intro a b h
    rw [best_score_cons, best_score_cons]
    apply ih
    split
    · exact max_le_max h (le_refl _)
    · exact h

theorem best_score_ge_mem (test : Move → Bool) (value : Move → Int) :
    ∀ (l : List Move) (init : Int) (m : Move), m ∈ l → test m = true →
      value m ≤ best_score test value l init := by
  intro l
  induction l with
  | nil => intro init m hm; exact absurd hm (List.not_mem_nil _)
  | cons x rest ih =>
    intro init m hm ht
    rw [best_score_cons]
    rcases List.mem_cons.1 hm with rfl | hm'
    · rw [if_pos ht]
      exact le_trans (le_max_right _ _) (best_score_ge_init _ _ _ _)
    · exact ih _ m hm' ht

theorem best_score_attained (test : Move → Bool) (value : Move → Int) :
    ∀ (l : List Move) (init : Int),
      best_score test value l init = init
        ∨ ∃ m ∈ l, test m = true ∧ value m = best_score test value l init := by
  intro l
  induction l with
  | nil => intro init; exact Or.inl rfl
  | cons x rest ih =>
    intro init
    rw [best_score_cons]
    by_cases ht : test x = true
    · rw [if_pos ht]
      rcases ih (max init (value x)) with h | ⟨m, hm, hmt, hv⟩
      · rw [h]
        rcases le_total init (value x) with hle | hle
        · rw [max_eq_right hle]
          exact Or.inr ⟨x, List.mem_cons_self _ _, ht, rfl⟩
        · rw [max_eq_left hle]
          exact Or.inl rfl
      · exact Or.inr ⟨m, List.mem_cons_of_mem _ hm, hmt, hv⟩
    · rw [if_neg ht]
      rcases ih init with h | ⟨m, hm, hmt, hv⟩
      · exact Or.inl h
      · exact Or.inr ⟨m, List.mem_cons_of_mem _ hm, hmt, hv⟩

theorem best_score_max (test : Move → Bool) (value : Move → Int) :
    ∀ (l : List Move) (a b : Int),
      best_score test value l (max a b) = max a (best_score test value l b) := by
  intro l
  induction l with
  | nil => intro a b; rfl
  | cons m rest ih =>
    intro a b
    rw [best_score_cons, best_score_cons]
    split
    · rw [max_assoc, ih]
    · exact ih a b

theorem best_score_perm (test : Move → Bool) (value : Move → Int) {l₁ l₂ : List Move}
    (p : List.Perm l₁ l₂) (init : Int) :
    best_score test value l₁ init = best_score test value l₂ init := by
  unfold best_score
  apply List.Perm.foldl_eq' p
  intro x _ y _ z
  by_cases hx : test x = true <;> by_cases hy : test y = true <;>
    simp only [hx, hy, if_true, if_false, Bool.false_eq_true]
  rw [max_assoc, max_assoc, max_comm (value x)]

theorem best_score_bounds (test : Move → Bool) (value : Move → Int) (lo hi : Int) :
    ∀ (l : List Move) (init : Int), lo < init → init < hi →
      (∀ m ∈ l, test m = true → lo < value m ∧ value m < hi) →
      lo < best_score test value l init ∧ best_score test value l init < hi := by
  intro l init h1 h2 hv
  refine ⟨lt_of_lt_of_le h1 (best_score_ge_init _ _ _ _), ?_⟩
  rcases best_score_attained test value l init with h | ⟨m, hm, ht, hval⟩
  · rw [h]; exact h2
  · rw [← hval]; exact (hv m hm ht).2

theorem quiescence_value_zero (evaluate : Board → Int) (board : Board) :
    quiescence_value evaluate 0 board = evaluate board := rfl

theorem quiescence_value_succ (evaluate : Board → Int) (n : Nat) (board : Board) :
    quiescence_value evaluate (n + 1) board
      = best_score (fun move => move.is_capture && (board.make_move move).1)
          (fun move => -(quiescence_value evaluate n (board.make_move move).2))
          (fill_move_array [] board) (evaluate board) := rfl

/-- The quiescence value stays within the bounds of the evaluator. -/
theorem quiescence_value_bounds (evaluate : Board → Int) (k : Int)
    (hev : ∀ b, -k < evaluate b ∧ evaluate b < k) :
    ∀ (n : Nat) (board : Board),
      -k < quiescence_value evaluate n board ∧ quiescence_value evaluate n board < k := by
  intro n
  induction n with
  | zero => intro board; exact hev board
  | succ n ih =>
    intro board
    rw [quiescence_value_succ]
    apply best_score_bounds _ _ _ _ _ _ (hev board).1 (hev board).2
    intro m _ _
    have := ih (board.make_move m).2
    constructor <;> omega

/-! ## The value returned by `quiescenceSearch` -/

theorem ChessSearch.Keeps.refl (s : ChessSearch) : ChessSearch.Keeps s s :=
  ⟨rfl, rfl, rfl, rfl, rfl, rfl, rfl, rfl, fun _ _ => rfl, rfl, rfl, rfl, rfl,
    ⟨0, fun _ => rfl⟩⟩

theorem ChessSearch.Keeps.trans {a b c : ChessSearch} (h1 : ChessSearch.Keeps a b)
    (h2 : ChessSearch.Keeps b c) : ChessSearch.Keeps a c := by
  obtain ⟨k1, hk1⟩ := h1.clock
  obtain ⟨k2, hk2⟩ := h2.clock
  exact
    { transpositionTable := h2.transpositionTable.trans h1.transpositionTable
      currentPly := h2.currentPly.trans h1.currentPly
      searchStartTime := h2.searchStartTime.trans h1.searchStartTime
      searchStopped := h2.searchStopped.trans h1.searchStopped
      timeAllocated := h2.timeAllocated.trans h1.timeAllocated
      killerMoves := h2.killerMoves.trans h1.killerMoves
      historyMoves := h2.historyMoves.trans h1.historyMoves
      repetitionIndex := h2.repetitionIndex.trans h1.repetitionIndex
      repetitionTable := fun i hi =>
        (h2.repetitionTable i (by rw [h1.repetitionIndex]; exact hi)).trans
          (h1.repetitionTable i hi)
      scorePrincipalVariation :=
        h2.scorePrincipalVariation.trans h1.scorePrincipalVariation
      followPrincipalVariation :=
        h2.followPrincipalVariation.trans h1.followPrincipalVariation
      principalVariationLengths :=
        h2.principalVariationLengths.trans h1.principalVariationLengths
      principalVariationTable :=
        h2.principalVariationTable.trans h1.principalVariationTable
      clock := ⟨k2 + k1, fun n => by rw [hk2, hk1, Nat.add_assoc]⟩ }

theorem ChessSearch.Keeps.unlimited {s s' : ChessSearch} (h : ChessSearch.Keeps s s')
    (hu : s.unlimited) : s'.unlimited := by
  obtain ⟨k, hk⟩ := h.clock
  intro n
  rw [hk, h.searchStartTime, h.timeAllocated]
  exact hu (n + k)

/-- With a time limit that is never exceeded, the time poll changes nothing but the
readings of the clock still to come. -/
theorem pollTime_keeps (s : ChessSearch) (hu : s.unlimited) :
    ChessSearch.Keeps s s.pollTime := by
  unfold ChessSearch.pollTime ChessSearch.isTimeExpired
  by_cases hn : s.nodesSearched &&& 2047 = 0
  · have hnot : ¬ ((s.getCurrentTimeMilliseconds.1 + 18446744073709551616
        - s.searchStartTime) % 18446744073709551616 > s.timeAllocated) := by
      have := hu 0
      unfold ChessSearch.getCurrentTimeMilliseconds
      simp only
      omega
    simp only [hn, if_true, hnot, decide_False, Bool.false_eq_true, if_false]
    exact ⟨rfl, rfl, rfl, rfl, rfl, rfl, rfl, rfl, fun _ _ => rfl, rfl, rfl, rfl, rfl,
      ⟨1, fun _ => rfl⟩⟩
  · simp only [hn, if_false, Bool.false_eq_true]
    exact ChessSearch.Keeps.refl s

theorem countNode_keeps (s : ChessSearch) : ChessSearch.Keeps s s.countNode :=
  ⟨rfl, rfl, rfl, rfl, rfl, rfl, rfl, rfl, fun _ _ => rfl, rfl, rfl, rfl, rfl,
    ⟨0, fun _ => rfl⟩⟩

theorem wrap_int_id {x : Int} (h1 : -2147483648 ≤ x) (h2 : x < 2147483648) :
    wrap_int x = x := by
  unfold wrap_int
  omega

/-- The members of the state after `enterChild`. -/
theorem enterChild_fields (s : ChessSearch) (hashKey : Nat)
    (hply : -2147483648 ≤ s.currentPly ∧ s.currentPly < 2147483647)
    (hrep : 0 ≤ s.repetitionIndex ∧ s.repetitionIndex < 2147483647) :
    (s.enterChild hashKey).currentPly = s.currentPly + 1
      ∧ (s.enterChild hashKey).repetitionIndex = s.repetitionIndex + 1
      ∧ (s.enterChild hashKey).searchStopped = s.searchStopped
      ∧ (s.enterChild hashKey).transpositionTable = s.transpositionTable
      ∧ ((s.enterChild hashKey).unlimited ↔ s.unlimited)
      ∧ (∀ i : Nat, (i : Int) ≤ s.repetitionIndex →
          (s.enterChild hashKey).repetitionTable i = s.repetitionTable i)
      ∧ (s.enterChild hashKey).principalVariationLengths = s.principalVariationLengths := by
  have e1 : wrap_int (s.currentPly + 1) = s.currentPly + 1 :=
    wrap_int_id (by omega) (by omega)
  have e2 : wrap_int (s.repetitionIndex + 1) = s.repetitionIndex + 1 :=
    wrap_int_id (by omega) (by omega)
  refine ⟨e1, e2, rfl, rfl, Iff.rfl, ?_, rfl⟩
  intro i hi
  show arr_set s.repetitionTable (wrap_int (s.repetitionIndex + 1)).toNat hashKey i = _
  rw [e2]
  apply arr_set_other
  omega

/-- Leaving a child whose search kept the state entered gives back the state before the
child was entered. -/
theorem leaveChild_keeps (s c : ChessSearch) (hashKey : Nat)
    (hply : -2147483648 ≤ s.currentPly ∧ s.currentPly < 2147483647)
    (hrep : 0 ≤ s.repetitionIndex ∧ s.repetitionIndex < 2147483647)
    (hk : ChessSearch.Keeps (s.enterChild hashKey) c) : ChessSearch.Keeps s c.leaveChild := by
  obtain ⟨f1, f2, f3, f4, -, f6, f7⟩ := enterChild_fields s hashKey hply hrep
  have e1 : wrap_int (c.currentPly - 1) = s.currentPly := by
    rw [hk.currentPly, f1]
    exact (wrap_int_id (by omega) (by omega)).trans (by omega)
  have e2 : wrap_int (c.repetitionIndex - 1) = s.repetitionIndex := by
    rw [hk.repetitionIndex, f2]
    exact (wrap_int_id (by omega) (by omega)).trans (by omega)
  exact
    { transpositionTable := hk.transpositionTable
      currentPly := e1
      searchStartTime := hk.searchStartTime
      searchStopped := hk.searchStopped
      timeAllocated := hk.timeAllocated
      killerMoves := hk.killerMoves
      historyMoves := hk.historyMoves
      repetitionIndex := e2
      repetitionTable := fun i hi =>
        (hk.repetitionTable i (by rw [f2]; omega)).trans (f6 i hi)
      scorePrincipalVariation := hk.scorePrincipalVariation
      followPrincipalVariation := hk.followPrincipalVariation
      principalVariationLengths := hk.principalVariationLengths
      principalVariationTable := hk.principalVariationTable
      clock := hk.clock }

/-- The loop of `quiescenceSearch`, given what the recursive call returns for positions
with `n` plies left: the best of alpha and the values of the accepted captures, cut at
beta. -/
theorem quiescenceSearch_loop_value (evaluate : Board → Int)
    (hev : ∀ b, -500000 < evaluate b ∧ evaluate b < 500000) (n : Nat) (hn : n + 1 ≤ 64)
    (recurse : Int → Int → Board → ChessSearch → Option SearchResult)
    (hrec : ∀ (alpha beta : Int) (c : Board) (s : ChessSearch),
      s.currentPly = 64 - (n : Int) → 0 ≤ s.repetitionIndex →
      s.repetitionIndex + (n : Int) ≤ 2000000000 → s.searchStopped = false →
      s.unlimited → alpha < beta → -500000 ≤ alpha → beta ≤ 500000 →
      ∃ s', recurse alpha beta c s
          = some ((if n = 0 then evaluate c
              else clamp_score (quiescence_value evaluate n c) alpha beta), s', c)
        ∧ ChessSearch.Keeps s s')
    (beta : Int) (hbeta : beta ≤ 500000) (board : Board) :
    ∀ (l : List Move) (alpha : Int) (s : ChessSearch),
      s.currentPly = 64 - ((n + 1 : Nat) : Int) → 0 ≤ s.repetitionIndex →
      s.repetitionIndex + ((n + 1 : Nat) : Int) ≤ 2000000000 → s.searchStopped = false →
      s.unlimited → alpha < beta → -500000 ≤ alpha →
      ∃ s', ChessSearch.quiescenceSearch_loop recurse beta l alpha board s
          = some ((if best_score (fun move => move.is_capture && (board.make_move move).1)
                (fun move => -(quiescence_value evaluate n (board.make_move move).2))
                l alpha ≥ beta then beta
              else best_score (fun move => move.is_capture && (board.make_move move).1)
                (fun move => -(quiescence_value evaluate n (board.make_move move).2))
                l alpha), s', board)
        ∧ ChessSearch.Keeps s s' := by
  intro l
  induction l with
  | nil =>
    intro alpha s _ _ _ _ _ hab _
    refine ⟨s, ?_, ChessSearch.Keeps.refl s⟩
    rw [best_score_nil, if_neg (by omega)]
    rfl
  | cons m rest ih =>
    intro alpha s hply hrep0 hrep hstop hu hab halpha
    rw [best_score_cons]
    unfold ChessSearch.quiescenceSearch_loop
    by_cases hcap : m.is_capture = true
    · simp only [hcap, Bool.not_true, Bool.false_eq_true, if_false, Bool.true_and]
      have hplyr : -2147483648 ≤ s.currentPly ∧ s.currentPly < 2147483647 := by
        constructor <;> omega
      have hrepr : 0 ≤ s.repetitionIndex ∧ s.repetitionIndex < 2147483647 := by
        constructor <;> omega
      obtain ⟨f1, f2, f3, f4, f5, f6, -⟩ := enterChild_fields s board.hash_key hplyr hrepr
      by_cases hacc : (board.make_move m).1 = true
      · -- an accepted capture
        simp only [hacc, Bool.not_true, Bool.false_eq_true, if_false, if_true]
        have hwb : wrap_int (-beta) = -beta := wrap_int_id (by omega) (by omega)
        have hwa : wrap_int (-alpha) = -alpha := wrap_int_id (by omega) (by omega)
        obtain ⟨sc, hcall, hkeep⟩ := hrec (-beta) (-alpha) (board.make_move m).2
          (s.enterChild board.hash_key) (by rw [f1, hply]; push_cast; omega)
          (by rw [f2]; omega) (by rw [f2]; push_cast at hrep ⊢; omega) (by rw [f3]; exact hstop)
          (f5.2 hu) (by omega) (by omega) (by omega)
        rw [hwb, hwa, hcall]
        have hq := quiescence_value_bounds evaluate 500000 hev n (board.make_move m).2
        have hkeep' := leaveChild_keeps s sc board.hash_key hplyr hrepr hkeep
        have hstop' : sc.leaveChild.searchStopped = false := by
          rw [hkeep'.searchStopped]; exact hstop
        -- the negated score of the child
        have hscore : ∃ score, wrap_int (-(if n = 0 then evaluate (board.make_move m).2
              else clamp_score (quiescence_value evaluate n (board.make_move m).2)
                (-beta) (-alpha))) = score
            ∧ (-(quiescence_value evaluate n (board.make_move m).2) ≤ alpha → score ≤ alpha)
            ∧ (-(quiescence_value evaluate n (board.make_move m).2) ≥ beta → score ≥ beta)
            ∧ (alpha < -(quiescence_value evaluate n (board.make_move m).2) →
                -(quiescence_value evaluate n (board.make_move m).2) < beta →
                score = -(quiescence_value evaluate n (board.make_move m).2)) := by
          refine ⟨_, rfl, ?_⟩
          by_cases hn0 : n = 0
          · subst hn0
            rw [if_pos rfl, quiescence_value_zero] at *
            have hb := hev (board.make_move m).2
            rw [wrap_int_id (by omega) (by omega)]
            refine ⟨fun h => h, fun h => h, fun _ _ => rfl⟩
          · rw [if_neg hn0]
            unfold clamp_score
            by_cases h1 : quiescence_value evaluate n (board.make_move m).2 ≥ -alpha
            · rw [if_pos h1, wrap_int_id (by omega) (by omega)]
              exact ⟨fun _ => by omega, fun _ => by omega, fun _ _ => by omega⟩
            · rw [if_neg h1]
              by_cases h2 : quiescence_value evaluate n (board.make_move m).2 ≤ -beta
              · rw [if_pos h2, wrap_int_id (by omega) (by omega)]
                exact ⟨fun _ => by omega, fun _ => by omega, fun _ _ => by omega⟩
              · rw [if_neg h2, wrap_int_id (by omega) (by omega)]
                exact ⟨fun _ => by omega, fun _ => by omega, fun _ _ => rfl⟩
        obtain ⟨score, hsc, c1, c2, c3⟩ := hscore
        simp only [negated, Option.map_some']
        rw [hsc]
        simp only [hstop', Bool.false_eq_true, if_false]
        rcases lt_trichotomy (-(quiescence_value evaluate n (board.make_move m).2)) beta
          with hlt | hge | hge
        · by_cases hle : -(quiescence_value evaluate n (board.make_move m).2) ≤ alpha
          · have := c1 hle
            rw [if_neg (by omega), max_eq_left hle]
            obtain ⟨s', hloop, hk'⟩ := ih alpha sc.leaveChild
              (by rw [hkeep'.currentPly]; exact hply)
              (by rw [hkeep'.repetitionIndex]; exact hrep0)
              (by rw [hkeep'.repetitionIndex]; exact hrep) hstop' (hkeep'.unlimited hu) hab
              halpha
            exact ⟨s', hloop, hkeep'.trans hk'⟩
          · have hsv := c3 (by omega) hlt
            rw [hsv, if_pos (by omega), if_neg (by omega), max_eq_right (by omega)]
            obtain ⟨s', hloop, hk'⟩ := ih (-(quiescence_value evaluate n (board.make_move m).2))
              sc.leaveChild
              (by rw [hkeep'.currentPly]; exact hply)
              (by rw [hkeep'.repetitionIndex]; exact hrep0)
              (by rw [hkeep'.repetitionIndex]; exact hrep) hstop' (hkeep'.unlimited hu) hlt
              (by omega)
            exact ⟨s', hloop, hkeep'.trans hk'⟩
        · have := c2 (by omega)
          rw [if_pos (by omega), if_pos (by omega)]
          refine ⟨sc.leaveChild, ?_, hkeep'⟩
          have hb : best_score (fun move => move.is_capture && (board.make_move move).1)
              (fun move => -(quiescence_value evaluate n (board.make_move move).2)) rest
              (max alpha (-(quiescence_value evaluate n (board.make_move m).2))) ≥ beta :=
            le_trans (le_trans (by omega) (le_max_right _ _)) (best_score_ge_init _ _ _ _)
          rw [if_pos hb]
        · have := c2 (by omega)
          rw [if_pos (by omega), if_pos (by omega)]
          refine ⟨sc.leaveChild, ?_, hkeep'⟩
          have hb : best_score (fun move => move.is_capture && (board.make_move move).1)
              (fun move => -(quiescence_value evaluate n (board.make_move move).2)) rest
              (max alpha (-(quiescence_value evaluate n (board.make_move m).2))) ≥ beta :=
            le_trans (le_trans (by omega) (le_max_right _ _)) (best_score_ge_init _ _ _ _)
          rw [if_pos hb]
      · -- a rejected capture
        have hacc' : (board.make_move m).1 = false := by simpa using hacc
        simp only [hacc', Bool.not_false, if_true, Bool.false_eq_true, if_false]
        rw [make_move_snd_of_rejected board m hacc']
        have hkeep' := leaveChild_keeps s (s.enterChild board.hash_key) board.hash_key hplyr
          hrepr (ChessSearch.Keeps.refl _)
        obtain ⟨s', hloop, hk'⟩ := ih alpha (s.enterChild board.hash_key).leaveChild
          (by rw [hkeep'.currentPly]; exact hply)
          (by rw [hkeep'.repetitionIndex]; exact hrep0)
          (by rw [hkeep'.repetitionIndex]; exact hrep)
          (by rw [hkeep'.searchStopped]; exact hstop) (hkeep'.unlimited hu) hab halpha
        exact ⟨s', hloop, hkeep'.trans hk'⟩
    · -- no capture
      have hcap' : m.is_capture = false := by simpa using hcap
      simp only [hcap', Bool.not_false, if_true, Bool.false_and, Bool.false_eq_true, if_false]
      exact ih alpha s hply hrep0 hrep hstop hu hab halpha

/-- The value returned by `quiescenceSearch` on a position with `n` plies left before
`MAX_PLY`, when the search is not stopped: the static evaluation at the horizon, and
otherwise the quiescence value limited to the window. The state is kept, and the board is
handed back as it was. -/
theorem quiescenceSearch_value (evaluate : Board → Int)
    (hev : ∀ b, -500000 < evaluate b ∧ evaluate b < 500000) :
    ∀ (n : Nat), n ≤ 64 → ∀ (fuel : Nat), n < fuel →
      ∀ (alpha beta : Int) (board : Board) (s : ChessSearch),
      s.currentPly = 64 - (n : Int) → 0 ≤ s.repetitionIndex →
      s.repetitionIndex + (n : Int) ≤ 2000000000 → s.searchStopped = false →
      s.unlimited → alpha < beta → -500000 ≤ alpha → beta ≤ 500000 →
      ∃ s', ChessSearch.quiescenceSearch evaluate fuel alpha beta board s
          = some ((if n = 0 then evaluate board
              else clamp_score (quiescence_value evaluate n board) alpha beta), s', board)
        ∧ ChessSearch.Keeps s s' := by
  intro n
  induction n with
  | zero =>
    intro _ fuel hfuel alpha beta board s hply hrep0 hrep hstop hu hab halpha hbeta
    obtain ⟨f, rfl⟩ : ∃ f, fuel = f + 1 := ⟨fuel - 1, by omega⟩
    have hk : ChessSearch.Keeps s s.pollTime.countNode :=
      (pollTime_keeps s hu).trans (countNode_keeps _)
    refine ⟨s.pollTime.countNode, ?_, hk⟩
    rw [ChessSearch.quiescenceSearch]
    simp only
    rw [if_pos (by rw [hk.currentPly, hply]; unfold ChessSearch.MAX_PLY; decide)]
    simp only [if_true]
  | succ k ih =>
    intro hk64 fuel hfuel alpha beta board s hply hrep0 hrep hstop hu hab halpha hbeta
    obtain ⟨f, rfl⟩ : ∃ f, fuel = f + 1 := ⟨fuel - 1, by omega⟩
    have hk : ChessSearch.Keeps s s.pollTime.countNode :=
      (pollTime_keeps s hu).trans (countNode_keeps _)
    rw [ChessSearch.quiescenceSearch]
    simp only
    rw [if_neg (by
      rw [hk.currentPly, hply]; unfold ChessSearch.MAX_PLY; push_cast; omega),
      if_neg (Nat.succ_ne_zero k)]
    have hsp := hev board
    have hvge : evaluate board ≤ quiescence_value evaluate (k + 1) board := by
      rw [quiescence_value_succ]
      exact best_score_ge_init _ _ _ _
    by_cases hcut : evaluate board ≥ beta
    · rw [if_pos hcut]
      refine ⟨s.pollTime.countNode, ?_, hk⟩
      unfold clamp_score
      rw [if_pos (by omega)]
    · rw [if_neg hcut]
      have hmax : (if evaluate board > alpha then evaluate board else alpha)
          = max alpha (evaluate board) := by
        by_cases h : evaluate board > alpha
        · rw [if_pos h, max_eq_right (by omega)]
        · rw [if_neg h, max_eq_left (by omega)]
      rw [hmax]
      obtain ⟨s', hloop, hk'⟩ := quiescenceSearch_loop_value evaluate hev k (by omega)
        (ChessSearch.quiescenceSearch evaluate f)
        (fun a b c t h1 h2 h3 h4 h5 h6 h7 h8 =>
          ih (by omega) f (by omega) a b c t h1 h2 h3 h4 h5 h6 h7 h8)
        beta hbeta board
        (s.pollTime.countNode.sortMoves (fill_move_array [] board) board)
        (max alpha (evaluate board)) s.pollTime.countNode
        (by rw [hk.currentPly]; exact hply) (by rw [hk.repetitionIndex]; exact hrep0)
        (by rw [hk.repetitionIndex]; exact hrep) (by rw [hk.searchStopped]; exact hstop)
        (hk.unlimited hu) (max_lt hab (by omega)) (le_trans halpha (le_max_left _ _))
      refine ⟨s', ?_, hk.trans hk'⟩
      rw [hloop, best_score_perm _ _ (sortMoves_perm _ _ _), best_score_max,
        ← quiescence_value_succ]
      congr 2
      unfold clamp_score
      by_cases h1 : quiescence_value evaluate (k + 1) board ≥ beta
      · rw [if_pos h1, if_pos (le_trans h1 (le_max_right _ _))]
      · rw [if_neg h1, if_neg (by
          intro h
          rcases le_max_iff.1 h with h' | h' <;> omega)]
        by_cases h2 : quiescence_value evaluate (k + 1) board ≤ alpha
        · rw [if_pos h2, max_eq_left h2]
        · rw [if_neg h2, max_eq_right (by omega)]

/-! ## The search of a position at depth 0, one ply below the root or deeper -/

/-- A probe of the transposition table misses when the entry of the slot holds another
key. -/
theorem probe_miss (table : TranspositionTable) (alpha beta depth : Int) (hashKey : Nat)
    (ply : Int)
    (h : (table.entries (hashKey % table.tableSize)).hashKey ≠ hashKey) :
    table.probe alpha beta depth hashKey ply = NO_HASH_ENTRY := by
  unfold TranspositionTable.probe
  simp only
  rw [if_pos (Or.inl h)]
  rfl

/-- `negamaxSearch` at depth 0 on a position with `n` plies left (`1 <= n <= 63`) that is
no draw by the fifty-move counter or by repetition, with a window wider than 1 or a
transposition table that holds no entry for the position: the quiescence value limited
to the window. -/
theorem negamaxSearch_leaf (evaluate : Board → Int)
    (hev : ∀ b, -500000 < evaluate b ∧ evaluate b < 500000) (n : Nat) (hn1 : 1 ≤ n)
    (hn : n ≤ 63) (fuel : Nat) (hfuel : n < fuel) (alpha beta : Int) (c : Board)
    (s : ChessSearch) (hply : s.currentPly = 64 - (n : Int)) (hrep0 : 0 ≤ s.repetitionIndex)
    (hrep : s.repetitionIndex + (n : Int) ≤ 2000000000) (hstop : s.searchStopped = false)
    (hu : s.unlimited) (hab : alpha < beta) (halpha : -500000 ≤ alpha)
    (hbeta : beta ≤ 500000) (hnorep : s.isPositionRepeated c.hash_key = false)
    (hfifty : c.fifty < 100)
    (hmiss : wrap_int (beta - alpha) > 1
      ∨ (s.transpositionTable.entries (c.hash_key % s.transpositionTable.tableSize)).hashKey
        ≠ c.hash_key) :
    ∃ s', ChessSearch.negamaxSearch evaluate fuel alpha beta 0 c s
        = some (clamp_score (quiescence_value evaluate n c) alpha beta, s', c)
      ∧ ChessSearch.Keeps
          { s with
            principalVariationLengths :=
              tab_set s.principalVariationLengths s.currentPly.toNat s.currentPly } s' := by
  obtain ⟨f, rfl⟩ : ∃ f, fuel = f + 1 := ⟨fuel - 1, by omega⟩
  rw [ChessSearch.negamaxSearch]
  simp only
  have hdraw : ¬ (s.currentPly ≠ 0
      ∧ (({ s with
          principalVariationLengths :=
            tab_set s.principalVariationLengths s.currentPly.toNat s.currentPly }
          : ChessSearch).isPositionRepeated c.hash_key = true ∨ c.fifty ≥ 100)) := by
    rintro ⟨-, h | h⟩
    · have : ({ s with
          principalVariationLengths :=
            tab_set s.principalVariationLengths s.currentPly.toNat s.currentPly }
          : ChessSearch).isPositionRepeated c.hash_key = s.isPositionRepeated c.hash_key := rfl
      rw [this, hnorep] at h
      exact absurd h (by decide)
    · omega
  rw [if_neg hdraw]
  have hprobe : (if ¬ wrap_int (beta - alpha) > 1 ∧ s.currentPly ≠ 0 then
        s.transpositionTable.probe alpha beta 0 c.hash_key s.currentPly
      else NO_HASH_ENTRY) = NO_HASH_ENTRY := by
    rcases hmiss with h | h
    · rw [if_neg (fun hh => hh.1 h)]
    · by_cases hc : ¬ wrap_int (beta - alpha) > 1 ∧ s.currentPly ≠ 0
      · rw [if_pos hc, probe_miss _ _ _ _ _ _ h]
      · rw [if_neg hc]
  rw [hprobe]
  simp only [ne_eq, not_true_eq_false, if_false, if_true]
  have hu1 : ({ s with
      principalVariationLengths :=
        tab_set s.principalVariationLengths s.currentPly.toNat s.currentPly }
      : ChessSearch).unlimited := hu
  have hk := pollTime_keeps _ hu1
  obtain ⟨s', hq, hk'⟩ := quiescenceSearch_value evaluate hev n (by omega) (f + 1) hfuel alpha
    beta c _ (by rw [hk.currentPly]; exact hply) (by rw [hk.repetitionIndex]; exact hrep0)
    (by rw [hk.repetitionIndex]; exact hrep) (by rw [hk.searchStopped]; exact hstop)
    (hk.unlimited hu1) hab halpha hbeta
  rw [if_neg (by omega)] at hq
  exact ⟨s', hq, hk.trans hk'⟩

/-! ## The root of a search of depth 1 -/

theorem ChessSearch.AtPly.of_keeps {s s' : ChessSearch} {ply : Int}
    {table : TranspositionTable} {first : Nat} (h : ChessSearch.AtPly s ply table first)
    (hp : 0 ≤ ply) (hk : ChessSearch.Keeps s s') : ChessSearch.AtPly s' ply table first :=
  { currentPly := hk.currentPly.trans h.currentPly
    repetitionIndex := hk.repetitionIndex.trans h.repetitionIndex
    searchStopped := hk.searchStopped.trans h.searchStopped
    unlimited := hk.unlimited h.unlimited
    transpositionTable := hk.transpositionTable.trans h.transpositionTable
    repetitionTable :=
      (hk.repetitionTable 0 (by rw [h.repetitionIndex]; exact hp)).trans h.repetitionTable }

theorem ChessSearch.AtPly.enterChild {s : ChessSearch} {table : TranspositionTable}
    {first : Nat} (h : ChessSearch.AtPly s 0 table first) (hashKey : Nat) :
    ChessSearch.AtPly (s.enterChild hashKey) 1 table first := by
  obtain ⟨f1, f2, f3, f4, f5, f6, -⟩ := enterChild_fields s hashKey
    (by rw [h.currentPly]; decide) (by rw [h.repetitionIndex]; decide)
  exact
    { currentPly := by rw [f1, h.currentPly]; rfl
      repetitionIndex := by rw [f2, h.repetitionIndex]; rfl
      searchStopped := f3.trans h.searchStopped
      unlimited := f5.2 h.unlimited
      transpositionTable := f4.trans h.transpositionTable
      repetitionTable :=
        (f6 0 (by rw [h.repetitionIndex]; decide)).trans h.repetitionTable }

theorem ChessSearch.AtPly.leaveChild {s : ChessSearch} {table : TranspositionTable}
    {first : Nat} (h : ChessSearch.AtPly s 1 table first) :
    ChessSearch.AtPly s.leaveChild 0 table first :=
  { currentPly := by
      show wrap_int (s.currentPly - 1) = 0
      rw [h.currentPly]; rfl
    repetitionIndex := by
      show wrap_int (s.repetitionIndex - 1) = 0
      rw [h.repetitionIndex]; rfl
    searchStopped := h.searchStopped
    unlimited := h.unlimited
    transpositionTable := h.transpositionTable
    repetitionTable := h.repetitionTable }

/-- One ply below the root the repetition test looks at entry 0 of the table only. -/
theorem ChessSearch.AtPly.not_repeated {s : ChessSearch} {table : TranspositionTable}
    {first : Nat} (h : ChessSearch.AtPly s 1 table first) (hashKey : Nat)
    (hne : first ≠ hashKey) : s.isPositionRepeated hashKey = false := by
  unfold ChessSearch.isPositionRepeated
  rw [h.repetitionIndex]
  have : (1 : Int).toNat = 1 := rfl
  rw [this]
  have hr : List.range 1 = [0] := rfl
  rw [hr]
  simp only [List.any_cons, List.any_nil, Bool.or_false]
  rw [h.repetitionTable]
  simpa using hne

/-- The search of a position one ply below the root at depth 0. -/
theorem negamaxSearch_leaf_at_one (evaluate : Board → Int)
    (hev : ∀ b, -500000 < evaluate b ∧ evaluate b < 500000) (fuel : Nat) (hfuel : 63 < fuel)
    (table : TranspositionTable) (first : Nat) (alpha beta : Int) (c : Board)
    (s : ChessSearch) (hs : ChessSearch.AtPly s 1 table first) (hab : alpha < beta)
    (halpha : -500000 ≤ alpha) (hbeta : beta ≤ 500000) (hfifty : c.fifty < 100)
    (hfirst : first ≠ c.hash_key)
    (hmiss : wrap_int (beta - alpha) > 1
      ∨ (table.entries (c.hash_key % table.tableSize)).hashKey ≠ c.hash_key) :
    ∃ s', ChessSearch.negamaxSearch evaluate fuel alpha beta 0 c s
        = some (clamp_score (quiescence_value evaluate 63 c) alpha beta, s', c)
      ∧ ChessSearch.AtPly s' 1 table first
      ∧ s'.principalVariationLengths = tab_set s.principalVariationLengths 1 1
      ∧ s'.principalVariationTable = s.principalVariationTable
      ∧ s'.historyMoves = s.historyMoves := by
  obtain ⟨s', hcall, hk⟩ := negamaxSearch_leaf evaluate hev 63 (by decide) (by decide) fuel
    hfuel alpha beta c s (by rw [hs.currentPly]; rfl) (by rw [hs.repetitionIndex]; decide)
    (by rw [hs.repetitionIndex]; decide) hs.searchStopped hs.unlimited hab halpha hbeta
    (hs.not_repeated _ hfirst) hfifty (by rw [hs.transpositionTable]; exact hmiss)
  have hs1 : ChessSearch.AtPly
      ({ s with
        principalVariationLengths :=
          tab_set s.principalVariationLengths s.currentPly.toNat s.currentPly }
        : ChessSearch) 1 table first :=
    ⟨hs.currentPly, hs.repetitionIndex, hs.searchStopped, hs.unlimited,
      hs.transpositionTable, hs.repetitionTable⟩
  refine ⟨s', hcall, hs1.of_keeps (by decide) hk, ?_, hk.principalVariationTable,
    hk.historyMoves⟩
  rw [hk.principalVariationLengths]
  show tab_set s.principalVariationLengths s.currentPly.toNat s.currentPly = _
  rw [hs.currentPly]
  rfl

theorem tab_set_idem {α : Type} (f : Nat → α) (i : Nat) (v : α) :
    tab_set (tab_set f i v) i v = tab_set f i v := by
  funext j
  unfold tab_set
  by_cases h : j = i <;> simp [h]

/-- The searches of one move at the root of a search of depth 1: the score is minus the
quiescence value of the position after the move when that is above `alpha`, and `alpha`
otherwise. -/
theorem searchMove_root (evaluate : Board → Int)
    (hev : ∀ b, -499999 < evaluate b ∧ evaluate b < 499999) (fuel : Nat) (hfuel : 63 < fuel)
    (table : TranspositionTable) (first : Nat) (alpha : Int) (halpha : -500000 ≤ alpha)
    (halpha' : alpha < 499999) (movesSearched : Int) (move : Move) (c : Board)
    (s : ChessSearch) (hs : ChessSearch.AtPly s 1 table first) (hfifty : c.fifty < 100)
    (hfirst : first ≠ c.hash_key)
    (hmiss : (table.entries (c.hash_key % table.tableSize)).hashKey ≠ c.hash_key) :
    ∃ s', ChessSearch.searchMove (ChessSearch.negamaxSearch evaluate fuel) alpha 500000 1
          false movesSearched move c s
        = some ((if -(quiescence_value evaluate 63 c) ≤ alpha then alpha
            else -(quiescence_value evaluate 63 c)), s', c)
      ∧ ChessSearch.AtPly s' 1 table first
      ∧ s'.principalVariationLengths = tab_set s.principalVariationLengths 1 1
      ∧ s'.principalVariationTable = s.principalVariationTable
      ∧ s'.historyMoves = s.historyMoves := by
  have hev' : ∀ b, -500000 < evaluate b ∧ evaluate b < 500000 := fun b =>
    ⟨by have := (hev b).1; omega, by have := (hev b).2; omega⟩
  obtain ⟨hq1, hq2⟩ := quiescence_value_bounds evaluate 499999 hev 63 c
  have w1 : wrap_int (-500000) = -500000 := rfl
  have w2 : wrap_int (-alpha) = -alpha := wrap_int_id (by omega) (by omega)
  have w3 : wrap_int (1 - 1) = 0 := rfl
  have w4 : wrap_int (-alpha - 1) = -alpha - 1 := wrap_int_id (by omega) (by omega)
  have w5 : wrap_int (alpha + 1) = alpha + 1 := wrap_int_id (by omega) (by omega)
  have full : ∀ t : ChessSearch, ChessSearch.AtPly t 1 table first →
      ∃ s', negated (ChessSearch.negamaxSearch evaluate fuel (-500000) (-alpha) 0 c t)
          = some ((if -(quiescence_value evaluate 63 c) ≤ alpha then alpha
              else -(quiescence_value evaluate 63 c)), s', c)
        ∧ ChessSearch.AtPly s' 1 table first
        ∧ s'.principalVariationLengths = tab_set t.principalVariationLengths 1 1
        ∧ s'.principalVariationTable = t.principalVariationTable
        ∧ s'.historyMoves = t.historyMoves := by
    intro t ht
    obtain ⟨s', hcall, h1, h2, h3, h4⟩ := negamaxSearch_leaf_at_one evaluate hev' fuel hfuel
      table first (-500000) (-alpha) c t ht (by omega) (le_refl _) (by omega) hfifty hfirst
      (Or.inl (by
        have : wrap_int (-alpha - -500000) = -alpha - -500000 :=
          wrap_int_id (by omega) (by omega)
        rw [this]; omega))
    refine ⟨s', ?_, h1, h2, h3, h4⟩
    rw [hcall]
    unfold negated clamp_score
    simp only [Option.map_some']
    by_cases hv : -(quiescence_value evaluate 63 c) ≤ alpha
    · rw [if_pos hv, if_pos (by omega : quiescence_value evaluate 63 c ≥ -alpha)]
      rw [neg_neg, wrap_int_id (by omega) (by omega)]
    · rw [if_neg hv, if_neg (by omega : ¬ quiescence_value evaluate 63 c ≥ -alpha),
        if_neg (by omega : ¬ quiescence_value evaluate 63 c ≤ -500000)]
      rw [wrap_int_id (by omega) (by omega)]
  unfold ChessSearch.searchMove
  by_cases hm : movesSearched = 0
  · rw [if_pos hm, w1, w2, w3]
    exact full s hs
  · rw [if_neg hm]
    have hlmr : ¬ (movesSearched ≥ ChessSearch.FULL_DEPTH_MOVES
        ∧ (1 : Int) ≥ ChessSearch.REDUCTION_LIMIT ∧ false = false ∧ move.is_capture = false
        ∧ move.is_promo = false) := by
      rintro ⟨-, h, -⟩
      exact absurd h (by decide)
    dsimp only
    rw [if_neg hlmr]
    dsimp only
    rw [w5, if_pos (by omega : alpha + 1 > alpha), w1, w2, w3, w4]
    obtain ⟨s1, hcall, h1, h2, h3, h4⟩ := negamaxSearch_leaf_at_one evaluate hev' fuel hfuel
      table first (-alpha - 1) (-alpha) c s hs (by omega) (by omega) (by omega) hfifty hfirst
      (Or.inr hmiss)
    rw [hcall]
    unfold negated clamp_score
    simp only [Option.map_some']
    by_cases hv : -(quiescence_value evaluate 63 c) ≤ alpha
    · rw [if_pos (by omega : quiescence_value evaluate 63 c ≥ -alpha)]
      rw [neg_neg, wrap_int_id (by omega) (by omega)]
      rw [if_neg (by omega : ¬ (alpha > alpha ∧ alpha < 500000)), if_pos hv]
      exact ⟨s1, rfl, h1, h2, h3, h4⟩
    · rw [if_neg (by omega : ¬ quiescence_value evaluate 63 c ≥ -alpha),
        if_pos (by omega : quiescence_value evaluate 63 c ≤ -alpha - 1)]
      have : wrap_int (-(-alpha - 1)) = alpha + 1 := by
        rw [wrap_int_id (by omega) (by omega)]; omega
      rw [this, if_pos (by omega : alpha + 1 > alpha ∧ alpha + 1 < 500000)]
      obtain ⟨s2, hcall2, g1, g2, g3, g4⟩ := full s1 h1
      refine ⟨s2, ?_, g1, ?_, g3.trans h3, g4.trans h4⟩
      · exact hcall2
      · rw [g2, h2, tab_set_idem]

/-- The state after `raiseAlpha` at the root, when the child's principal variation is
empty: the move is the first move of the principal variation, of length 1. -/
theorem raiseAlpha_root (s : ChessSearch) (move : Move) (depth : Int)
    (table : TranspositionTable) (first : Nat) (hs : ChessSearch.AtPly s 0 table first)
    (hlen : s.principalVariationLengths 1 = 1) :
    ChessSearch.AtPly (s.raiseAlpha move depth) 0 table first
      ∧ (s.raiseAlpha move depth).principalVariationTable 0 0 = move
      ∧ (s.raiseAlpha move depth).principalVariationLengths 0 = 1 := by
  refine ⟨⟨hs.currentPly, hs.repetitionIndex, hs.searchStopped, hs.unlimited,
    hs.transpositionTable, hs.repetitionTable⟩, ?_, ?_⟩
  · unfold ChessSearch.raiseAlpha
    dsimp only
    rw [hs.currentPly]
    have e1 : ((0 : Int) + 1).toNat = 1 := rfl
    have e0 : (0 : Int).toNat = 0 := rfl
    rw [e1, e0, hlen]
    have e2 : ((1 : Int) - (0 + 1)).toNat = 0 := rfl
    rw [e2]
    simp [tab2_set, tab_set]
  · unfold ChessSearch.raiseAlpha
    dsimp only
    rw [hs.currentPly]
    have e1 : ((0 : Int) + 1).toNat = 1 := rfl
    have e0 : (0 : Int).toNat = 0 := rfl
    rw [e1, e0, hlen]
    simp [tab_set]

/-- The move loop at the root of a search of depth 1 with `beta = 500000`: the score is
the best of `alpha` and, over the moves `make_move` accepts, minus the quiescence value
of the position after the move; when `alpha` was raised, the first move of the
principal variation is a move of that score. -/
theorem negamaxSearch_loop_root (evaluate : Board → Int)
    (hev : ∀ b, -499999 < evaluate b ∧ evaluate b < 499999) (fuel : Nat) (hfuel : 63 < fuel)
    (table : TranspositionTable) (first : Nat) (board : Board) :
    ∀ (l : List Move) (alpha : Int) (hashFlag : HashFlag) (cnt : Int) (s : ChessSearch),
      ChessSearch.AtPly s 0 table first → -500000 ≤ alpha → alpha < 499999 → 0 ≤ cnt →
      cnt + (l.length : Int) < 2147483647 →
      (cnt ≠ 0 ∨ ∃ m ∈ l, (board.make_move m).1 = true) →
      (∀ m ∈ l, (board.make_move m).1 = true →
        (board.make_move m).2.fifty < 100 ∧ first ≠ (board.make_move m).2.hash_key
          ∧ (table.entries ((board.make_move m).2.hash_key % table.tableSize)).hashKey
            ≠ (board.make_move m).2.hash_key) →
      ∃ s', ChessSearch.negamaxSearch_loop (ChessSearch.negamaxSearch evaluate fuel) 500000 1
            false l alpha hashFlag cnt cnt board s
          = some (best_score (fun m => (board.make_move m).1)
              (fun m => -(quiescence_value evaluate 63 (board.make_move m).2)) l alpha, s',
              board)
        ∧ ((best_score (fun m => (board.make_move m).1)
              (fun m => -(quiescence_value evaluate 63 (board.make_move m).2)) l alpha = alpha
            ∧ s'.principalVariationTable 0 0 = s.principalVariationTable 0 0
            ∧ s'.principalVariationLengths 0 = s.principalVariationLengths 0)
          ∨ (alpha < best_score (fun m => (board.make_move m).1)
              (fun m => -(quiescence_value evaluate 63 (board.make_move m).2)) l alpha
            ∧ ∃ m ∈ l, (board.make_move m).1 = true
              ∧ -(quiescence_value evaluate 63 (board.make_move m).2)
                = best_score (fun m => (board.make_move m).1)
                  (fun m => -(quiescence_value evaluate 63 (board.make_move m).2)) l alpha
              ∧ s'.principalVariationTable 0 0 = m
              ∧ s'.principalVariationLengths 0 = 1)) := by
  intro l
  induction l with
  | nil =>
    intro alpha hashFlag cnt s hs _ _ _ _ hex _
    have hc : cnt ≠ 0 := by
      rcases hex with h | ⟨m, hm, -⟩
      · exact h
      · exact absurd hm (List.not_mem_nil _)
    rw [ChessSearch.negamaxSearch_loop, if_neg hc]
    exact ⟨_, rfl, Or.inl ⟨rfl, rfl, rfl⟩⟩
  | cons m rest ih =>
    intro alpha hashFlag cnt s hs ha1 ha2 hc0 hlen hex hch
    have hlen' : cnt + 1 + (rest.length : Int) < 2147483647 := by
      have : ((m :: rest).length : Int) = (rest.length : Int) + 1 := by
        rw [List.length_cons]; push_cast; rfl
      omega
    rw [ChessSearch.negamaxSearch_loop, best_score_cons]
    dsimp only
    by_cases hmade : (board.make_move m).1 = true
    · rw [if_neg (by rw [hmade]; decide), if_pos hmade]
      obtain ⟨hf, hr, ht⟩ := hch m (List.mem_cons_self _ _) hmade
      obtain ⟨s1, hcall, h1, h2, h3, -⟩ := searchMove_root evaluate hev fuel hfuel table first
        alpha ha1 ha2 cnt m (board.make_move m).2 (s.enterChild board.hash_key)
        (hs.enterChild _) hf hr ht
      rw [hcall]
      dsimp only
      have hs2 := h1.leaveChild
      rw [if_neg (by rw [hs2.searchStopped]; decide)]
      have wc : wrap_int (cnt + 1) = cnt + 1 := wrap_int_id (by omega) (by omega)
      rw [wc]
      obtain ⟨hq1, hq2⟩ := quiescence_value_bounds evaluate 499999 hev 63 (board.make_move m).2
      have hpv1 : s1.leaveChild.principalVariationLengths 1 = 1 := by
        show s1.principalVariationLengths 1 = 1
        rw [h2]; simp [tab_set]
      have hpv0 : s1.leaveChild.principalVariationLengths 0 = s.principalVariationLengths 0 := by
        show s1.principalVariationLengths 0 = _
        rw [h2]
        show tab_set s.principalVariationLengths 1 1 0 = _
        simp [tab_set]
      have hpt : s1.leaveChild.principalVariationTable = s.principalVariationTable := h3
      by_cases hv : -(quiescence_value evaluate 63 (board.make_move m).2) ≤ alpha
      · rw [if_pos hv, if_neg (by omega : ¬ alpha > alpha), max_eq_left hv]
        obtain ⟨s', hres, hpv⟩ := ih alpha hashFlag (cnt + 1) s1.leaveChild hs2 ha1 ha2
          (by omega) hlen' (Or.inl (by omega))
          (fun m' hm' => hch m' (List.mem_cons_of_mem _ hm'))
        refine ⟨s', hres, ?_⟩
        rcases hpv with ⟨e1, e2, e3⟩ | ⟨e1, m', hm', e2, e3, e4, e5⟩
        · exact Or.inl ⟨e1, by rw [e2, hpt], by rw [e3, hpv0]⟩
        · exact Or.inr ⟨e1, m', List.mem_cons_of_mem _ hm', e2, e3, e4, e5⟩
      · rw [if_neg hv, if_pos (by omega :
            -(quiescence_value evaluate 63 (board.make_move m).2) > alpha),
          if_neg (by omega : ¬ -(quiescence_value evaluate 63 (board.make_move m).2) ≥ 500000),
          max_eq_right (by omega)]
        obtain ⟨hs3, hp1, hp2⟩ := raiseAlpha_root s1.leaveChild m 1 table first hs2 hpv1
        obtain ⟨s', hres, hpv⟩ := ih (-(quiescence_value evaluate 63 (board.make_move m).2))
          HashFlag.EXACT (cnt + 1) (s1.leaveChild.raiseAlpha m 1) hs3 (by omega) (by omega)
          (by omega) hlen' (Or.inl (by omega))
          (fun m' hm' => hch m' (List.mem_cons_of_mem _ hm'))
        refine ⟨s', hres, Or.inr ?_⟩
        rcases hpv with ⟨e1, e2, e3⟩ | ⟨e1, m', hm', e2, e3, e4, e5⟩
        · exact ⟨by rw [e1]; omega, m, List.mem_cons_self _ _, hmade, e1.symm,
            by rw [e2, hp1], by rw [e3, hp2]⟩
        · exact ⟨by omega, m', List.mem_cons_of_mem _ hm', e2, e3, e4, e5⟩
    · have hrej : (board.make_move m).1 = false := by
        cases h : (board.make_move m).1
        · rfl
        · exact absurd h hmade
      rw [if_pos (by rw [hrej]; decide), if_neg hmade, make_move_snd_of_rejected board m hrej]
      obtain ⟨s', hres, hpv⟩ := ih alpha hashFlag cnt (s.enterChild board.hash_key).leaveChild
        (hs.enterChild _).leaveChild ha1 ha2 hc0 (by omega)
        (by
          rcases hex with h | ⟨m', hm', hl⟩
          · exact Or.inl h
          · rcases List.mem_cons.1 hm' with rfl | h
            · exact absurd hl hmade
            · exact Or.inr ⟨m', h, hl⟩)
        (fun m' hm' => hch m' (List.mem_cons_of_mem _ hm'))
      refine ⟨s', hres, ?_⟩
      rcases hpv with ⟨e1, e2, e3⟩ | ⟨e1, m', hm', e2, e3, e4, e5⟩
      · exact Or.inl ⟨e1, e2, e3⟩
      · exact Or.inr ⟨e1, m', List.mem_cons_of_mem _ hm', e2, e3, e4, e5⟩

theorem ChessSearch.AtPly.enablePrincipalVariationScoring {s : ChessSearch} {ply : Int}
    {table : TranspositionTable} {first : Nat} (h : ChessSearch.AtPly s ply table first)
    (moves : MoveArray) :
    ChessSearch.AtPly (s.enablePrincipalVariationScoring moves) ply table first := by
  unfold ChessSearch.enablePrincipalVariationScoring
  dsimp only
  split
  · exact ⟨h.currentPly, h.repetitionIndex, h.searchStopped, h.unlimited,
      h.transpositionTable, h.repetitionTable⟩
  · exact ⟨h.currentPly, h.repetitionIndex, h.searchStopped, h.unlimited,
      h.transpositionTable, h.repetitionTable⟩

/-- The search of depth 1 with the full window at the root, for a side to move that is
not in check and has a move: the score is the best, over the moves `make_move` accepts,
of minus the quiescence value of the position after the move, and the first move of the
principal variation is a move of that score. -/
theorem negamaxSearch_root (evaluate : Board → Int)
    (hev : ∀ b, -499999 < evaluate b ∧ evaluate b < 499999) (fuel : Nat) (hfuel : 64 < fuel)
    (table : TranspositionTable) (first : Nat) (board : Board) (s : ChessSearch)
    (hs : ChessSearch.AtPly s 0 table first)
    (hcheck : board.is_sq_attacked
      (get_lsb_index (board.piece_location (5 + 6 * board.side.toNat)))
      (opposite_side board.side) = false)
    (hlen : (fill_move_array [] board).length ≤ MAX_MOVES)
    (hex : ∃ m ∈ fill_move_array [] board, (board.make_move m).1 = true)
    (hch : ∀ m ∈ fill_move_array [] board, (board.make_move m).1 = true →
      (board.make_move m).2.fifty < 100 ∧ first ≠ (board.make_move m).2.hash_key
        ∧ (table.entries ((board.make_move m).2.hash_key % table.tableSize)).hashKey
          ≠ (board.make_move m).2.hash_key) :
    ∃ s' m, ChessSearch.negamaxSearch evaluate fuel (-500000) 500000 1 board s
        = some (-(quiescence_value evaluate 63 (board.make_move m).2), s', board)
      ∧ m ∈ fill_move_array [] board ∧ (board.make_move m).1 = true
      ∧ (∀ m' ∈ fill_move_array [] board, (board.make_move m').1 = true →
          -(quiescence_value evaluate 63 (board.make_move m').2)
            ≤ -(quiescence_value evaluate 63 (board.make_move m).2))
      ∧ -499999 < -(quiescence_value evaluate 63 (board.make_move m).2)
      ∧ -(quiescence_value evaluate 63 (board.make_move m).2) < 499999
      ∧ s'.principalVariationTable 0 0 = m ∧ s'.principalVariationLengths 0 = 1 := by
  obtain ⟨f, rfl⟩ : ∃ f, fuel = f + 1 := ⟨fuel - 1, by omega⟩
  have hs0 : ChessSearch.AtPly
      ({ s with
        principalVariationLengths :=
          tab_set s.principalVariationLengths s.currentPly.toNat s.currentPly }
        : ChessSearch) 0 table first :=
    ⟨hs.currentPly, hs.repetitionIndex, hs.searchStopped, hs.unlimited,
      hs.transpositionTable, hs.repetitionTable⟩
  have hs1 := (hs0.of_keeps (le_refl _) (pollTime_keeps _ hs0.unlimited)).of_keeps (le_refl _)
    (countNode_keeps _)
  rw [ChessSearch.negamaxSearch]
  dsimp only
  have hply : ¬ (s.currentPly ≠ 0
      ∧ (({ s with
          principalVariationLengths :=
            tab_set s.principalVariationLengths s.currentPly.toNat s.currentPly }
          : ChessSearch).isPositionRepeated board.hash_key = true ∨ board.fifty ≥ 100)) :=
    fun h => h.1 hs.currentPly
  rw [if_neg hply]
  have hpv : ¬ (¬ wrap_int (500000 - -500000) > 1 ∧ s.currentPly ≠ 0) :=
    fun h => h.2 hs.currentPly
  rw [if_neg hpv]
  have hno : ¬ (NO_HASH_ENTRY ≠ NO_HASH_ENTRY) := fun h => h rfl
  rw [if_neg hno]
  have hd : ¬ ((1 : Int) = 0) := by decide
  rw [if_neg hd]
  have hs0p := hs0.of_keeps (le_refl _) (pollTime_keeps _ hs0.unlimited)
  have hmax : ¬ (({ s with
      principalVariationLengths :=
        tab_set s.principalVariationLengths s.currentPly.toNat s.currentPly }
      : ChessSearch).pollTime.currentPly > ChessSearch.MAX_PLY - 1) := by
    rw [hs0p.currentPly]; decide
  rw [if_neg hmax, hcheck]
  have hnull : ∀ t : ChessSearch,
      ChessSearch.nullMoveSearch (ChessSearch.negamaxSearch evaluate f) 500000
        (if false = true then wrap_int (1 + 1) else 1) false board t
        = some (none, t, board) := by
    intro t
    unfold ChessSearch.nullMoveSearch
    rw [if_neg (by decide : ¬ (false = true))]
    rw [if_neg (fun h => absurd h.1 (by decide))]
  rw [hnull]
  dsimp only
  rw [if_neg (by decide : ¬ (false = true))]
  have key : ∀ S : ChessSearch, ChessSearch.AtPly S 0 table first →
      ∃ s' m, ChessSearch.negamaxSearch_loop (ChessSearch.negamaxSearch evaluate f) 500000 1
            false (S.sortMoves (fill_move_array [] board) board) (-500000) HashFlag.ALPHA 0 0
            board S
          = some (-(quiescence_value evaluate 63 (board.make_move m).2), s', board)
        ∧ m ∈ fill_move_array [] board ∧ (board.make_move m).1 = true
        ∧ (∀ m' ∈ fill_move_array [] board, (board.make_move m').1 = true →
            -(quiescence_value evaluate 63 (board.make_move m').2)
              ≤ -(quiescence_value evaluate 63 (board.make_move m).2))
        ∧ -499999 < -(quiescence_value evaluate 63 (board.make_move m).2)
        ∧ -(quiescence_value evaluate 63 (board.make_move m).2) < 499999
        ∧ s'.principalVariationTable 0 0 = m ∧ s'.principalVariationLengths 0 = 1 := by
    intro S hS'
    have hperm := sortMoves_perm S (fill_move_array [] board) board
    obtain ⟨m₀, hm₀, hl₀⟩ := hex
    obtain ⟨s', hres, hpvs⟩ := negamaxSearch_loop_root evaluate hev f (by omega) table first
      board (S.sortMoves (fill_move_array [] board) board) (-500000) HashFlag.ALPHA 0 S hS'
      (le_refl _) (by decide) (le_refl _)
      (by
        rw [hperm.length_eq]
        have : MAX_MOVES = 218 := rfl
        omega)
      (Or.inr ⟨m₀, hperm.mem_iff.2 hm₀, hl₀⟩)
      (fun m hm => hch m (hperm.mem_iff.1 hm))
    rw [best_score_perm _ _ hperm] at hres hpvs
    have hge := best_score_ge_mem (fun m => (board.make_move m).1)
      (fun m => -(quiescence_value evaluate 63 (board.make_move m).2)) (fill_move_array [] board)
      (-500000) m₀ hm₀ hl₀
    have hb₀ := quiescence_value_bounds evaluate 499999 hev 63 (board.make_move m₀).2
    rcases hpvs with ⟨e1, -, -⟩ | ⟨-, m, hm, hl, hval, hp1, hp2⟩
    · rw [e1] at hge
      dsimp only at hge
      omega
    · have hb := quiescence_value_bounds evaluate 499999 hev 63 (board.make_move m).2
      refine ⟨s', m, ?_, hperm.mem_iff.1 hm, hl, ?_, by omega, by omega, hp1, hp2⟩
      · rw [hres, hval]
      · intro m' hm' hl'
        rw [hval]
        exact best_score_ge_mem (fun m => (board.make_move m).1)
          (fun m => -(quiescence_value evaluate 63 (board.make_move m).2))
          (fill_move_array [] board) (-500000) m' hm' hl'
  split
  · exact key _ (hs1.enablePrincipalVariationScoring _)
  · exact key _ hs1

/-! ## `findBestMove` with `maxDepth = 1` -/

/-- The state with which `findBestMove` enters its first search, for a searcher that is
outside a search, has an empty repetition history and no time limit, and a clock that
does not run backwards. -/
theorem startSearch_at_ply (search : ChessSearch) (hply : search.currentPly = 0)
    (hrep : search.repetitionIndex = 0) (htime : search.timeAllocated = INT64_MAX.toNat)
    (hclock : ∀ n, 0 ≤ search.clock 0 ∧ search.clock 0 ≤ search.clock n
      ∧ search.clock n < 9223372036854775808) :
    ChessSearch.AtPly
      ({ search.startSearch with followPrincipalVariation := true } : ChessSearch) 0
      search.transpositionTable (search.repetitionTable 0) := by
  refine ⟨hply, hrep, rfl, ?_, rfl, rfl⟩
  intro n
  show ((search.clock (n + 1) % 18446744073709551616).toNat + 18446744073709551616
      - (search.clock 0 % 18446744073709551616).toNat) % 18446744073709551616
    ≤ search.timeAllocated
  rw [htime]
  have e : INT64_MAX.toNat = 9223372036854775807 := rfl
  rw [e]
  obtain ⟨h0, h1, h2⟩ := hclock (n + 1)
  obtain ⟨-, -, h3⟩ := hclock 0
  omega

theorem count_bits_aux_le : ∀ (fuel x : Nat), count_bits_aux fuel x ≤ fuel := by
  intro fuel
  induction fuel with
  | zero => intro x; exact le_refl _
  | succ n ih =>
    intro x
    have := ih (x / 2)
    rw [count_bits_aux]
    omega

/-- The evaluator `material_balance` stays far inside the window of the search. -/
theorem material_balance_bounds (board : Board) :
    -499999 < material_balance board ∧ material_balance board < 499999 := by
  unfold material_balance
  dsimp only
  have h := fun x => count_bits_aux_le 64 x
  have h0 := h (board.piece_location (6 * board.side.toNat))
  have h1 := h (board.piece_location (6 * board.side.toNat + 1))
  have h2 := h (board.piece_location (6 * board.side.toNat + 2))
  have h3 := h (board.piece_location (6 * board.side.toNat + 3))
  have h4 := h (board.piece_location (6 * board.side.toNat + 4))
  have g0 := h (board.piece_location (6 * (opposite_side board.side).toNat))
  have g1 := h (board.piece_location (6 * (opposite_side board.side).toNat + 1))
  have g2 := h (board.piece_location (6 * (opposite_side board.side).toNat + 2))
  have g3 := h (board.piece_location (6 * (opposite_side board.side).toNat + 3))
  have g4 := h (board.piece_location (6 * (opposite_side board.side).toNat + 4))
  unfold count_bits
  omega

/-- C25 (amended): for every evaluator with values strictly between -499999 and 499999
and every position whose side to move is not in check and has at least one legal move
(a move of the list of `fill_move_array` that `make_move` accepts, the list holding at
most `MAX_MOVES` moves), `findBestMove` with `maxDepth = 1` returns, given enough fuel,
and reports as best move a legal move `m` that maximises, over all legal moves, minus
the quiescence value of the position after the move (the value of the capture search
down to ply 64, not the static evaluation). The searcher is outside a search
(`currentPly = 0`), has an empty repetition history (`repetitionIndex = 0`) and no time
limit (`timeAllocated = INT64_MAX`, the clock not running backwards), and for every
legal move the position after it has a fifty-move counter below 100, a hash key other
than entry 0 of the repetition table, and no entry in the transposition table. -/
theorem findBestMove_depth_one (evaluate : Board → Int)
    (hev : ∀ b, -499999 < evaluate b ∧ evaluate b < 499999) (fuel : Nat) (hfuel : 64 < fuel)
    (search : ChessSearch) (board : Board) (hply : search.currentPly = 0)
    (hrep : search.repetitionIndex = 0) (htime : search.timeAllocated = INT64_MAX.toNat)
    (hclock : ∀ n, 0 ≤ search.clock 0 ∧ search.clock 0 ≤ search.clock n
      ∧ search.clock n < 9223372036854775808)
    (hcheck : board.is_sq_attacked
      (get_lsb_index (board.piece_location (5 + 6 * board.side.toNat)))
      (opposite_side board.side) = false)
    (hlen : (fill_move_array [] board).length ≤ MAX_MOVES)
    (hex : ∃ m ∈ fill_move_array [] board, (board.make_move m).1 = true)
    (hch : ∀ m ∈ fill_move_array [] board, (board.make_move m).1 = true →
      (board.make_move m).2.fifty < 100
        ∧ search.repetitionTable 0 ≠ (board.make_move m).2.hash_key
        ∧ (search.transpositionTable.entries
            ((board.make_move m).2.hash_key % search.transpositionTable.tableSize)).hashKey
          ≠ (board.make_move m).2.hash_key) :
    ∃ m, (ChessSearch.findBestMove evaluate fuel search board 1).map (fun r => r.1)
        = some (moveToString m)
      ∧ m ∈ fill_move_array [] board ∧ (board.make_move m).1 = true
      ∧ ∀ m' ∈ fill_move_array [] board, (board.make_move m').1 = true →
          -(quiescence_value evaluate 63 (board.make_move m').2)
            ≤ -(quiescence_value evaluate 63 (board.make_move m).2) := by
  obtain ⟨s', m, hres, hm, hl, hbest, hlo, hhi, hp1, hp2⟩ := negamaxSearch_root evaluate hev
    fuel hfuel search.transpositionTable (search.repetitionTable 0) board _
    (startSearch_at_ply search hply hrep htime hclock) hcheck hlen hex hch
  refine ⟨m, ?_, hm, hl, hbest⟩
  unfold ChessSearch.findBestMove
  have e1 : (1 : Int).toNat = 1 := rfl
  rw [e1, ChessSearch.findBestMove_loop]
  rw [if_neg (by decide : ¬ ((1 : Int) > 1))]
  have hstop : ¬ (search.startSearch.searchStopped = true) := by
    show ¬ (false = true)
    decide
  rw [if_neg hstop]
  dsimp only
  have hinf : ChessSearch.INFINITY_VALUE = 500000 := rfl
  rw [hinf, hres]
  dsimp only
  rw [if_neg (by omega : ¬ (-(quiescence_value evaluate 63 (board.make_move m).2) ≤ -500000
    ∨ -(quiescence_value evaluate 63 (board.make_move m).2) ≥ 500000))]
  rw [ChessSearch.findBestMove_loop, hp2, hp1]
  rfl

/-- C25 as stated fails: in `7k/8/4p3/3p4/8/2N5/8/K7 w - - 0 1`, with the evaluator
`material_balance`, a new searcher and `maxDepth = 1`, `findBestMove` reports c3b5.
The knight move of that name leaves the material as it is (minus the evaluation of the
position after it is 100), while the legal capture c3d5 wins a pawn (200): the search
values the position after c3d5 by its quiescence search, in which the pawn on e6 takes
the knight back. -/
theorem findBestMove_prefers_quiet_move :
    ∃ board, Board.load_fen Board.initial "7k/8/4p3/3p4/8/2N5/8/K7 w - - 0 1" = some board
      ∧ (ChessSearch.findBestMove material_balance 70
          (ChessSearch.init ⟨fun _ => ⟨0, 0, HashFlag.EXACT, 0⟩, 2796202⟩ (fun _ => 0)) board
          1).map (fun r => r.1) = some "c3b5".data
      ∧ ∀ m ∈ fill_move_array [] board, moveToString m = "c3b5".data →
          ∃ m' ∈ fill_move_array [] board, (board.make_move m').1 = true
            ∧ moveToString m' = "c3d5".data
            ∧ -(material_balance (board.make_move m).2)
              < -(material_balance (board.make_move m').2) := by
  refine ⟨_, rfl, ?_, ?_⟩ <;> decide!

/-- C25 (amended) at `7k/8/4p3/3p4/8/2N5/8/K7 w - - 0 1` with the evaluator
`material_balance` and a new searcher: White is not in check and has a legal move, and
the move reported maximises minus the quiescence value of the position after it. -/
theorem findBestMove_depth_one_witness :
    (Board.of_fen "7k/8/4p3/3p4/8/2N5/8/K7 w - - 0 1").is_sq_attacked
        (get_lsb_index ((Board.of_fen "7k/8/4p3/3p4/8/2N5/8/K7 w - - 0 1").piece_location
          (5 + 6 * (Board.of_fen "7k/8/4p3/3p4/8/2N5/8/K7 w - - 0 1").side.toNat)))
        (opposite_side (Board.of_fen "7k/8/4p3/3p4/8/2N5/8/K7 w - - 0 1").side) = false
      ∧ (∃ m ∈ fill_move_array [] (Board.of_fen "7k/8/4p3/3p4/8/2N5/8/K7 w - - 0 1"),
          ((Board.of_fen "7k/8/4p3/3p4/8/2N5/8/K7 w - - 0 1").make_move m).1 = true)
      ∧ ∃ m, (ChessSearch.findBestMove material_balance 70
            (ChessSearch.init ⟨fun _ => ⟨0, 0, HashFlag.EXACT, 0⟩, 2796202⟩ (fun _ => 0))
            (Board.of_fen "7k/8/4p3/3p4/8/2N5/8/K7 w - - 0 1") 1).map (fun r => r.1)
          = some (moveToString m)
        ∧ m ∈ fill_move_array [] (Board.of_fen "7k/8/4p3/3p4/8/2N5/8/K7 w - - 0 1")
        ∧ ((Board.of_fen "7k/8/4p3/3p4/8/2N5/8/K7 w - - 0 1").make_move m).1 = true
        ∧ ∀ m' ∈ fill_move_array [] (Board.of_fen "7k/8/4p3/3p4/8/2N5/8/K7 w - - 0 1"),
            ((Board.of_fen "7k/8/4p3/3p4/8/2N5/8/K7 w - - 0 1").make_move m').1 = true →
            -(quiescence_value material_balance 63
                ((Board.of_fen "7k/8/4p3/3p4/8/2N5/8/K7 w - - 0 1").make_move m').2)
              ≤ -(quiescence_value material_balance 63
                ((Board.of_fen "7k/8/4p3/3p4/8/2N5/8/K7 w - - 0 1").make_move m).2) :=
  ⟨by decide!, by decide!,
    findBestMove_depth_one material_balance material_balance_bounds 70 (by decide)
      (ChessSearch.init ⟨fun _ => ⟨0, 0, HashFlag.EXACT, 0⟩, 2796202⟩ (fun _ => 0))
      (Board.of_fen "7k/8/4p3/3p4/8/2N5/8/K7 w - - 0 1") rfl rfl rfl
      (fun _ => ⟨le_refl _, le_refl _, (by decide : (0 : Int) < 9223372036854775808)⟩) (by decide!) (by decide!) (by decide!)
      (by decide!)⟩

/-! ## The tables of the leapers -/

/-- C35: for every square `s` of the board, the entry of the knight table for `s` holds
exactly the squares `t` of the board whose row and column differ from those of `s` by 1
and 2 or by 2 and 1; the entry of the king table holds exactly the squares of the board
other than `s` whose row and column differ by at most 1; and the entry of the pawn table
of a side holds exactly the squares of the board one row ahead of `s` for that side
(row - 1, towards lower indices, for white; row + 1 for black) and one column to either
side. Rows and columns are those of the square itself, so no entry holds a square
reached around an edge of the board. -/
theorem leaper_tables_exact (s : Nat) (hs : s < 64) (t : Nat) :
    ((knight_masks s).testBit t = true ↔ t < 64 ∧ knight_leap s t)
      ∧ ((king_masks s).testBit t = true ↔ t < 64 ∧ king_step s t)
      ∧ ((pawn_masks 0 s).testBit t = true ↔ t < 64 ∧ pawn_attacks_sq Side.white s t)
      ∧ ((pawn_masks 1 s).testBit t = true ↔ t < 64 ∧ pawn_attacks_sq Side.black s t) := by
  obtain ⟨hn, -, hk, -⟩ := leaper_mask_counts s hs
  have hp0 := pawn_masks_lt 0 s
  have hp1 := pawn_masks_lt 1 s
  by_cases ht : t < 64
  · have h1 := knight_mask_forward s hs t ht
    have h2 := king_mask_forward s hs t ht
    obtain ⟨h3, h4⟩ := pawn_mask_forward s hs t ht
    exact ⟨⟨fun h => ⟨ht, h1.1 h⟩, fun h => h1.2 h.2⟩,
      ⟨fun h => ⟨ht, h2.1 h⟩, fun h => h2.2 h.2⟩,
      ⟨fun h => ⟨ht, h3.1 h⟩, fun h => h3.2 h.2⟩,
      ⟨fun h => ⟨ht, h4.1 h⟩, fun h => h4.2 h.2⟩⟩
  · have hbig : ∀ x : Nat, x < 2 ^ 64 → x.testBit t = false := by
      intro x hx
      apply Nat.testBit_lt_two_pow
      exact lt_of_lt_of_le hx (Nat.pow_le_pow_right (by decide) (by omega))
    refine ⟨?_, ?_, ?_, ?_⟩
    · rw [hbig _ hn]; simp [ht]
    · rw [hbig _ hk]; simp [ht]
    · rw [hbig _ hp0]; simp [ht]
    · rw [hbig _ hp1]; simp [ht]

/-- C35 at the corner a8 (square 0) and the square b6 (17): b6 is a knight leap from a8
and in the knight entry of a8, and it is in neither the king entry nor a pawn entry. -/
theorem leaper_tables_exact_witness :
    (0 < 64)
      ∧ ((knight_masks 0).testBit 17 = true ↔ 17 < 64 ∧ knight_leap 0 17)
      ∧ ((king_masks 0).testBit 17 = true ↔ 17 < 64 ∧ king_step 0 17)
      ∧ ((pawn_masks 0 0).testBit 17 = true ↔ 17 < 64 ∧ pawn_attacks_sq Side.white 0 17)
      ∧ ((pawn_masks 1 0).testBit 17 = true ↔ 17 < 64 ∧ pawn_attacks_sq Side.black 0 17)
      ∧ (knight_masks 0).testBit 17 = true :=
  ⟨by decide, (leaper_tables_exact 0 (by decide) 17).1, (leaper_tables_exact 0 (by decide) 17).2.1,
    (leaper_tables_exact 0 (by decide) 17).2.2.1, (leaper_tables_exact 0 (by decide) 17).2.2.2,
    by decide!⟩

/-- C36: for squares `s` and `t` of the board, `t` is in the white pawn entry of `s`
exactly when `s` is in the black pawn entry of `t`, `t` is in the black pawn entry of
`s` exactly when `s` is in the white pawn entry of `t`, and the knight table and the
king table are symmetric. -/
theorem leaper_tables_symmetric (s t : Nat) (hs : s < 64) (ht : t < 64) :
    ((pawn_masks 0 s).testBit t = (pawn_masks 1 t).testBit s)
      ∧ ((pawn_masks 1 s).testBit t = (pawn_masks 0 t).testBit s)
      ∧ ((knight_masks s).testBit t = (knight_masks t).testBit s)
      ∧ ((king_masks s).testBit t = (king_masks t).testBit s) := by
  have key : ∀ s, s < 64 → ∀ t, t < 64 →
      ((pawn_masks 0 s).testBit t = (pawn_masks 1 t).testBit s)
        ∧ ((pawn_masks 1 s).testBit t = (pawn_masks 0 t).testBit s)
        ∧ ((knight_masks s).testBit t = (knight_masks t).testBit s)
        ∧ ((king_masks s).testBit t = (king_masks t).testBit s) := by
    decide!
  exact key s hs t ht

/-- C36 at e4 (36) and d5 (27): d5 is in the white pawn entry of e4 and e4 is in the
black pawn entry of d5. -/
theorem leaper_tables_symmetric_witness :
    (36 < 64 ∧ 27 < 64)
      ∧ ((pawn_masks 0 36).testBit 27 = (pawn_masks 1 27).testBit 36)
      ∧ ((pawn_masks 1 36).testBit 27 = (pawn_masks 0 27).testBit 36)
      ∧ ((knight_masks 36).testBit 27 = (knight_masks 27).testBit 36)
      ∧ ((king_masks 36).testBit 27 = (king_masks 27).testBit 36)
      ∧ (pawn_masks 0 36).testBit 27 = true :=
  ⟨⟨by decide, by decide⟩, (leaper_tables_symmetric 36 27 (by decide) (by decide)).1,
    (leaper_tables_symmetric 36 27 (by decide) (by decide)).2.1,
    (leaper_tables_symmetric 36 27 (by decide) (by decide)).2.2.1,
    (leaper_tables_symmetric 36 27 (by decide) (by decide)).2.2.2, by decide!⟩

/-! ## The relevant-occupancy masks of the sliding pieces -/

/-- A square of a rook ray or of a bishop ray whose successor on the ray is still on the
board lies in the relevant-occupancy mask. -/
theorem slider_mask_inner : ∀ s : Nat, s < 64 → ∀ j : Nat, j < 8 →
    (∀ d ∈ rook_dirs,
      on_board (sq_row s + d.1 + (j : Int) * d.1) (sq_col s + d.2 + (j : Int) * d.2) →
      on_board (sq_row s + d.1 + ((j + 1 : Nat) : Int) * d.1)
        (sq_col s + d.2 + ((j + 1 : Nat) : Int) * d.2) →
      (generate_rook_mask s).testBit
        (square_at (sq_row s + d.1 + (j : Int) * d.1) (sq_col s + d.2 + (j : Int) * d.2))
        = true)
    ∧ (∀ d ∈ bishop_dirs,
      on_board (sq_row s + d.1 + (j : Int) * d.1) (sq_col s + d.2 + (j : Int) * d.2) →
      on_board (sq_row s + d.1 + ((j + 1 : Nat) : Int) * d.1)
        (sq_col s + d.2 + ((j + 1 : Nat) : Int) * d.2) →
      (generate_bishop_mask s).testBit
        (square_at (sq_row s + d.1 + (j : Int) * d.1) (sq_col s + d.2 + (j : Int) * d.2))
        = true) := by
  decide!

theorem slider_mask_counts : ∀ s, s < 64 →
    count_bits (generate_rook_mask s) ≤ 12 ∧ count_bits (generate_bishop_mask s) ≤ 9
      ∧ generate_rook_mask s < 2 ^ 64 ∧ generate_bishop_mask s < 2 ^ 64 := by
  decide!

/-- The ray attack set depends only on the blockers that the mask keeps, when the mask
holds every square of a ray whose successor is on the board. -/
theorem rays_from_and_mask (dirs : List (Int × Int)) (s occupancy mask : Nat)
    (hmask : ∀ d ∈ dirs, ∀ j : Nat, j < 8 →
      on_board (sq_row s + d.1 + (j : Int) * d.1) (sq_col s + d.2 + (j : Int) * d.2) →
      on_board (sq_row s + d.1 + ((j + 1 : Nat) : Int) * d.1)
        (sq_col s + d.2 + ((j + 1 : Nat) : Int) * d.2) →
      mask.testBit
        (square_at (sq_row s + d.1 + (j : Int) * d.1) (sq_col s + d.2 + (j : Int) * d.2))
        = true) :
    rays_from dirs s occupancy = rays_from dirs s (occupancy &&& mask) := by
  apply Nat.eq_of_testBit_eq
  intro i
  have key : (rays_from dirs s occupancy).testBit i = true
      ↔ (rays_from dirs s (occupancy &&& mask)).testBit i = true := by
    rw [testBit_rays_from, testBit_rays_from]
    constructor
    · rintro ⟨d, hd, n, hn, hob, hi, hbl⟩
      refine ⟨d, hd, n, hn, hob, hi, ?_⟩
      intro j hj
      rw [Nat.testBit_and, hbl j hj, Bool.false_and]
    · rintro ⟨d, hd, n, hn, hob, hi, hbl⟩
      refine ⟨d, hd, n, hn, hob, hi, ?_⟩
      intro j hj
      have h := hbl j hj
      rw [Nat.testBit_and, hmask d hd j (by omega) (hob j (by omega))
        (hob (j + 1) (by omega)), Bool.and_true] at h
      exact h
  cases h1 : (rays_from dirs s occupancy).testBit i <;>
    cases h2 : (rays_from dirs s (occupancy &&& mask)).testBit i
  · rfl
  · exact absurd (key.2 h2) (by rw [h1]; decide)
  · exact absurd (key.1 h1) (by rw [h2]; decide)
  · rfl

theorem generate_rook_attacks_and_mask (s : Nat) (hs : s < 64) (occupancy : Nat) :
    generate_rook_attacks s occupancy
      = generate_rook_attacks s (occupancy &&& generate_rook_mask s) :=
  rays_from_and_mask rook_dirs s occupancy _
    (fun d hd j hj => (slider_mask_inner s hs j hj).1 d hd)

theorem generate_bishop_attacks_and_mask (s : Nat) (hs : s < 64) (occupancy : Nat) :
    generate_bishop_attacks s occupancy
      = generate_bishop_attacks s (occupancy &&& generate_bishop_mask s) :=
  rays_from_and_mask bishop_dirs s occupancy _
    (fun d hd j hj => (slider_mask_inner s hs j hj).2 d hd)

/-- C38: for every square `s` of the board and every occupancy, the rook ray attacks
against the occupancy equal the rook ray attacks against the occupancy restricted to
`generate_rook_mask s`, and likewise for the bishop; the rook mask has at most 12 set
bits and the bishop mask at most 9. -/
theorem slider_attacks_depend_on_mask (s : Nat) (hs : s < 64) (occupancy : Nat) :
    generate_rook_attacks s occupancy
        = generate_rook_attacks s (occupancy &&& generate_rook_mask s)
      ∧ generate_bishop_attacks s occupancy
        = generate_bishop_attacks s (occupancy &&& generate_bishop_mask s)
      ∧ count_bits (generate_rook_mask s) ≤ 12
      ∧ count_bits (generate_bishop_mask s) ≤ 9 :=
  ⟨generate_rook_attacks_and_mask s hs occupancy,
    generate_bishop_attacks_and_mask s hs occupancy,
    (slider_mask_counts s hs).1, (slider_mask_counts s hs).2.1⟩

/-- C38 for a rook on a1 (56) with every square occupied: the attack set is a2 and b1
with and without the squares off the mask, and the mask of a1 has 12 set bits. -/
theorem slider_attacks_depend_on_mask_witness :
    (56 < 64)
      ∧ (generate_rook_attacks 56 U64_MAX
          = generate_rook_attacks 56 (U64_MAX &&& generate_rook_mask 56)
        ∧ generate_bishop_attacks 56 U64_MAX
          = generate_bishop_attacks 56 (U64_MAX &&& generate_bishop_mask 56)
        ∧ count_bits (generate_rook_mask 56) ≤ 12
        ∧ count_bits (generate_bishop_mask 56) ≤ 9)
      ∧ generate_rook_attacks 56 U64_MAX = square_bb 48 ||| square_bb 57
      ∧ count_bits (generate_rook_mask 56) = 12 :=
  ⟨by decide, slider_attacks_depend_on_mask 56 (by decide) U64_MAX, by decide!, by decide!⟩

/-! ## The lookup tables of the sliding pieces -/

theorem and_one_shiftLeft_ne_zero (a k : Nat) : (a &&& (1 <<< k) ≠ 0) ↔ a.testBit k = true := by
  rw [Nat.one_shiftLeft, Nat.and_two_pow]
  cases a.testBit k <;> simp

theorem squares_of_zero : squares_of 0 = [] := by
  unfold squares_of
  rw [bit_loop]
  simp

/-- The squares of a non-empty word: the lowest set bit, then the squares of the word
without it. -/
theorem squares_of_cons {b : Nat} (hb : b < 2 ^ 64) (h : b ≠ 0) :
    squares_of b = get_lsb_index b :: squares_of (pop_bit b (get_lsb_index b)) := by
  obtain ⟨h1, h2, h3⟩ := get_lsb_index_spec hb h
  have hp : pop_bit b (get_lsb_index b) < 2 ^ 64 := pop_bit_lt hb _
  have hlow : ∀ i, i < get_lsb_index b + 1 →
      (pop_bit b (get_lsb_index b)).testBit i = false := by
    intro i hi
    rw [testBit_pop_bit hb]
    by_cases he : i = get_lsb_index b
    · simp [he]
    · rw [h3 i (by omega)]; rfl
  have e1 : squares_of b = get_lsb_index b :: bit_loop 63 (pop_bit b (get_lsb_index b)) := by
    unfold squares_of
    rw [bit_loop, if_neg h]
  rw [e1]
  congr 1
  unfold squares_of
  rw [bit_loop_eq 63 (get_lsb_index b + 1) _ hp hlow (by omega) (by omega),
    bit_loop_eq 64 (get_lsb_index b + 1) _ hp hlow (by omega) (by omega)]

/-- The bits of the word built by the loop of `bb(int index, const bb& mask)`. -/
theorem testBit_bb_index_loop (index : Nat) :
    ∀ (count k tm board : Nat), tm < 2 ^ 64 → count ≤ (squares_of tm).length → ∀ i,
      ((bb_index_loop count k index tm board).testBit i = true
        ↔ (board.testBit i = true
          ∨ ∃ j, j < count ∧ (squares_of tm)[j]? = some i ∧ index.testBit (k + j) = true)) := by
  intro count
  induction count with
  | zero =>
    intro k tm board _ _ i
    rw [bb_index_loop]
    constructor
    · exact fun h => Or.inl h
    · rintro (h | ⟨j, hj, -⟩)
      · exact h
      · exact absurd hj (Nat.not_lt_zero _)
  | succ count ih =>
    intro k tm board htm hcount i
    have hne : tm ≠ 0 := by
      rintro rfl
      rw [squares_of_zero] at hcount
      simp at hcount
    have hcons := squares_of_cons htm hne
    obtain ⟨hl1, hl2, hl3⟩ := get_lsb_index_spec htm hne
    rw [bb_index_loop]
    rw [ih _ _ _ (pop_bit_lt htm _) (by rw [hcons] at hcount; simpa using hcount)]
    rw [hcons]
    have hboard : ∀ b : Bool,
        ((if index &&& (1 <<< k) ≠ 0 then board ||| square_bb (get_lsb_index tm)
          else board).testBit i = true)
          ↔ (board.testBit i = true
            ∨ (index.testBit k = true ∧ i = get_lsb_index tm)) := by
      intro _
      by_cases hk : index.testBit k = true
      · rw [if_pos ((and_one_shiftLeft_ne_zero index k).2 hk), Nat.testBit_or,
          testBit_square_bb]
        simp [hk, hl1]
      · rw [if_neg (fun h => hk ((and_one_shiftLeft_ne_zero index k).1 h))]
        simp [hk]
    rw [hboard true]
    constructor
    · rintro ((h | ⟨hk, rfl⟩) | ⟨j, hj, hget, hbit⟩)
      · exact Or.inl h
      · exact Or.inr ⟨0, by omega, by simp, by simpa using hk⟩
      · refine Or.inr ⟨j + 1, by omega, by simpa using hget, ?_⟩
        rw [← hbit]; congr 1; omega
    · rintro (h | ⟨j, hj, hget, hbit⟩)
      · exact Or.inl (Or.inl h)
      · cases j with
        | zero =>
          simp only [List.getElem?_cons_zero, Option.some.injEq] at hget
          exact Or.inl (Or.inr ⟨by simpa using hbit, hget.symm⟩)
        | succ j =>
          refine Or.inr ⟨j, by omega, by simpa using hget, ?_⟩
          rw [← hbit]; congr 1; omega

/-- The bits of `bb(index, mask)`. -/
theorem testBit_bb_of_index (index mask : Nat) (hmask : mask < 2 ^ 64) (i : Nat) :
    (bb_of_index index mask).testBit i = true
      ↔ ∃ j, j < (squares_of mask).length ∧ (squares_of mask)[j]? = some i
          ∧ index.testBit j = true := by
  unfold bb_of_index
  rw [testBit_bb_index_loop index _ 0 mask 0 hmask (by rw [count_bits_eq_length hmask]),
    count_bits_eq_length hmask]
  simp

/-- The word `bb(index, mask)` lies within the mask. -/
theorem bb_of_index_subset (index mask : Nat) (hmask : mask < 2 ^ 64) :
    bb_of_index index mask &&& mask = bb_of_index index mask := by
  apply Nat.eq_of_testBit_eq
  intro i
  rw [Nat.testBit_and]
  cases h : (bb_of_index index mask).testBit i
  · rfl
  · obtain ⟨j, -, hget, -⟩ := (testBit_bb_of_index index mask hmask i).1 h
    have hmem : i ∈ squares_of mask := List.getElem?_mem hget
    rw [(mem_squares_of hmask i).1 hmem]
    rfl

theorem index_of_subset_lt (blockers : Nat) :
    ∀ l : List Nat, index_of_subset blockers l < 2 ^ l.length := by
  intro l
  induction l with
  | nil => simp [index_of_subset]
  | cons sq rest ih =>
    rw [index_of_subset, List.length_cons, Nat.pow_succ]
    split <;> omega

theorem testBit_index_of_subset (blockers : Nat) :
    ∀ (l : List Nat) (j : Nat),
      (index_of_subset blockers l).testBit j = true
        ↔ ∃ sq, l[j]? = some sq ∧ blockers.testBit sq = true := by
  intro l
  induction l with
  | nil => intro j; simp [index_of_subset]
  | cons sq rest ih =>
    intro j
    rw [index_of_subset]
    cases j with
    | zero =>
      have hmod : ((if blockers.testBit sq = true then 1 else 0)
          + 2 * index_of_subset blockers rest) % 2
          = if blockers.testBit sq = true then 1 else 0 := by
        split <;> omega
      rw [Nat.testBit_zero, hmod]
      by_cases hb : blockers.testBit sq = true
      · simp [hb]
      · simp [hb]
    | succ j =>
      have hdiv : ((if blockers.testBit sq = true then 1 else 0)
          + 2 * index_of_subset blockers rest) / 2 = index_of_subset blockers rest := by
        split <;> omega
      rw [Nat.testBit_succ, List.getElem?_cons_succ, ← ih j, hdiv]

/-- Every set of blockers on the squares of the mask is `bb(index, mask)` for an index
below `2 ^ count_bits mask`. -/
theorem bb_of_index_of_subset (blockers mask : Nat) (hmask : mask < 2 ^ 64) :
    index_of_subset blockers (squares_of mask) < 1 <<< count_bits mask
      ∧ bb_of_index (index_of_subset blockers (squares_of mask)) mask = blockers &&& mask := by
  constructor
  · rw [Nat.one_shiftLeft, count_bits_eq_length hmask]
    exact index_of_subset_lt _ _
  · apply Nat.eq_of_testBit_eq
    intro i
    have key : (bb_of_index (index_of_subset blockers (squares_of mask)) mask).testBit i = true
        ↔ (blockers &&& mask).testBit i = true := by
      rw [testBit_bb_of_index _ _ hmask, Nat.testBit_and]
      constructor
      · rintro ⟨j, -, hget, hbit⟩
        obtain ⟨sq, hsq, hb⟩ := (testBit_index_of_subset blockers _ j).1 hbit
        rw [hget] at hsq
        cases hsq
        rw [hb, (mem_squares_of hmask i).1 (List.getElem?_mem hget)]
        rfl
      · intro h
        simp only [Bool.and_eq_true] at h
        obtain ⟨j, hj, hget⟩ := List.mem_iff_getElem.mp ((mem_squares_of hmask i).2 h.2)
        refine ⟨j, hj, by rw [List.getElem?_eq_getElem hj, hget], ?_⟩
        exact (testBit_index_of_subset blockers _ j).2
          ⟨i, by rw [List.getElem?_eq_getElem hj, hget], h.1⟩
    cases h1 : (bb_of_index (index_of_subset blockers (squares_of mask)) mask).testBit i <;>
      cases h2 : (blockers &&& mask).testBit i
    · rfl
    · exact absurd (key.2 h2) (by rw [h1]; decide)
    · exact absurd (key.1 h1) (by rw [h2]; decide)
    · rfl

theorem tab2_set_row_other {α : Type} (a : Nat → Nat → α) (i j : Nat) (v : α) (k : Nat)
    (h : k ≠ i) : tab2_set a i j v k = a k := by
  unfold tab2_set
  rw [if_neg h]

theorem tab2_set_cell {α : Type} (a : Nat → Nat → α) (i j : Nat) (v : α) (c : Nat) :
    tab2_set a i j v i c = if c = j then v else a i c := by
  unfold tab2_set tab_set
  rw [if_pos rfl]

/-- The loop over the blocker sets of one square writes only the row of the square, and
the entry at the index of a blocker set visited holds the value of a blocker set visited
with the same index. -/
theorem sliding_row_fold (key val : Nat → Nat) (square : Nat) :
    ∀ (n : Nat) (table : Nat → Nat → Nat),
      (∀ s, s ≠ square →
        (List.range n).foldl (fun t index => tab2_set t square (key index) (val index))
          table s = table s)
      ∧ ∀ i, i < n → ∃ j, j < n ∧ key j = key i
          ∧ (List.range n).foldl (fun t index => tab2_set t square (key index) (val index))
              table square (key i) = val j := by
  intro n
  induction n with
  | zero =>
    intro table
    exact ⟨fun _ _ => rfl, fun i hi => absurd hi (Nat.not_lt_zero _)⟩
  | succ n ih =>
    intro table
    obtain ⟨h1, h2⟩ := ih table
    rw [List.range_succ, List.foldl_append]
    simp only [List.foldl_cons, List.foldl_nil]
    constructor
    · intro s hs
      rw [tab2_set_row_other _ _ _ _ _ hs, h1 s hs]
    · intro i hi
      rw [tab2_set_cell]
      by_cases hk : key i = key n
      · exact ⟨n, by omega, hk.symm, by rw [if_pos hk]⟩
      · rw [if_neg hk]
        have hin : i < n := by
          rcases Nat.lt_succ_iff_lt_or_eq.1 hi with h | h
          · exact h
          · exact absurd (by rw [h]) hk
        obtain ⟨j, hj, hkj, hval⟩ := h2 i hin
        exact ⟨j, by omega, hkj, hval⟩

/-- A loop over the squares in which each pass writes only the row of its square leaves
in the row of a square what the pass of that square wrote. -/
theorem sliding_table_fold (step : Nat → (Nat → Nat → Nat) → (Nat → Nat → Nat))
    (hother : ∀ sq table s, s ≠ sq → step sq table s = table s) (s : Nat)
    (P : (Nat → Nat) → Prop) (hP : ∀ table, P (step s table s)) :
    ∀ (n : Nat) (table : Nat → Nat → Nat), s < n →
      P ((List.range n).foldl (fun t sq => step sq t) table s) := by
  intro n
  induction n with
  | zero => intro table hs; exact absurd hs (Nat.not_lt_zero _)
  | succ n ih =>
    intro table hs
    rw [List.range_succ, List.foldl_append]
    simp only [List.foldl_cons, List.foldl_nil]
    by_cases h : s = n
    · subst h
      exact hP _
    · rw [hother n _ s h]
      exact ih table (by omega)

/-- The entry of the table of `generate_sliding_table` at the magic index of the
blockers of an occupancy, when blocker sets with one magic index have one attack set. -/
theorem sliding_table_lookup (piece : SlidingPiece) (magic_numbers relevant_bits : Nat → Nat)
    (square : Nat) (hs : square < 64) (occupancy : Nat)
    (hmask : generate_mask Side.any square (to_normal_pieces piece) < 2 ^ 64)
    (hinj : ∀ a b, a &&& generate_mask Side.any square (to_normal_pieces piece) = a →
      b &&& generate_mask Side.any square (to_normal_pieces piece) = b →
      magic_index magic_numbers relevant_bits square a
        = magic_index magic_numbers relevant_bits square b →
      generate_attacks square a piece = generate_attacks square b piece) :
    generate_sliding_table piece magic_numbers relevant_bits square
        (magic_index magic_numbers relevant_bits square
          (occupancy &&& generate_mask Side.any square (to_normal_pieces piece)))
      = generate_attacks square
          (occupancy &&& generate_mask Side.any square (to_normal_pieces piece)) piece := by
  unfold generate_sliding_table
  obtain ⟨hidx, hbb⟩ := bb_of_index_of_subset occupancy _ hmask
  refine sliding_table_fold
    (fun sq table =>
      (List.range (1 <<< count_bits (generate_mask Side.any sq (to_normal_pieces piece)))).foldl
        (fun table index =>
          tab2_set table sq
            (magic_index magic_numbers relevant_bits sq
              (bb_of_index index (generate_mask Side.any sq (to_normal_pieces piece))))
            (generate_attacks sq
              (bb_of_index index (generate_mask Side.any sq (to_normal_pieces piece))) piece))
        table)
    ?_ square
    (fun row => row (magic_index magic_numbers relevant_bits square
        (occupancy &&& generate_mask Side.any square (to_normal_pieces piece)))
      = generate_attacks square
          (occupancy &&& generate_mask Side.any square (to_normal_pieces piece)) piece)
    ?_ 64 _ hs
  · intro sq table s hne
    exact (sliding_row_fold
      (fun index => magic_index magic_numbers relevant_bits sq
        (bb_of_index index (generate_mask Side.any sq (to_normal_pieces piece))))
      (fun index => generate_attacks sq
        (bb_of_index index (generate_mask Side.any sq (to_normal_pieces piece))) piece)
      sq _ table).1 s hne
  · intro table
    obtain ⟨j, -, hkey, hval⟩ := (sliding_row_fold
      (fun index => magic_index magic_numbers relevant_bits square
        (bb_of_index index (generate_mask Side.any square (to_normal_pieces piece))))
      (fun index => generate_attacks square
        (bb_of_index index (generate_mask Side.any square (to_normal_pieces piece))) piece)
      square _ table).2 _ hidx
    simp only [hbb] at hkey hval
    exact hval.trans (hinj _ _ (bb_of_index_subset _ _ hmask)
      (by rw [Nat.and_assoc, Nat.and_self]) hkey)

theorem magic_index_lt (magic_numbers relevant_bits : Nat → Nat) (square blockers : Nat) :
    magic_index magic_numbers relevant_bits square blockers < 2 ^ relevant_bits square := by
  unfold magic_index
  rw [Nat.shiftRight_eq_div_pow]
  have hx : blockers * magic_numbers square % 2 ^ 64 < 2 ^ 64 := Nat.mod_lt _ (by positivity)
  by_cases h : relevant_bits square ≤ 64
  · apply Nat.div_lt_of_lt_mul
    rw [← Nat.pow_add]
    have : 64 - relevant_bits square + relevant_bits square = 64 := by omega
    rw [this]
    exact hx
  · have h0 : 64 - relevant_bits square = 0 := by omega
    rw [h0, Nat.pow_zero, Nat.div_one]
    exact lt_of_lt_of_le hx (Nat.pow_le_pow_right (by decide) (by omega))

/-- A property of every two sets of blockers within a mask follows from the property of
every two words `bb(index, mask)` with indices below `2 ^ count_bits mask`. -/
theorem forall_subsets_of_forall_indices (mask : Nat) (hmask : mask < 2 ^ 64)
    (P : Nat → Nat → Prop)
    (h : ∀ i, i < 1 <<< count_bits mask → ∀ j, j < 1 <<< count_bits mask →
      P (bb_of_index i mask) (bb_of_index j mask)) :
    ∀ a b, a &&& mask = a → b &&& mask = b → P a b := by
  intro a b ha hb
  obtain ⟨ia, ea⟩ := bb_of_index_of_subset a mask hmask
  obtain ⟨ib, eb⟩ := bb_of_index_of_subset b mask hmask
  have := h _ ia _ ib
  rw [ea, eb, ha, hb] at this
  exact this

theorem get_slider_attacks_eq (square occupancy : Nat) (tables : SliderTables) :
    get_slider_attacks square occupancy tables
      = tables.attacks square
          (magic_index tables.magic_numbers tables.relevant_bits square
            (occupancy &&& tables.masks square)) := by
  unfold get_slider_attacks magic_index
  rfl

/-- C37: for every square of the board, every occupancy and all magic numbers and
relevant-bit counts, the index of the lookup is below `2 ^ relevant_bits`; and when the
magic number of the square gives different indices to any two sets of blockers within
the rook mask that have different ray attack sets, the lookup of `get_slider_attacks` in
the rook tables (the table filled by `generate_sliding_table` over all words
`bb(index, mask)`) is the ray attack set `generate_rook_attacks square occupancy`; and
likewise with the bishop mask, the bishop tables and `generate_bishop_attacks`. -/
theorem get_slider_attacks_eq_ray_attacks (magic_numbers relevant_bits : Nat → Nat)
    (square : Nat) (hs : square < 64) (occupancy : Nat) :
    (∀ blockers, magic_index magic_numbers relevant_bits square blockers
        < 2 ^ relevant_bits square)
      ∧ ((∀ a b, a &&& rook_masks square = a → b &&& rook_masks square = b →
          magic_index magic_numbers relevant_bits square a
            = magic_index magic_numbers relevant_bits square b →
          generate_rook_attacks square a = generate_rook_attacks square b) →
        get_slider_attacks square occupancy (rook_tables magic_numbers relevant_bits)
          = generate_rook_attacks square occupancy)
      ∧ ((∀ a b, a &&& bishop_masks square = a → b &&& bishop_masks square = b →
          magic_index magic_numbers relevant_bits square a
            = magic_index magic_numbers relevant_bits square b →
          generate_bishop_attacks square a = generate_bishop_attacks square b) →
        get_slider_attacks square occupancy (bishop_tables magic_numbers relevant_bits)
          = generate_bishop_attacks square occupancy) := by
  refine ⟨magic_index_lt _ _ _, ?_, ?_⟩
  · intro hinj
    have h := sliding_table_lookup SlidingPiece.rook magic_numbers relevant_bits square hs
      occupancy (slider_mask_counts square hs).2.2.1 hinj
    have e1 : generate_mask Side.any square (to_normal_pieces SlidingPiece.rook)
        = generate_rook_mask square := rfl
    have e2 : ∀ b, generate_attacks square b SlidingPiece.rook
        = generate_rook_attacks square b := fun _ => rfl
    rw [e1, e2] at h
    rw [generate_rook_attacks_and_mask square hs occupancy, get_slider_attacks_eq]
    simp only [rook_tables, rook_masks, generate_mask]
    exact h
  · intro hinj
    have h := sliding_table_lookup SlidingPiece.bishop magic_numbers relevant_bits square hs
      occupancy (slider_mask_counts square hs).2.2.2 hinj
    have e1 : generate_mask Side.any square (to_normal_pieces SlidingPiece.bishop)
        = generate_bishop_mask square := rfl
    have e2 : ∀ b, generate_attacks square b SlidingPiece.bishop
        = generate_bishop_attacks square b := fun _ => rfl
    rw [e1, e2] at h
    rw [generate_bishop_attacks_and_mask square hs occupancy, get_slider_attacks_eq]
    simp only [bishop_tables, bishop_masks, generate_mask]
    exact h

/-- The number `0x2020202020200` with 6 relevant bits is a magic number of the bishop on
a8 (square 0): it gives different indices to any two different sets of blockers on the
long diagonal. -/
theorem bishop_corner_magic : ∀ i, i < 1 <<< count_bits (bishop_masks 0) →
    ∀ j, j < 1 <<< count_bits (bishop_masks 0) →
    magic_index (fun _ => 0x2020202020200) (fun _ => 6) 0 (bb_of_index i (bishop_masks 0))
      = magic_index (fun _ => 0x2020202020200) (fun _ => 6) 0
          (bb_of_index j (bishop_masks 0)) →
    generate_bishop_attacks 0 (bb_of_index i (bishop_masks 0))
      = generate_bishop_attacks 0 (bb_of_index j (bishop_masks 0)) := by
  decide!

/-- C37 for the bishop on a8 (square 0) with the magic number `0x2020202020200` and 6
relevant bits, on the full board: the lookup gives the ray attack set, the square b7. -/
theorem get_slider_attacks_eq_ray_attacks_witness :
    (0 < 64)
      ∧ get_slider_attacks 0 U64_MAX (bishop_tables (fun _ => 0x2020202020200) (fun _ => 6))
        = generate_bishop_attacks 0 U64_MAX
      ∧ generate_bishop_attacks 0 U64_MAX = square_bb 9 :=
  ⟨by decide,
    (get_slider_attacks_eq_ray_attacks (fun _ => 0x2020202020200) (fun _ => 6) 0 (by decide)
      U64_MAX).2.2
      (forall_subsets_of_forall_indices (bishop_masks 0) (by decide!)
        (fun a b =>
          magic_index (fun _ => 0x2020202020200) (fun _ => 6) 0 a
            = magic_index (fun _ => 0x2020202020200) (fun _ => 6) 0 b →
          generate_bishop_attacks 0 a = generate_bishop_attacks 0 b)
        bishop_corner_magic),
    by decide!⟩

/-! ## The piece list of `evaluate` -/

theorem evaluate_squares_fold_append (code : Int) :
    ∀ (l : List Nat) (arrays : List Int × List Int),
      ∃ t1 t2, l.foldl
          (fun (arrays : List Int × List Int) (sq : Nat) =>
            (arrays.1 ++ [code], arrays.2 ++ [sq_to_nnue_sq sq])) arrays
        = (arrays.1 ++ t1, arrays.2 ++ t2) := by
  intro l
  induction l with
  | nil => intro arrays; exact ⟨[], [], by simp⟩
  | cons sq rest ih =>
    intro arrays
    obtain ⟨t1, t2, h⟩ := ih (arrays.1 ++ [code], arrays.2 ++ [sq_to_nnue_sq sq])
    exact ⟨[code] ++ t1, [sq_to_nnue_sq sq] ++ t2, by
      rw [List.foldl_cons, h]; simp⟩

theorem evaluate_pieces_fold_append (board : Board) :
    ∀ (l : List Nat) (arrays : List Int × List Int),
      ∃ t1 t2, l.foldl
          (fun (arrays : List Int × List Int) (piece_idx : Nat) =>
            if piece_idx = 5 ∨ piece_idx = 11 then arrays
            else if board.piece_location piece_idx = 0 then arrays
            else
              (squares_of (board.piece_location piece_idx)).foldl
                (fun (arrays : List Int × List Int) (sq : Nat) =>
                  (arrays.1 ++ [piece_idx_to_nnue_idx piece_idx],
                    arrays.2 ++ [sq_to_nnue_sq sq]))
                arrays) arrays
        = (arrays.1 ++ t1, arrays.2 ++ t2) := by
  intro l
  induction l with
  | nil => intro arrays; exact ⟨[], [], by simp⟩
  | cons p rest ih =>
    intro arrays
    rw [List.foldl_cons]
    by_cases h1 : p = 5 ∨ p = 11
    · rw [if_pos h1]; exact ih arrays
    · rw [if_neg h1]
      by_cases h2 : board.piece_location p = 0
      · rw [if_pos h2]; exact ih arrays
      · rw [if_neg h2]
        obtain ⟨u1, u2, hu⟩ := evaluate_squares_fold_append (piece_idx_to_nnue_idx p)
          (squares_of (board.piece_location p)) arrays
        rw [hu]
        obtain ⟨t1, t2, ht⟩ := ih (arrays.1 ++ u1, arrays.2 ++ u2)
        exact ⟨u1 ++ t1, u2 ++ t2, by rw [ht]; simp⟩

/-- C40 (the code departs from the claim): for every board, entry 1 of the array
`pieces` that `evaluate` hands to the network is `piece_idx_to_nnue_idx(5) = 1`, the
code of the white king, and not `piece_idx_to_nnue_idx(11) = 7`, the code of the black
king, whose mirrored square stands in entry 1 of `squares`; entry 0 holds the white
king with its code 1. -/
theorem evaluate_black_king_code (board : Board) :
    (evaluate_arrays board).1[1]? = some 1
      ∧ (evaluate_arrays board).2[1]?
        = some (sq_to_nnue_sq (get_lsb_index (board.piece_location 11)))
      ∧ (evaluate_arrays board).1[0]? = some 1
      ∧ (evaluate_arrays board).2[0]?
        = some (sq_to_nnue_sq (get_lsb_index (board.piece_location 5)))
      ∧ piece_idx_to_nnue_idx 5 = 1 ∧ piece_idx_to_nnue_idx 11 = 7 := by
  unfold evaluate_arrays
  dsimp only
  obtain ⟨t1, t2, h⟩ := evaluate_pieces_fold_append board
    (List.range (NUMBER_OF_UNIQUE_PIECES * 2))
    ([piece_idx_to_nnue_idx 5, piece_idx_to_nnue_idx 5],
      [sq_to_nnue_sq (get_lsb_index (board.piece_location 5)),
        sq_to_nnue_sq (get_lsb_index (board.piece_location 11))])
  rw [h]
  have e5 : piece_idx_to_nnue_idx 5 = 1 := by decide
  have e11 : piece_idx_to_nnue_idx 11 = 7 := by decide
  refine ⟨?_, ?_, ?_, ?_, e5, e11⟩ <;> simp [e5]

/-! ## `sortMoves` puts the moves in the order of their scores -/

theorem getD_swap_cells {α : Type} (d : α) (l : List α) (i j k : Nat) (hi : i < l.length)
    (hj : j < l.length) :
    ((l.set i (l.getD j d)).set j (l.getD i d)).getD k d
      = if k = j then l.getD i d else if k = i then l.getD j d else l.getD k d := by
  simp only [List.getD_eq_getElem?_getD, List.getElem?_set, List.length_set]
  by_cases h1 : k = j
  · subst h1
    simp [hj]
  · by_cases h2 : k = i
    · subst h2
      simp [hi, h1, Ne.symm h1]
    · simp [h1, h2, Ne.symm h1, Ne.symm h2]

theorem sort_state_ok_swap (score : Move → Int) (n : Nat) (state : MoveArray × List Int)
    (h : sort_state_ok score n state) (i j : Nat) (hi : i < n) (hj : j < n) :
    sort_state_ok score n (state.1.swap i j, swap_scores state.2 i j)
      ∧ ∀ k, (swap_scores state.2 i j).getD k 0
          = if k = j then state.2.getD i 0 else if k = i then state.2.getD j 0
            else state.2.getD k 0 := by
  obtain ⟨h1, h2, h3⟩ := h
  have hs : ∀ k, (swap_scores state.2 i j).getD k 0
      = if k = j then state.2.getD i 0 else if k = i then state.2.getD j 0
        else state.2.getD k 0 :=
    fun k => getD_swap_cells 0 state.2 i j k (by omega) (by omega)
  have hm : ∀ k, (state.1.swap i j).getD k default
      = if k = j then state.1.getD i default else if k = i then state.1.getD j default
        else state.1.getD k default :=
    fun k => getD_swap_cells default state.1 i j k (by omega) (by omega)
  refine ⟨⟨by rw [MoveArray.length_swap]; exact h1, ?_, ?_⟩, hs⟩
  · unfold swap_scores
    rw [List.length_set, List.length_set]
    exact h2
  · intro k hk
    show (swap_scores state.2 i j).getD k 0 = score ((state.1.swap i j).getD k default)
    rw [hs, hm]
    by_cases e1 : k = j
    · rw [if_pos e1, if_pos e1]; exact h3 i hi
    · rw [if_neg e1, if_neg e1]
      by_cases e2 : k = i
      · rw [if_pos e2, if_pos e2]; exact h3 j hj
      · rw [if_neg e2, if_neg e2]; exact h3 k hk

/-- The inner loop of `sortMoves` from `j` on: cell `i` ends up no smaller than every
later cell, and the cells before `i` stay no smaller than every later cell. -/
theorem sortMoves_inner_sorted (score : Move → Int) (n i : Nat) (hi : i < n) :
    ∀ (m j : Nat) (state : MoveArray × List Int), i < j → j + m = n →
      sort_state_ok score n state →
      (∀ a, a < i → ∀ b, a < b → b < n → state.2.getD a 0 ≥ state.2.getD b 0) →
      (∀ k, i < k → k < j → state.2.getD i 0 ≥ state.2.getD k 0) →
      sort_state_ok score n (ChessSearch.sortMoves_inner i (List.range' j m) state)
        ∧ (∀ a, a < i + 1 → ∀ b, a < b → b < n →
          (ChessSearch.sortMoves_inner i (List.range' j m) state).2.getD a 0
            ≥ (ChessSearch.sortMoves_inner i (List.range' j m) state).2.getD b 0) := by
  intro m
  induction m with
  | zero =>
    intro j state hij hjn hok hP hS
    rw [List.range'_zero, ChessSearch.sortMoves_inner]
    refine ⟨hok, ?_⟩
    intro a ha b hab hb
    by_cases hai : a = i
    · subst hai
      exact hS b hab (by omega)
    · exact hP a (by omega) b hab hb
  | succ m ih =>
    intro j state hij hjn hok hP hS
    rw [List.range'_succ, ChessSearch.sortMoves_inner]
    have hj : j < n := by omega
    split
    · rename_i hlt
      obtain ⟨hok', hs⟩ := sort_state_ok_swap score n state hok i j hi hj
      apply ih (j + 1) _ (by omega) (by omega) hok'
      · intro a ha b hab hb
        show (swap_scores state.2 i j).getD a 0 ≥ (swap_scores state.2 i j).getD b 0
        rw [hs a, hs b, if_neg (by omega : ¬ a = j), if_neg (by omega : ¬ a = i)]
        by_cases e1 : b = j
        · rw [if_pos e1]; exact hP a ha i (by omega) hi
        · rw [if_neg e1]
          by_cases e2 : b = i
          · rw [if_pos e2]; exact hP a ha j (by omega) hj
          · rw [if_neg e2]; exact hP a ha b hab hb
      · intro k hk1 hk2
        show (swap_scores state.2 i j).getD i 0 ≥ (swap_scores state.2 i j).getD k 0
        rw [hs i, hs k, if_neg (by omega : ¬ i = j), if_pos rfl]
        by_cases e1 : k = j
        · rw [if_pos e1]; omega
        · rw [if_neg e1, if_neg (by omega : ¬ k = i)]
          have := hS k hk1 (by omega)
          omega
    · rename_i hge
      apply ih (j + 1) state (by omega) (by omega) hok hP
      intro k hk1 hk2
      by_cases e1 : k = j
      · subst e1; omega
      · exact hS k hk1 (by omega)

/-- The outer loop of `sortMoves` from `i` on. -/
theorem sortMoves_outer_sorted (score : Move → Int) (n : Nat) :
    ∀ (m i : Nat) (state : MoveArray × List Int), i + m = n →
      sort_state_ok score n state →
      (∀ a, a < i → ∀ b, a < b → b < n → state.2.getD a 0 ≥ state.2.getD b 0) →
      sort_state_ok score n ((List.range' i m).foldl
          (fun state i =>
            ChessSearch.sortMoves_inner i (List.range' (i + 1) (n - (i + 1))) state) state)
        ∧ (∀ a, a < n → ∀ b, a < b → b < n →
          ((List.range' i m).foldl
            (fun state i =>
              ChessSearch.sortMoves_inner i (List.range' (i + 1) (n - (i + 1))) state)
            state).2.getD a 0
            ≥ ((List.range' i m).foldl
              (fun state i =>
                ChessSearch.sortMoves_inner i (List.range' (i + 1) (n - (i + 1))) state)
              state).2.getD b 0) := by
  intro m
  induction m with
  | zero =>
    intro i state him hok hP
    rw [List.range'_zero, List.foldl_nil]
    exact ⟨hok, fun a ha b hab hb => hP a (by omega) b hab hb⟩
  | succ m ih =>
    intro i state him hok hP
    rw [List.range'_succ, List.foldl_cons]
    obtain ⟨hok', hP'⟩ := sortMoves_inner_sorted score n i (by omega) (n - (i + 1)) (i + 1)
      state (by omega) (by omega) hok hP (fun k hk1 hk2 => by omega)
    exact ih (i + 1) _ (by omega) hok' hP'

/-- The scores of the array left by `sortMoves` do not increase along the array. -/
theorem sortMoves_sorted (search : ChessSearch) (moves : MoveArray) (board : Board) :
    List.Pairwise (fun a b => a ≥ b)
      ((search.sortMoves moves board).map (fun move => search.calculateMoveScore move board)) := by
  have hok0 : sort_state_ok (fun move => search.calculateMoveScore move board) moves.length
      (moves, moves.map (fun move => search.calculateMoveScore move board)) := by
    refine ⟨rfl, List.length_map _ _, ?_⟩
    intro k hk
    simp [List.getD_eq_getElem?_getD, hk]
  obtain ⟨⟨h1, h2, h3⟩, hP⟩ := sortMoves_outer_sorted
    (fun move => search.calculateMoveScore move board) moves.length moves.length 0 _
    (by omega) hok0 (fun a ha => absurd ha (Nat.not_lt_zero _))
  rw [← List.range_eq_range'] at h1 h2 h3 hP
  unfold ChessSearch.sortMoves
  dsimp only
  rw [List.pairwise_iff_getElem]
  intro a b ha hb hab
  rw [List.length_map] at ha hb
  rw [List.getElem_map, List.getElem_map]
  have ea := h3 a (by omega)
  have eb := h3 b (by omega)
  have hab' := hP a (by omega) b hab (by omega)
  rw [ea, eb] at hab'
  simp only [List.getD_eq_getElem?_getD, List.getElem?_eq_getElem ha,
    List.getElem?_eq_getElem hb, Option.getD_some] at hab'
  exact hab'

/-- C32: for every array of moves and every board, the array left by `sortMoves` is a
rearrangement of the array it was given (the same moves, each as often as before, and
the same size), and the scores of its moves under `calculateMoveScore` do not increase
along the array. -/
theorem sortMoves_permutation_sorted (search : ChessSearch) (moves : MoveArray)
    (board : Board) :
    List.Perm (search.sortMoves moves board) moves
      ∧ (search.sortMoves moves board).length = moves.length
      ∧ List.Pairwise (fun a b => a ≥ b)
        ((search.sortMoves moves board).map
          (fun move => search.calculateMoveScore move board)) :=
  ⟨sortMoves_perm search moves board, (sortMoves_perm search moves board).length_eq,
    sortMoves_sorted search moves board⟩

/-! ## The frame of the search: board, `currentPly` and `repetitionIndex` -/

theorem wrap_int_round (x : Int) (h1 : -2147483648 ≤ x) (h2 : x < 2147483648) :
    wrap_int (wrap_int (x + 1) - 1) = x := by
  unfold wrap_int
  omega

theorem wrap_int_range (x : Int) : -2147483648 ≤ wrap_int x ∧ wrap_int x < 2147483648 := by
  unfold wrap_int
  omega

theorem pollTime_ply (s : ChessSearch) :
    s.pollTime.currentPly = s.currentPly
      ∧ s.pollTime.repetitionIndex = s.repetitionIndex := by
  unfold ChessSearch.pollTime ChessSearch.isTimeExpired
    ChessSearch.getCurrentTimeMilliseconds
  dsimp only
  split <;> split <;> exact ⟨rfl, rfl⟩

/-- The steps into a child and back restore `currentPly` and `repetitionIndex`. -/
theorem enter_leave_ply (s : ChessSearch) (hashKey : Nat) (p r : Int)
    (hp : -2147483648 ≤ p ∧ p < 2147483648) (hr : -2147483648 ≤ r ∧ r < 2147483648)
    (hsp : s.currentPly = p) (hsr : s.repetitionIndex = r) :
    (s.enterChild hashKey).currentPly = wrap_int (p + 1)
      ∧ (s.enterChild hashKey).repetitionIndex = wrap_int (r + 1)
      ∧ (s.enterChild hashKey).leaveChild.currentPly = p
      ∧ (s.enterChild hashKey).leaveChild.repetitionIndex = r := by
  refine ⟨by rw [← hsp]; rfl, by rw [← hsr]; rfl, ?_, ?_⟩
  · show wrap_int (wrap_int (s.currentPly + 1) - 1) = p
    rw [hsp]; exact wrap_int_round p hp.1 hp.2
  · show wrap_int (wrap_int (s.repetitionIndex + 1) - 1) = r
    rw [hsr]; exact wrap_int_round r hr.1 hr.2

theorem leave_ply (s : ChessSearch) (p r : Int)
    (hp : -2147483648 ≤ p ∧ p < 2147483648) (hr : -2147483648 ≤ r ∧ r < 2147483648)
    (hsp : s.currentPly = wrap_int (p + 1)) (hsr : s.repetitionIndex = wrap_int (r + 1)) :
    s.leaveChild.currentPly = p ∧ s.leaveChild.repetitionIndex = r := by
  constructor
  · show wrap_int (s.currentPly - 1) = p
    rw [hsp]; exact wrap_int_round p hp.1 hp.2
  · show wrap_int (s.repetitionIndex - 1) = r
    rw [hsr]; exact wrap_int_round r hr.1 hr.2

/-- The loop of `quiescenceSearch` returns with the board and the counters of its
entry, when the recursive call does so one ply deeper. -/
theorem quiescenceSearch_loop_restores
    (recurse : Int → Int → Board → ChessSearch → Option SearchResult) (beta : Int)
    (p r : Int) (hp : -2147483648 ≤ p ∧ p < 2147483648)
    (hr : -2147483648 ≤ r ∧ r < 2147483648)
    (hrec : ∀ a b board s, s.currentPly = wrap_int (p + 1) →
      s.repetitionIndex = wrap_int (r + 1) →
      ∃ score s', recurse a b board s = some (score, s', board)
        ∧ s'.currentPly = wrap_int (p + 1) ∧ s'.repetitionIndex = wrap_int (r + 1)) :
    ∀ (moves : List Move) (alpha : Int) (board : Board) (s : ChessSearch),
      s.currentPly = p → s.repetitionIndex = r →
      ∃ score s', ChessSearch.quiescenceSearch_loop recurse beta moves alpha board s
          = some (score, s', board)
        ∧ s'.currentPly = p ∧ s'.repetitionIndex = r := by
  intro moves
  induction moves with
  | nil =>
    intro alpha board s hsp hsr
    exact ⟨alpha, s, rfl, hsp, hsr⟩
  | cons move rest ih =>
    intro alpha board s hsp hsr
    rw [ChessSearch.quiescenceSearch_loop]
    by_cases hcap : (!move.is_capture) = true
    · rw [if_pos hcap]
      exact ih alpha board s hsp hsr
    · rw [if_neg hcap]
      dsimp only
      obtain ⟨e1, e2, e3, e4⟩ := enter_leave_ply s board.hash_key p r hp hr hsp hsr
      by_cases hmade : (!(board.make_move move).1) = true
      · rw [if_pos hmade]
        have hrej : (board.make_move move).1 = false := by simpa using hmade
        rw [make_move_snd_of_rejected board move hrej]
        exact ih alpha board _ e3 e4
      · rw [if_neg hmade]
        obtain ⟨sc, s1, hcall, h1, h2⟩ := hrec (wrap_int (-beta)) (wrap_int (-alpha))
          (board.make_move move).2 (s.enterChild board.hash_key) e1 e2
        rw [hcall]
        obtain ⟨l1, l2⟩ := leave_ply s1 p r hp hr h1 h2
        simp only [negated, Option.map_some']
        split
        · exact ⟨0, _, rfl, l1, l2⟩
        · split
          · split
            · exact ⟨beta, _, rfl, l1, l2⟩
            · exact ih _ board _ l1 l2
          · exact ih alpha board _ l1 l2

/-- A call of `quiescenceSearch` returns, given fuel for the plies left before
`MAX_PLY`, with the board and the counters of its entry. -/
theorem quiescenceSearch_restores (evaluate : Board → Int) :
    ∀ (n fuel : Nat), n < fuel → ∀ (alpha beta : Int) (board : Board) (s : ChessSearch),
      64 - (n : Int) ≤ s.currentPly → -2147483648 ≤ s.currentPly →
      -2147483648 ≤ s.repetitionIndex → s.repetitionIndex < 2147483648 →
      ∃ score s', ChessSearch.quiescenceSearch evaluate fuel alpha beta board s
          = some (score, s', board)
        ∧ s'.currentPly = s.currentPly ∧ s'.repetitionIndex = s.repetitionIndex := by
  intro n
  induction n with
  | zero =>
    intro fuel hfuel alpha beta board s hply _ _ _
    obtain ⟨f, rfl⟩ : ∃ f, fuel = f + 1 := ⟨fuel - 1, by omega⟩
    rw [ChessSearch.quiescenceSearch]
    dsimp only
    obtain ⟨q1, q2⟩ := pollTime_ply s
    have hc : s.pollTime.countNode.currentPly = s.currentPly := q1
    have hgt : s.pollTime.countNode.currentPly > ChessSearch.MAX_PLY - 1 := by
      rw [hc]
      show s.currentPly > 64 - 1
      simp only [Nat.cast_zero] at hply
      omega
    rw [if_pos hgt]
    exact ⟨_, _, rfl, q1, q2⟩
  | succ n ih =>
    intro fuel hfuel alpha beta board s hply hply0 hrep0 hrep1
    obtain ⟨f, rfl⟩ : ∃ f, fuel = f + 1 := ⟨fuel - 1, by omega⟩
    rw [ChessSearch.quiescenceSearch]
    dsimp only
    obtain ⟨q1, q2⟩ := pollTime_ply s
    have hc : s.pollTime.countNode.currentPly = s.currentPly := q1
    have hcr : s.pollTime.countNode.repetitionIndex = s.repetitionIndex := q2
    by_cases hgt : s.pollTime.countNode.currentPly > ChessSearch.MAX_PLY - 1
    · rw [if_pos hgt]
      exact ⟨_, _, rfl, q1, q2⟩
    · rw [if_neg hgt]
      have hle : s.currentPly ≤ 63 := by
        rw [hc] at hgt
        have : ChessSearch.MAX_PLY = 64 := rfl
        rw [this] at hgt
        omega
      split
      · exact ⟨_, _, rfl, q1, q2⟩
      · have hw : wrap_int (s.currentPly + 1) = s.currentPly + 1 :=
          wrap_int_id (by omega) (by omega)
        have hrange := wrap_int_range (s.repetitionIndex + 1)
        exact quiescenceSearch_loop_restores (ChessSearch.quiescenceSearch evaluate f) beta
          s.currentPly s.repetitionIndex ⟨hply0, by omega⟩ ⟨hrep0, hrep1⟩
          (fun a b board' s' h1 h2 => by
            obtain ⟨sc, s2, hcall, g1, g2⟩ := ih f (by omega) a b board' s'
              (by rw [h1, hw]; push_cast at hply ⊢; omega) (by rw [h1, hw]; omega)
              (by rw [h2]; exact hrange.1) (by rw [h2]; exact hrange.2)
            exact ⟨sc, s2, hcall, g1.trans h1, g2.trans h2⟩)
          _ _ board _ hc hcr

/-- The searches of one move return with the board and the counters of their entry,
when the recursive call does so. -/
theorem searchMove_restores
    (recurse : Int → Int → Int → Board → ChessSearch → Option SearchResult) (p r : Int)
    (hrec : ∀ a b d board s, s.currentPly = p → s.repetitionIndex = r →
      ∃ score s', recurse a b d board s = some (score, s', board)
        ∧ s'.currentPly = p ∧ s'.repetitionIndex = r)
    (alpha beta depth : Int) (inCheck : Bool) (movesSearched : Int) (move : Move)
    (board : Board) (s : ChessSearch) (hsp : s.currentPly = p) (hsr : s.repetitionIndex = r) :
    ∃ score s', ChessSearch.searchMove recurse alpha beta depth inCheck movesSearched move
        board s = some (score, s', board)
      ∧ s'.currentPly = p ∧ s'.repetitionIndex = r := by
  have hneg : ∀ a b d (s : ChessSearch), s.currentPly = p → s.repetitionIndex = r →
      ∃ score s', negated (recurse a b d board s) = some (score, s', board)
        ∧ s'.currentPly = p ∧ s'.repetitionIndex = r := by
    intro a b d s h1 h2
    obtain ⟨sc, s1, hcall, g1, g2⟩ := hrec a b d board s h1 h2
    exact ⟨wrap_int (-sc), s1, by rw [hcall]; rfl, g1, g2⟩
  unfold ChessSearch.searchMove
  by_cases hm : movesSearched = 0
  · rw [if_pos hm]
    exact hneg _ _ _ s hsp hsr
  · rw [if_neg hm]
    dsimp only
    have hfirst : ∃ score s',
        (if movesSearched ≥ ChessSearch.FULL_DEPTH_MOVES ∧ depth ≥ ChessSearch.REDUCTION_LIMIT
            ∧ inCheck = false ∧ move.is_capture = false ∧ move.is_promo = false then
          negated (recurse (wrap_int (wrap_int (-alpha) - 1)) (wrap_int (-alpha))
            (wrap_int (depth - 2)) board s)
        else some (wrap_int (alpha + 1), s, board)) = some (score, s', board)
          ∧ s'.currentPly = p ∧ s'.repetitionIndex = r := by
      split
      · exact hneg _ _ _ s hsp hsr
      · exact ⟨_, s, rfl, hsp, hsr⟩
    obtain ⟨sc1, s1, hcall1, g1, g2⟩ := hfirst
    rw [hcall1]
    dsimp only
    split
    · obtain ⟨sc2, s2, hcall2, k1, k2⟩ := hneg (wrap_int (wrap_int (-alpha) - 1))
        (wrap_int (-alpha)) (wrap_int (depth - 1)) s1 g1 g2
      rw [hcall2]
      dsimp only
      split
      · exact hneg _ _ _ s2 k1 k2
      · exact ⟨_, s2, rfl, k1, k2⟩
    · exact ⟨_, s1, rfl, g1, g2⟩

theorem raiseAlpha_ply (s : ChessSearch) (move : Move) (depth : Int) :
    (s.raiseAlpha move depth).currentPly = s.currentPly
      ∧ (s.raiseAlpha move depth).repetitionIndex = s.repetitionIndex :=
  ⟨rfl, rfl⟩

theorem betaCutoff_ply (s : ChessSearch) (move : Move) (beta depth : Int)
    (hashKey : Nat) :
    (s.betaCutoff move beta depth hashKey).currentPly = s.currentPly
      ∧ (s.betaCutoff move beta depth hashKey).repetitionIndex = s.repetitionIndex :=
  ⟨rfl, rfl⟩

theorem enablePrincipalVariationScoring_ply (s : ChessSearch) (moves : MoveArray) :
    (s.enablePrincipalVariationScoring moves).currentPly = s.currentPly
      ∧ (s.enablePrincipalVariationScoring moves).repetitionIndex = s.repetitionIndex := by
  unfold ChessSearch.enablePrincipalVariationScoring
  dsimp only
  split <;> exact ⟨rfl, rfl⟩

/-- The move loop of `negamaxSearch` returns with the board and the counters of its
entry, when the recursive call does so one ply deeper. -/
theorem negamaxSearch_loop_restores
    (recurse : Int → Int → Int → Board → ChessSearch → Option SearchResult)
    (beta depth : Int) (inCheck : Bool) (p r : Int)
    (hp : -2147483648 ≤ p ∧ p < 2147483648) (hr : -2147483648 ≤ r ∧ r < 2147483648)
    (hrec : ∀ a b d board s, s.currentPly = wrap_int (p + 1) →
      s.repetitionIndex = wrap_int (r + 1) →
      ∃ score s', recurse a b d board s = some (score, s', board)
        ∧ s'.currentPly = wrap_int (p + 1) ∧ s'.repetitionIndex = wrap_int (r + 1)) :
    ∀ (moves : List Move) (alpha : Int) (hashFlag : HashFlag)
      (legalMovesCount movesSearched : Int) (board : Board) (s : ChessSearch),
      s.currentPly = p → s.repetitionIndex = r →
      ∃ score s', ChessSearch.negamaxSearch_loop recurse beta depth inCheck moves alpha
          hashFlag legalMovesCount movesSearched board s = some (score, s', board)
        ∧ s'.currentPly = p ∧ s'.repetitionIndex = r := by
  intro moves
  induction moves with
  | nil =>
    intro alpha hashFlag legalMovesCount movesSearched board s hsp hsr
    rw [ChessSearch.negamaxSearch_loop]
    split
    · split
      · exact ⟨_, s, rfl, hsp, hsr⟩
      · exact ⟨_, s, rfl, hsp, hsr⟩
    · exact ⟨_, _, rfl, hsp, hsr⟩
  | cons move rest ih =>
    intro alpha hashFlag legalMovesCount movesSearched board s hsp hsr
    rw [ChessSearch.negamaxSearch_loop]
    dsimp only
    obtain ⟨e1, e2, e3, e4⟩ := enter_leave_ply s board.hash_key p r hp hr hsp hsr
    by_cases hmade : (!(board.make_move move).1) = true
    · rw [if_pos hmade]
      have hrej : (board.make_move move).1 = false := by simpa using hmade
      rw [make_move_snd_of_rejected board move hrej]
      exact ih alpha hashFlag legalMovesCount movesSearched board _ e3 e4
    · rw [if_neg hmade]
      obtain ⟨sc, s1, hcall, h1, h2⟩ := searchMove_restores recurse (wrap_int (p + 1))
        (wrap_int (r + 1)) hrec alpha beta depth inCheck movesSearched move
        (board.make_move move).2 (s.enterChild board.hash_key) e1 e2
      rw [hcall]
      obtain ⟨l1, l2⟩ := leave_ply s1 p r hp hr h1 h2
      dsimp only
      split
      · exact ⟨0, _, rfl, l1, l2⟩
      · split
        · split
          · exact ⟨beta, _, rfl, l1, l2⟩
          · exact ih _ _ _ _ board _ l1 l2
        · exact ih alpha hashFlag _ _ board _ l1 l2

/-- The null-move search of `negamaxSearch` goes on or returns with the board and the
counters of its entry, when the recursive call does so one ply deeper. -/
theorem nullMoveSearch_restores
    (recurse : Int → Int → Int → Board → ChessSearch → Option SearchResult)
    (beta depth : Int) (inCheck : Bool) (p r : Int)
    (hp : -2147483648 ≤ p ∧ p < 2147483648) (hr : -2147483648 ≤ r ∧ r < 2147483648)
    (hrec : ∀ a b d board s, s.currentPly = wrap_int (p + 1) →
      s.repetitionIndex = wrap_int (r + 1) →
      ∃ score s', recurse a b d board s = some (score, s', board)
        ∧ s'.currentPly = wrap_int (p + 1) ∧ s'.repetitionIndex = wrap_int (r + 1))
    (board : Board) (s : ChessSearch) (hsp : s.currentPly = p) (hsr : s.repetitionIndex = r) :
    ∃ s', s'.currentPly = p ∧ s'.repetitionIndex = r
      ∧ (ChessSearch.nullMoveSearch recurse beta depth inCheck board s
            = some (none, s', board)
        ∨ ∃ score, ChessSearch.nullMoveSearch recurse beta depth inCheck board s
            = some (some (score, s', board), s', board)) := by
  unfold ChessSearch.nullMoveSearch
  split
  · dsimp only
    obtain ⟨e1, e2, -, -⟩ := enter_leave_ply s board.hash_key p r hp hr hsp hsr
    obtain ⟨sc, s1, hcall, h1, h2⟩ := hrec (wrap_int (-beta))
      (wrap_int (wrap_int (-beta) + 1)) (wrap_int (depth - 3)) board.null_move
      (s.enterChild board.hash_key) e1 e2
    rw [hcall]
    obtain ⟨l1, l2⟩ := leave_ply s1 p r hp hr h1 h2
    simp only [negated, Option.map_some']
    split
    · exact ⟨_, l1, l2, Or.inr ⟨0, rfl⟩⟩
    · split
      · exact ⟨_, l1, l2, Or.inr ⟨beta, rfl⟩⟩
      · exact ⟨_, l1, l2, Or.inl rfl⟩
  · exact ⟨s, hsp, hsr, Or.inl rfl⟩

/-- A call of `negamaxSearch` returns, given fuel for the plies left before `MAX_PLY`,
with the board and the counters of its entry. -/
theorem negamaxSearch_restores (evaluate : Board → Int) :
    ∀ (n fuel : Nat), n < fuel → ∀ (alpha beta depth : Int) (board : Board)
      (s : ChessSearch),
      64 - (n : Int) ≤ s.currentPly → -2147483648 ≤ s.currentPly →
      -2147483648 ≤ s.repetitionIndex → s.repetitionIndex < 2147483648 →
      ∃ score s', ChessSearch.negamaxSearch evaluate fuel alpha beta depth board s
          = some (score, s', board)
        ∧ s'.currentPly = s.currentPly ∧ s'.repetitionIndex = s.repetitionIndex := by
  intro n
  induction n with
  | zero =>
    intro fuel hfuel alpha beta depth board s hply hply0 hrep0 hrep1
    obtain ⟨f, rfl⟩ : ∃ f, fuel = f + 1 := ⟨fuel - 1, by omega⟩
    rw [ChessSearch.negamaxSearch]
    dsimp only
    split
    · exact ⟨_, _, rfl, rfl, rfl⟩
    · by_cases hhit : (if ¬ wrap_int (beta - alpha) > 1 ∧ s.currentPly ≠ 0 then
          s.transpositionTable.probe alpha beta depth board.hash_key s.currentPly
        else NO_HASH_ENTRY) ≠ NO_HASH_ENTRY
      · rw [if_pos hhit]
        exact ⟨_, _, rfl, rfl, rfl⟩
      · rw [if_neg hhit]
        obtain ⟨q1, q2⟩ := pollTime_ply ({ s with
          principalVariationLengths :=
            tab_set s.principalVariationLengths s.currentPly.toNat s.currentPly }
          : ChessSearch)
        split
        · obtain ⟨sc, s1, hcall, g1, g2⟩ := quiescenceSearch_restores evaluate 0 (f + 1)
            (by omega) alpha beta board _ (by rw [q1]; exact hply) (by rw [q1]; exact hply0)
            (by rw [q2]; exact hrep0) (by rw [q2]; exact hrep1)
          exact ⟨sc, s1, hcall, g1.trans q1, g2.trans q2⟩
        · have hgt : ({ s with
              principalVariationLengths :=
                tab_set s.principalVariationLengths s.currentPly.toNat s.currentPly }
              : ChessSearch).pollTime.currentPly > ChessSearch.MAX_PLY - 1 := by
            rw [q1]
            show s.currentPly > 64 - 1
            simp only [Nat.cast_zero] at hply
            omega
          rw [if_pos hgt]
          exact ⟨_, _, rfl, q1, q2⟩
  | succ n ih =>
    intro fuel hfuel alpha beta depth board s hply hply0 hrep0 hrep1
    obtain ⟨f, rfl⟩ : ∃ f, fuel = f + 1 := ⟨fuel - 1, by omega⟩
    rw [ChessSearch.negamaxSearch]
    dsimp only
    split
    · exact ⟨_, _, rfl, rfl, rfl⟩
    · by_cases hhit : (if ¬ wrap_int (beta - alpha) > 1 ∧ s.currentPly ≠ 0 then
          s.transpositionTable.probe alpha beta depth board.hash_key s.currentPly
        else NO_HASH_ENTRY) ≠ NO_HASH_ENTRY
      · rw [if_pos hhit]
        exact ⟨_, _, rfl, rfl, rfl⟩
      · rw [if_neg hhit]
        obtain ⟨q1, q2⟩ := pollTime_ply ({ s with
          principalVariationLengths :=
            tab_set s.principalVariationLengths s.currentPly.toNat s.currentPly }
          : ChessSearch)
        split
        · obtain ⟨sc, s1, hcall, g1, g2⟩ := quiescenceSearch_restores evaluate (n + 1) (f + 1)
            (by omega) alpha beta board _ (by rw [q1]; exact hply) (by rw [q1]; exact hply0)
            (by rw [q2]; exact hrep0) (by rw [q2]; exact hrep1)
          exact ⟨sc, s1, hcall, g1.trans q1, g2.trans q2⟩
        · split
          · exact ⟨_, _, rfl, q1, q2⟩
          · rename_i hgt
            have hle : s.currentPly ≤ 63 := by
              rw [q1] at hgt
              have : ChessSearch.MAX_PLY = 64 := rfl
              rw [this] at hgt
              have : ({ s with
                principalVariationLengths :=
                  tab_set s.principalVariationLengths s.currentPly.toNat s.currentPly }
                : ChessSearch).currentPly = s.currentPly := rfl
              omega
            have hw : wrap_int (s.currentPly + 1) = s.currentPly + 1 :=
              wrap_int_id (by omega) (by omega)
            have hrange := wrap_int_range (s.repetitionIndex + 1)
            have hrec : ∀ a b d board' (s' : ChessSearch),
                s'.currentPly = wrap_int (s.currentPly + 1) →
                s'.repetitionIndex = wrap_int (s.repetitionIndex + 1) →
                ∃ score s'', ChessSearch.negamaxSearch evaluate f a b d board' s'
                    = some (score, s'', board')
                  ∧ s''.currentPly = wrap_int (s.currentPly + 1)
                  ∧ s''.repetitionIndex = wrap_int (s.repetitionIndex + 1) := by
              intro a b d board' s' h1 h2
              obtain ⟨sc, s2, hcall, g1, g2⟩ := ih f (by omega) a b d board' s'
                (by rw [h1, hw]; push_cast at hply ⊢; omega) (by rw [h1, hw]; omega)
                (by rw [h2]; exact hrange.1) (by rw [h2]; exact hrange.2)
              exact ⟨sc, s2, hcall, g1.trans h1, g2.trans h2⟩
            have hc : ({ s with
                principalVariationLengths :=
                  tab_set s.principalVariationLengths s.currentPly.toNat s.currentPly }
                : ChessSearch).pollTime.countNode.currentPly = s.currentPly := q1
            have hcr : ({ s with
                principalVariationLengths :=
                  tab_set s.principalVariationLengths s.currentPly.toNat s.currentPly }
                : ChessSearch).pollTime.countNode.repetitionIndex = s.repetitionIndex := q2
            obtain ⟨s1, n1, n2, hnull⟩ := nullMoveSearch_restores
              (ChessSearch.negamaxSearch evaluate f) beta
              (if board.is_sq_attacked
                    (get_lsb_index (board.piece_location (5 + 6 * board.side.toNat)))
                    (opposite_side board.side) = true
                then wrap_int (depth + 1) else depth)
              (board.is_sq_attacked
                (get_lsb_index (board.piece_location (5 + 6 * board.side.toNat)))
                (opposite_side board.side))
              s.currentPly s.repetitionIndex ⟨hply0, by omega⟩ ⟨hrep0, hrep1⟩ hrec board _
              hc hcr
            rcases hnull with hnull | ⟨sc, hnull⟩
            · rw [hnull]
              dsimp only
              have hS : ∀ moves : MoveArray,
                  (if s1.followPrincipalVariation = true then
                      s1.enablePrincipalVariationScoring moves else s1).currentPly
                    = s.currentPly
                  ∧ (if s1.followPrincipalVariation = true then
                      s1.enablePrincipalVariationScoring moves else s1).repetitionIndex
                    = s.repetitionIndex := by
                intro moves
                by_cases hf : s1.followPrincipalVariation = true
                · rw [if_pos hf]
                  exact ⟨(enablePrincipalVariationScoring_ply s1 moves).1.trans n1,
                    (enablePrincipalVariationScoring_ply s1 moves).2.trans n2⟩
                · rw [if_neg hf]
                  exact ⟨n1, n2⟩
              exact negamaxSearch_loop_restores
                (ChessSearch.negamaxSearch evaluate f) beta _ _
                s.currentPly s.repetitionIndex ⟨hply0, by omega⟩ ⟨hrep0, hrep1⟩ hrec
                _ alpha HashFlag.ALPHA 0 0 board _ (hS _).1 (hS _).2
            · rw [hnull]
              exact ⟨sc, s1, rfl, n1, n2⟩

/-- C34: a call of `negamaxSearch` and a call of `quiescenceSearch`, at a ply from 0 on
and with fuel for the plies left before `MAX_PLY`, return on every path (the end of the
move loop, a cutoff, a null-move cutoff, rejected moves, a stopped search, a draw, a
transposition-table hit), and the result carries the board that was passed in, unchanged
in every field, and a searcher whose `currentPly` and `repetitionIndex` have their entry
values. -/
theorem search_restores_board_and_counters (evaluate : Board → Int) (fuel : Nat)
    (hfuel : 64 < fuel) (alpha beta depth : Int) (board : Board) (search : ChessSearch)
    (hply : 0 ≤ search.currentPly)
    (hrep : -2147483648 ≤ search.repetitionIndex ∧ search.repetitionIndex < 2147483648) :
    returns_restored (ChessSearch.negamaxSearch evaluate fuel alpha beta depth board search)
        search board
      ∧ returns_restored (ChessSearch.quiescenceSearch evaluate fuel alpha beta board search)
        search board :=
  ⟨negamaxSearch_restores evaluate 64 fuel hfuel alpha beta depth board search
      (by push_cast; omega) (by omega) hrep.1 hrep.2,
    quiescenceSearch_restores evaluate 64 fuel hfuel alpha beta board search
      (by push_cast; omega) (by omega) hrep.1 hrep.2⟩

/-- C34 at the starting position, for a new searcher, with the full window and depth 2. -/
theorem search_restores_board_and_counters_witness :
    (64 < 65)
      ∧ returns_restored
          (ChessSearch.negamaxSearch material_balance 65 (-500000) 500000 2
            (Board.of_fen "rnbqkbnr/pppppppp/8/8/8/8/PPPPPPPP/RNBQKBNR w KQkq - 0 1")
            (ChessSearch.init ⟨fun _ => ⟨0, 0, HashFlag.EXACT, 0⟩, 1024⟩ (fun _ => 0)))
          (ChessSearch.init ⟨fun _ => ⟨0, 0, HashFlag.EXACT, 0⟩, 1024⟩ (fun _ => 0))
          (Board.of_fen "rnbqkbnr/pppppppp/8/8/8/8/PPPPPPPP/RNBQKBNR w KQkq - 0 1")
      ∧ returns_restored
          (ChessSearch.quiescenceSearch material_balance 65 (-500000) 500000
            (Board.of_fen "rnbqkbnr/pppppppp/8/8/8/8/PPPPPPPP/RNBQKBNR w KQkq - 0 1")
            (ChessSearch.init ⟨fun _ => ⟨0, 0, HashFlag.EXACT, 0⟩, 1024⟩ (fun _ => 0)))
          (ChessSearch.init ⟨fun _ => ⟨0, 0, HashFlag.EXACT, 0⟩, 1024⟩ (fun _ => 0))
          (Board.of_fen "rnbqkbnr/pppppppp/8/8/8/8/PPPPPPPP/RNBQKBNR w KQkq - 0 1") :=
  ⟨by decide,
    search_restores_board_and_counters material_balance 65 (by decide) (-500000) 500000 2
      (Board.of_fen "rnbqkbnr/pppppppp/8/8/8/8/PPPPPPPP/RNBQKBNR w KQkq - 0 1")
      (ChessSearch.init ⟨fun _ => ⟨0, 0, HashFlag.EXACT, 0⟩, 1024⟩ (fun _ => 0))
      (le_refl _) ⟨by decide, by decide⟩⟩

/-! ## A position without a legal move -/

/-- The move loop of `negamaxSearch` over moves that `make_move` rejects, when no move
was counted before: the mate score in check, and 0 otherwise. -/
theorem negamaxSearch_loop_all_rejected
    (recurse : Int → Int → Int → Board → ChessSearch → Option SearchResult)
    (beta depth : Int) (inCheck : Bool) (board : Board) (p : Int)
    (hp : -2147483648 ≤ p ∧ p < 2147483648) :
    ∀ (moves : List Move) (alpha : Int) (hashFlag : HashFlag) (movesSearched : Int)
      (s : ChessSearch), s.currentPly = p →
      (∀ m ∈ moves, (board.make_move m).1 = false) →
      ∃ s', ChessSearch.negamaxSearch_loop recurse beta depth inCheck moves alpha hashFlag 0
          movesSearched board s
        = some ((if inCheck = true then wrap_int (-ChessSearch.MATE_VALUE + p) else 0), s',
            board) := by
  intro moves
  induction moves with
  | nil =>
    intro alpha hashFlag movesSearched s hsp _
    rw [ChessSearch.negamaxSearch_loop, if_pos rfl, hsp]
    cases inCheck <;> exact ⟨s, rfl⟩
  | cons move rest ih =>
    intro alpha hashFlag movesSearched s hsp hrej
    have hr := hrej move (List.mem_cons_self _ _)
    rw [ChessSearch.negamaxSearch_loop]
    dsimp only
    rw [if_pos (by rw [hr]; rfl), make_move_snd_of_rejected board move hr]
    apply ih alpha hashFlag movesSearched _ _
      (fun m hm => hrej m (List.mem_cons_of_mem _ hm))
    show wrap_int (wrap_int (s.currentPly + 1) - 1) = p
    rw [hsp]
    exact wrap_int_round p hp.1 hp.2

/-- C33: a call of `negamaxSearch` with `depth >= 1` at a ply from 0 to `MAX_PLY - 1`
that is not ended by the draw rule or by a hit in the transposition table, on a
position where `make_move` rejects every move of `fill_move_array`: in check the result
is `-MATE_VALUE + currentPly`, that is `-49000 + currentPly`; not in check, at the root
or with `depth < 3` (no null-move search), the result is 0. The board comes back as it
was. -/
theorem negamaxSearch_without_legal_move (evaluate : Board → Int) (fuel : Nat)
    (alpha beta depth : Int) (board : Board) (search : ChessSearch) (hdepth : 1 ≤ depth)
    (hply0 : 0 ≤ search.currentPly) (hply : search.currentPly ≤ ChessSearch.MAX_PLY - 1)
    (hdraw : ¬ (search.currentPly ≠ 0
      ∧ (search.isPositionRepeated board.hash_key = true ∨ board.fifty ≥ 100)))
    (hmiss : ¬ wrap_int (beta - alpha) > 1 ∧ search.currentPly ≠ 0 →
      search.transpositionTable.probe alpha beta depth board.hash_key search.currentPly
        = NO_HASH_ENTRY)
    (hnone : ∀ m ∈ fill_move_array [] board, (board.make_move m).1 = false) :
    (board.is_sq_attacked (get_lsb_index (board.piece_location (5 + 6 * board.side.toNat)))
          (opposite_side board.side) = true →
        ∃ s', ChessSearch.negamaxSearch evaluate (fuel + 1) alpha beta depth board search
          = some (-49000 + search.currentPly, s', board))
      ∧ (board.is_sq_attacked
            (get_lsb_index (board.piece_location (5 + 6 * board.side.toNat)))
            (opposite_side board.side) = false →
        search.currentPly = 0 ∨ depth < 3 →
        ∃ s', ChessSearch.negamaxSearch evaluate (fuel + 1) alpha beta depth board search
          = some (0, s', board)) := by
  have hmax : ChessSearch.MAX_PLY = 64 := rfl
  rw [hmax] at hply
  have hstart : ChessSearch.negamaxSearch evaluate (fuel + 1) alpha beta depth board search
      = match ChessSearch.nullMoveSearch (ChessSearch.negamaxSearch evaluate fuel) beta
            (if board.is_sq_attacked
                  (get_lsb_index (board.piece_location (5 + 6 * board.side.toNat)))
                  (opposite_side board.side) = true
              then wrap_int (depth + 1) else depth)
            (board.is_sq_attacked
              (get_lsb_index (board.piece_location (5 + 6 * board.side.toNat)))
              (opposite_side board.side))
            board
            ({ search with
              principalVariationLengths :=
                tab_set search.principalVariationLengths search.currentPly.toNat
                  search.currentPly } : ChessSearch).pollTime.countNode with
        | none => none
        | some (some result, _, _) => some result
        | some (none, search', board') =>
          ChessSearch.negamaxSearch_loop (ChessSearch.negamaxSearch evaluate fuel) beta
            (if board.is_sq_attacked
                  (get_lsb_index (board.piece_location (5 + 6 * board.side.toNat)))
                  (opposite_side board.side) = true
              then wrap_int (depth + 1) else depth)
            (board.is_sq_attacked
              (get_lsb_index (board.piece_location (5 + 6 * board.side.toNat)))
              (opposite_side board.side))
            ((if search'.followPrincipalVariation = true then
                search'.enablePrincipalVariationScoring (fill_move_array [] board')
              else search').sortMoves (fill_move_array [] board') board')
            alpha HashFlag.ALPHA 0 0 board'
            (if search'.followPrincipalVariation = true then
              search'.enablePrincipalVariationScoring (fill_move_array [] board')
            else search') := by
    rw [ChessSearch.negamaxSearch]
    dsimp only
    have hd : ¬ (search.currentPly ≠ 0
        ∧ (({ search with
            principalVariationLengths :=
              tab_set search.principalVariationLengths search.currentPly.toNat
                search.currentPly } : ChessSearch).isPositionRepeated board.hash_key = true
          ∨ board.fifty ≥ 100)) := hdraw
    rw [if_neg hd]
    have hprobe : (if ¬ wrap_int (beta - alpha) > 1 ∧ search.currentPly ≠ 0 then
          search.transpositionTable.probe alpha beta depth board.hash_key search.currentPly
        else NO_HASH_ENTRY) = NO_HASH_ENTRY := by
      by_cases hc : ¬ wrap_int (beta - alpha) > 1 ∧ search.currentPly ≠ 0
      · rw [if_pos hc, hmiss hc]
      · rw [if_neg hc]
    rw [hprobe]
    have hno : ¬ (NO_HASH_ENTRY ≠ NO_HASH_ENTRY) := fun h => h rfl
    rw [if_neg hno, if_neg (by omega : ¬ depth = 0)]
    have hq := (pollTime_ply ({ search with
      principalVariationLengths :=
        tab_set search.principalVariationLengths search.currentPly.toNat
          search.currentPly } : ChessSearch)).1
    have hgt : ¬ (({ search with
        principalVariationLengths :=
          tab_set search.principalVariationLengths search.currentPly.toNat
            search.currentPly } : ChessSearch).pollTime.currentPly
        > ChessSearch.MAX_PLY - 1) := by
      rw [hq, hmax]
      show ¬ (search.currentPly > 64 - 1)
      omega
    exact (if_neg hgt).trans rfl
  have hq : (({ search with
      principalVariationLengths :=
        tab_set search.principalVariationLengths search.currentPly.toNat
          search.currentPly } : ChessSearch).pollTime.countNode).currentPly
      = search.currentPly :=
    (pollTime_ply ({ search with
      principalVariationLengths :=
        tab_set search.principalVariationLengths search.currentPly.toNat
          search.currentPly } : ChessSearch)).1
  have hfinish : ∀ (d : Int) (c : Bool) (S : ChessSearch), S.currentPly = search.currentPly →
      ∃ s', ChessSearch.negamaxSearch_loop (ChessSearch.negamaxSearch evaluate fuel) beta d c
          ((if S.followPrincipalVariation = true then
              S.enablePrincipalVariationScoring (fill_move_array [] board)
            else S).sortMoves (fill_move_array [] board) board)
          alpha HashFlag.ALPHA 0 0 board
          (if S.followPrincipalVariation = true then
            S.enablePrincipalVariationScoring (fill_move_array [] board)
          else S)
        = some ((if c = true then wrap_int (-ChessSearch.MATE_VALUE + search.currentPly)
            else 0), s', board) := by
    intro d c S hS
    apply negamaxSearch_loop_all_rejected _ beta d c board search.currentPly
      ⟨by omega, by omega⟩
    · by_cases hf : S.followPrincipalVariation = true
      · rw [if_pos hf]
        exact (enablePrincipalVariationScoring_ply S _).1.trans hS
      · rw [if_neg hf]
        exact hS
    · intro m hm
      exact hnone m ((sortMoves_perm _ _ board).mem_iff.1 hm)
  constructor
  · intro hcheck
    rw [hstart, hcheck]
    have hnull : ∀ d (S : ChessSearch),
        ChessSearch.nullMoveSearch (ChessSearch.negamaxSearch evaluate fuel) beta d true board S
          = some (none, S, board) := by
      intro d S
      unfold ChessSearch.nullMoveSearch
      rw [if_neg (fun h => absurd h.2.1 (by decide))]
    rw [hnull]
    dsimp only
    obtain ⟨s', hs'⟩ := hfinish (if true = true then wrap_int (depth + 1) else depth) true _
      hq
    refine ⟨s', ?_⟩
    rw [hs', if_pos rfl]
    have : wrap_int (-ChessSearch.MATE_VALUE + search.currentPly) = -49000 + search.currentPly := by
      have hm : ChessSearch.MATE_VALUE = 49000 := rfl
      rw [hm]
      exact wrap_int_id (by omega) (by omega)
    rw [this]
  · intro hcheck hroot
    rw [hstart, hcheck]
    have hnull : ∀ (S : ChessSearch), S.currentPly = search.currentPly →
        ChessSearch.nullMoveSearch (ChessSearch.negamaxSearch evaluate fuel) beta
            (if false = true then wrap_int (depth + 1) else depth) false board S
          = some (none, S, board) := by
      intro S hS
      unfold ChessSearch.nullMoveSearch
      rw [if_neg (by decide : ¬ (false = true))]
      have : ¬ (depth ≥ 3 ∧ false = false ∧ S.currentPly ≠ 0) := by
        rw [hS]
        rintro ⟨h1, -, h3⟩
        rcases hroot with h | h
        · exact h3 h
        · omega
      rw [if_neg this]
    rw [hnull _ hq]
    dsimp only
    obtain ⟨s', hs'⟩ := hfinish (if false = true then wrap_int (depth + 1) else depth) false _
      hq
    refine ⟨s', ?_⟩
    rw [hs', if_neg (by decide : ¬ (false = true))]

/-- C33 at the root, with depth 1 and the full window: in `7k/6Q1/6K1/8/8/8/8/8 b - - 0 1`
Black is in check and every move is rejected, and the result is -49000; in
`7k/5Q2/6K1/8/8/8/8/8 b - - 0 1` Black is not in check and every move is rejected, and
the result is 0. -/
theorem negamaxSearch_without_legal_move_witness :
    ((∀ m ∈ fill_move_array [] (Board.of_fen "7k/6Q1/6K1/8/8/8/8/8 b - - 0 1"),
          ((Board.of_fen "7k/6Q1/6K1/8/8/8/8/8 b - - 0 1").make_move m).1 = false)
        ∧ ∃ s', ChessSearch.negamaxSearch (fun _ => 0) (0 + 1) (-500000) 500000 1
            (Board.of_fen "7k/6Q1/6K1/8/8/8/8/8 b - - 0 1")
            (ChessSearch.init ⟨fun _ => ⟨0, 0, HashFlag.EXACT, 0⟩, 1024⟩ (fun _ => 0))
          = some (-49000
              + (ChessSearch.init ⟨fun _ => ⟨0, 0, HashFlag.EXACT, 0⟩, 1024⟩
                (fun _ => 0)).currentPly, s',
              Board.of_fen "7k/6Q1/6K1/8/8/8/8/8 b - - 0 1"))
      ∧ ((∀ m ∈ fill_move_array [] (Board.of_fen "7k/5Q2/6K1/8/8/8/8/8 b - - 0 1"),
          ((Board.of_fen "7k/5Q2/6K1/8/8/8/8/8 b - - 0 1").make_move m).1 = false)
        ∧ ∃ s', ChessSearch.negamaxSearch (fun _ => 0) (0 + 1) (-500000) 500000 1
            (Board.of_fen "7k/5Q2/6K1/8/8/8/8/8 b - - 0 1")
            (ChessSearch.init ⟨fun _ => ⟨0, 0, HashFlag.EXACT, 0⟩, 1024⟩ (fun _ => 0))
          = some (0, s', Board.of_fen "7k/5Q2/6K1/8/8/8/8/8 b - - 0 1")) :=
  ⟨⟨by decide!,
      (negamaxSearch_without_legal_move (fun _ => 0) 0 (-500000) 500000 1
        (Board.of_fen "7k/6Q1/6K1/8/8/8/8/8 b - - 0 1")
        (ChessSearch.init ⟨fun _ => ⟨0, 0, HashFlag.EXACT, 0⟩, 1024⟩ (fun _ => 0))
        (by decide) (le_refl _) (by decide) (fun h => h.1 rfl) (fun h => absurd rfl h.2)
        (by decide!)).1 (by decide!)⟩,
    ⟨by decide!,
      (negamaxSearch_without_legal_move (fun _ => 0) 0 (-500000) 500000 1
        (Board.of_fen "7k/5Q2/6K1/8/8/8/8/8 b - - 0 1")
        (ChessSearch.init ⟨fun _ => ⟨0, 0, HashFlag.EXACT, 0⟩, 1024⟩ (fun _ => 0))
        (by decide) (le_refl _) (by decide) (fun h => h.1 rfl) (fun h => absurd rfl h.2)
        (by decide!)).2 (by decide!) (Or.inl rfl)⟩⟩

/-! ## The aspiration windows of `findBestMove` -/

/-- C31 (the code departs from the claim in its first part): one pass of the loop of
`findBestMove` at depth `d`, not beyond `maxDepth` and not stopped. When the search
returns a score outside the window (`score <= alpha` or `score >= beta`), the loop goes
on with depth `d + 1`, not with depth `d`, and the full window from `-INFINITY_VALUE` to
`INFINITY_VALUE`, the best move string unchanged. When the score lies strictly inside
the window, the loop goes on with depth `d + 1` and the window from `score - 50` to
`score + 50`. -/
theorem findBestMove_loop_after_search (evaluate : Board → Int) (fuel : Nat)
    (maxDepth : Int) (iterations : Nat) (depth alpha beta : Int) (bestMoveString : List Char)
    (board : Board) (search : ChessSearch) (score : Int) (search' : ChessSearch)
    (board' : Board) (hdepth : depth ≤ maxDepth) (hstop : search.searchStopped = false)
    (hres : ChessSearch.negamaxSearch evaluate fuel alpha beta depth board
        { search with followPrincipalVariation := true } = some (score, search', board')) :
    ((score ≤ alpha ∨ score ≥ beta) →
        ChessSearch.findBestMove_loop evaluate fuel maxDepth (iterations + 1) depth alpha beta
            bestMoveString board search
          = ChessSearch.findBestMove_loop evaluate fuel maxDepth iterations
              (wrap_int (depth + 1)) (-ChessSearch.INFINITY_VALUE) ChessSearch.INFINITY_VALUE
              bestMoveString board' search')
      ∧ ((alpha < score ∧ score < beta) →
        ChessSearch.findBestMove_loop evaluate fuel maxDepth (iterations + 1) depth alpha beta
            bestMoveString board search
          = ChessSearch.findBestMove_loop evaluate fuel maxDepth iterations
              (wrap_int (depth + 1)) (wrap_int (score - 50)) (wrap_int (score + 50))
              (if search'.principalVariationLengths 0 > 0 then
                moveToString (search'.principalVariationTable 0 0)
              else bestMoveString)
              board' search') := by
  constructor
  · intro hout
    rw [ChessSearch.findBestMove_loop, if_neg (by omega : ¬ depth > maxDepth),
      if_neg (by rw [hstop]; decide)]
    dsimp only
    rw [hres]
    dsimp only
    rw [if_pos hout]
  · intro hin
    rw [ChessSearch.findBestMove_loop, if_neg (by omega : ¬ depth > maxDepth),
      if_neg (by rw [hstop]; decide)]
    dsimp only
    rw [hres]
    dsimp only
    rw [if_neg (by omega : ¬ (score ≤ alpha ∨ score ≥ beta))]

/-- C31 in `7R/8/8/8/8/1K6/8/k7 w - - 0 1` with the evaluator `material_balance`,
`maxDepth = 2` and the window from 450 to 550 that follows a score of 500 at depth 1:
the search of depth 2 meets the mate h8h1 and returns `beta = 550`, and the loop ends
with the best move string of depth 1 and without a second search of depth 2. -/
theorem findBestMove_loop_after_search_witness :
    ∃ search' board',
      ChessSearch.negamaxSearch material_balance 70 450 550 2
          (Board.of_fen "7R/8/8/8/8/1K6/8/k7 w - - 0 1")
          { (ChessSearch.init ⟨fun _ => ⟨0, 0, HashFlag.EXACT, 0⟩, 1024⟩
              (fun _ => 0)).startSearch with followPrincipalVariation := true }
        = some (550, search', board')
      ∧ ChessSearch.findBestMove_loop material_balance 70 2 (0 + 1) 2 450 550 "h8a8".data
          (Board.of_fen "7R/8/8/8/8/1K6/8/k7 w - - 0 1")
          (ChessSearch.init ⟨fun _ => ⟨0, 0, HashFlag.EXACT, 0⟩, 1024⟩
            (fun _ => 0)).startSearch
        = some ("h8a8".data, search', board') := by
  have hv : (ChessSearch.negamaxSearch material_balance 70 450 550 2
      (Board.of_fen "7R/8/8/8/8/1K6/8/k7 w - - 0 1")
      { (ChessSearch.init ⟨fun _ => ⟨0, 0, HashFlag.EXACT, 0⟩, 1024⟩
          (fun _ => 0)).startSearch with followPrincipalVariation := true }).map
      (fun r => r.1) = some 550 := by decide!
  obtain ⟨⟨sc, s', b'⟩, hr, hsc⟩ := Option.map_eq_some'.1 hv
  have hsc' : sc = 550 := hsc
  subst hsc'
  refine ⟨s', b', hr, ?_⟩
  rw [(findBestMove_loop_after_search material_balance 70 2 0 2 450 550 "h8a8".data
    (Board.of_fen "7R/8/8/8/8/1K6/8/k7 w - - 0 1")
    (ChessSearch.init ⟨fun _ => ⟨0, 0, HashFlag.EXACT, 0⟩, 1024⟩ (fun _ => 0)).startSearch
    550 s' b' (by decide) rfl hr).1 (Or.inr (by decide))]
  rfl

/-! ## The call of `negamaxSearch` at ply `MAX_PLY - 1` and its children at ply `MAX_PLY` -/

theorem pollTime_lengths (s : ChessSearch) :
    s.pollTime.principalVariationLengths = s.principalVariationLengths := by
  unfold ChessSearch.pollTime ChessSearch.isTimeExpired
    ChessSearch.getCurrentTimeMilliseconds
  dsimp only
  split <;> split <;> rfl

/-- A call of `negamaxSearch` at ply 64 returns without a further call, and leaves
`principalVariationLengths[64] = 64`: the assignment at the entry of the function comes
before the test `currentPly > MAX_PLY - 1`. -/
theorem negamaxSearch_past_last_ply (evaluate : Board → Int) (fuel : Nat)
    (alpha beta depth : Int) (board : Board) (s : ChessSearch) (hply : s.currentPly = 64) :
    ∃ score s', ChessSearch.negamaxSearch evaluate (fuel + 1) alpha beta depth board s
        = some (score, s', board)
      ∧ s'.currentPly = 64 ∧ s'.principalVariationLengths 64 = 64 := by
  have hQ : ({ s with
      principalVariationLengths :=
        tab_set s.principalVariationLengths s.currentPly.toNat s.currentPly }
      : ChessSearch).principalVariationLengths 64 = 64 := by
    show tab_set s.principalVariationLengths s.currentPly.toNat s.currentPly 64 = 64
    rw [hply]
    simp [tab_set]
  obtain ⟨q1, -⟩ := pollTime_ply ({ s with
    principalVariationLengths :=
      tab_set s.principalVariationLengths s.currentPly.toNat s.currentPly } : ChessSearch)
  have q3 := pollTime_lengths ({ s with
    principalVariationLengths :=
      tab_set s.principalVariationLengths s.currentPly.toNat s.currentPly } : ChessSearch)
  have hgt : ({ s with
      principalVariationLengths :=
        tab_set s.principalVariationLengths s.currentPly.toNat s.currentPly }
      : ChessSearch).pollTime.currentPly > ChessSearch.MAX_PLY - 1 := by
    rw [q1]
    show s.currentPly > 64 - 1
    omega
  rw [ChessSearch.negamaxSearch]
  dsimp only
  split
  · exact ⟨_, _, rfl, hply, hQ⟩
  · by_cases hhit : (if ¬ wrap_int (beta - alpha) > 1 ∧ s.currentPly ≠ 0 then
        s.transpositionTable.probe alpha beta depth board.hash_key s.currentPly
      else NO_HASH_ENTRY) ≠ NO_HASH_ENTRY
    · rw [if_pos hhit]
      exact ⟨_, _, rfl, hply, hQ⟩
    · rw [if_neg hhit]
      split
      · rw [ChessSearch.quiescenceSearch]
        dsimp only
        have hgt' : ({ s with
            principalVariationLengths :=
              tab_set s.principalVariationLengths s.currentPly.toNat s.currentPly }
            : ChessSearch).pollTime.pollTime.countNode.currentPly
            > ChessSearch.MAX_PLY - 1 := by
          have := (pollTime_ply ({ s with
            principalVariationLengths :=
              tab_set s.principalVariationLengths s.currentPly.toNat s.currentPly }
            : ChessSearch).pollTime).1
          show ({ s with
            principalVariationLengths :=
              tab_set s.principalVariationLengths s.currentPly.toNat s.currentPly }
            : ChessSearch).pollTime.pollTime.currentPly > ChessSearch.MAX_PLY - 1
          rw [this]
          exact hgt
        rw [if_pos hgt']
        refine ⟨_, _, rfl, ?_, ?_⟩
        · show ({ s with
            principalVariationLengths :=
              tab_set s.principalVariationLengths s.currentPly.toNat s.currentPly }
            : ChessSearch).pollTime.pollTime.currentPly = 64
          rw [(pollTime_ply _).1, q1]
          exact hply
        · show ({ s with
            principalVariationLengths :=
              tab_set s.principalVariationLengths s.currentPly.toNat s.currentPly }
            : ChessSearch).pollTime.pollTime.principalVariationLengths 64 = 64
          rw [pollTime_lengths, q3]
          exact hQ
      · refine ⟨_, _, rfl, q1.trans hply, ?_⟩
        rw [q3]
        exact hQ

/-- The searches of one move made from ply 63: every call is at ply 64, and after the
first of them `principalVariationLengths[64] = 64`. -/
theorem searchMove_past_last_ply
    (recurse : Int → Int → Int → Board → ChessSearch → Option SearchResult)
    (hrec : ∀ a b d board s, s.currentPly = 64 →
      ∃ score s', recurse a b d board s = some (score, s', board)
        ∧ s'.currentPly = 64 ∧ s'.principalVariationLengths 64 = 64)
    (alpha beta depth : Int) (inCheck : Bool) (movesSearched : Int) (move : Move)
    (board : Board) (s : ChessSearch) (hsp : s.currentPly = 64)
    (hQ : movesSearched = 0 ∨ s.principalVariationLengths 64 = 64) :
    ∃ score s', ChessSearch.searchMove recurse alpha beta depth inCheck movesSearched move
        board s = some (score, s', board)
      ∧ s'.currentPly = 64 ∧ s'.principalVariationLengths 64 = 64 := by
  have hneg : ∀ a b d (s : ChessSearch), s.currentPly = 64 →
      ∃ score s', negated (recurse a b d board s) = some (score, s', board)
        ∧ s'.currentPly = 64 ∧ s'.principalVariationLengths 64 = 64 := by
    intro a b d s h1
    obtain ⟨sc, s1, hcall, g1, g2⟩ := hrec a b d board s h1
    exact ⟨wrap_int (-sc), s1, by rw [hcall]; rfl, g1, g2⟩
  unfold ChessSearch.searchMove
  by_cases hm : movesSearched = 0
  · rw [if_pos hm]
    exact hneg _ _ _ s hsp
  · rw [if_neg hm]
    dsimp only
    have hQs : s.principalVariationLengths 64 = 64 := hQ.resolve_left hm
    have hfirst : ∃ score s',
        (if movesSearched ≥ ChessSearch.FULL_DEPTH_MOVES ∧ depth ≥ ChessSearch.REDUCTION_LIMIT
            ∧ inCheck = false ∧ move.is_capture = false ∧ move.is_promo = false then
          negated (recurse (wrap_int (wrap_int (-alpha) - 1)) (wrap_int (-alpha))
            (wrap_int (depth - 2)) board s)
        else some (wrap_int (alpha + 1), s, board)) = some (score, s', board)
          ∧ s'.currentPly = 64 ∧ s'.principalVariationLengths 64 = 64 := by
      split
      · exact hneg _ _ _ s hsp
      · exact ⟨_, s, rfl, hsp, hQs⟩
    obtain ⟨sc1, s1, hcall1, g1, g2⟩ := hfirst
    rw [hcall1]
    dsimp only
    split
    · obtain ⟨sc2, s2, hcall2, k1, k2⟩ := hneg (wrap_int (wrap_int (-alpha) - 1))
        (wrap_int (-alpha)) (wrap_int (depth - 1)) s1 g1
      rw [hcall2]
      dsimp only
      split
      · exact hneg _ _ _ s2 k1
      · exact ⟨_, s2, rfl, k1, k2⟩
    · exact ⟨_, s1, rfl, g1, g2⟩

theorem raiseAlpha_past_last_ply (s : ChessSearch) (move : Move) (depth : Int)
    (hsp : s.currentPly = 63) :
    (s.raiseAlpha move depth).principalVariationLengths 64
      = s.principalVariationLengths 64 := by
  show tab_set s.principalVariationLengths s.currentPly.toNat
      (s.principalVariationLengths (s.currentPly + 1).toNat) 64
    = s.principalVariationLengths 64
  rw [hsp]
  simp [tab_set]

/-- The move loop of `negamaxSearch` at ply 63: once a move is accepted by `make_move`,
a child is searched at ply 64, and the loop ends with
`principalVariationLengths[64] = 64`. -/
theorem negamaxSearch_loop_last_ply
    (recurse : Int → Int → Int → Board → ChessSearch → Option SearchResult)
    (beta depth : Int) (inCheck : Bool)
    (hrec : ∀ a b d board s, s.currentPly = 64 →
      ∃ score s', recurse a b d board s = some (score, s', board)
        ∧ s'.currentPly = 64 ∧ s'.principalVariationLengths 64 = 64) :
    ∀ (moves : List Move) (alpha : Int) (hashFlag : HashFlag)
      (legalMovesCount movesSearched : Int) (board : Board) (s : ChessSearch),
      s.currentPly = 63 →
      (s.principalVariationLengths 64 = 64
        ∨ (movesSearched = 0 ∧ ∃ move ∈ moves, (board.make_move move).1 = true)) →
      ∃ score s', ChessSearch.negamaxSearch_loop recurse beta depth inCheck moves alpha
          hashFlag legalMovesCount movesSearched board s = some (score, s', board)
        ∧ s'.principalVariationLengths 64 = 64 := by
  intro moves
  induction moves with
  | nil =>
    intro alpha hashFlag legalMovesCount movesSearched board s _ hQ
    have hQs : s.principalVariationLengths 64 = 64 := by
      rcases hQ with h | ⟨-, m, hm, -⟩
      · exact h
      · exact absurd hm (List.not_mem_nil m)
    rw [ChessSearch.negamaxSearch_loop]
    split
    · split
      · exact ⟨_, s, rfl, hQs⟩
      · exact ⟨_, s, rfl, hQs⟩
    · exact ⟨_, _, rfl, hQs⟩
  | cons move rest ih =>
    intro alpha hashFlag legalMovesCount movesSearched board s hsp hQ
    rw [ChessSearch.negamaxSearch_loop]
    dsimp only
    have e1 : (s.enterChild board.hash_key).currentPly = 64 := by
      show wrap_int (s.currentPly + 1) = 64
      rw [hsp]
      rfl
    have hleave : ∀ s1 : ChessSearch, s1.currentPly = 64 → s1.leaveChild.currentPly = 63 := by
      intro s1 h1
      show wrap_int (s1.currentPly - 1) = 63
      rw [h1]
      rfl
    by_cases hmade : (!(board.make_move move).1) = true
    · rw [if_pos hmade]
      have hrej : (board.make_move move).1 = false := by simpa using hmade
      rw [make_move_snd_of_rejected board move hrej]
      apply ih alpha hashFlag legalMovesCount movesSearched board _ (hleave _ e1)
      rcases hQ with h | ⟨h0, m, hm, hlegal⟩
      · exact Or.inl h
      · refine Or.inr ⟨h0, m, ?_, hlegal⟩
        rcases List.mem_cons.1 hm with h | h
        · rw [h, hrej] at hlegal
          exact absurd hlegal (by decide)
        · exact h
    · rw [if_neg hmade]
      have hQ1 : movesSearched = 0
          ∨ (s.enterChild board.hash_key).principalVariationLengths 64 = 64 := by
        rcases hQ with h | ⟨h0, -⟩
        · exact Or.inr h
        · exact Or.inl h0
      obtain ⟨sc, s1, hcall, h1, h2⟩ := searchMove_past_last_ply recurse hrec alpha beta
        depth inCheck movesSearched move (board.make_move move).2
        (s.enterChild board.hash_key) e1 hQ1
      rw [hcall]
      have l1 := hleave s1 h1
      have l2 : s1.leaveChild.principalVariationLengths 64 = 64 := h2
      dsimp only
      split
      · exact ⟨0, _, rfl, l2⟩
      · split
        · have r1 : (s1.leaveChild.raiseAlpha move depth).currentPly = 63 := l1
          have r2 : (s1.leaveChild.raiseAlpha move depth).principalVariationLengths 64 = 64 :=
            (raiseAlpha_past_last_ply _ move depth l1).trans l2
          split
          · exact ⟨beta, _, rfl, r2⟩
          · exact ih _ _ _ _ board _ r1 (Or.inl r2)
        · exact ih alpha hashFlag _ _ board _ l1 (Or.inl l2)

/-- The null-move search of `negamaxSearch` at ply 63: the function goes on at ply 63,
or returns with `principalVariationLengths[64] = 64`. -/
theorem nullMoveSearch_last_ply
    (recurse : Int → Int → Int → Board → ChessSearch → Option SearchResult)
    (beta depth : Int) (inCheck : Bool)
    (hrec : ∀ a b d board s, s.currentPly = 64 →
      ∃ score s', recurse a b d board s = some (score, s', board)
        ∧ s'.currentPly = 64 ∧ s'.principalVariationLengths 64 = 64)
    (board : Board) (s : ChessSearch) (hsp : s.currentPly = 63) :
    ∃ s', s'.currentPly = 63
      ∧ (ChessSearch.nullMoveSearch recurse beta depth inCheck board s
            = some (none, s', board)
        ∨ (s'.principalVariationLengths 64 = 64
          ∧ ∃ score, ChessSearch.nullMoveSearch recurse beta depth inCheck board s
            = some (some (score, s', board), s', board))) := by
  unfold ChessSearch.nullMoveSearch
  split
  · dsimp only
    have e1 : (s.enterChild board.hash_key).currentPly = 64 := by
      show wrap_int (s.currentPly + 1) = 64
      rw [hsp]
      rfl
    obtain ⟨sc, s1, hcall, h1, h2⟩ := hrec (wrap_int (-beta))
      (wrap_int (wrap_int (-beta) + 1)) (wrap_int (depth - 3)) board.null_move
      (s.enterChild board.hash_key) e1
    rw [hcall]
    have l1 : s1.leaveChild.currentPly = 63 := by
      show wrap_int (s1.currentPly - 1) = 63
      rw [h1]
      rfl
    have l2 : s1.leaveChild.principalVariationLengths 64 = 64 := h2
    simp only [negated, Option.map_some']
    split
    · exact ⟨_, l1, Or.inr ⟨l2, 0, rfl⟩⟩
    · split
      · exact ⟨_, l1, Or.inr ⟨l2, beta, rfl⟩⟩
      · exact ⟨_, l1, Or.inl rfl⟩
  · exact ⟨s, hsp, Or.inl rfl⟩

/-- C39, on the code: a call of `negamaxSearch` at ply `MAX_PLY - 1 = 63` with
`depth >= 1`, on a position that is no draw, is not answered by the transposition table
and has a move that `make_move` accepts, returns with
`principalVariationLengths[64] = 64`. A child was searched at ply 64, and `negamaxSearch`
assigns `principalVariationLengths[currentPly] = currentPly` on entry, before the test
`currentPly > MAX_PLY - 1`: the index 64 is one past the `MAX_PLY = 64` cells of the
array. -/
theorem negamaxSearch_writes_past_last_ply (evaluate : Board → Int) (fuel : Nat)
    (alpha beta depth : Int) (board : Board) (search : ChessSearch) (hdepth : 1 ≤ depth)
    (hply : search.currentPly = ChessSearch.MAX_PLY - 1)
    (hdraw : search.isPositionRepeated board.hash_key = false ∧ board.fifty < 100)
    (hmiss : wrap_int (beta - alpha) > 1
      ∨ search.transpositionTable.probe alpha beta depth board.hash_key search.currentPly
        = NO_HASH_ENTRY)
    (hlegal : ∃ move ∈ fill_move_array [] board, (board.make_move move).1 = true) :
    ∃ score search', ChessSearch.negamaxSearch evaluate (fuel + 2) alpha beta depth board
        search = some (score, search', board)
      ∧ search'.principalVariationLengths 64 = 64 := by
  have hmax : ChessSearch.MAX_PLY = 64 := rfl
  rw [hmax] at hply
  have hply63 : search.currentPly = 63 := by omega
  have hrec := negamaxSearch_past_last_ply evaluate fuel
  obtain ⟨q1, -⟩ := pollTime_ply ({ search with
    principalVariationLengths :=
      tab_set search.principalVariationLengths search.currentPly.toNat
        search.currentPly } : ChessSearch)
  have hq : (({ search with
      principalVariationLengths :=
        tab_set search.principalVariationLengths search.currentPly.toNat
          search.currentPly } : ChessSearch).pollTime.countNode).currentPly = 63 :=
    q1.trans hply63
  rw [ChessSearch.negamaxSearch]
  dsimp only
  have hd : ¬ (search.currentPly ≠ 0
      ∧ (({ search with
          principalVariationLengths :=
            tab_set search.principalVariationLengths search.currentPly.toNat
              search.currentPly } : ChessSearch).isPositionRepeated board.hash_key = true
        ∨ board.fifty ≥ 100)) := by
    rintro ⟨-, h | h⟩
    · have : ({ search with
          principalVariationLengths :=
            tab_set search.principalVariationLengths search.currentPly.toNat
              search.currentPly } : ChessSearch).isPositionRepeated board.hash_key
          = search.isPositionRepeated board.hash_key := rfl
      rw [this, hdraw.1] at h
      exact absurd h (by decide)
    · have := hdraw.2
      omega
  rw [if_neg hd]
  have hprobe : (if ¬ wrap_int (beta - alpha) > 1 ∧ search.currentPly ≠ 0 then
        search.transpositionTable.probe alpha beta depth board.hash_key search.currentPly
      else NO_HASH_ENTRY) = NO_HASH_ENTRY := by
    by_cases hc : ¬ wrap_int (beta - alpha) > 1 ∧ search.currentPly ≠ 0
    · rw [if_pos hc]
      exact hmiss.resolve_left hc.1
    · rw [if_neg hc]
  rw [hprobe]
  have hno : ¬ (NO_HASH_ENTRY ≠ NO_HASH_ENTRY) := fun h => h rfl
  rw [if_neg hno, if_neg (by omega : ¬ depth = 0)]
  have hgt : ¬ (({ search with
      principalVariationLengths :=
        tab_set search.principalVariationLengths search.currentPly.toNat
          search.currentPly } : ChessSearch).pollTime.currentPly
      > ChessSearch.MAX_PLY - 1) := by
    rw [q1, hmax, hply63]
    decide
  rw [if_neg hgt]
  obtain ⟨s1, n1, hnull⟩ := nullMoveSearch_last_ply
    (ChessSearch.negamaxSearch evaluate (fuel + 1)) beta
    (if board.is_sq_attacked
          (get_lsb_index (board.piece_location (5 + 6 * board.side.toNat)))
          (opposite_side board.side) = true
      then wrap_int (depth + 1) else depth)
    (board.is_sq_attacked
      (get_lsb_index (board.piece_location (5 + 6 * board.side.toNat)))
      (opposite_side board.side))
    hrec board _ hq
  rcases hnull with hnull | ⟨hQ, sc, hnull⟩
  · rw [hnull]
    dsimp only
    have hS : (if s1.followPrincipalVariation = true then
        s1.enablePrincipalVariationScoring (fill_move_array [] board) else s1).currentPly
        = 63 := by
      by_cases hf : s1.followPrincipalVariation = true
      · rw [if_pos hf]
        exact (enablePrincipalVariationScoring_ply s1 _).1.trans n1
      · rw [if_neg hf]
        exact n1
    obtain ⟨m, hm, hmlegal⟩ := hlegal
    exact negamaxSearch_loop_last_ply (ChessSearch.negamaxSearch evaluate (fuel + 1)) beta _ _
      hrec _ alpha HashFlag.ALPHA 0 0 board _ hS
      (Or.inr ⟨rfl, m, (sortMoves_perm _ _ board).mem_iff.2 hm, hmlegal⟩)
  · rw [hnull]
    exact ⟨sc, s1, rfl, hQ⟩

/-- C39 at a call on ply 63 with depth 1 and the full window, on
`7k/8/8/8/8/8/8/K7 w - - 0 1`: the call returns with
`principalVariationLengths[64] = 64`. -/
theorem negamaxSearch_writes_past_last_ply_witness :
    (1 : Int) ≤ 1
      ∧ ({ ChessSearch.init ⟨fun _ => ⟨0, 0, HashFlag.EXACT, 0⟩, 1024⟩ (fun _ => 0) with
          currentPly := 63, repetitionIndex := 63 } : ChessSearch).currentPly
        = ChessSearch.MAX_PLY - 1
      ∧ (({ ChessSearch.init ⟨fun _ => ⟨0, 0, HashFlag.EXACT, 0⟩, 1024⟩ (fun _ => 0) with
            currentPly := 63, repetitionIndex := 63 } : ChessSearch).isPositionRepeated
            (Board.of_fen "7k/8/8/8/8/8/8/K7 w - - 0 1").hash_key = false
          ∧ (Board.of_fen "7k/8/8/8/8/8/8/K7 w - - 0 1").fifty < 100)
      ∧ wrap_int (500000 - -500000) > 1
      ∧ (∃ move ∈ fill_move_array [] (Board.of_fen "7k/8/8/8/8/8/8/K7 w - - 0 1"),
          ((Board.of_fen "7k/8/8/8/8/8/8/K7 w - - 0 1").make_move move).1 = true)
      ∧ ∃ score search', ChessSearch.negamaxSearch (fun _ => 0) (0 + 2) (-500000) 500000 1
          (Board.of_fen "7k/8/8/8/8/8/8/K7 w - - 0 1")
          ({ ChessSearch.init ⟨fun _ => ⟨0, 0, HashFlag.EXACT, 0⟩, 1024⟩ (fun _ => 0) with
            currentPly := 63, repetitionIndex := 63 } : ChessSearch)
          = some (score, search', Board.of_fen "7k/8/8/8/8/8/8/K7 w - - 0 1")
        ∧ search'.principalVariationLengths 64 = 64 :=
  ⟨by decide, rfl, by decide!, by decide, by decide!,
    negamaxSearch_writes_past_last_ply (fun _ => 0) 0 (-500000) 500000 1
      (Board.of_fen "7k/8/8/8/8/8/8/K7 w - - 0 1")
      ({ ChessSearch.init ⟨fun _ => ⟨0, 0, HashFlag.EXACT, 0⟩, 1024⟩ (fun _ => 0) with
        currentPly := 63, repetitionIndex := 63 } : ChessSearch)
      (by decide) rfl (by decide!) (Or.inl (by decide)) (by decide!)⟩

/-! ## C1: the hash key after a move -/

/-- C1 (the code departs from the claim): from the position
`4k3/8/8/8/8/8/4P3/4K3 w - - 0 1` loaded by `load_fen`, whose hash key equals
`generate_hash_key`, the generated move e2e4 is accepted by `make_move`, yet the hash
key of the resulting position differs from `generate_hash_key` recomputed on it: the
two differ by exactly the side key, which `make_move` xors in twice. -/
theorem make_move_hash_differs_from_recomputed :
    ∃ board : Board,
      Board.load_fen Board.initial "4k3/8/8/8/8/8/4P3/4K3 w - - 0 1" = some board
      ∧ board.hash_key = board.generate_hash_key
      ∧ Move.new 52 36 PieceType.pawn Side.white PieceType.pawn Side.any
          MoveFlag.PAWN_START false ∈ fill_move_array [] board
      ∧ (board.make_move (Move.new 52 36 PieceType.pawn Side.white PieceType.pawn Side.any
          MoveFlag.PAWN_START false)).1 = true
      ∧ (board.make_move (Move.new 52 36 PieceType.pawn Side.white PieceType.pawn Side.any
          MoveFlag.PAWN_START false)).2.hash_key
        ≠ (board.make_move (Move.new 52 36 PieceType.pawn Side.white PieceType.pawn Side.any
          MoveFlag.PAWN_START false)).2.generate_hash_key
      ∧ (board.make_move (Move.new 52 36 PieceType.pawn Side.white PieceType.pawn Side.any
          MoveFlag.PAWN_START false)).2.hash_key
        = (board.make_move (Move.new 52 36 PieceType.pawn Side.white PieceType.pawn Side.any
          MoveFlag.PAWN_START false)).2.generate_hash_key ^^^ side_key := by
  refine ⟨_, rfl, ?_, ?_, ?_, ?_, ?_⟩ <;> decide!

/-! ## C7: the en-passant square read by `load_fen` -/

/-- C7 (the code departs from the claim): for the FEN
`rnbqkbnr/pppppppp/8/8/P7/8/1PPPPPPP/RNBQKBNR b KQkq a3 0 1`, whose en-passant field
names a3 (file 0, rank 3, board index `(8 - 3) * 8 + 0 = 40`), `load_fen` stores the
index 48, the square a2; `make_move` on the double push a2-a4 from the start position
stores 40 for the same square. -/
theorem load_fen_enpassant_square_wrong :
    ∃ board : Board,
      Board.load_fen Board.initial "rnbqkbnr/pppppppp/8/8/P7/8/1PPPPPPP/RNBQKBNR b KQkq a3 0 1"
        = some board
      ∧ board.enpassant = (true, 48)
      ∧ board.enpassant ≠ (true, (8 - 3) * 8 + 0)
      ∧ ((Board.of_fen "rnbqkbnr/pppppppp/8/8/8/8/PPPPPPPP/RNBQKBNR w KQkq - 0 1").make_move
          (Move.new 48 32 PieceType.pawn Side.white PieceType.pawn Side.any
            MoveFlag.PAWN_START false)).2.enpassant = (true, 40) := by
  refine ⟨_, rfl, ?_, ?_, ?_⟩ <;> decide!

end Chess
